import Mathlib

set_option linter.unusedVariables false

/-! # Segregated-list malloc lab allocators: a shallow embedding

Three allocators share one design: `basic_implicit_mm.c` (namespace `Basic`),
`adv_implicit_mm.c` (footer elision, namespace `Adv`) and `basic_explicit_mm.c`
(explicit free list, namespace `Expl`).

Conventions of the embedding.

* A pointer and a `size_t` / `word_t` value is a natural number below `2^64`;
  every C addition, subtraction and multiplication is taken modulo `2^64`
  (`add64`, `sub64`, `mul64`).  `NULL` is `0`.
* The heap is a map from the byte address of a word to the 64-bit word stored
  there.  The allocators only read and write whole words.
* Loops carry a fuel argument; `none` means that the fuel ran out before the
  loop returned.
-/

/-! ## Machine arithmetic and memory -/

/-- The modulus of `size_t` and of pointers. -/
def WORD : Nat := 2 ^ 64

/-- Unsigned 64-bit addition. -/
def add64 (a b : Nat) : Nat := (a + b) % WORD

/-- Unsigned 64-bit subtraction. -/
def sub64 (a b : Nat) : Nat := (a + (WORD - b % WORD)) % WORD

/-- Unsigned 64-bit multiplication. -/
def mul64 (a b : Nat) : Nat := (a * b) % WORD

/-- The heap: word stored at a byte address. -/
abbrev Mem := Nat → Nat

/-- Store word `v` at address `a`. -/
def Mem.write (m : Mem) (a v : Nat) : Mem := fun x => if x = a then v else m x

/-- Source `wsize = sizeof(word_t)`. -/
def wsize : Nat := 8

/-- Source `dsize = 2 * sizeof(word_t)`. -/
def dsize : Nat := 16

/-- Source `min_block_size = 4 * sizeof(word_t)`. -/
def min_block_size : Nat := 32

/-- Source `alloc_mask = 0x1`. -/
def alloc_mask : Nat := 0x1

/-- Source `prev_alloc_mask = 0b10` (footer-elided variant). -/
def prev_alloc_mask : Nat := 0x2

/-- Source `size_mask = ~(word_t) 0xF`. -/
def size_mask : Nat := 0xFFFFFFFFFFFFFFF0

/-- Source `chunksize = (1 << 12)`. -/
def chunksize : Nat := 4096

/-- Source `round_up`: `n * ((size + (n-1)) / n)` in `size_t` arithmetic. -/
def round_up (size n : Nat) : Nat := mul64 n (add64 size (sub64 n 1) / n)

/-- Source `extract_size`: `word & size_mask`. -/
def extract_size (word : Nat) : Nat := word &&& size_mask

/-- Source `extract_alloc`: `(bool) (word & alloc_mask)`. -/
def extract_alloc (word : Nat) : Bool := (word &&& alloc_mask) != 0

/-- A block of the heap as the proofs see it: start address, size, alloc bit. -/
structure Blk where
  addr : Nat
  sz : Nat
  al : Bool
  deriving DecidableEq, Repr

namespace Basic

/-- Allocator globals of `basic_implicit_mm.c` together with the heap words and
the heap provider (`mem_brk`, `mem_max_addr`). -/
structure State where
  mem : Mem
  heap_start : Nat
  heap_end : Nat
  mem_brk : Nat
  mem_max_addr : Nat

/-- Modelled from the spec: the heap provider `mem_sbrk` (memlib is not part of
the sources).  `grow_heap(n)` extends the heap by exactly `n` bytes and returns
the address of the first newly appended byte, or fails on exhaustion; here it
fails exactly when the new break would pass `mem_max_addr`.  `none` stands for
the failure sentinel `(void *)-1`. -/
def mem_sbrk (st : State) (incr : Nat) : Option (State × Nat) :=
  if st.mem_brk + incr ≤ st.mem_max_addr then
    some ({ st with mem_brk := st.mem_brk + incr }, st.mem_brk)
  else none

/-- Source `pack`: `alloc ? (size | alloc_mask) : size`. -/
def pack (size : Nat) (alloc : Bool) : Nat := if alloc then size ||| alloc_mask else size

/-- Source `get_size`: `extract_size(block->header)`. -/
def get_size (st : State) (block : Nat) : Nat := extract_size (st.mem block)

/-- Source `get_alloc`: `extract_alloc(block->header)`. -/
def get_alloc (st : State) (block : Nat) : Bool := extract_alloc (st.mem block)

/-- Source `write_header`: `block->header = pack(size, alloc)`. -/
def write_header (st : State) (block size : Nat) (alloc : Bool) : State :=
  { st with mem := st.mem.write block (pack size alloc) }

/-- Source `header_to_footer`: `block->payload + get_size(block) - dsize`. -/
def header_to_footer (st : State) (block : Nat) : Nat :=
  sub64 (add64 (add64 block wsize) (get_size st block)) dsize

/-- Source `write_footer`: the footer position is computed from the header in memory. -/
def write_footer (st : State) (block size : Nat) (alloc : Bool) : State :=
  { st with mem := st.mem.write (header_to_footer st block) (pack size alloc) }

/-- Source `find_next`: `(unsigned char *) block + get_size(block)`. -/
def find_next (st : State) (block : Nat) : Nat := add64 block (get_size st block)

/-- Source `find_prev_footer`: `&(block->header) - 1`. -/
def find_prev_footer (block : Nat) : Nat := sub64 block wsize

/-- Source `find_prev`: `(unsigned char *) block - extract_size(*find_prev_footer(block))`. -/
def find_prev (st : State) (block : Nat) : Nat :=
  sub64 block (extract_size (st.mem (find_prev_footer block)))

/-- Source `payload_to_header`: `bp - offsetof(block_t, payload)`. -/
def payload_to_header (bp : Nat) : Nat := sub64 bp wsize

/-- Source `header_to_payload`: `block->payload`. -/
def header_to_payload (block : Nat) : Nat := add64 block wsize

/-- Source `get_payload_size`: `get_size(block) - dsize`. -/
def get_payload_size (st : State) (block : Nat) : Nat := sub64 (get_size st block) dsize

/-- Source `coalesce_block` (lines 267-305). -/
def coalesce_block (st : State) (block : Nat) : State :=
  let size := get_size st block
  let block_next := find_next st block
  let block_prev := find_prev st block
  let prev_alloc := extract_alloc (st.mem (find_prev_footer block))
  let next_alloc := get_alloc st block_next
  if prev_alloc && next_alloc then st
  else if prev_alloc && !next_alloc then
    let size := add64 size (get_size st block_next)
    let st := write_header st block size false
    write_footer st block size false
  else if !prev_alloc && next_alloc then
    let size := add64 size (get_size st block_prev)
    let st := write_header st block_prev size false
    write_footer st block_prev size false
  else
    let size := add64 size (add64 (get_size st block_next) (get_size st block_prev))
    let st := write_header st block_prev size false
    write_footer st block_prev size false

/-- Source `split_block` (lines 312-326). -/
def split_block (st : State) (block asize : Nat) : State :=
  let block_size := get_size st block
  if min_block_size ≤ sub64 block_size asize then
    let st := write_header st block asize true
    let st := write_footer st block asize true
    let block_next := find_next st block
    let st := write_header st block_next (sub64 block_size asize) false
    write_footer st block_next (sub64 block_size asize) false
  else st

/-- The `for` loop of `find_fit` (lines 337-343), started at `block`. -/
def find_fit_loop (st : State) (asize : Nat) : Nat → Nat → Option Nat
  | 0, _ => none
  | fuel + 1, block =>
    if block = st.heap_end then some 0
    else if !(get_alloc st block) && decide (asize ≤ get_size st block) then some block
    else find_fit_loop st asize fuel (find_next st block)

/-- Source `find_fit` (first fit); `some 0` is the `NULL` result. -/
def find_fit (fuel : Nat) (st : State) (asize : Nat) : Option Nat :=
  find_fit_loop st asize fuel st.heap_start

/-- Source `extend_heap` (lines 347-370); the second component is the returned block
pointer, `0` for `NULL`. -/
def extend_heap (st : State) (size : Nat) : State × Nat :=
  let size := round_up size dsize
  match mem_sbrk st size with
  | none => (st, 0)
  | some (st, bp) =>
    let block := payload_to_header bp
    let st := write_header st block size false
    let st := write_footer st block size false
    let block_next := find_next st block
    let st := write_header st block_next 0 true
    let st := { st with heap_end := block_next }
    (coalesce_block st block, block)

/-- Source `mm_init` (lines 131-150): the new state and the returned `int`. -/
def mm_init (st : State) : State × Int :=
  match mem_sbrk st (mul64 2 wsize) with
  | none => (st, -1)
  | some (st, start) =>
    let st := { st with mem := st.mem.write start (pack 0 true) }
    let st := { st with mem := st.mem.write (add64 start wsize) (pack 0 true) }
    let r := extend_heap st chunksize
    let st := { r.1 with heap_start := r.2 }
    if r.2 = 0 then (st, -1) else (st, 0)

/-- The `while` loop of `mm_malloc` (lines 169-171): `fuel` bounds the
iterations of the loop, `wf` is the fuel of each `find_fit` call. -/
def mm_malloc_loop (wf asize : Nat) : Nat → State → Option (State × Nat)
  | 0, _ => none
  | fuel + 1, st =>
    match find_fit wf st asize with
    | none => none
    | some block =>
      if block = 0 then mm_malloc_loop wf asize fuel (extend_heap st chunksize).1
      else some (st, block)

/-- Source `mm_malloc` (lines 155-184): the new state and the returned pointer. -/
def mm_malloc (fuel : Nat) (st : State) (size : Nat) : Option (State × Nat) :=
  if size = 0 then some (st, 0)
  else
    let asize := round_up (add64 size dsize) dsize
    match mm_malloc_loop fuel asize fuel st with
    | none => none
    | some (st, block) =>
      let block_size := get_size st block
      let st := write_header st block block_size true
      let st := write_footer st block block_size true
      let st := split_block st block asize
      some (st, header_to_payload block)

/-- Source `mm_free` (lines 188-208); `none` is the fatal exit `exit(1)`. -/
def mm_free (st : State) (bp : Nat) : Option State :=
  if bp = 0 then some st
  else
    let block := payload_to_header bp
    let size := get_size st block
    if !(get_alloc st block) then none
    else
      let st := write_header st block size false
      let st := write_footer st block size false
      some (coalesce_block st block)

/-- The heap walk of `mm_status` (lines 252-257): the blocks met from `block`
up to `heap_end`, each with the size and alloc bit read from its header. -/
def heap_walk (st : State) : Nat → Nat → Option (List Blk)
  | 0, _ => none
  | fuel + 1, block =>
    if block = st.heap_end then some []
    else
      match heap_walk st fuel (find_next st block) with
      | none => none
      | some l => some (⟨block, get_size st block, get_alloc st block⟩ :: l)

end Basic

/-! ## Bytes of the word heap and `memcpy` -/

/-- Byte `k` of the object that starts at the word address `p`: the heap is
little-endian, a word holds eight bytes. -/
def byte_at (m : Mem) (p k : Nat) : Nat := m (p + k / 8 * 8) / 256 ^ (k % 8) % 256

/-- Copy the first `i` whole words from `src` to `dst`.  The source is read in
the memory before the copy: source and destination do not overlap. -/
def memcpy_words (m : Mem) (dst src : Nat) : Nat → Mem
  | 0 => m
  | i + 1 => (memcpy_words m dst src i).write (dst + 8 * i) (m (src + 8 * i))

/-- The library function `memcpy(dst, src, n)` on the word heap, for word-aligned
`dst` and `src`: `n / 8` whole words, then the low `n % 8` bytes of the next
word, whose other bytes keep what the destination held. -/
def memcpy (m : Mem) (dst src n : Nat) : Mem :=
  let full := memcpy_words m dst src (n / 8)
  if n % 8 = 0 then full
  else
    full.write (dst + 8 * (n / 8))
      (m (src + 8 * (n / 8)) % 256 ^ (n % 8) +
        m (dst + 8 * (n / 8)) / 256 ^ (n % 8) * 256 ^ (n % 8))

namespace Basic

/-- How a call of `mm_free` ends, with the heap at that moment: it returns, or
it takes the fatal exit `exit(1)`. -/
inductive FreeResult where
  | returned (st : State)
  | exited (st : State)

/-- The function `mm_free` (lines 188-208) with the state in which it ends. -/
def mm_free_full (st : State) (bp : Nat) : FreeResult :=
  if bp = 0 then FreeResult.returned st
  else
    let block := payload_to_header bp
    let size := get_size st block
    if !(get_alloc st block) then FreeResult.exited st
    else
      let st := write_header st block size false
      let st := write_footer st block size false
      FreeResult.returned (coalesce_block st block)

/-- Modelled from the spec: the function `malloc` that `mm_realloc` calls.  The
header `mm.h` is not part of the sources; the spec's reallocate allocates with
the allocator's own allocate, so the name is taken to stand for `mm_malloc`. -/
def malloc (fuel : Nat) (st : State) (size : Nat) : Option (State × Nat) :=
  mm_malloc fuel st size

/-- Modelled from the spec: the function `free` that `mm_realloc` calls.  The
header `mm.h` is not part of the sources; the spec's reallocate frees the old
block with the allocator's own free, so the name is taken to stand for
`mm_free`. -/
def free (st : State) (bp : Nat) : Option State := mm_free st bp

/-- The function `mm_realloc` (lines 210-248): the new state and the returned
pointer; `none` when a loop runs out of fuel or `free` takes the fatal exit. -/
def mm_realloc (fuel : Nat) (st : State) (ptr size : Nat) : Option (State × Nat) :=
  let block := payload_to_header ptr
  if size = 0 then
    match free st ptr with
    | none => none
    | some st => some (st, 0)
  else if ptr = 0 then malloc fuel st size
  else
    match malloc fuel st size with
    | none => none
    | some (st, newptr) =>
      if newptr = 0 then some (st, 0)
      else
        let copysize := get_payload_size st block
        let copysize := if size < copysize then size else copysize
        let st := { st with mem := memcpy st.mem newptr ptr copysize }
        match free st ptr with
        | none => none
        | some st => some (st, newptr)

end Basic

namespace Adv

/-- The function the pointer `find_fit` refers to; it is unset before
`mm_init`. -/
inductive FitFn where
  | unset
  | first
  | next
  | best
  deriving DecidableEq, Repr

/-- Source `fit_type = 1`: 0 for first fit, 1 for next fit, 2 for best fit. -/
def fit_type : Nat := 1

/-- Allocator globals of `adv_implicit_mm.c` together with the heap words and
the heap provider (`mem_brk`, `mem_max_addr`). -/
structure State where
  mem : Mem
  heap_start : Nat
  heap_end : Nat
  next_fit_ptr : Nat
  find_fit : FitFn
  mem_brk : Nat
  mem_max_addr : Nat

/-- Modelled from the spec: the heap provider `mem_sbrk` (memlib is not part of
the sources).  `grow_heap(n)` extends the heap by exactly `n` bytes and returns
the address of the first newly appended byte, or fails on exhaustion; here it
fails exactly when the new break would pass `mem_max_addr`.  `none` stands for
the failure sentinel `(void *)-1`. -/
def mem_sbrk (st : State) (incr : Nat) : Option (State × Nat) :=
  if st.mem_brk + incr ≤ st.mem_max_addr then
    some ({ st with mem_brk := st.mem_brk + incr }, st.mem_brk)
  else none

/-- Source `pack` (lines 463-476): size, then `|= alloc_mask`, then `|= prev_alloc_mask`. -/
def pack (size : Nat) (alloc prev_alloc : Bool) : Nat :=
  let result := size
  let result := if alloc then result ||| alloc_mask else result
  if prev_alloc then result ||| prev_alloc_mask else result

/-- Source `extract_prev_alloc`: `(bool) (word & prev_alloc_mask)`. -/
def extract_prev_alloc (word : Nat) : Bool := (word &&& prev_alloc_mask) != 0

/-- Source `get_size`: `extract_size(block->header)`. -/
def get_size (st : State) (block : Nat) : Nat := extract_size (st.mem block)

/-- Source `get_alloc`: `extract_alloc(block->header)`. -/
def get_alloc (st : State) (block : Nat) : Bool := extract_alloc (st.mem block)

/-- Source `Is_prev_alloc`: `extract_prev_alloc(block->header)`. -/
def Is_prev_alloc (st : State) (block : Nat) : Bool := extract_prev_alloc (st.mem block)

/-- Source `write_header`: `block->header = pack(size, alloc, prev_alloc)`. -/
def write_header (st : State) (block size : Nat) (alloc prev_alloc : Bool) : State :=
  { st with mem := st.mem.write block (pack size alloc prev_alloc) }

/-- Source `header_to_footer`: `block->payload + get_size(block) - dsize`. -/
def header_to_footer (st : State) (block : Nat) : Nat :=
  sub64 (add64 (add64 block wsize) (get_size st block)) dsize

/-- Source `write_footer`: the footer position is computed from the header in memory
(the diagnostic print on an allocated block has no effect on the state). -/
def write_footer (st : State) (block size : Nat) (alloc prev_alloc : Bool) : State :=
  { st with mem := st.mem.write (header_to_footer st block) (pack size alloc prev_alloc) }

/-- Source `find_next`: `(unsigned char *) block + get_size(block)`. -/
def find_next (st : State) (block : Nat) : Nat := add64 block (get_size st block)

/-- Source `find_prev_footer`: `&(block->header) - 1`. -/
def find_prev_footer (block : Nat) : Nat := sub64 block wsize

/-- Source `find_prev`: `(unsigned char *) block - extract_size(*find_prev_footer(block))`. -/
def find_prev (st : State) (block : Nat) : Nat :=
  sub64 block (extract_size (st.mem (find_prev_footer block)))

/-- Source `payload_to_header`: `bp - offsetof(block_t, payload)`. -/
def payload_to_header (bp : Nat) : Nat := sub64 bp wsize

/-- Source `header_to_payload`: `block->payload`. -/
def header_to_payload (block : Nat) : Nat := add64 block wsize

/-- Source `get_payload_size`: `get_size(block) - dsize`. -/
def get_payload_size (st : State) (block : Nat) : Nat := sub64 (get_size st block) dsize

/-- Source `coalesce_block` (lines 301-340). -/
def coalesce_block (st : State) (block : Nat) : State :=
  let size := get_size st block
  let block_next := find_next st block
  let block_prev := find_prev st block
  let prev_alloc := Is_prev_alloc st block
  let next_alloc := get_alloc st block_next
  if prev_alloc && next_alloc then st
  else if prev_alloc && !next_alloc then
    let size := add64 size (get_size st block_next)
    let st := write_header st block size false prev_alloc
    write_footer st block size false prev_alloc
  else if !prev_alloc && next_alloc then
    let size := add64 size (get_size st block_prev)
    let Is_prev_prev_alloc := Is_prev_alloc st block_prev
    let st := write_header st block_prev size false Is_prev_prev_alloc
    write_footer st block_prev size false Is_prev_prev_alloc
  else
    let size := add64 size (add64 (get_size st block_next) (get_size st block_prev))
    let st := write_header st block_prev size false (Is_prev_alloc st block_prev)
    write_footer st block_prev size false (Is_prev_alloc st block_prev)

/-- Source `split_block` (lines 347-360): only a header for the allocated part. -/
def split_block (st : State) (block asize : Nat) : State :=
  let block_size := get_size st block
  if min_block_size ≤ sub64 block_size asize then
    let st := write_header st block asize true (Is_prev_alloc st block)
    let block_next := find_next st block
    let st := write_header st block_next (sub64 block_size asize) false true
    write_footer st block_next (sub64 block_size asize) false true
  else st

/-- The `for` loop of `first_fit` (lines 370-376), started at `block`. -/
def first_fit_loop (st : State) (asize : Nat) : Nat → Nat → Option Nat
  | 0, _ => none
  | fuel + 1, block =>
    if block = st.heap_end then some 0
    else if !(get_alloc st block) && decide (asize ≤ get_size st block) then some block
    else first_fit_loop st asize fuel (find_next st block)

/-- Source `first_fit`; `some 0` is the `NULL` result. -/
def first_fit (fuel : Nat) (st : State) (asize : Nat) : Option Nat :=
  first_fit_loop st asize fuel st.heap_start

/-- The `do ... while` loop of `next_fit` (lines 383-395).  The loop changes
nothing but the global `next_fit_ptr`, which is carried here as the last
argument; the result is the final `next_fit_ptr` and the returned block. -/
def next_fit_loop (st : State) (asize end_ : Nat) : Nat → Nat → Option (Nat × Nat)
  | 0, _ => none
  | fuel + 1, ptr =>
    let ptr := if ptr = st.heap_end then st.heap_start else find_next st ptr
    if !(get_alloc st ptr) && decide (asize ≤ get_size st ptr) then some (ptr, ptr)
    else if ptr ≠ end_ then next_fit_loop st asize end_ fuel ptr
    else some (ptr, 0)

/-- Source `next_fit` (lines 379-398): the state with the new `next_fit_ptr` and the
returned block, `0` for `NULL`. -/
def next_fit (fuel : Nat) (st : State) (asize : Nat) : Option (State × Nat) :=
  let start := if st.next_fit_ptr = 0 then st.heap_end else st.next_fit_ptr
  match next_fit_loop st asize start fuel start with
  | none => none
  | some (rover, result) => some ({ st with next_fit_ptr := rover }, result)

/-- The `for` loop of `best_fit` (lines 404-412). -/
def best_fit_loop (st : State) (asize : Nat) : Nat → Nat → Nat → Option Nat
  | 0, _, _ => none
  | fuel + 1, block, best_block =>
    if block = st.heap_end then some best_block
    else
      let best_block :=
        if !(get_alloc st block) && decide (asize ≤ get_size st block) then
          if best_block = 0 ∨ get_size st block < get_size st best_block then block
          else best_block
        else best_block
      best_fit_loop st asize fuel (find_next st block) best_block

/-- Source `best_fit`. -/
def best_fit (fuel : Nat) (st : State) (asize : Nat) : Option Nat :=
  best_fit_loop st asize fuel st.heap_start 0

/-- The call `find_fit(asize)` through the function pointer; a call through the
unset pointer does not return. -/
def call_find_fit (fuel : Nat) (st : State) (asize : Nat) : Option (State × Nat) :=
  match st.find_fit with
  | FitFn.unset => none
  | FitFn.first => (first_fit fuel st asize).map (fun b => (st, b))
  | FitFn.next => next_fit fuel st asize
  | FitFn.best => (best_fit fuel st asize).map (fun b => (st, b))

/-- Source `extend_heap` (lines 416-440); the second component is the returned block
pointer, `0` for `NULL`. -/
def extend_heap (st : State) (size : Nat) : State × Nat :=
  let size := round_up size dsize
  match mem_sbrk st size with
  | none => (st, 0)
  | some (st, bp) =>
    let block := payload_to_header bp
    let is_prev_allocate := extract_alloc (st.mem (find_prev_footer block))
    let st := write_header st block size false is_prev_allocate
    let st := write_footer st block size false is_prev_allocate
    let block_next := find_next st block
    let st := write_header st block_next 0 true false
    let st := { st with heap_end := block_next }
    (coalesce_block st block, block)

/-- Source `mm_init` (lines 147-173): the new state and the returned `int`. -/
def mm_init (st : State) : State × Int :=
  match mem_sbrk st (mul64 2 wsize) with
  | none => (st, -1)
  | some (st, start) =>
    let st := { st with mem := st.mem.write start (pack 0 true true) }
    let st := { st with mem := st.mem.write (add64 start wsize) (pack 0 true true) }
    let r := extend_heap st chunksize
    let st := { r.1 with heap_start := r.2 }
    if r.2 = 0 then (st, -1)
    else
      let st :=
        if fit_type = 0 then { st with find_fit := FitFn.first }
        else if fit_type = 1 then { st with find_fit := FitFn.next, next_fit_ptr := 0 }
        else if fit_type = 2 then { st with find_fit := FitFn.best }
        else st
      (st, 0)

/-- The `while` loop of `mm_malloc` (lines 191-193): `fuel` bounds the
iterations of the loop, `wf` is the fuel of each `find_fit` call. -/
def mm_malloc_loop (wf asize : Nat) : Nat → State → Option (State × Nat)
  | 0, _ => none
  | fuel + 1, st =>
    match call_find_fit wf st asize with
    | none => none
    | some (st, block) =>
      if block = 0 then mm_malloc_loop wf asize fuel (extend_heap st chunksize).1
      else some (st, block)

/-- Source `mm_malloc` (lines 178-207): the new state and the returned pointer. -/
def mm_malloc (fuel : Nat) (st : State) (size : Nat) : Option (State × Nat) :=
  if size = 0 then some (st, 0)
  else
    let asize := round_up (add64 size wsize) dsize
    match mm_malloc_loop fuel asize fuel st with
    | none => none
    | some (st, block) =>
      let block_size := get_size st block
      let st := write_header st block block_size true (Is_prev_alloc st block)
      let st := split_block st block asize
      some (st, header_to_payload block)

/-- Source `mm_free` (lines 211-231); `none` is the fatal exit `exit(1)`. -/
def mm_free (st : State) (bp : Nat) : Option State :=
  if bp = 0 then some st
  else
    let block := payload_to_header bp
    let size := get_size st block
    if !(get_alloc st block) then none
    else
      let st := write_header st block size false (Is_prev_alloc st block)
      let st := write_footer st block size false (Is_prev_alloc st block)
      some (coalesce_block st block)

/-- A block as the heap walk reads it: address, size, alloc bit, prev_alloc
bit. -/
structure HBlk where
  addr : Nat
  sz : Nat
  al : Bool
  pal : Bool
  deriving DecidableEq, Repr

/-- The heap walk of `mm_status` (lines 275-284): the blocks met from `block`
up to `heap_end`, each with what its header says. -/
def heap_walk (st : State) : Nat → Nat → Option (List HBlk)
  | 0, _ => none
  | fuel + 1, block =>
    if block = st.heap_end then some []
    else
      match heap_walk st fuel (find_next st block) with
      | none => none
      | some l =>
        some (⟨block, get_size st block, get_alloc st block, Is_prev_alloc st block⟩ :: l)

/-- States reachable from a successful `mm_init` on the provider state `p0` by
`mm_malloc` calls of any size and by `mm_free` calls on outstanding pointers,
together with the list of outstanding allocations (pointer, requested size). -/
inductive Reach (p0 : State) : State → List (Nat × Nat) → Prop
  | init (st : State) : p0.mem_max_addr ≤ WORD → mm_init p0 = (st, 0) → Reach p0 st []
  | malloc (st st2 : State) (out : List (Nat × Nat)) (fuel size p : Nat) :
      Reach p0 st out → size < WORD → mm_malloc fuel st size = some (st2, p) →
      Reach p0 st2 (if p = 0 then out else (p, size) :: out)
  | free (st st2 : State) (out : List (Nat × Nat)) (p n : Nat) :
      Reach p0 st out → (p, n) ∈ out → mm_free st p = some st2 →
      Reach p0 st2 (out.erase (p, n))

/-- Block pointers of the allocator are congruent to 8 modulo 16 and the break
is a multiple of 16; `find_fit` is `next_fit`. -/
def Aligned (st : State) : Prop :=
  st.heap_start % 16 = 8 ∧ st.heap_end % 16 = 8 ∧
  (st.next_fit_ptr = 0 ∨ st.next_fit_ptr % 16 = 8) ∧ st.mem_brk % 16 = 0 ∧
  st.find_fit = FitFn.next

/-- The state `st2` differs from `st` in the heap words only. -/
def SameGlobals (st st2 : State) : Prop :=
  st2.heap_start = st.heap_start ∧ st2.heap_end = st.heap_end ∧
  st2.next_fit_ptr = st.next_fit_ptr ∧ st2.find_fit = st.find_fit ∧
  st2.mem_brk = st.mem_brk ∧ st2.mem_max_addr = st.mem_max_addr

/-- A provider whose first address is `brk` and whose limit is `max`; the
allocator globals are still unset. -/
def provider (brk max : Nat) : State := ⟨fun _ => 0, 0, 0, 0, FitFn.unset, brk, max⟩

/-- A provider with room for 255 chunks after the initial one. -/
def demo_p0 : State := provider 4096 1048576

/-- The state after `mm_init` on `demo_p0`. -/
def demo_s0 : State := (mm_init demo_p0).1

/-- The state after `mm_init(); a = mm_malloc(16)`. -/
def demo_s1 : State := ((mm_malloc 3 demo_s0 16).getD (demo_s0, 0)).1

/-- The state after `mm_init(); a = mm_malloc(16); b = mm_malloc(16)`. -/
def demo_s2 : State := ((mm_malloc 3 demo_s1 16).getD (demo_s0, 0)).1

/-- The state after `mm_init(); a = mm_malloc(16); b = mm_malloc(16); mm_free(a)`. -/
def demo_s3 : State := (mm_free demo_s2 4112).getD demo_s0

/-- The state after `mm_init(); mm_malloc(4088)`: the only free block is taken
whole. -/
def full_s1 : State := ((mm_malloc 3 demo_s0 4088).getD (demo_s0, 0)).1

/-- The state in which the second `next_fit` call of `mm_malloc(9000)` starts:
after `mm_init()`, a first `next_fit(9008)` that found no fit, and
`extend_heap(chunksize)`. -/
def stuck_s1 : State :=
  (extend_heap ((next_fit 3 demo_s0 9008).getD (demo_s0, 0)).1 chunksize).1

end Adv

namespace Adv

/-- Modelled from the spec: the function `malloc` that `mm_realloc` calls.  The
header `mm.h` is not part of the sources; the spec's reallocate allocates with
the allocator's own allocate, so the name is taken to stand for `mm_malloc`. -/
def malloc (fuel : Nat) (st : State) (size : Nat) : Option (State × Nat) :=
  mm_malloc fuel st size

/-- Modelled from the spec: the function `free` that `mm_realloc` calls.  The
header `mm.h` is not part of the sources; the spec's reallocate frees the old
block with the allocator's own free, so the name is taken to stand for
`mm_free`. -/
def free (st : State) (bp : Nat) : Option State := mm_free st bp

/-- The function `mm_realloc` (lines 233-271): the new state and the returned
pointer; `none` when a loop runs out of fuel or `free` takes the fatal exit. -/
def mm_realloc (fuel : Nat) (st : State) (ptr size : Nat) : Option (State × Nat) :=
  let block := payload_to_header ptr
  if size = 0 then
    match free st ptr with
    | none => none
    | some st => some (st, 0)
  else if ptr = 0 then malloc fuel st size
  else
    match malloc fuel st size with
    | none => none
    | some (st, newptr) =>
      if newptr = 0 then some (st, 0)
      else
        let copysize := get_payload_size st block
        let copysize := if size < copysize then size else copysize
        let st := { st with mem := memcpy st.mem newptr ptr copysize }
        match free st ptr with
        | none => none
        | some st => some (st, newptr)

/-- The client stores the word `v` at address `a` of a payload it owns. -/
def client_write (st : State) (a v : Nat) : State := { st with mem := st.mem.write a v }

/-- The state after `mm_init(); p = mm_malloc(24)`, where `p = 4112`. -/
def copy_s1 : State := ((mm_malloc 3 demo_s0 24).getD (demo_s0, 0)).1

/-- The client has stored `0x0807060504030201` in bytes 16..23 of the payload
at `p = 4112`. -/
def copy_s2 : State := client_write copy_s1 4128 0x0807060504030201

/-- The state after `q = mm_realloc(p, 64)` on `copy_s2`. -/
def copy_s3 : State := ((mm_realloc 3 copy_s2 4112 64).getD (demo_s0, 0)).1

/-- The state after `mm_init(); mm_malloc(1)`. -/
def tiny_s1 : State := ((mm_malloc 3 demo_s0 1).getD (demo_s0, 0)).1

/-- The state after `mm_init(); mm_malloc(64)`. -/
def s1_scenario : State := ((mm_malloc 3 demo_s0 64).getD (demo_s0, 0)).1

/-- Scenario S3: `mm_init()`, three calls `mm_malloc(128)` returning `a`, `b`
and `c`, then `mm_free(a); mm_free(c); mm_free(b)`; `demo_s0` when a call does
not return. -/
def s3_scenario : State :=
  match mm_malloc 3 demo_s0 128 with
  | none => demo_s0
  | some (st1, a) =>
    match mm_malloc 3 st1 128 with
    | none => demo_s0
    | some (st2, b) =>
      match mm_malloc 3 st2 128 with
      | none => demo_s0
      | some (st3, c) =>
        match mm_free st3 a with
        | none => demo_s0
        | some st4 =>
          match mm_free st4 c with
          | none => demo_s0
          | some st5 => (mm_free st5 b).getD demo_s0

end Adv

namespace Adv

/-- The state `full_s1` (after `mm_init(); mm_malloc(4088)`, one allocated block
4104..8200) after the client has stored the word 1 in the last word of its
payload, at address 8192. -/
def grow_s1 : State := client_write full_s1 8192 1

/-- The state after `extend_heap(chunksize)` on `grow_s1`. -/
def grow_s2 : State := (extend_heap grow_s1 chunksize).1

end Adv

namespace Adv

/-! ## Vocabulary for the heap walk and the roving pointer -/

/-- The test of the fit loops on the header word of block `b`:
`!get_alloc(b) && asize <= get_size(b)`. -/
def fits (m : Mem) (asize b : Nat) : Bool :=
  !extract_alloc (m b) && decide (asize ≤ extract_size (m b))

/-- The block addresses `bs` tile the heap from `a` to `e`: every block has a
positive size in its header and is followed by the next one. -/
def Tiles (m : Mem) : Nat → List Nat → Nat → Prop
  | a, [], e => a = e
  | a, b :: r, e => b = a ∧ 0 < extract_size (m a) ∧ Tiles m (a + extract_size (m a)) r e

/-- A well-formed heap with block addresses `bs`: the blocks tile
`heap_start .. heap_end`, no block is at the null address, the heap lies
within the address space and the epilogue header is marked allocated. -/
def WellFormed (st : State) (bs : List Nat) : Prop :=
  0 < st.heap_start ∧ st.heap_end < 2 ^ 64 ∧ Tiles st.mem st.heap_start bs st.heap_end ∧
  extract_alloc (st.mem st.heap_end) = true

/-- One advance of the roving pointer in `next_fit` (lines 384-388). -/
def rover_step (st : State) (ptr : Nat) : Nat :=
  if ptr = st.heap_end then st.heap_start else find_next st ptr

/-- The positions `l` are the successive values of the roving pointer after
`p`. -/
def Visits (st : State) : Nat → List Nat → Prop
  | _, [] => True
  | p, x :: r => rover_step st p = x ∧ Visits st x r

/-- The block `res` is the first block of the order `O` that passes the fit
test, or null when none does. -/
def FirstFitting (m : Mem) (asize : Nat) (O : List Nat) (res : Nat) : Prop :=
  (res = 0 ↔ ∀ b ∈ O, fits m asize b = false) ∧
  (res ≠ 0 → ∃ q1 q2, O = q1 ++ res :: q2 ∧ fits m asize res = true ∧
    ∀ y ∈ q1, fits m asize y = false)

end Adv

namespace Expl

/-- How a call can fail to return normally. -/
inductive Err where
  /-- A field of the null pointer is read or written. -/
  | null_deref
  /-- The process exits: `exit(1)` in `mm_free`, `exit(-1)` in `append_free_list`. -/
  | fatal_exit
  /-- The fuel of a loop ran out. -/
  | out_of_fuel
  deriving DecidableEq, Repr

/-- Results of the functions of the explicit variant. -/
abbrev M := Except Err

/-- The function the pointer `find_fit` refers to; it is unset before
`mm_init`. -/
inductive FitFn where
  | unset
  | first
  | next
  | best
  deriving DecidableEq, Repr

/-- Source `fit_type = 2`: 0 for first fit, 1 for next fit, 2 for best fit. -/
def fit_type : Nat := 2

/-- Source `add_type = 2`: 1 for LIFO, 2 for FIFO, 3 for ordered. -/
def add_type : Nat := 2

/-- Allocator globals of `basic_explicit_mm.c` together with the heap words and
the heap provider (`mem_brk`, `mem_max_addr`). -/
structure State where
  mem : Mem
  heap_start : Nat
  heap_end : Nat
  free_list_root : Nat
  free_list_len : Int
  next_fit_ptr : Nat
  find_fit : FitFn
  mem_brk : Nat
  mem_max_addr : Nat

/-- Modelled from the spec: the heap provider `mem_sbrk` (memlib is not part of
the sources).  `grow_heap(n)` extends the heap by exactly `n` bytes and returns
the address of the first newly appended byte, or fails on exhaustion; here it
fails exactly when the new break would pass `mem_max_addr`.  `none` stands for
the failure sentinel `(void *)-1`. -/
def mem_sbrk (st : State) (incr : Nat) : Option (State × Nat) :=
  if st.mem_brk + incr ≤ st.mem_max_addr then
    some ({ st with mem_brk := st.mem_brk + incr }, st.mem_brk)
  else none

/-- Offset of `block->header`. -/
def off_header : Nat := 0

/-- Offset of `block->previous` (it overlays the payload). -/
def off_previous : Nat := 8

/-- Offset of `block->next`. -/
def off_next : Nat := 16

/-- Read the word at offset `off` of the object `p` points to. -/
def load (st : State) (p off : Nat) : M Nat :=
  if p = 0 then throw Err.null_deref else pure (st.mem (add64 p off))

/-- Write the word at offset `off` of the object `p` points to. -/
def store (st : State) (p off v : Nat) : M State :=
  if p = 0 then throw Err.null_deref
  else pure { st with mem := st.mem.write (add64 p off) v }

/-- Source `pack`: `alloc ? (size | alloc_mask) : size`. -/
def pack (size : Nat) (alloc : Bool) : Nat := if alloc then size ||| alloc_mask else size

/-- Source `get_size`: `extract_size(block->header)`. -/
def get_size (st : State) (block : Nat) : M Nat := do
  let w ← load st block off_header
  pure (extract_size w)

/-- Source `get_alloc`: `extract_alloc(block->header)`. -/
def get_alloc (st : State) (block : Nat) : M Bool := do
  let w ← load st block off_header
  pure (extract_alloc w)

/-- Source `write_header`: `block->header = pack(size, alloc)`. -/
def write_header (st : State) (block size : Nat) (alloc : Bool) : M State :=
  store st block off_header (pack size alloc)

/-- Source `header_to_footer`: `block->payload + get_size(block) - dsize`. -/
def header_to_footer (st : State) (block : Nat) : M Nat := do
  let sz ← get_size st block
  pure (sub64 (add64 (add64 block wsize) sz) dsize)

/-- Source `write_footer`: `*footerp = pack(size, alloc)`. -/
def write_footer (st : State) (block size : Nat) (alloc : Bool) : M State := do
  let footerp ← header_to_footer st block
  store st footerp 0 (pack size alloc)

/-- Source `find_next`: `(unsigned char *) block + get_size(block)`. -/
def find_next (st : State) (block : Nat) : M Nat := do
  let sz ← get_size st block
  pure (add64 block sz)

/-- Source `find_prev_footer`: `&(block->header) - 1`. -/
def find_prev_footer (block : Nat) : Nat := sub64 block wsize

/-- Source `find_prev`: `(unsigned char *) block - extract_size(*find_prev_footer(block))`. -/
def find_prev (st : State) (block : Nat) : M Nat := do
  let w ← load st (find_prev_footer block) 0
  pure (sub64 block (extract_size w))

/-- Source `payload_to_header`: `bp - offsetof(block_t, payload)`. -/
def payload_to_header (bp : Nat) : Nat := sub64 bp wsize

/-- Source `header_to_payload`: `block->payload`. -/
def header_to_payload (block : Nat) : Nat := add64 block wsize

/-- Source `get_payload_size`: `get_size(block) - dsize`. -/
def get_payload_size (st : State) (block : Nat) : M Nat := do
  let asize ← get_size st block
  pure (sub64 asize dsize)

/-- Source `connect_block` (lines 674-682): link `block` in before `free_list_root`. -/
def connect_block (st : State) (block : Nat) : M State :=
  if block = st.free_list_root then pure st
  else do
    let st ← store st block off_next st.free_list_root
    let rp ← load st st.free_list_root off_previous
    let st ← store st block off_previous rp
    let rp ← load st st.free_list_root off_previous
    let st ← store st rp off_next block
    store st st.free_list_root off_previous block

/-- Source `append_free_list_FIFO` (lines 684-687). -/
def append_free_list_FIFO (st : State) (block : Nat) : M State :=
  connect_block st block

/-- Source `append_free_list_LIFO` (lines 689-693). -/
def append_free_list_LIFO (st : State) (block : Nat) : M State := do
  let st ← connect_block st block
  pure { st with free_list_root := block }

/-- Source `append_free_list_by_sequence` (lines 696-721).  The single-node branch
falls through to the comparison chain; the `do ... while` loop never advances
`temp`, so its body runs exactly once. -/
def append_free_list_by_sequence (st : State) (block : Nat) : M State := do
  let st ←
    if st.free_list_len = 1 then do
      let st ← connect_block st block
      pure { st with free_list_root :=
        if block < st.free_list_root then block else st.free_list_root }
    else pure st
  if block < st.free_list_root then do
    let st ← connect_block st block
    pure { st with free_list_root := block }
  else do
    let rp ← load st st.free_list_root off_previous
    if rp < block then connect_block st block
    else do
      let temp := st.free_list_root
      let tn ← load st temp off_next
      if temp < block ∧ block < tn then do
        let tn ← load st temp off_next
        let st ← store st block off_next tn
        let st ← store st block off_previous temp
        let tn ← load st temp off_next
        let st ← store st tn off_previous block
        store st temp off_next block
      else pure st

/-- Source `append_free_list` (lines 723-748). -/
def append_free_list (st : State) (block : Nat) (type : Nat) : M State := do
  let al ← get_alloc st block
  if al then throw Err.fatal_exit
  else do
    let st := { st with free_list_len := st.free_list_len + 1 }
    if st.free_list_root = 0 ∨ st.free_list_len = 0 then do
      let st := { st with free_list_root := block }
      let st ← store st st.free_list_root off_previous st.free_list_root
      store st st.free_list_root off_next st.free_list_root
    else if type = 1 then append_free_list_LIFO st block
    else if type = 2 then append_free_list_FIFO st block
    else if type = 3 then append_free_list_by_sequence st block
    else pure st

/-- Source `disconnect_block` (lines 752-768). -/
def disconnect_block (st : State) (block : Nat) : M State := do
  let st := { st with free_list_len := st.free_list_len - 1 }
  if st.free_list_len = 0 then pure { st with free_list_root := 0 }
  else do
    let cur_prev ← load st block off_previous
    let cur_next ← load st block off_next
    let st ← store st cur_prev off_next cur_next
    let st ← store st cur_next off_previous cur_prev
    let st ←
      if block = st.free_list_root then do
        let n ← load st block off_next
        pure { st with free_list_root := n }
      else pure st
    if st.next_fit_ptr = block then pure { st with next_fit_ptr := st.free_list_root }
    else pure st

/-- Source `coalesce_block` (lines 355-406); case 4 disconnects `block_prev` twice, as
the source does. -/
def coalesce_block (st : State) (block : Nat) : M State := do
  let size ← get_size st block
  let block_next ← find_next st block
  let block_prev ← find_prev st block
  let pf ← load st (find_prev_footer block) 0
  let prev_alloc := extract_alloc pf
  let next_alloc ← get_alloc st block_next
  let (st, block) ←
    if prev_alloc && next_alloc then pure (st, block)
    else if prev_alloc && !next_alloc then do
      let st ← disconnect_block st block_next
      let nsz ← get_size st block_next
      let size := add64 size nsz
      let st ← write_header st block size false
      let st ← write_footer st block size false
      pure (st, block)
    else if !prev_alloc && next_alloc then do
      let st ← disconnect_block st block_prev
      let psz ← get_size st block_prev
      let size := add64 size psz
      let st ← write_header st block_prev size false
      let st ← write_footer st block_prev size false
      pure (st, block_prev)
    else do
      let st ← disconnect_block st block_prev
      let st ← disconnect_block st block_prev
      let nsz ← get_size st block_next
      let psz ← get_size st block_prev
      let size := add64 size (add64 nsz psz)
      let st ← write_header st block_prev size false
      let st ← write_footer st block_prev size false
      pure (st, block_prev)
  let st :=
    if !next_alloc ∧ st.next_fit_ptr = block_next then { st with next_fit_ptr := block }
    else st
  append_free_list st block add_type

/-- Source `split_block` (lines 413-432). -/
def split_block (st : State) (block asize : Nat) : M State := do
  let block_size ← get_size st block
  if min_block_size ≤ sub64 block_size asize then do
    let st ← write_header st block asize true
    let st ← write_footer st block asize true
    let block_next ← find_next st block
    let st ← write_header st block_next (sub64 block_size asize) false
    let st ← write_footer st block_next (sub64 block_size asize) false
    let st ← disconnect_block st block
    coalesce_block st block_next
  else disconnect_block st block

/-- The `do ... while` loop of `first_fit` (lines 442-448). -/
def first_fit_loop (st : State) (asize : Nat) : Nat → Nat → M Nat
  | 0, _ => throw Err.out_of_fuel
  | fuel + 1, block => do
    let sz ← get_size st block
    if asize ≤ sz then pure block
    else do
      let block ← load st block off_next
      if block ≠ st.free_list_root then first_fit_loop st asize fuel block
      else pure 0

/-- Source `first_fit` (lines 439-451). -/
def first_fit (fuel : Nat) (st : State) (asize : Nat) : M Nat :=
  first_fit_loop st asize fuel st.free_list_root

/-- The `do ... while` loop of `next_fit` (lines 461-469); the loop changes only
the global `next_fit_ptr`. -/
def next_fit_loop (asize piviot : Nat) : Nat → State → M (State × Nat)
  | 0, _ => throw Err.out_of_fuel
  | fuel + 1, st => do
    let sz ← get_size st st.next_fit_ptr
    if asize ≤ sz then do
      let n ← load st st.next_fit_ptr off_next
      let st := { st with next_fit_ptr := n }
      let r ← load st st.next_fit_ptr off_previous
      pure (st, r)
    else do
      let n ← load st st.next_fit_ptr off_next
      let st := { st with next_fit_ptr := n }
      if st.next_fit_ptr ≠ piviot then next_fit_loop asize piviot fuel st
      else pure (st, 0)

/-- Source `next_fit` (lines 453-472). -/
def next_fit (fuel : Nat) (st : State) (asize : Nat) : M (State × Nat) := do
  let reset ←
    if st.next_fit_ptr = 0 then pure true
    else get_alloc st st.next_fit_ptr
  let st := if reset then { st with next_fit_ptr := st.free_list_root } else st
  next_fit_loop asize st.next_fit_ptr fuel st

/-- The `do ... while` loop of `best_fit` (lines 478-487). -/
def best_fit_loop (st : State) (asize : Nat) : Nat → Nat → Nat → M Nat
  | 0, _, _ => throw Err.out_of_fuel
  | fuel + 1, block, best_block => do
    let al ← get_alloc st block
    let sz ← get_size st block
    let best_block ←
      if !al && decide (asize ≤ sz) then
        if best_block = 0 then pure block
        else do
          let bsz ← get_size st best_block
          let sz ← get_size st block
          if sz < bsz then pure block else pure best_block
      else pure best_block
    let block ← load st block off_next
    if block ≠ st.free_list_root then best_fit_loop st asize fuel block best_block
    else pure best_block

/-- Source `best_fit` (lines 474-490). -/
def best_fit (fuel : Nat) (st : State) (asize : Nat) : M Nat :=
  best_fit_loop st asize fuel st.free_list_root 0

/-- The call `find_fit(asize)` through the function pointer; a call through the
unset (null) function pointer is a null dereference. -/
def call_find_fit (fuel : Nat) (st : State) (asize : Nat) : M (State × Nat) :=
  match st.find_fit with
  | FitFn.unset => throw Err.null_deref
  | FitFn.first => do
    let b ← first_fit fuel st asize
    pure (st, b)
  | FitFn.next => next_fit fuel st asize
  | FitFn.best => do
    let b ← best_fit fuel st asize
    pure (st, b)

/-- Source `extend_heap` (lines 492-516); the second component is the returned block
pointer, `0` for `NULL`. -/
def extend_heap (st : State) (size : Nat) : M (State × Nat) :=
  let size := round_up size dsize
  match mem_sbrk st size with
  | none => pure (st, 0)
  | some (st, bp) => do
    let block := payload_to_header bp
    let st ← write_header st block size false
    let st ← write_footer st block size false
    let block_next ← find_next st block
    let st ← write_header st block_next 0 true
    let st := { st with heap_end := block_next }
    let st ← coalesce_block st block
    pure (st, block)

/-- Source `mm_init` (lines 197-227): the new state and the returned `int`. -/
def mm_init (st : State) : M (State × Int) :=
  match mem_sbrk st (mul64 2 wsize) with
  | none => pure (st, -1)
  | some (st, start) => do
    let st ← store st start 0 (pack 0 true)
    let st ← store st start wsize (pack 0 true)
    let st := { st with free_list_root := 0, free_list_len := 0 }
    let r ← extend_heap st chunksize
    let st := { r.1 with heap_start := r.2 }
    if r.2 = 0 then pure (st, -1)
    else
      let st :=
        if fit_type = 0 then { st with find_fit := FitFn.first }
        else if fit_type = 1 then { st with find_fit := FitFn.next, next_fit_ptr := 0 }
        else if fit_type = 2 then { st with find_fit := FitFn.best }
        else st
      pure (st, 0)

/-- The `while` loop of `mm_malloc` (lines 242-244): `fuel` bounds the
iterations of the loop, `wf` is the fuel of each `find_fit` call. -/
def mm_malloc_loop (wf asize : Nat) : Nat → State → M (State × Nat)
  | 0, _ => throw Err.out_of_fuel
  | fuel + 1, st => do
    let r ← call_find_fit wf st asize
    if r.2 = 0 then do
      let e ← extend_heap r.1 chunksize
      mm_malloc_loop wf asize fuel e.1
    else pure r

/-- Source `mm_malloc` (lines 232-256): the new state and the returned pointer. -/
def mm_malloc (fuel : Nat) (st : State) (size : Nat) : M (State × Nat) :=
  if size = 0 then pure (st, 0)
  else do
    let asize := round_up (add64 size dsize) dsize
    let r ← mm_malloc_loop fuel asize fuel st
    let st := r.1
    let block := r.2
    let block_size ← get_size st block
    let st ← write_header st block block_size true
    let st ← write_footer st block block_size true
    let st ← split_block st block asize
    pure (st, header_to_payload block)

/-- Source `mm_free` (lines 259-280). -/
def mm_free (st : State) (bp : Nat) : M State :=
  if bp = 0 then pure st
  else do
    let block := payload_to_header bp
    let size ← get_size st block
    let al ← get_alloc st block
    if !al then throw Err.fatal_exit
    else do
      let st ← write_header st block size false
      let st ← write_footer st block size false
      coalesce_block st block

/-- The heap walk of `mm_status` (lines 324-331): the blocks met from `block`
up to `heap_end`, each with the size and alloc bit read from its header. -/
def heap_walk (st : State) : Nat → Nat → M (List Blk)
  | 0, _ => throw Err.out_of_fuel
  | fuel + 1, block =>
    if block = st.heap_end then pure []
    else do
      let sz ← get_size st block
      let al ← get_alloc st block
      let n ← find_next st block
      let l ← heap_walk st fuel n
      pure (⟨block, sz, al⟩ :: l)

/-- The traversal of `free_list_status` (lines 338-345): the nodes met from
`block` by `next` until the root is met again; it stops at a null pointer. -/
def free_list_walk (st : State) : Nat → Nat → M (List Nat)
  | 0, _ => throw Err.out_of_fuel
  | fuel + 1, block =>
    if block = 0 then pure []
    else do
      let n ← load st block off_next
      if n ≠ st.free_list_root then do
        let l ← free_list_walk st fuel n
        pure (block :: l)
      else pure [block]

/-- A provider whose first address is `brk` and whose limit is `max`; the
allocator globals are still unset. -/
def provider (brk max : Nat) : State := ⟨fun _ => 0, 0, 0, 0, 0, 0, FitFn.unset, brk, max⟩

/-- A provider with room for 255 chunks after the initial one. -/
def demo_p0 : State := provider 4096 1048576

/-- The state a computation ends in, `demo_p0` when it fails. -/
def stateOf (r : M State) : State :=
  match r with
  | Except.ok st => st
  | Except.error _ => demo_p0

/-- The state after `mm_init` on `demo_p0`. -/
def demo_s0 : State := stateOf ((mm_init demo_p0).map Prod.fst)

/-- The state after four calls `mm_malloc(16)`, which return `a = 4112`,
`b = 4144`, `c = 4176` and `d = 4208`. -/
def demo_s4 : State :=
  stateOf (do
    let r ← mm_malloc 3 demo_s0 16
    let r ← mm_malloc 3 r.1 16
    let r ← mm_malloc 3 r.1 16
    let r ← mm_malloc 3 r.1 16
    pure r.1)

/-- The state after `mm_free(a); mm_free(c)` on `demo_s4`. -/
def demo_s6 : State :=
  stateOf (do
    let st ← mm_free demo_s4 4112
    mm_free st 4176)

/-- The state after `mm_free(b)` on `demo_s6`: coalescing case 4. -/
def demo_s7 : State := stateOf (mm_free demo_s6 4144)

end Expl

namespace Expl

/-- The state after `mm_init(); mm_malloc(64)`. -/
def s1_scenario : State := stateOf ((mm_malloc 3 demo_s0 64).map Prod.fst)

end Expl

namespace Expl

/-- The state after `mm_init(); mm_malloc(4080)`: the only free block is taken
whole and the free list is empty. -/
def empty_s1 : State := stateOf ((mm_malloc 3 demo_s0 4080).map Prod.fst)

/-- The state `demo_s6` after `mm_free(b)` has marked the block 4136 of `b` free
(header and footer written), just before it calls `coalesce_block`. -/
def marked_s6 : State :=
  stateOf (do
    let st ← write_header demo_s6 4136 32 false
    write_footer st 4136 32 false)

/-- The state after `coalesce_block(4136)` on `marked_s6`: coalescing case 4. -/
def merged_s7 : State := stateOf (coalesce_block marked_s6 4136)

end Expl

/-! ## Specification vocabulary for the explicit free list -/

namespace Expl

/-- The `next` field of the node at `p`. -/
def nxt (m : Mem) (p : Nat) : Nat := m (p + 16)

/-- The `previous` field of the node at `p`. -/
def prv (m : Mem) (p : Nat) : Nat := m (p + 8)

/-- The nodes `l` are linked from `a` to `e`: each node's `next` is the node
after it (`e` after the last one), and the `previous` of that successor points
back. -/
def Seg (m : Mem) : Nat → List Nat → Nat → Prop
  | a, [], e => a = e
  | a, n :: r, e => n = a ∧ Seg m (nxt m a) r e ∧ prv m (nxt m a) = a

/-- A pointer that can be a list node: not null, aligned like the block
addresses of the heap (`c` modulo 16), with its three words inside the 64-bit
address space. -/
def NodeOK (c p : Nat) : Prop := p ≠ 0 ∧ p % 16 = c % 16 ∧ p + 24 ≤ 2 ^ 64

/-- The free list of `st` is well-formed with traversal `L` from
`free_list_root`: a circular doubly-linked list of distinct nodes whose length is
`free_list_len`; the empty list is `free_list_root == NULL`. -/
def FreeList (st : State) (c : Nat) (L : List Nat) : Prop :=
  st.free_list_len = L.length ∧ L.Nodup ∧ (∀ n ∈ L, NodeOK c n) ∧
  (L = [] → st.free_list_root = 0) ∧
  (L ≠ [] → Seg st.mem st.free_list_root L st.free_list_root)

/-- The heap after the four stores of `connect_block(x)` with root `R`. -/
def link_before (m : Mem) (x R : Nat) : Mem :=
  (((m.write (x + 16) R).write (x + 8) (prv m R)).write (prv m R + 16) x).write (R + 8) x

/-- The heap after `append_free_list` has made `x` the only node. -/
def link_self (m : Mem) (x : Nat) : Mem := (m.write (x + 8) x).write (x + 16) x

/-- Whether the node at `n` is a free block of size at least `asize`. -/
def fits (m : Mem) (asize n : Nat) : Bool :=
  !extract_alloc (m n) && decide (asize ≤ extract_size (m n))

/-- Best fit over a node list with the best node so far: a later node replaces
it only when it fits and is strictly smaller. -/
def bestOf (m : Mem) (asize : Nat) : List Nat → Nat → Nat
  | [], best => best
  | n :: r, best =>
    bestOf m asize r
      (if fits m asize n then
        if best = 0 then n else if extract_size (m n) < extract_size (m best) then n else best
      else best)

/-- The node `b` is the best fit of the node list `P`: null when no node of `P`
fits, otherwise a fitting node of `P` that is strictly smaller than every
fitting node before it and at most as large as every fitting node after it. -/
def BestAt (m : Mem) (asize : Nat) (P : List Nat) (b : Nat) : Prop :=
  (b = 0 ∧ ∀ n ∈ P, fits m asize n = false) ∨
  (b ≠ 0 ∧ ∃ p1 p2, P = p1 ++ b :: p2 ∧ fits m asize b = true ∧
    (∀ n ∈ p1, fits m asize n = true → extract_size (m b) < extract_size (m n)) ∧
    (∀ n ∈ p2, fits m asize n = true → extract_size (m b) ≤ extract_size (m n)))

/-- The state after `mm_init()`, six calls of `mm_malloc` that fill the heap with
allocated blocks of sizes 32, 32, 64, 32, 128 and 3808, and `mm_free` of the
first, third and fifth: the free list holds blocks of sizes 32, 64 and 128. -/
def three_s : State :=
  stateOf (do
    let a ← mm_malloc 3 demo_s0 16
    let s1 ← mm_malloc 3 a.1 16
    let b ← mm_malloc 3 s1.1 48
    let s2 ← mm_malloc 3 b.1 16
    let c ← mm_malloc 3 s2.1 112
    let r ← mm_malloc 3 c.1 3792
    let st ← mm_free r.1 a.2
    let st ← mm_free st b.2
    mm_free st c.2)

end Expl

namespace Expl

/-! ## The invariant checker and the states of the last scenarios -/

/-- The `do ... while` loop of `find_block_in_free_list` (lines 162-167),
started at `temp`. -/
def find_block_loop (st : State) (target : Nat) : Nat → Nat → M Bool
  | 0, _ => throw Err.out_of_fuel
  | fuel + 1, temp =>
    if target = temp then pure true
    else do
      let temp ← load st temp off_next
      if temp ≠ st.free_list_root then find_block_loop st target fuel temp
      else pure false

/-- Source `find_block_in_free_list` (lines 159-170). -/
def find_block_in_free_list (fuel : Nat) (st : State) (target : Nat) : M Bool :=
  find_block_loop st target fuel st.free_list_root

/-- The `while` loop of `debug_free_list` (lines 176-184) with the counter
`count`; `ff` is the fuel of each call of `find_block_in_free_list`. -/
def debug_free_list_loop (st : State) (ff : Nat) : Nat → Nat → Int → M Bool
  | 0, _, _ => throw Err.out_of_fuel
  | fuel + 1, temp, count =>
    if temp = st.heap_end then pure (decide (count = st.free_list_len))
    else do
      let al ← get_alloc st temp
      if !al then do
        let count := count + 1
        let found ← find_block_in_free_list ff st temp
        if !found then pure false
        else do
          let temp ← find_next st temp
          debug_free_list_loop st ff fuel temp count
      else do
        let sz ← get_size st temp
        if 5 * chunksize ≤ sz then pure false
        else do
          let temp ← find_next st temp
          debug_free_list_loop st ff fuel temp count

/-- Source `debug_free_list` (lines 172-187). -/
def debug_free_list (fuel ff : Nat) (st : State) : M Bool :=
  debug_free_list_loop st ff fuel st.heap_start 0

/-- The heap after the two stores of `disconnect_block(x)`: the predecessor of
`x` points to its successor and back. -/
def unlink (m : Mem) (x : Nat) : Mem :=
  (m.write (prv m x + 16) (nxt m x)).write (nxt m x + 8) (prv m x)

/-- The state after `mm_init(); mm_malloc(20480)`: the heap holds one allocated
block of 20496 bytes and one free block. -/
def big_s1 : State := stateOf ((mm_malloc 9 demo_s0 20480).map Prod.fst)

/-- The state after `mm_init()`, seven calls `mm_malloc(16)` (blocks of 32
bytes at 4104, 4136, ..., 4296), `mm_malloc(3856)` (the rest of the heap) and
`mm_free` of the first, third and seventh block: the free list is
`[4104, 4168, 4296]`, sorted by address. -/
def sorted_s : State :=
  stateOf (do
    let b1 ← mm_malloc 3 demo_s0 16
    let b2 ← mm_malloc 3 b1.1 16
    let b3 ← mm_malloc 3 b2.1 16
    let b4 ← mm_malloc 3 b3.1 16
    let b5 ← mm_malloc 3 b4.1 16
    let b6 ← mm_malloc 3 b5.1 16
    let b7 ← mm_malloc 3 b6.1 16
    let b8 ← mm_malloc 3 b7.1 3856
    let st ← mm_free b8.1 b1.2
    let st ← mm_free st b3.2
    mm_free st b7.2)

/-- The state `sorted_s` after the block 4232 (the fifth block, whose
neighbours are allocated) has been marked free, header and footer. -/
def sorted_marked : State :=
  stateOf (do
    let st ← write_header sorted_s 4232 32 false
    write_footer st 4232 32 false)

/-- The state after `append_free_list(4232, 3)` on `sorted_marked`. -/
def sorted_after : State := stateOf (append_free_list sorted_marked 4232 3)

end Expl

namespace Adv

/-- The state after `extend_heap(chunksize)` on `full_s1`, where the client has
stored nothing in its payload. -/
def full_s2 : State := (extend_heap full_s1 chunksize).1

end Adv

namespace Expl

/-! ## Specification vocabulary for the invariant checker -/

/-- The nodes `l` are met from `a` to `e` by following `next` links only. -/
def NextSeg (m : Mem) : Nat → List Nat → Nat → Prop
  | a, [], e => a = e
  | a, n :: r, e => n = a ∧ NextSeg m (nxt m a) r e

/-- The blocks `bs` tile the heap from `a` to `e`: each header holds the size
and the alloc bit of its block, sizes are positive, and each block is followed
by the next one. -/
def Tiled (m : Mem) : Nat → List Blk → Nat → Prop
  | a, [], e => a = e
  | a, b :: r, e =>
    b.addr = a ∧ a ≠ 0 ∧ extract_size (m a) = b.sz ∧ extract_alloc (m a) = b.al ∧ 0 < b.sz ∧
      Tiled m (a + b.sz) r e

/-- Number of free blocks of a block list. -/
def countFree (bs : List Blk) : Nat := (bs.filter (fun b => !b.al)).length

end Expl

/-! ## Specification vocabulary for the basic implicit variant -/

namespace Basic

/-- Block `b` is laid out in memory `m`: its header holds `pack b.sz b.al`, its
size is a multiple of 16 and at least 16 (at least 32 in strict mode), and its
footer agrees with the header on the alloc bit; the footer equals the header
word for every free block, and for every block in strict mode. -/
def BlockOK (s : Bool) (m : Mem) (b : Blk) : Prop :=
  m b.addr = pack b.sz b.al ∧ b.sz % 16 = 0 ∧ 16 ≤ b.sz ∧ (s = true → 32 ≤ b.sz) ∧
  extract_alloc (m (b.addr + b.sz - 8)) = b.al ∧
  ((s = true ∨ b.al = false) → m (b.addr + b.sz - 8) = pack b.sz b.al)

/-- The blocks `bs` tile the addresses from `a` to `e` exactly. -/
def Chain (s : Bool) (m : Mem) : Nat → List Blk → Nat → Prop
  | a, [], e => a = e
  | a, b :: r, e => b.addr = a ∧ BlockOK s m b ∧ Chain s m (a + b.sz) r e

/-- No two consecutive blocks of the list are both free. -/
def NoAdjFree (bs : List Blk) : Prop :=
  List.Chain' (fun x y : Blk => x.al = true ∨ y.al = true) bs

/-- The heap invariant: `bs` is the block sequence between `heap_start` and
`heap_end`, no two neighbours are free, prologue footer and epilogue header are
in place, and the heap ends eight bytes below the break, inside the 64-bit
address space. -/
def Inv (s : Bool) (st : State) (bs : List Blk) : Prop :=
  Chain s st.mem st.heap_start bs st.heap_end ∧ NoAdjFree bs ∧
  st.mem (st.heap_start - 8) = pack 0 true ∧ st.mem st.heap_end = pack 0 true ∧
  8 ≤ st.heap_start ∧ st.heap_end + 8 = st.mem_brk ∧
  st.mem_brk ≤ st.mem_max_addr ∧ st.mem_max_addr ≤ WORD

/-- Merging the free block `B` with its predecessor when that one is free. -/
def mergePrev (pre : List Blk) (B : Blk) : List Blk × Blk :=
  match pre.getLast? with
  | some P => if P.al then (pre, B) else (pre.dropLast, ⟨P.addr, P.sz + B.sz, false⟩)
  | none => (pre, B)

/-- Merging the free block `l.2` with its successor when that one is free. -/
def mergeNext (l : List Blk × Blk) (post : List Blk) : List Blk :=
  match post with
  | N :: r =>
    if N.al then l.1 ++ l.2 :: post else l.1 ++ ⟨l.2.addr, l.2.sz + N.sz, false⟩ :: r
  | [] => l.1 ++ [l.2]

/-- Block list after the free block `B` (already marked free) is merged with
those of its two neighbours that are free. -/
def mergeInto (pre : List Blk) (B : Blk) (post : List Blk) : List Blk :=
  mergeNext (mergePrev pre B) post

/-- Block list after the free block `B` is placed for a request of block size
`asize` and split when the remainder is at least `min_block_size`. -/
def placeInto (pre : List Blk) (B : Blk) (post : List Blk) (asize : Nat) : List Blk :=
  if min_block_size ≤ B.sz - asize then
    if asize = 0 then pre ++ ⟨B.addr, B.sz, false⟩ :: post
    else pre ++ ⟨B.addr, asize, true⟩ :: ⟨B.addr + asize, B.sz - asize, false⟩ :: post
  else pre ++ ⟨B.addr, B.sz, true⟩ :: post

/-- First fit over a block list: address of the first free block of size at
least `asize`, `0` when there is none. -/
def firstFit (asize : Nat) : List Blk → Nat
  | [] => 0
  | b :: r => if !b.al && decide (asize ≤ b.sz) then b.addr else firstFit asize r

end Basic

namespace Basic

/-- Header-class addresses (those congruent to `heap_start` modulo 16) below the
old `heap_end` keep their word, or hold a word with the alloc bit clear, or are
the start of an allocated block of the new block list. -/
def HdrStep (st st2 : State) (bs2 : List Blk) : Prop :=
  ∀ x, x % 16 = st.heap_start % 16 → x < st.heap_end →
    st2.mem x = st.mem x ∨ extract_alloc (st2.mem x) = false ∨
      ∃ sz, (⟨x, sz, true⟩ : Blk) ∈ bs2

/-- One allocator step that frees nothing: the invariant holds afterwards, the
heap only grows, every allocated block is still there, and no word of an
allocated block below its footer has changed; in strict mode no word of an
allocated block and no word below `heap_start` has changed. -/
def Step (s : Bool) (st : State) (bs : List Blk) (st2 : State) (bs2 : List Blk) : Prop :=
  Inv s st2 bs2 ∧ st2.heap_start = st.heap_start ∧ st.heap_end ≤ st2.heap_end ∧
  st2.mem_max_addr = st.mem_max_addr ∧ HdrStep st st2 bs2 ∧
  (∀ b ∈ bs, b.al = true → b ∈ bs2) ∧
  (∀ b ∈ bs, b.al = true → ∀ x, b.addr ≤ x → x < b.addr + b.sz - 8 → st2.mem x = st.mem x) ∧
  (s = true →
    (∀ b ∈ bs, b.al = true → ∀ x, b.addr ≤ x → x < b.addr + b.sz → st2.mem x = st.mem x) ∧
    (∀ x, x < st.heap_start → st2.mem x = st.mem x))

/-- The outstanding allocations `out` (payload pointer, requested size) against
the block list.  Always: an outstanding pointer is a header-class address of the
heap, and when its header word has the alloc bit set it is an allocated block.
In strict mode: every outstanding pointer is an allocated block that holds the
requested size, and no pointer is outstanding twice. -/
def OutOK (s : Bool) (st : State) (bs : List Blk) (out : List (Nat × Nat)) : Prop :=
  (∀ pr ∈ out, st.heap_start + 8 ≤ pr.1 ∧ pr.1 < st.heap_end + 8 ∧
    (pr.1 - 8) % 16 = st.heap_start % 16 ∧
    (extract_alloc (st.mem (pr.1 - 8)) = true → ∃ sz, (⟨pr.1 - 8, sz, true⟩ : Blk) ∈ bs)) ∧
  (s = true →
    (∀ pr ∈ out, ∃ sz, (⟨pr.1 - 8, sz, true⟩ : Blk) ∈ bs ∧ pr.2 + 16 ≤ sz) ∧
    (out.map Prod.fst).Nodup)

/-- States reachable from a successful `mm_init` on the provider state `p0` by
`mm_malloc` calls whose request size satisfies `ok` and by `mm_free` calls on
outstanding pointers, together with the list of outstanding allocations
(pointer, requested size).  The provider hands out addresses of the 64-bit
address space.  A `mm_malloc` call is part of a run only when it returns, so
the provider has granted every growth request it made. -/
inductive Reach (ok : Nat → Prop) (p0 : State) : State → List (Nat × Nat) → Prop
  | init (st : State) : p0.mem_max_addr ≤ WORD → mm_init p0 = (st, 0) → Reach ok p0 st []
  | malloc (st st2 : State) (out : List (Nat × Nat)) (fuel size p : Nat) :
      Reach ok p0 st out → ok size → size < WORD → mm_malloc fuel st size = some (st2, p) →
      Reach ok p0 st2 (if p = 0 then out else (p, size) :: out)
  | free (st st2 : State) (out : List (Nat × Nat)) (p n : Nat) :
      Reach ok p0 st out → (p, n) ∈ out → mm_free st p = some st2 →
      Reach ok p0 st2 (out.erase (p, n))

/-- Request sizes for which the rounding `round_up(size + dsize, dsize)` of
`mm_malloc` does not wrap: non-zero and `size + 31 < 2^64`. -/
def SizeOk (n : Nat) : Prop := n ≠ 0 ∧ n + 31 < WORD

/-- Request sizes that are non-zero and for which `size + 16` does not wrap. -/
def SizeNoWrap16 (n : Nat) : Prop := n ≠ 0 ∧ n + 16 < WORD

/-- Any request size. -/
def SizeAny (_ : Nat) : Prop := True

/-- Size of the last block of the list when that block is free, else `0`. -/
def tailFree (bs : List Blk) : Nat :=
  match bs.getLast? with
  | some b => if b.al then 0 else b.sz
  | none => 0

/-- Payload ranges `[p, p + size)` of the outstanding allocations are pairwise
disjoint. -/
def PayloadsDisjoint (out : List (Nat × Nat)) : Prop :=
  out.Pairwise (fun x y => x.1 + x.2 ≤ y.1 ∨ y.1 + y.2 ≤ x.1)

end Basic

namespace Basic

/-- A provider whose first address is `brk` and whose limit is `max`; the
allocator globals are still unset. -/
def provider (brk max : Nat) : State := ⟨fun _ => 0, 0, 0, brk, max⟩

/-- A provider with room for 255 chunks after the initial one. -/
def demo_p0 : State := provider 4096 1048576

/-- The state after `mm_init` on `demo_p0`. -/
def demo_s0 : State := (mm_init demo_p0).1

/-- The state after `mm_init(); mm_malloc(64)`. -/
def demo_s1 : State := ((mm_malloc 2 demo_s0 64).getD (demo_s0, 0)).1

/-- A provider with room for exactly the initial chunk. -/
def tight_p0 : State := provider 4096 8208

/-- The state after `mm_init` on `tight_p0`: the provider is exhausted. -/
def tight_s0 : State := (mm_init tight_p0).1

/-- The state after `mm_init(); mm_malloc(2^64 - 20)` on `demo_p0`. -/
def wrap_s1 : State := ((mm_malloc 2 demo_s0 18446744073709551596).getD (demo_s0, 0)).1

/-- The state after `mm_init(); mm_malloc(2^64 - 20); mm_malloc(1)`. -/
def wrap_s2 : State := ((mm_malloc 2 wrap_s1 1).getD (demo_s0, 0)).1

end Basic

namespace Basic

/-- The state after `mm_init(); a = mm_malloc(32)`. -/
def two_s1 : State := ((mm_malloc 2 demo_s0 32).getD (demo_s0, 0)).1

/-- The state after `mm_init(); a = mm_malloc(32); b = mm_malloc(32)`. -/
def two_s2 : State := ((mm_malloc 2 two_s1 32).getD (demo_s0, 0)).1

end Basic

namespace Basic

/-- The state after `mm_init()` in which `mm_malloc` has marked the block 4104
of size 4096 allocated, just before it calls `split_block`. -/
def marked_s0 : State := write_footer (write_header demo_s0 4104 4096 true) 4104 4096 true

end Basic

namespace Basic

/-- Size of the first block of the list when that block is free, else `0`. -/
def headFree (bs : List Blk) : Nat :=
  match bs.head? with
  | some b => if b.al then 0 else b.sz
  | none => 0

/-- The state `demo_s1` (after `mm_init(); mm_malloc(64)`) in which `mm_free` has
marked the block 4104 of size 80 free, just before it calls `coalesce_block`. -/
def freed_s1 : State := write_footer (write_header demo_s1 4104 80 false) 4104 80 false

end Basic

namespace Basic

/-- The state after `mm_init(); a = mm_malloc(64); r = mm_malloc(2^64 - 20)`,
where `a = 4112` and `r = 4192`. -/
def frame_s2 : State := ((mm_malloc 2 demo_s1 18446744073709551596).getD (demo_s0, 0)).1

/-- The state after `mm_free(a)` on `frame_s2`. -/
def frame_s3 : State := (mm_free frame_s2 4112).getD demo_s0

end Basic

namespace Basic

/-! ## Runs with client stores -/

/-- The client stores the word `v` at address `a`. -/
def client_write (st : State) (a v : Nat) : State := { st with mem := st.mem.write a v }

/-- Request sizes whose rounding `round_up(size + dsize, dsize)` in `mm_malloc`
does not wrap: `size + 31 < 2^64`; zero is such a size. -/
def SizeFits (n : Nat) : Prop := n + 31 < WORD

/-- States reachable from a successful `mm_init` on the provider state `p0` by
`mm_malloc` calls whose request size satisfies `ok`, by `mm_free` calls on
outstanding pointers, and by stores of the client into its outstanding
allocations: a store writes any word at an address inside the requested
payload range `[p, p + n)` (a store of fewer bytes is a store of the word that
holds them).  The second index is the list of outstanding allocations
(pointer, requested size). -/
inductive Run (ok : Nat → Prop) (p0 : State) : State → List (Nat × Nat) → Prop
  | init (st : State) : p0.mem_max_addr ≤ WORD → mm_init p0 = (st, 0) → Run ok p0 st []
  | malloc (st st2 : State) (out : List (Nat × Nat)) (fuel size p : Nat) :
      Run ok p0 st out → ok size → size < WORD → mm_malloc fuel st size = some (st2, p) →
      Run ok p0 st2 (if p = 0 then out else (p, size) :: out)
  | free (st st2 : State) (out : List (Nat × Nat)) (p n : Nat) :
      Run ok p0 st out → (p, n) ∈ out → mm_free st p = some st2 →
      Run ok p0 st2 (out.erase (p, n))
  | store (st : State) (out : List (Nat × Nat)) (p n x v : Nat) :
      Run ok p0 st out → (p, n) ∈ out → p ≤ x → x < p + n →
      Run ok p0 (client_write st x v) out

/-- The state after `mm_init(); a = mm_malloc(32); b = mm_malloc(32);
c = mm_malloc(16)`, where `a = 4112`, `b = 4160` and `c = 4208`. -/
def trio_s3 : State := ((mm_malloc 6 two_s2 16).getD (demo_s0, 0)).1

/-- The state after `mm_free(a)` on `trio_s3`. -/
def trio_s4 : State := (mm_free trio_s3 4112).getD demo_s0

/-- The state `trio_s3` after the client has stored the word 7 in the first
payload word of `b`. -/
def trio_w4 : State := client_write trio_s3 4160 7

/-- The state after `mm_free(a)` on `trio_w4`. -/
def trio_w5 : State := (mm_free trio_w4 4112).getD demo_s0

/-- The state after `mm_init(); a = mm_malloc(16)`, where `a = 4112`. -/
def adj_s1 : State := ((mm_malloc 2 demo_s0 16).getD (demo_s0, 0)).1

/-- The state after `c = mm_malloc(2^64 - 1)` on `adj_s1`: the rounding wraps
to block size 16, and `c = 4144` is the address of the footer of its block. -/
def adj_s2 : State := ((mm_malloc 6 adj_s1 18446744073709551615).getD (demo_s0, 0)).1

/-- The state after `d = mm_malloc(16)` on `adj_s2`, where `d = 4160`. -/
def adj_s3 : State := ((mm_malloc 6 adj_s2 16).getD (demo_s0, 0)).1

/-- The state after `e = mm_malloc(16)` on `adj_s3`, where `e = 4192`. -/
def adj_s4 : State := ((mm_malloc 6 adj_s3 16).getD (demo_s0, 0)).1

/-- The state after `mm_free(a)` on `adj_s4`. -/
def adj_s5 : State := (mm_free adj_s4 4112).getD demo_s0

/-- The state `adj_s5` after the client has stored the word 16 in the first
payload word of `c`. -/
def adj_s6 : State := client_write adj_s5 4144 16

/-- The state after `mm_free(d)` on `adj_s6`. -/
def adj_s7 : State := (mm_free adj_s6 4160).getD demo_s0

/-- The state after `mm_init(); c = mm_malloc(2^64 - 1)`, where `c = 4112` is
the address of the footer of its 16-byte block. -/
def loop_s1 : State := ((mm_malloc 2 demo_s0 18446744073709551615).getD (demo_s0, 0)).1

/-- The state after `d = mm_malloc(16)` on `loop_s1`, where `d = 4128`. -/
def loop_s2 : State := ((mm_malloc 6 loop_s1 16).getD (demo_s0, 0)).1

/-- The state `loop_s2` after the client has stored the word 0 in the first
payload word of `c`. -/
def loop_s3 : State := client_write loop_s2 4112 0

/-- The state after `mm_free(d)` on `loop_s3`. -/
def loop_s4 : State := (mm_free loop_s3 4128).getD demo_s0

end Basic

/-! ## Machine arithmetic lemmas -/

theorem add64_eq {a b : Nat} (h : a + b < 2 ^ 64) : add64 a b = a + b := by
  unfold add64 WORD
  exact Nat.mod_eq_of_lt h

theorem sub64_eq {a b : Nat} (hb : b ≤ a) (ha : a < 2 ^ 64) : sub64 a b = a - b := by
  unfold sub64 WORD
  have h1 : b % 2 ^ 64 = b := Nat.mod_eq_of_lt (by omega)
  rw [h1]
  omega

theorem land_size_mask (w : Nat) : w &&& size_mask = (w / 16 % 2 ^ 60) * 16 := by
  have h : size_mask = (2 ^ 60 - 1) <<< 4 := by decide
  rw [h]
  apply Nat.eq_of_testBit_eq
  intro i
  simp only [Nat.testBit_and, Nat.testBit_shiftLeft, Nat.testBit_two_pow_sub_one]
  rw [show (w / 16 % 2 ^ 60) * 16 = (w / 16 % 2 ^ 60) <<< 4 by simp [Nat.shiftLeft_eq]]
  rw [Nat.testBit_shiftLeft, Nat.testBit_mod_two_pow]
  rw [show w / 16 = w >>> 4 by simp [Nat.shiftRight_eq_div_pow]]
  rw [Nat.testBit_shiftRight]
  by_cases h4 : 4 ≤ i
  · simp [h4]
    by_cases h5 : i - 4 < 60
    · simp [h5]
    · simp [h5]
  · simp [h4]

theorem lor_one_even (n : Nat) (h : n % 2 = 0) : n ||| 1 = n + 1 := by
  apply Nat.eq_of_testBit_eq
  intro i
  rw [Nat.testBit_or]
  cases i with
  | zero => simp [Nat.testBit_zero, h]; omega
  | succ j =>
    simp [Nat.testBit_succ]
    congr 1
    omega

theorem extract_size_eq (w : Nat) : extract_size w = (w / 16 % 2 ^ 60) * 16 := by
  unfold extract_size
  exact land_size_mask w

theorem extract_size_mod (w : Nat) : extract_size w % 16 = 0 := by
  rw [extract_size_eq]
  omega

theorem extract_size_lt (w : Nat) : extract_size w < 2 ^ 64 := by
  rw [extract_size_eq]
  omega

theorem extract_alloc_eq (w : Nat) : extract_alloc w = decide (w % 2 = 1) := by
  unfold extract_alloc alloc_mask
  rw [Nat.and_one_is_mod]
  rcases Nat.mod_two_eq_zero_or_one w with h | h <;> simp [h]

theorem round_up_eq {n : Nat} (h : n + 15 < 2 ^ 64) :
    round_up n dsize = (n + 15) / 16 * 16 := by
  unfold round_up mul64 add64 sub64 dsize WORD
  have h1 : (16 + (2 ^ 64 - 1 % 2 ^ 64)) % 2 ^ 64 = 15 := by decide
  rw [h1, Nat.mod_eq_of_lt h, Nat.mod_eq_of_lt (by omega)]
  omega

theorem round_up_mod (n : Nat) : round_up n dsize % 16 = 0 := by
  unfold round_up mul64 dsize WORD
  omega

theorem round_up_lt (n : Nat) : round_up n dsize < 2 ^ 64 := by
  unfold round_up mul64 WORD
  exact Nat.mod_lt _ (by decide)

theorem mem_write_same (m : Mem) (a v : Nat) : (m.write a v) a = v := by
  simp [Mem.write]

theorem mem_write_other (m : Mem) {a x : Nat} (v : Nat) (h : x ≠ a) : (m.write a v) x = m x := by
  simp [Mem.write, h]

namespace Basic

theorem pack_false (sz : Nat) : pack sz false = sz := by simp [pack]

theorem pack_true {sz : Nat} (h : sz % 16 = 0) : pack sz true = sz + 1 := by
  simp only [pack, alloc_mask, if_true]
  exact lor_one_even sz (by omega)

theorem pack_zero_true : pack 0 true = 1 := by decide

theorem extract_size_pack {sz : Nat} (al : Bool) (h : sz % 16 = 0) (hlt : sz < 2 ^ 64) :
    extract_size (pack sz al) = sz := by
  rw [extract_size_eq]
  cases al
  · rw [pack_false]; omega
  · rw [pack_true h]; omega

theorem extract_alloc_pack {sz : Nat} (al : Bool) (h : sz % 16 = 0) :
    extract_alloc (pack sz al) = al := by
  rw [extract_alloc_eq]
  cases al
  · rw [pack_false]; simp; omega
  · rw [pack_true h]; simp; omega

end Basic

/-! ## Block chains -/

namespace Basic

theorem blockOK_mk {s : Bool} {m : Mem} {b : Blk} (hh : m b.addr = pack b.sz b.al)
    (hf : m (b.addr + b.sz - 8) = pack b.sz b.al) (hm : b.sz % 16 = 0) (h16 : 16 ≤ b.sz)
    (h32 : s = true → 32 ≤ b.sz) : BlockOK s m b := by
  refine ⟨hh, hm, h16, h32, ?_, fun _ => hf⟩
  rw [hf]
  exact extract_alloc_pack _ hm

theorem blockOK_frame {s : Bool} {m m2 : Mem} {b : Blk} (h : BlockOK s m b)
    (hh : m2 b.addr = m b.addr) (hf : m2 (b.addr + b.sz - 8) = m (b.addr + b.sz - 8)) :
    BlockOK s m2 b := by
  obtain ⟨h1, h2, h3, h4, h5, h6⟩ := h
  refine ⟨by rw [hh]; exact h1, h2, h3, h4, by rw [hf]; exact h5, fun hc => ?_⟩
  rw [hf]
  exact h6 hc

theorem chain_le {s : Bool} {m : Mem} {bs : List Blk} : ∀ {a e : Nat},
    Chain s m a bs e → a ≤ e := by
  induction bs with
  | nil => intro a e h; simp only [Chain] at h; omega
  | cons b r ih =>
    intro a e h
    obtain ⟨_, _, h3⟩ := h
    have := ih h3
    omega

theorem chain_bounds {s : Bool} {m : Mem} {bs : List Blk} : ∀ {a e : Nat},
    Chain s m a bs e → ∀ b ∈ bs, a ≤ b.addr ∧ b.addr + b.sz ≤ e ∧ BlockOK s m b ∧
      b.addr % 16 = a % 16 := by
  induction bs with
  | nil => intro a e _ b hb; simp at hb
  | cons c r ih =>
    intro a e h b hb
    obtain ⟨h1, h2, h3⟩ := h
    rcases List.mem_cons.1 hb with rfl | hb
    · have := chain_le h3
      exact ⟨by omega, by omega, h2, by rw [h1]⟩
    · obtain ⟨i1, i2, i3, i4⟩ := ih h3 b hb
      have := h2.2.1
      exact ⟨by omega, i2, i3, by omega⟩

theorem chain_frame {s : Bool} {m m2 : Mem} {bs : List Blk} : ∀ {a e : Nat},
    Chain s m a bs e → (∀ x, a ≤ x → x < e → m2 x = m x) → Chain s m2 a bs e := by
  induction bs with
  | nil => intro a e h _; exact h
  | cons b r ih =>
    intro a e h hm
    obtain ⟨h1, h2, h3⟩ := h
    have hle := chain_le h3
    have h16 := h2.2.2.1
    refine ⟨h1, blockOK_frame h2 (hm _ (by omega) (by omega)) (hm _ (by omega) (by omega)), ?_⟩
    exact ih h3 (fun x hx1 hx2 => hm x (by omega) hx2)

theorem chain_append {s : Bool} {m : Mem} {xs ys : List Blk} : ∀ {a e : Nat},
    Chain s m a (xs ++ ys) e ↔ ∃ mid, Chain s m a xs mid ∧ Chain s m mid ys e := by
  induction xs with
  | nil =>
    intro a e
    constructor
    · intro h; exact ⟨a, rfl, h⟩
    · rintro ⟨mid, h1, h2⟩
      simp only [Chain] at h1
      subst h1
      exact h2
  | cons b r ih =>
    intro a e
    constructor
    · rintro ⟨h1, h2, h3⟩
      obtain ⟨mid, i1, i2⟩ := ih.1 h3
      exact ⟨mid, ⟨h1, h2, i1⟩, i2⟩
    · rintro ⟨mid, ⟨h1, h2, h3⟩, i2⟩
      exact ⟨h1, h2, ih.2 ⟨mid, h3, i2⟩⟩

theorem chain_snoc {s : Bool} {m : Mem} {xs : List Blk} {b : Blk} {a e : Nat} :
    Chain s m a (xs ++ [b]) e ↔ Chain s m a xs b.addr ∧ BlockOK s m b ∧ b.addr + b.sz = e := by
  rw [chain_append]
  constructor
  · rintro ⟨mid, h1, h2, h3, h4⟩
    simp only [Chain] at h4
    subst h2
    exact ⟨h1, h3, h4⟩
  · rintro ⟨h1, h2, h3⟩
    exact ⟨b.addr, h1, rfl, h2, h3⟩

/-- Two blocks of a chain with the same address are the same block. -/
theorem chain_addr_inj {s : Bool} {m : Mem} {bs : List Blk} : ∀ {a e : Nat},
    Chain s m a bs e → ∀ b ∈ bs, ∀ c ∈ bs, b.addr = c.addr → b = c := by
  induction bs with
  | nil => intro a e _ b hb; simp at hb
  | cons d r ih =>
    intro a e h b hb c hc hbc
    obtain ⟨h1, h2, h3⟩ := h
    have h16 := h2.2.2.1
    rcases List.mem_cons.1 hb with hb1 | hb1
    · rcases List.mem_cons.1 hc with hc1 | hc1
      · rw [hb1, hc1]
      · have := (chain_bounds h3 c hc1).1
        rw [hb1] at hbc
        omega
    · rcases List.mem_cons.1 hc with hc1 | hc1
      · have := (chain_bounds h3 b hb1).1
        rw [hc1] at hbc
        omega
      · exact ih h3 b hb1 c hc1 hbc

theorem chain_disjoint {s : Bool} {m : Mem} {bs : List Blk} : ∀ {a e : Nat},
    Chain s m a bs e → ∀ b ∈ bs, ∀ c ∈ bs, b.addr ≠ c.addr →
      b.addr + b.sz ≤ c.addr ∨ c.addr + c.sz ≤ b.addr := by
  induction bs with
  | nil => intro a e _ b hb; simp at hb
  | cons d r ih =>
    intro a e h b hb c hc hbc
    obtain ⟨h1, h2, h3⟩ := h
    rcases List.mem_cons.1 hb with hb1 | hb1
    · rcases List.mem_cons.1 hc with hc1 | hc1
      · rw [hb1, hc1] at hbc; exact absurd rfl hbc
      · have := (chain_bounds h3 c hc1).1
        left; rw [hb1]; omega
    · rcases List.mem_cons.1 hc with hc1 | hc1
      · have := (chain_bounds h3 b hb1).1
        right; rw [hc1]; omega
      · exact ih h3 b hb1 c hc1 hbc

theorem chain_cover {s : Bool} {m : Mem} {bs : List Blk} : ∀ {a e : Nat},
    Chain s m a bs e → ∀ x, a ≤ x → x < e → ∃ b ∈ bs, b.addr ≤ x ∧ x < b.addr + b.sz := by
  induction bs with
  | nil =>
    intro a e h x h1 h2
    simp only [Chain] at h
    omega
  | cons c r ih =>
    intro a e h x h1 h2
    obtain ⟨c1, _, c3⟩ := h
    by_cases hx : x < a + c.sz
    · exact ⟨c, List.mem_cons_self _ _, by omega, by omega⟩
    · obtain ⟨b, hb, g1, g2⟩ := ih c3 x (by omega) h2
      exact ⟨b, List.mem_cons_of_mem _ hb, g1, g2⟩

theorem chain_al_disjoint {s : Bool} {m : Mem} {bs : List Blk} {a e : Nat}
    (h : Chain s m a bs e) {b c : Blk} (hb : b ∈ bs) (hc : c ∈ bs) (hbal : b.al = true)
    (hcal : c.al = false) : b.addr + b.sz ≤ c.addr ∨ c.addr + c.sz ≤ b.addr := by
  by_cases hne : b.addr = c.addr
  · have := chain_addr_inj h b hb c hc hne
    rw [this, hcal] at hbal
    exact absurd hbal (by simp)
  · exact chain_disjoint h b hb c hc hne

end Basic

/-! ## Reading blocks, first fit -/

namespace Basic

theorem blk_get_size {s : Bool} {st : State} {b : Blk} (h : BlockOK s st.mem b)
    (hlt : b.sz < 2 ^ 64) : get_size st b.addr = b.sz := by
  unfold get_size
  rw [h.1]
  exact extract_size_pack _ h.2.1 hlt

theorem blk_get_alloc {s : Bool} {st : State} {b : Blk} (h : BlockOK s st.mem b) :
    get_alloc st b.addr = b.al := by
  unfold get_alloc
  rw [h.1]
  exact extract_alloc_pack _ h.2.1

theorem blk_find_next {s : Bool} {st : State} {b : Blk} (h : BlockOK s st.mem b)
    (hlt : b.addr + b.sz < 2 ^ 64) : find_next st b.addr = b.addr + b.sz := by
  unfold find_next
  rw [blk_get_size h (by omega)]
  exact add64_eq hlt

theorem footer_addr {b S : Nat} (hb : 8 ≤ b + S) (_h1 : b < 2 ^ 64) (_h2 : S < 2 ^ 64)
    (h3 : b + S - 8 < 2 ^ 64) : sub64 (add64 (add64 b wsize) S) dsize = b + S - 8 := by
  unfold sub64 add64 wsize dsize WORD
  omega

theorem write_hf_eq (st : State) {b S : Nat} (al : Bool) (hm : S % 16 = 0) (hb : 8 ≤ b + S)
    (h1 : b < 2 ^ 64) (h2 : S < 2 ^ 64) (h3 : b + S - 8 < 2 ^ 64) :
    write_footer (write_header st b S al) b S al =
      { st with mem := (st.mem.write b (pack S al)).write (b + S - 8) (pack S al) } := by
  unfold write_footer header_to_footer get_size write_header
  simp only [mem_write_same]
  rw [extract_size_pack al hm h2, footer_addr hb h1 h2 h3]

theorem chain_put {s : Bool} {m : Mem} {pre post : List Blk} {hs he a0 S : Nat} (al : Bool)
    (h1 : Chain s m hs pre a0) (h2 : Chain s m (a0 + S) post he) (hm : S % 16 = 0)
    (h16 : 16 ≤ S) (h32 : s = true → 32 ≤ S) :
    Chain s ((m.write a0 (pack S al)).write (a0 + S - 8) (pack S al)) hs
      (pre ++ ⟨a0, S, al⟩ :: post) he := by
  rw [chain_append]
  refine ⟨a0, chain_frame h1 (fun x _ hx => ?_), rfl, ?_, chain_frame h2 (fun x hx _ => ?_)⟩
  · rw [mem_write_other _ _ (by omega), mem_write_other _ _ (by omega)]
  · apply blockOK_mk
    · show Mem.write _ _ _ a0 = _
      rw [mem_write_other _ _ (by omega), mem_write_same]
    · show Mem.write _ _ _ (a0 + S - 8) = _
      rw [mem_write_same]
    · exact hm
    · exact h16
    · exact h32
  · dsimp only at hx
    rw [mem_write_other _ _ (by omega), mem_write_other _ _ (by omega)]

theorem find_fit_loop_spec {s : Bool} {st : State} {asize : Nat} {bs : List Blk}
    (hW : st.heap_end < 2 ^ 64) : ∀ {a : Nat}, Chain s st.mem a bs st.heap_end →
    ∀ f, (bs.length < f → find_fit_loop st asize f a = some (firstFit asize bs)) ∧
      (∀ r, find_fit_loop st asize f a = some r → r = firstFit asize bs) := by
  induction bs with
  | nil =>
    intro a h f
    simp only [Chain] at h
    cases f with
    | zero => simp [find_fit_loop]
    | succ f => simp [find_fit_loop, h, firstFit]
  | cons b r ih =>
    intro a h f
    obtain ⟨h1, h2, h3⟩ := h
    have hle := chain_le h3
    have h16 := h2.2.2.1
    cases f with
    | zero => simp [find_fit_loop]
    | succ f =>
      have hne : a ≠ st.heap_end := by omega
      subst h1
      simp only [find_fit_loop, hne, if_false, blk_get_alloc h2, blk_get_size h2 (by omega),
        blk_find_next h2 (by omega), firstFit]
      by_cases hc : (!b.al && decide (asize ≤ b.sz)) = true
      · simp [hc]
      · simp only [hc, if_false]
        have := ih h3 f
        simp only [List.length_cons]
        exact ⟨fun hf => this.1 (by omega), this.2⟩

theorem firstFit_pos {asize : Nat} {bs : List Blk} (h : firstFit asize bs ≠ 0) :
    ∃ pre B post, bs = pre ++ B :: post ∧ B.al = false ∧ asize ≤ B.sz ∧
      B.addr = firstFit asize bs := by
  induction bs with
  | nil => simp [firstFit] at h
  | cons b r ih =>
    by_cases hc : (!b.al && decide (asize ≤ b.sz)) = true
    · refine ⟨[], b, r, rfl, ?_, ?_, ?_⟩
      · simpa using (Bool.and_eq_true_iff.1 hc).1
      · simpa using (Bool.and_eq_true_iff.1 hc).2
      · simp [firstFit, hc]
    · have hr : firstFit asize (b :: r) = firstFit asize r := by simp [firstFit, hc]
      rw [hr] at h
      obtain ⟨pre, B, post, e1, e2, e3, e4⟩ := ih h
      exact ⟨b :: pre, B, post, by rw [e1]; rfl, e2, e3, by rw [hr]; exact e4⟩

theorem firstFit_zero {asize : Nat} {bs : List Blk} (h : firstFit asize bs = 0)
    (hpos : ∀ b ∈ bs, b.addr ≠ 0) : ∀ b ∈ bs, b.al = true ∨ b.sz < asize := by
  induction bs with
  | nil => intro b hb; simp at hb
  | cons c r ih =>
    intro b hb
    by_cases hc : (!c.al && decide (asize ≤ c.sz)) = true
    · simp only [firstFit, hc, if_true] at h
      exact absurd h (hpos c (List.mem_cons_self _ _))
    · have hr : firstFit asize (c :: r) = firstFit asize r := by simp [firstFit, hc]
      rw [hr] at h
      rcases List.mem_cons.1 hb with rfl | hb
      · cases hal : b.al
        · right
          simp [hal] at hc
          omega
        · left; rfl
      · exact ih h (fun x hx => hpos x (List.mem_cons_of_mem _ hx)) b hb

end Basic

/-! ## Coalescing -/

namespace Basic

theorem find_prev_footer_eq {a : Nat} (h8 : 8 ≤ a) (ha : a < 2 ^ 64) :
    find_prev_footer a = a - 8 := by
  unfold find_prev_footer wsize
  exact sub64_eq h8 ha

/-- What `coalesce_block` reads about the block before address `a`. -/
theorem prev_info {s : Bool} {st : State} {pre : List Blk} {a hs : Nat} (sz : Nat)
    (hpre : Chain s st.mem hs pre a)
    (hpro : st.mem (hs - 8) = pack 0 true) (h8 : 8 ≤ hs)
    (ha : a < 2 ^ 64) :
    ∃ (pa : Bool) (d : Nat) (pre1 : List Blk),
      extract_alloc (st.mem (find_prev_footer a)) = pa ∧ (pa = true → d = 0) ∧
      (pa = false → extract_size (st.mem (find_prev_footer a)) = d ∧ 16 ≤ d ∧
        get_size st (a - d) = d) ∧
      d % 16 = 0 ∧ hs + d ≤ a ∧ Chain s st.mem hs pre1 (a - d) ∧
      mergePrev pre ⟨a, sz, false⟩ = (pre1, ⟨a - d, d + sz, false⟩) ∧
      (∀ b ∈ pre, b.al = true → b ∈ pre1) ∧ (∀ b ∈ pre1, b ∈ pre) := by
  have hle := chain_le hpre
  rw [find_prev_footer_eq (by clear * - h8 ha hle; omega) ha]
  rcases List.eq_nil_or_concat pre with rfl | ⟨pre2, P, hcc⟩
  on_goal 2 => rw [List.concat_eq_append] at hcc; subst hcc
  · simp only [Chain] at hpre
    refine ⟨true, 0, [], ?_, fun _ => rfl, by simp, by simp, by clear * - h8 ha hle hpre; omega, by simpa using hpre,
      by simp [mergePrev], by simp, by simp⟩
    rw [← hpre, hpro]
    exact extract_alloc_pack _ (by simp)
  · obtain ⟨c1, c2, c3⟩ := chain_snoc.1 hpre
    have hle2 := chain_le c1
    have hP16 := c2.2.2.1
    have hfa : P.addr + P.sz - 8 = a - 8 := by clear * - h8 ha hle c3 hle2 hP16; omega
    cases hal : P.al
    · refine ⟨false, P.sz, pre2, ?_, by simp, fun _ => ⟨?_, hP16, ?_⟩, c2.2.1, by clear * - h8 ha hle c3 hle2 hP16 hfa; omega, ?_, ?_,
        ?_, ?_⟩
      · rw [← hfa, c2.2.2.2.2.1, hal]
      · rw [← hfa, c2.2.2.2.2.2 (Or.inr hal)]
        exact extract_size_pack _ c2.2.1 (by clear * - h8 ha hle c3 hle2 hP16 hfa; omega)
      · have : a - P.sz = P.addr := by clear * - h8 ha hle c3 hle2 hP16 hfa; omega
        rw [this]
        exact blk_get_size c2 (by clear * - h8 ha hle c3 hle2 hP16 hfa this; omega)
      · have : a - P.sz = P.addr := by clear * - h8 ha hle c3 hle2 hP16 hfa; omega
        rw [this]
        exact c1
      · have : a - P.sz = P.addr := by clear * - h8 ha hle c3 hle2 hP16 hfa; omega
        simp [mergePrev, hal, this]
      · intro b hb hbal
        rcases List.mem_append.1 hb with h | h
        · exact h
        · simp only [List.mem_singleton] at h
          rw [h, hal] at hbal
          exact absurd hbal (by simp)
      · intro b hb
        exact List.mem_append_left _ hb
    · refine ⟨true, 0, pre2 ++ [P], ?_, fun _ => rfl, by simp, by simp, by clear * - h8 ha hle c3 hle2 hP16 hfa; omega,
        by simpa using hpre, by simp [mergePrev, hal], fun b hb _ => hb, fun b hb => hb⟩
      rw [← hfa, c2.2.2.2.2.1, hal]

/-- What `coalesce_block` reads about the block that starts at address `n`. -/
theorem next_info {s : Bool} {st : State} {post : List Blk} {n he : Nat}
    (hpost : Chain s st.mem n post he)
    (hepi : st.mem he = pack 0 true) (hW : he + 8 ≤ 2 ^ 64) :
    ∃ (na : Bool) (e : Nat) (post1 : List Blk),
      get_alloc st n = na ∧ (na = true → e = 0) ∧ (na = false → get_size st n = e ∧ 16 ≤ e) ∧
      e % 16 = 0 ∧ Chain s st.mem (n + e) post1 he ∧
      (∀ (l1 : List Blk) (x S : Nat),
        mergeNext (l1, ⟨x, S, false⟩) post = l1 ++ ⟨x, S + e, false⟩ :: post1) ∧
      (∀ b ∈ post, b.al = true → b ∈ post1) ∧ (∀ b ∈ post1, b ∈ post) := by
  cases post with
  | nil =>
    simp only [Chain] at hpost
    refine ⟨true, 0, [], ?_, fun _ => rfl, by simp, by simp, by simpa using hpost,
      by simp [mergeNext], by simp, by simp⟩
    unfold get_alloc
    rw [hpost, hepi]
    exact extract_alloc_pack _ (by simp)
  | cons N r =>
    obtain ⟨c1, c2, c3⟩ := hpost
    have hle := chain_le c3
    subst c1
    cases hal : N.al
    · refine ⟨false, N.sz, r, ?_, by simp, fun _ => ⟨blk_get_size c2 (by clear * - hW hle; omega), c2.2.2.1⟩,
        c2.2.1, c3, by simp [mergeNext, hal], ?_, ?_⟩
      · rw [blk_get_alloc c2, hal]
      · intro b hb hbal
        rcases List.mem_cons.1 hb with h | h
        · rw [h, hal] at hbal
          exact absurd hbal (by simp)
        · exact h
      · intro b hb
        exact List.mem_cons_of_mem _ hb
    · refine ⟨true, 0, N :: r, ?_, fun _ => rfl, by simp, by simp, ?_, by simp [mergeNext, hal],
        fun b hb _ => hb, fun b hb => hb⟩
      · rw [blk_get_alloc c2, hal]
      · exact ⟨rfl, c2, c3⟩

/-- A header-class address is not touched by a header/footer pair unless the
word written there has its alloc bit clear. -/
theorem hdr_frame_free (m : Mem) {a S hs : Nat} (ha : a % 16 = hs % 16) (hS : S % 16 = 0)
    (h8 : 8 ≤ a + S) :
    ∀ x, x % 16 = hs % 16 →
      ((m.write a (pack S false)).write (a + S - 8) (pack S false)) x = m x ∨
      extract_alloc (((m.write a (pack S false)).write (a + S - 8) (pack S false)) x) = false := by
  intro x hx
  have h1 : x ≠ a + S - 8 := by clear * - ha hS h8 hx; omega
  rw [mem_write_other _ _ h1]
  by_cases h2 : x = a
  · right
    rw [h2, mem_write_same]
    exact extract_alloc_pack _ hS
  · left
    exact mem_write_other _ _ h2

/-- Memory effect of `coalesce_block` on a heap whose block at `a` is free. -/
theorem coalesce_spec {s : Bool} {st : State} {pre post : List Blk} {a sz hs he : Nat}
    (hpre : Chain s st.mem hs pre a)
    (hh : st.mem a = pack sz false) (hf : st.mem (a + sz - 8) = pack sz false)
    (hm : sz % 16 = 0) (h16 : 16 ≤ sz) (h32 : s = true → 32 ≤ sz)
    (hpost : Chain s st.mem (a + sz) post he)
    (hpro : st.mem (hs - 8) = pack 0 true) (hepi : st.mem he = pack 0 true)
    (h8 : 8 ≤ hs) (hW : he + 8 ≤ 2 ^ 64) :
    ∃ m2, coalesce_block st a = { st with mem := m2 } ∧
      Chain s m2 hs (mergeInto pre ⟨a, sz, false⟩ post) he ∧
      (∀ x, x < hs ∨ he ≤ x → m2 x = st.mem x) ∧
      (∀ x, x % 16 = hs % 16 → m2 x = st.mem x ∨ extract_alloc (m2 x) = false) ∧
      (∀ b ∈ pre ++ post, b.al = true → b ∈ mergeInto pre ⟨a, sz, false⟩ post) ∧
      (∀ b ∈ mergeInto pre ⟨a, sz, false⟩ post, b.al = true → b ∈ pre ++ post) ∧
      (∃ M ∈ mergeInto pre ⟨a, sz, false⟩ post, M.al = false ∧ M.addr ≤ a ∧
        a + sz ≤ M.addr + M.sz ∧
        ∀ x, x ≠ M.addr → x ≠ M.addr + M.sz - 8 → m2 x = st.mem x) := by
  have hle1 := chain_le hpre
  have hle2 := chain_le hpost
  have ha16 : a % 16 = hs % 16 := by
    rcases List.eq_nil_or_concat pre with rfl | ⟨pre2, P, hcc⟩
    on_goal 2 => rw [List.concat_eq_append] at hcc; subst hcc
    · simp only [Chain] at hpre; clear * - hm h16 h8 hW hle1 hle2 hpre; omega
    · obtain ⟨c1, c2, c3⟩ := chain_snoc.1 hpre
      have := (chain_bounds hpre P (by simp)).2.2.2
      have := c2.2.1
      omega
  obtain ⟨pa, d, pre1, p1, p2, p3, p4, p5, p6, p7, p8, p9⟩ :=
    prev_info sz hpre hpro h8 (a := a) (by clear * - hm h16 h8 hW hle1 hle2 ha16; omega)
  obtain ⟨na, e, post1, n1, n2, n3, n4, n5, n6, n7, n8⟩ := next_info hpost hepi hW
  have hle3 := chain_le n5
  have hsz : get_size st a = sz := by
    unfold get_size
    rw [hh]
    exact extract_size_pack _ hm (by clear * - hm h16 h8 hW hle1 hle2 ha16 p4 p5 n4 hle3; omega)
  have hnext : find_next st a = a + sz := by
    unfold find_next
    rw [hsz]
    exact add64_eq (by clear * - hm h16 h8 hW hle1 hle2 ha16 p4 p5 n4 hle3; omega)
  have hmerge : mergeInto pre ⟨a, sz, false⟩ post = pre1 ++ ⟨a - d, d + sz + e, false⟩ :: post1 := by
    unfold mergeInto
    rw [p7, n6]
  have hmem1 : ∀ b ∈ pre ++ post, b.al = true → b ∈ pre1 ++ ⟨a - d, d + sz + e, false⟩ :: post1 := by
    intro b hb hbal
    rcases List.mem_append.1 hb with h | h
    · exact List.mem_append_left _ (p8 b h hbal)
    · exact List.mem_append_right _ (List.mem_cons_of_mem _ (n7 b h hbal))
  have hmem2 : ∀ b ∈ pre1 ++ ⟨a - d, d + sz + e, false⟩ :: post1, b.al = true → b ∈ pre ++ post := by
    intro b hb hbal
    rcases List.mem_append.1 hb with h | h
    · exact List.mem_append_left _ (p9 b h)
    · rcases List.mem_cons.1 h with h | h
      · rw [h] at hbal
        exact absurd hbal (by simp)
      · exact List.mem_append_right _ (n8 b h)
  rw [hmerge]
  have hput : ∀ S, S = d + sz + e → coalesce_block st a =
      { st with mem := (st.mem.write (a - d) (pack S false)).write (a - d + S - 8) (pack S false) } →
      ∃ m2, coalesce_block st a = { st with mem := m2 } ∧
      Chain s m2 hs (pre1 ++ ⟨a - d, d + sz + e, false⟩ :: post1) he ∧
      (∀ x, x < hs ∨ he ≤ x → m2 x = st.mem x) ∧
      (∀ x, x % 16 = hs % 16 → m2 x = st.mem x ∨ extract_alloc (m2 x) = false) ∧
      (∀ b ∈ pre ++ post, b.al = true → b ∈ pre1 ++ ⟨a - d, d + sz + e, false⟩ :: post1) ∧
      (∀ b ∈ pre1 ++ ⟨a - d, d + sz + e, false⟩ :: post1, b.al = true → b ∈ pre ++ post) ∧
      (∃ M ∈ pre1 ++ ⟨a - d, d + sz + e, false⟩ :: post1, M.al = false ∧ M.addr ≤ a ∧
        a + sz ≤ M.addr + M.sz ∧
        ∀ x, x ≠ M.addr → x ≠ M.addr + M.sz - 8 → m2 x = st.mem x) := by
    intro S hS hco
    subst hS
    refine ⟨_, hco, ?_, ?_, ?_, hmem1, hmem2, ⟨a - d, d + sz + e, false⟩, by simp, rfl,
      by simp only; clear * - hm h16 h8 hW hle1 hle2 ha16 p4 p5 n4 hle3; omega, by simp only; clear * - hm h16 h8 hW hle1 hle2 ha16 p4 p5 n4 hle3; omega, fun x h1 h2 => ?_⟩
    on_goal 4 =>
      simp only at h1 h2
      rw [mem_write_other _ _ h2, mem_write_other _ _ h1]
    · apply chain_put false p6 _ (by clear * - hm h16 h8 hW hle1 hle2 ha16 p4 p5 n4 hle3; omega) (by clear * - hm h16 h8 hW hle1 hle2 ha16 p4 p5 n4 hle3; omega) (fun h => by have := h32 h; clear * - hm h16 h8 hW hle1 hle2 ha16 p4 p5 n4 hle3 this; omega)
      have : a - d + (d + sz + e) = a + sz + e := by clear * - hm h16 h8 hW hle1 hle2 ha16 p4 p5 n4 hle3; omega
      rw [this]
      exact n5
    · intro x hx
      rw [mem_write_other _ _ (by clear * - hm h16 h8 hW hle1 hle2 ha16 p4 p5 n4 hle3 hx; omega), mem_write_other _ _ (by clear * - hm h16 h8 hW hle1 hle2 ha16 p4 p5 n4 hle3 hx; omega)]
    · exact hdr_frame_free _ (by clear * - hm h16 h8 hW hle1 hle2 ha16 p4 p5 n4 hle3; omega) (by clear * - hm h16 h8 hW hle1 hle2 ha16 p4 p5 n4 hle3; omega) (by clear * - hm h16 h8 hW hle1 hle2 ha16 p4 p5 n4 hle3; omega)
  cases pa <;> cases na
  · -- case 4
    obtain ⟨q1, q2, q3⟩ := p3 rfl
    obtain ⟨r1, r2⟩ := n3 rfl
    apply hput (d + sz + e) rfl
    have hprev : find_prev st a = a - d := by
      unfold find_prev
      rw [q1]
      exact sub64_eq (by clear * - hm h16 h8 hW hle1 hle2 ha16 p4 p5 n4 hle3 q2 r2; omega) (by clear * - hm h16 h8 hW hle1 hle2 ha16 p4 p5 n4 hle3 q2 r2; omega)
    have hsize : add64 sz (add64 e d) = d + sz + e := by
      rw [add64_eq (a := e) (b := d) (by clear * - hm h16 h8 hW hle1 hle2 ha16 p4 p5 n4 hle3 q2 r2; omega), add64_eq (by clear * - hm h16 h8 hW hle1 hle2 ha16 p4 p5 n4 hle3 q2 r2; omega)]
      clear * - hm h16 h8 hW hle1 hle2 ha16 p4 p5 n4 hle3 q2 r2; omega
    unfold coalesce_block
    simp only [p1, hnext, n1, hsz, hprev, r1, q3, hsize, Bool.false_and, Bool.and_false, Bool.not_false,
      Bool.and_self, Bool.not_true, if_false, Bool.false_eq_true]
    exact write_hf_eq st false (by clear * - hm h16 h8 hW hle1 hle2 ha16 p4 p5 n4 hle3 q2 r2; omega) (by clear * - hm h16 h8 hW hle1 hle2 ha16 p4 p5 n4 hle3 q2 r2; omega) (by clear * - hm h16 h8 hW hle1 hle2 ha16 p4 p5 n4 hle3 q2 r2; omega) (by clear * - hm h16 h8 hW hle1 hle2 ha16 p4 p5 n4 hle3 q2 r2; omega) (by clear * - hm h16 h8 hW hle1 hle2 ha16 p4 p5 n4 hle3 q2 r2; omega)
  · -- case 3
    obtain ⟨q1, q2, q3⟩ := p3 rfl
    have he0 := n2 rfl
    subst he0
    apply hput (d + sz + 0) rfl
    have hprev : find_prev st a = a - d := by
      unfold find_prev
      rw [q1]
      exact sub64_eq (by clear * - hm h16 h8 hW hle1 hle2 ha16 p4 p5 q2 n4 hle3; omega) (by clear * - hm h16 h8 hW hle1 hle2 ha16 p4 p5 q2 n4 hle3; omega)
    have hsize : add64 sz d = d + sz + 0 := by
      rw [add64_eq (by clear * - hm h16 h8 hW hle1 hle2 ha16 p4 p5 q2 n4 hle3; omega)]
      clear * - hm h16 h8 hW hle1 hle2 ha16 p4 p5 q2 n4 hle3; omega
    unfold coalesce_block
    simp only [p1, hnext, n1, hsz, hprev, q3, hsize, Bool.false_and, Bool.and_false, Bool.not_false,
      Bool.and_self, Bool.not_true, if_false, Bool.false_eq_true, if_true, Bool.true_and]
    exact write_hf_eq st false (by clear * - hm h16 h8 hW hle1 hle2 ha16 p4 p5 q2 n4 hle3; omega) (by clear * - hm h16 h8 hW hle1 hle2 ha16 p4 p5 q2 n4 hle3; omega) (by clear * - hm h16 h8 hW hle1 hle2 ha16 p4 p5 q2 n4 hle3; omega) (by clear * - hm h16 h8 hW hle1 hle2 ha16 p4 p5 q2 n4 hle3; omega) (by clear * - hm h16 h8 hW hle1 hle2 ha16 p4 p5 q2 n4 hle3; omega)
  · -- case 2
    have hd0 := p2 rfl
    subst hd0
    obtain ⟨r1, r2⟩ := n3 rfl
    apply hput (0 + sz + e) rfl
    have hsize : add64 sz e = 0 + sz + e := by
      rw [add64_eq (by clear * - hm h16 h8 hW hle1 hle2 ha16 n4 hle3 p4 p5 r2; omega)]
      clear * - hm h16 h8 hW hle1 hle2 ha16 n4 hle3 p4 p5 r2; omega
    unfold coalesce_block
    simp only [p1, hnext, n1, hsz, r1, hsize, Bool.false_and, Bool.and_false, Bool.not_false,
      Bool.and_self, Bool.not_true, if_false, Bool.false_eq_true, if_true, Bool.true_and]
    exact write_hf_eq st false (by clear * - hm h16 h8 hW hle1 hle2 ha16 n4 hle3 p4 p5 r2; omega) (by clear * - hm h16 h8 hW hle1 hle2 ha16 n4 hle3 p4 p5 r2; omega) (by clear * - hm h16 h8 hW hle1 hle2 ha16 n4 hle3 p4 p5 r2; omega) (by clear * - hm h16 h8 hW hle1 hle2 ha16 n4 hle3 p4 p5 r2; omega) (by clear * - hm h16 h8 hW hle1 hle2 ha16 n4 hle3 p4 p5 r2; omega)
  · -- case 1
    have hd0 := p2 rfl
    subst hd0
    have he0 := n2 rfl
    subst he0
    refine ⟨st.mem, ?_, ?_, fun _ _ => rfl, fun _ _ => Or.inl rfl, hmem1, hmem2,
      ⟨a - 0, 0 + sz + 0, false⟩, by simp, rfl, by simp only; clear * - hm h16 h8 hW hle1 hle2 ha16 p4 p5 n4 hle3; omega, by simp only; clear * - hm h16 h8 hW hle1 hle2 ha16 p4 p5 n4 hle3; omega,
      fun _ _ _ => rfl⟩
    · unfold coalesce_block
      simp only [p1, hnext, n1, Bool.and_self, if_true]
    · rw [chain_append]
      refine ⟨a, by simpa using p6, by simp, ?_, by simpa using n5⟩
      apply blockOK_mk
      · simpa using hh
      · simpa using hf
      · simpa using hm
      · simpa using h16
      · simpa using h32

end Basic

namespace Basic

/-! ## No two adjacent free blocks: list lemmas -/

theorem noAdj_mid {pre post : List Blk} (X : Blk) (h1 : NoAdjFree pre) (h2 : NoAdjFree post)
    (hl : ∀ x ∈ pre.getLast?, x.al = true) (hh : ∀ y ∈ post.head?, y.al = true) :
    NoAdjFree (pre ++ X :: post) := by
  unfold NoAdjFree at *
  rw [List.chain'_append]
  refine ⟨h1, ?_, ?_⟩
  · rw [List.chain'_cons']
    exact ⟨fun y hy => Or.inr (hh y hy), h2⟩
  · intro x hx y hy
    simp only [List.head?_cons, Option.mem_def, Option.some.injEq] at hy
    exact Or.inl (hl x hx)

theorem noAdj_split {pre post : List Blk} {X : Blk} (h : NoAdjFree (pre ++ X :: post)) :
    NoAdjFree pre ∧ NoAdjFree post ∧
      (X.al = false → (∀ x ∈ pre.getLast?, x.al = true) ∧ (∀ y ∈ post.head?, y.al = true)) := by
  unfold NoAdjFree at *
  rw [List.chain'_append, List.chain'_cons'] at h
  obtain ⟨h1, ⟨h2, h3⟩, h4⟩ := h
  refine ⟨h1, h3, fun hX => ⟨fun x hx => ?_, fun y hy => ?_⟩⟩
  · rcases h4 x hx X (by simp) with h | h
    · exact h
    · rw [hX] at h; exact absurd h (by simp)
  · rcases h2 y hy with h | h
    · rw [hX] at h; exact absurd h (by simp)
    · exact h

theorem noAdj_snoc_free {pre : List Blk} {P : Blk} (h : NoAdjFree (pre ++ [P]))
    (hP : P.al = false) : NoAdjFree pre ∧ ∀ x ∈ pre.getLast?, x.al = true := by
  obtain ⟨h1, _, h3⟩ := noAdj_split h
  exact ⟨h1, (h3 hP).1⟩

theorem mergePrev_noAdj {pre : List Blk} (B : Blk) (h : NoAdjFree pre) (hB : B.al = false) :
    NoAdjFree (mergePrev pre B).1 ∧ (∀ x ∈ (mergePrev pre B).1.getLast?, x.al = true) ∧
      (mergePrev pre B).2.al = false := by
  rcases List.eq_nil_or_concat pre with rfl | ⟨pre2, P, hcc⟩
  · simp [mergePrev, hB, NoAdjFree]
  · rw [List.concat_eq_append] at hcc
    subst hcc
    cases hal : P.al
    · obtain ⟨h1, h2⟩ := noAdj_snoc_free h hal
      simp only [mergePrev, List.getLast?_concat, hal, List.dropLast_concat]
      exact ⟨h1, h2, rfl⟩
    · simp only [mergePrev, List.getLast?_concat, hal, if_true]
      refine ⟨h, ?_, hB⟩
      intro x hx
      simp only [Option.mem_def, Option.some.injEq] at hx
      rw [← hx]; exact hal

theorem mergeNext_noAdj {l : List Blk × Blk} {post : List Blk} (h1 : NoAdjFree l.1)
    (h2 : ∀ x ∈ l.1.getLast?, x.al = true) (hp : NoAdjFree post) :
    NoAdjFree (mergeNext l post) := by
  cases post with
  | nil =>
    simp only [mergeNext]
    exact noAdj_mid _ h1 List.chain'_nil h2 (by simp)
  | cons N r =>
    cases hal : N.al
    · simp only [mergeNext, hal]
      have hN := @noAdj_split [] _ _ (by simpa using hp)
      exact noAdj_mid _ h1 hN.2.1 h2 (hN.2.2 hal).2
    · simp only [mergeNext, hal, if_true]
      refine noAdj_mid _ h1 hp h2 ?_
      intro y hy
      simp only [List.head?_cons, Option.mem_def, Option.some.injEq] at hy
      rw [← hy]; exact hal

theorem mergeInto_noAdj {pre post : List Blk} (B : Blk) (h1 : NoAdjFree pre)
    (h2 : NoAdjFree post) (hB : B.al = false) : NoAdjFree (mergeInto pre B post) := by
  obtain ⟨a, b, _⟩ := mergePrev_noAdj B h1 hB
  exact mergeNext_noAdj a b h2

/-! ## Heap growth and initialisation -/

theorem round_up_chunk : round_up chunksize dsize = 4096 := by decide

/-- The effect of a successful `extend_heap(chunksize)` on a heap that ends at
`mem_brk - 8`.  The fields `heap_start` and `heap_end` of the state are not
read. -/
theorem extend_core {s : Bool} {st : State} {bs : List Blk} {hs : Nat}
    (hch : Chain s st.mem hs bs (st.mem_brk - 8)) (hna : NoAdjFree bs)
    (hpro : st.mem (hs - 8) = pack 0 true) (h8 : 8 ≤ hs)
    (hroom : st.mem_brk + 4096 ≤ st.mem_max_addr) (hmax : st.mem_max_addr ≤ WORD) :
    ∃ m2, extend_heap st chunksize =
        ({ st with mem := m2, heap_end := st.mem_brk - 8 + 4096, mem_brk := st.mem_brk + 4096 },
          st.mem_brk - 8) ∧
      Chain s m2 hs (mergeInto bs ⟨st.mem_brk - 8, 4096, false⟩ []) (st.mem_brk - 8 + 4096) ∧
      NoAdjFree (mergeInto bs ⟨st.mem_brk - 8, 4096, false⟩ []) ∧
      m2 (hs - 8) = pack 0 true ∧ m2 (st.mem_brk - 8 + 4096) = pack 0 true ∧
      (∀ x, x < hs → m2 x = st.mem x) ∧
      (∀ x, x % 16 = hs % 16 → x < st.mem_brk - 8 →
        m2 x = st.mem x ∨ extract_alloc (m2 x) = false) ∧
      (∀ b ∈ bs, b.al = true → b ∈ mergeInto bs ⟨st.mem_brk - 8, 4096, false⟩ []) ∧
      (∀ b ∈ bs, b.al = true → ∀ x, b.addr ≤ x → x < b.addr + b.sz → m2 x = st.mem x) ∧
      (∃ M ∈ mergeInto bs ⟨st.mem_brk - 8, 4096, false⟩ [], M.al = false ∧
        M.addr ≤ st.mem_brk - 8 ∧ M.addr + M.sz = st.mem_brk - 8 + 4096 ∧
        ∀ x, x ≠ M.addr → x ≠ st.mem_brk - 8 → x ≠ st.mem_brk - 8 + 4096 - 8 →
          x ≠ st.mem_brk - 8 + 4096 → m2 x = st.mem x) := by
  unfold WORD at hmax
  have hle := chain_le hch
  generalize hE : st.mem_brk - 8 = E at *
  have hbrk : st.mem_brk = E + 8 := by omega
  -- the state just before coalescing
  obtain ⟨m1, hm1⟩ : ∃ m1 : Mem, m1 = ((st.mem.write E (pack 4096 false)).write (E + 4096 - 8)
    (pack 4096 false)).write (E + 4096) (pack 0 true) := ⟨_, rfl⟩
  obtain ⟨st1, hst1⟩ : ∃ st1 : State, st1 =
    { st with mem := m1, heap_end := E + 4096, mem_brk := st.mem_brk + 4096 } := ⟨_, rfl⟩
  have hst1m : st1.mem = m1 := by rw [hst1]
  have hext : extend_heap st chunksize = (coalesce_block st1 E, E) := by
    unfold extend_heap
    rw [round_up_chunk]
    have hs1 : mem_sbrk st 4096 = some ({ st with mem_brk := st.mem_brk + 4096 }, st.mem_brk) := by
      unfold mem_sbrk
      rw [if_pos hroom]
    simp only [hs1]
    have hp : payload_to_header st.mem_brk = E := by
      unfold payload_to_header wsize
      rw [sub64_eq (by omega) (by omega)]
      omega
    simp only [hp]
    rw [write_hf_eq _ false (by omega) (by omega) (by omega) (by omega) (by omega)]
    have hfn : find_next { st with mem_brk := st.mem_brk + 4096, mem :=
        (st.mem.write E (pack 4096 false)).write (E + 4096 - 8) (pack 4096 false) } E
        = E + 4096 := by
      unfold find_next get_size
      simp only
      rw [mem_write_other _ _ (by omega), mem_write_same,
        extract_size_pack false (by omega) (by omega)]
      exact add64_eq (by omega)
    rw [hfn, hst1, hm1]
    rfl
  have hm1E : st1.mem E = pack 4096 false := by
    rw [hst1m, hm1, mem_write_other _ _ (by omega), mem_write_other _ _ (by omega),
      mem_write_same]
  have hm1F : st1.mem (E + 4096 - 8) = pack 4096 false := by
    rw [hst1m, hm1, mem_write_other _ _ (by omega), mem_write_same]
  have hm1N : st1.mem (E + 4096) = pack 0 true := by
    rw [hst1m, hm1, mem_write_same]
  have hm1lo : ∀ x, x < E → st1.mem x = st.mem x := by
    intro x hx
    rw [hst1m, hm1, mem_write_other _ _ (by omega), mem_write_other _ _ (by omega),
      mem_write_other _ _ (by omega)]
  have hch1 : Chain s st1.mem hs bs E := chain_frame hch (fun x _ hx => hm1lo x hx)
  have hpro1 : st1.mem (hs - 8) = pack 0 true := by
    rw [hm1lo _ (by omega)]; exact hpro
  have hpost1 : Chain s st1.mem (E + 4096) [] (E + 4096) := rfl
  obtain ⟨m2, c1, c2, c3, c4, c5, _, M, hM, hMal, hMa, hMe, hMf⟩ :=
    @coalesce_spec s st1 bs [] E 4096 hs
    (E + 4096) hch1 hm1E hm1F
    (by omega) (by omega) (fun _ => by omega) hpost1 hpro1 hm1N h8 (by omega)
  have hm1o : ∀ x, x ≠ E → x ≠ E + 4096 - 8 → x ≠ E + 4096 → st1.mem x = st.mem x := by
    intro x h1 h2 h3
    rw [hst1m, hm1, mem_write_other _ _ h3, mem_write_other _ _ h2, mem_write_other _ _ h1]
  have hMend : M.addr + M.sz = E + 4096 := by
    have := (chain_bounds c2 M hM).2.1
    omega
  refine ⟨m2, ?_, c2, mergeInto_noAdj _ hna List.chain'_nil rfl, ?_, ?_, ?_, ?_, ?_, ?_,
    ⟨M, hM, hMal, hMa, hMend, fun x h0 h1 h2 h3 => ?_⟩⟩
  on_goal 8 =>
    rw [hMf x h0 (by omega)]
    exact hm1o x h1 h2 h3
  · rw [hext, c1, hst1]
  · rw [c3 _ (Or.inl (by omega))]
    exact hpro1
  · rw [c3 _ (Or.inr (by omega))]
    exact hm1N
  · intro x hx
    rw [c3 _ (Or.inl hx)]
    exact hm1lo x (by omega)
  · intro x hx1 hx2
    rcases c4 x hx1 with h | h
    · left; rw [h]; exact hm1lo x hx2
    · right; exact h
  · intro b hb hbal
    exact c5 b (by simpa using hb) hbal
  · intro b hb hbal x hx1 hx2
    have hb2 := c5 b (by simpa using hb) hbal
    have hbE := (chain_bounds hch b hb).2.1
    have hd := chain_al_disjoint c2 hb2 hM hbal hMal
    rw [hMf x (by omega) (by omega)]
    exact hm1lo x (by omega)

end Basic

namespace Basic

theorem step_refl {s : Bool} {st : State} {bs : List Blk} (h : Inv s st bs) :
    Step s st bs st bs :=
  ⟨h, rfl, Nat.le_refl _, rfl, fun _ _ _ => Or.inl rfl, fun _ hb _ => hb,
    fun _ _ _ _ _ _ => rfl, fun _ => ⟨fun _ _ _ _ _ _ => rfl, fun _ _ => rfl⟩⟩

theorem step_trans {s : Bool} {st st2 st3 : State} {bs bs2 bs3 : List Blk}
    (h1 : Step s st bs st2 bs2) (h2 : Step s st2 bs2 st3 bs3) : Step s st bs st3 bs3 := by
  obtain ⟨a1, a2, a3, a4, a5, a6, a7, a8⟩ := h1
  obtain ⟨b1, b2, b3, b4, b5, b6, b7, b8⟩ := h2
  refine ⟨b1, by rw [b2, a2], by omega, by rw [b4, a4], ?_, fun b hb hal => b6 b (a6 b hb hal) hal,
    fun b hb hal x hx1 hx2 => by rw [b7 b (a6 b hb hal) hal x hx1 hx2, a7 b hb hal x hx1 hx2],
    fun hs => ⟨fun b hb hal x hx1 hx2 => by
      rw [(b8 hs).1 b (a6 b hb hal) hal x hx1 hx2, (a8 hs).1 b hb hal x hx1 hx2],
      fun x hx => by rw [(b8 hs).2 x (by rw [a2]; exact hx), (a8 hs).2 x hx]⟩⟩
  intro x hx1 hx2
  rcases b5 x (by rw [a2]; exact hx1) (by omega) with h | h | h
  · rcases a5 x hx1 hx2 with g | g | ⟨sz, g⟩
    · left; rw [h, g]
    · right; left; rw [h]; exact g
    · right; right; exact ⟨sz, b6 _ g rfl⟩
  · right; left; exact h
  · right; right; exact h

theorem extend_heap_fail {st : State} (h : ¬ st.mem_brk + 4096 ≤ st.mem_max_addr) :
    extend_heap st chunksize = (st, 0) := by
  unfold extend_heap
  rw [round_up_chunk]
  have : mem_sbrk st 4096 = none := by
    unfold mem_sbrk
    rw [if_neg h]
  simp only [this]

/-- A successful `extend_heap(chunksize)` on a well-formed heap. -/
theorem extend_heap_spec {s : Bool} {st : State} {bs : List Blk} (hinv : Inv s st bs)
    (hroom : st.mem_brk + 4096 ≤ st.mem_max_addr) :
    ∃ st2, extend_heap st chunksize = (st2, st.heap_end) ∧
      Step s st bs st2 (mergeInto bs ⟨st.heap_end, 4096, false⟩ []) ∧
      st2.heap_end = st.heap_end + 4096 ∧ st2.mem_brk = st.mem_brk + 4096 ∧
      (∃ M ∈ mergeInto bs ⟨st.heap_end, 4096, false⟩ [], M.al = false ∧
        M.addr ≤ st.heap_end ∧ M.addr + M.sz = st.heap_end + 4096 ∧
        ∀ x, x ≠ M.addr → x ≠ st.heap_end → x ≠ st.heap_end + 4096 - 8 →
          x ≠ st.heap_end + 4096 → st2.mem x = st.mem x) := by
  obtain ⟨i1, i2, i3, i4, i5, i6, i7, i8⟩ := hinv
  have hE : st.mem_brk - 8 = st.heap_end := by omega
  obtain ⟨m2, e1, e2, e3, e4, e5, e6, e7, e8, e9, e10⟩ :=
    @extend_core s st bs st.heap_start (by rw [hE]; exact i1) i2 i3
      i5 hroom i8
  rw [hE] at e1 e2 e3 e5 e7 e8 e10
  refine ⟨_, e1, ⟨⟨e2, e3, e4, e5, i5, ?_, ?_, i8⟩, rfl, ?_, rfl, ?_, e8,
    fun b hb hal x hx1 hx2 => e9 b hb hal x hx1 (by omega), fun _ => ⟨e9, e6⟩⟩, rfl, rfl, e10⟩
  · show st.heap_end + 4096 + 8 = st.mem_brk + 4096
    omega
  · exact hroom
  · show st.heap_end ≤ st.heap_end + 4096
    omega
  · intro x hx1 hx2
    rcases e7 x hx1 hx2 with h | h
    · exact Or.inl h
    · exact Or.inr (Or.inl h)

theorem mergeInto_nil_nil (B : Blk) : mergeInto [] B [] = [B] := by
  simp [mergeInto, mergePrev, mergeNext]

/-- A successful `mm_init` leaves one free block of `chunksize` bytes. -/
theorem mm_init_ok {p st : State} (s : Bool) (hmax : p.mem_max_addr ≤ WORD)
    (h : mm_init p = (st, 0)) :
    Inv s st [⟨p.mem_brk + 8, 4096, false⟩] ∧ st.heap_start = p.mem_brk + 8 ∧
      st.heap_end = p.mem_brk + 8 + 4096 ∧ st.mem_max_addr = p.mem_max_addr ∧
      p.mem_brk + 16 + 4096 ≤ p.mem_max_addr := by
  have hW : p.mem_max_addr ≤ 2 ^ 64 := hmax
  unfold mm_init at h
  have h16 : mul64 2 wsize = 16 := by decide
  rw [h16] at h
  by_cases hr1 : p.mem_brk + 16 ≤ p.mem_max_addr
  · have hs1 : mem_sbrk p 16 = some ({ p with mem_brk := p.mem_brk + 16 }, p.mem_brk) := by
      unfold mem_sbrk
      rw [if_pos hr1]
    simp only [hs1] at h
    rw [add64_eq (a := p.mem_brk) (b := wsize) (by unfold wsize; omega)] at h
    obtain ⟨sA, hsA⟩ : ∃ sA : State, sA = { p with
        mem := (p.mem.write p.mem_brk (pack 0 true)).write (p.mem_brk + wsize) (pack 0 true),
        mem_brk := p.mem_brk + 16 } := ⟨_, rfl⟩
    rw [← hsA] at h
    have hA1 : sA.mem_brk = p.mem_brk + 16 := by rw [hsA]
    have hA2 : sA.mem_max_addr = p.mem_max_addr := by rw [hsA]
    by_cases hr2 : sA.mem_brk + 4096 ≤ sA.mem_max_addr
    · have hpro : sA.mem (p.mem_brk + 8 - 8) = pack 0 true := by
        rw [hsA]
        show Mem.write _ _ _ _ = _
        unfold wsize
        rw [mem_write_other _ _ (by omega), show p.mem_brk + 8 - 8 = p.mem_brk by omega,
          mem_write_same]
      have hch : Chain s sA.mem (p.mem_brk + 8) [] (sA.mem_brk - 8) := by
        show p.mem_brk + 8 = sA.mem_brk - 8
        omega
      obtain ⟨m2, e1, e2, e3, e4, e5, e6, e7, e8, _⟩ :=
        @extend_core s sA [] (p.mem_brk + 8) hch List.chain'_nil hpro
          (by omega) hr2 (by rw [hA2]; exact hmax)
      rw [mergeInto_nil_nil] at e2 e3
      have hE : sA.mem_brk - 8 = p.mem_brk + 8 := by omega
      rw [hE] at e1 e2 e3 e5
      rw [e1] at h
      simp only at h
      rw [if_neg (by omega)] at h
      have hst := (Prod.mk.inj h).1
      rw [← hst]
      refine ⟨⟨e2, e3, e4, e5, ?_, ?_, ?_, ?_⟩, rfl, rfl, ?_, ?_⟩
      · show 8 ≤ p.mem_brk + 8
        omega
      · show p.mem_brk + 8 + 4096 + 8 = sA.mem_brk + 4096
        omega
      · show sA.mem_brk + 4096 ≤ sA.mem_max_addr
        exact hr2
      · show sA.mem_max_addr ≤ WORD
        rw [hA2]; exact hmax
      · exact hA2
      · omega
    · rw [extend_heap_fail hr2] at h
      simp at h
  · have hs1 : mem_sbrk p 16 = none := by
      unfold mem_sbrk
      rw [if_neg hr1]
    simp [hs1] at h

end Basic

namespace Basic

/-! ## Placement and splitting -/

theorem split_block_nosplit {st : State} {b bsz asize : Nat} (hsz : get_size st b = bsz)
    (has : asize ≤ bsz) (hlt : bsz < 2 ^ 64) (hsp : ¬ min_block_size ≤ bsz - asize) :
    split_block st b asize = st := by
  unfold split_block
  simp only [hsz]
  rw [sub64_eq has hlt, if_neg hsp]

theorem split_block_split {st : State} {b bsz asize : Nat} (hsz : get_size st b = bsz)
    (has : asize ≤ bsz) (hasm : asize % 16 = 0) (hbm : bsz % 16 = 0) (h8 : 8 ≤ b)
    (hlt : b + bsz + 8 ≤ 2 ^ 64) (hsp : min_block_size ≤ bsz - asize) :
    split_block st b asize = { st with mem :=
      (((st.mem.write b (pack asize true)).write (b + asize - 8) (pack asize true)).write
        (b + asize) (pack (bsz - asize) false)).write (b + bsz - 8) (pack (bsz - asize) false) } := by
  have hsp2 : 32 ≤ bsz - asize := hsp
  unfold split_block
  simp only [hsz]
  rw [sub64_eq has (by clear * - has hasm hbm h8 hlt hsp hsp2; omega), if_pos hsp,
    write_hf_eq st true hasm (by clear * - has hasm hbm h8 hlt hsp hsp2; omega) (by clear * - has hasm hbm h8 hlt hsp hsp2; omega) (by clear * - has hasm hbm h8 hlt hsp hsp2; omega) (by clear * - has hasm hbm h8 hlt hsp hsp2; omega)]
  have hfn : find_next { st with mem :=
      (st.mem.write b (pack asize true)).write (b + asize - 8) (pack asize true) } b
      = b + asize := by
    unfold find_next get_size
    simp only
    rw [mem_write_other _ _ (by clear * - has hasm hbm h8 hlt hsp hsp2; omega), mem_write_same, extract_size_pack true hasm (by clear * - has hasm hbm h8 hlt hsp hsp2; omega)]
    exact add64_eq (by clear * - has hasm hbm h8 hlt hsp hsp2; omega)
  rw [hfn, write_hf_eq _ false (by clear * - has hasm hbm h8 hlt hsp hsp2; omega) (by clear * - has hasm hbm h8 hlt hsp hsp2; omega) (by clear * - has hasm hbm h8 hlt hsp hsp2; omega) (by clear * - has hasm hbm h8 hlt hsp hsp2; omega) (by clear * - has hasm hbm h8 hlt hsp hsp2; omega)]
  have : b + asize + (bsz - asize) - 8 = b + bsz - 8 := by clear * - has hasm hbm h8 hlt hsp hsp2; omega
  rw [this]

theorem placeInto_noAdj {pre post : List Blk} {B : Blk} (asize : Nat)
    (h : NoAdjFree (pre ++ B :: post)) (hB : B.al = false) :
    NoAdjFree (placeInto pre B post asize) := by
  obtain ⟨n1, n2, n3⟩ := noAdj_split h
  obtain ⟨l1, l2⟩ := n3 hB
  unfold placeInto
  split_ifs
  · exact noAdj_mid _ n1 n2 l1 l2
  · have h1 : NoAdjFree (pre ++ [⟨B.addr, asize, true⟩]) :=
      noAdj_mid _ n1 List.chain'_nil l1 (by simp)
    have h2 := noAdj_mid ⟨B.addr + asize, B.sz - asize, false⟩ h1 n2
      (by intro x hx; rw [List.getLast?_concat] at hx; simp at hx; rw [← hx]) l2
    simpa using h2
  · exact noAdj_mid _ n1 n2 l1 l2

/-- Marking the free block `B` allocated and splitting it for block size
`asize`. -/
theorem place_spec {s : Bool} {st : State} {pre post : List Blk} {B : Blk} {asize : Nat}
    (hinv : Inv s st (pre ++ B :: post)) (hB : B.al = false) (has : asize ≤ B.sz)
    (hasm : asize % 16 = 0) (h32 : s = true → 32 ≤ asize) :
    ∃ st2, split_block (write_footer (write_header st B.addr (get_size st B.addr) true) B.addr
        (get_size st B.addr) true) B.addr asize = st2 ∧
      Step s st (pre ++ B :: post) st2 (placeInto pre B post asize) ∧
      st2.heap_end = st.heap_end ∧ st2.mem_brk = st.mem_brk := by
  obtain ⟨i1, i2, i3, i4, i5, i6, i7, i8⟩ := hinv
  unfold WORD at i8
  obtain ⟨mid, c1, c2, c3, c4⟩ := chain_append.1 i1
  subst c2
  have hle1 := chain_le c1
  have hle2 := chain_le c4
  have hsz := blk_get_size c3 (by clear * - has hasm i5 i6 i7 i8 hle1 hle2; omega)
  have ha16 : B.addr % 16 = st.heap_start % 16 := (chain_bounds i1 B (by simp)).2.2.2
  obtain ⟨n1, n2, n3⟩ := noAdj_split i2
  obtain ⟨l1, l2⟩ := n3 hB
  have hBm := c3.2.1
  have hB16 := c3.2.2.1
  rw [hsz, write_hf_eq st true hBm (by clear * - has hasm i5 i6 i7 i8 hle1 hle2 ha16 hBm hB16; omega) (by clear * - has hasm i5 i6 i7 i8 hle1 hle2 ha16 hBm hB16; omega) (by clear * - has hasm i5 i6 i7 i8 hle1 hle2 ha16 hBm hB16; omega) (by clear * - has hasm i5 i6 i7 i8 hle1 hle2 ha16 hBm hB16; omega)]
  obtain ⟨m1, hm1⟩ : ∃ m1 : Mem, m1 =
    (st.mem.write B.addr (pack B.sz true)).write (B.addr + B.sz - 8) (pack B.sz true) := ⟨_, rfl⟩
  rw [← hm1]
  have g1 : get_size { st with mem := m1 } B.addr = B.sz := by
    unfold get_size
    simp only
    rw [hm1, mem_write_other _ _ (by clear * - has hasm i5 i6 i7 i8 hle1 hle2 ha16 hBm hB16; omega), mem_write_same,
      extract_size_pack true hBm (by clear * - has hasm i5 i6 i7 i8 hle1 hle2 ha16 hBm hB16; omega)]
  have hm1lo : ∀ x, x < B.addr ∨ B.addr + B.sz ≤ x → m1 x = st.mem x := by
    intro x hx
    rw [hm1, mem_write_other _ _ (by clear * - has hasm i5 i6 i7 i8 hle1 hle2 ha16 hBm hB16 hx; omega), mem_write_other _ _ (by clear * - has hasm i5 i6 i7 i8 hle1 hle2 ha16 hBm hB16 hx; omega)]
  have hpers : ∀ l : List Blk,
      ∀ b ∈ pre ++ B :: post, b.al = true → b ∈ pre ++ l ++ post := by
    intro l b hb hbal
    rcases List.mem_append.1 hb with h | h
    · exact List.mem_append_left _ (List.mem_append_left _ h)
    · rcases List.mem_cons.1 h with h | h
      · rw [h, hB] at hbal; exact absurd hbal (by simp)
      · exact List.mem_append_right _ h
  have hfr : ∀ b ∈ pre ++ B :: post, b.al = true → ∀ x, b.addr ≤ x → x < b.addr + b.sz - 8 →
      x < B.addr - 8 ∨ B.addr + B.sz ≤ x := by
    intro b hb hbal x hx1 hx2
    rcases List.mem_append.1 hb with h | h
    · have := (chain_bounds c1 b h).2.1
      left; clear * - has hasm i5 i6 i7 i8 hle1 hle2 ha16 hBm hB16 hx1 hx2 this; omega
    · rcases List.mem_cons.1 h with h | h
      · rw [h, hB] at hbal; exact absurd hbal (by simp)
      · have := (chain_bounds c4 b h).1
        right; clear * - has hasm i5 i6 i7 i8 hle1 hle2 ha16 hBm hB16 hx1 hx2 this; omega
  have hfr2 : ∀ b ∈ pre ++ B :: post, b.al = true → ∀ x, b.addr ≤ x → x < b.addr + b.sz →
      x < B.addr ∨ B.addr + B.sz ≤ x := by
    intro b hb hbal x hx1 hx2
    rcases List.mem_append.1 hb with h | h
    · have := (chain_bounds c1 b h).2.1
      left; clear * - this hx2; omega
    · rcases List.mem_cons.1 h with h | h
      · rw [h, hB] at hbal; exact absurd hbal (by simp)
      · have := (chain_bounds c4 b h).1
        right; clear * - this hx1; omega
  by_cases hsp : min_block_size ≤ B.sz - asize
  · rw [split_block_split g1 has hasm hBm (by clear * - has hasm i5 i6 i7 i8 hle1 hle2 ha16 hBm hB16 hsp; omega) (by clear * - has hasm i5 i6 i7 i8 hle1 hle2 ha16 hBm hB16 hsp; omega) hsp]
    unfold min_block_size at hsp
    simp only
    obtain ⟨m3, hm3⟩ : ∃ m3 : Mem, m3 = (((m1.write B.addr (pack asize true)).write
      (B.addr + asize - 8) (pack asize true)).write (B.addr + asize)
      (pack (B.sz - asize) false)).write (B.addr + B.sz - 8) (pack (B.sz - asize) false) :=
      ⟨_, rfl⟩
    rw [← hm3]
    have r4 : m3 (B.addr + B.sz - 8) = pack (B.sz - asize) false := by
      rw [hm3, mem_write_same]
    have r3 : m3 (B.addr + asize) = pack (B.sz - asize) false := by
      rw [hm3, mem_write_other _ _ (by clear * - has hasm i5 i6 i7 i8 hle1 hle2 ha16 hBm hB16 hsp; omega), mem_write_same]
    have r0 : ∀ x, x ≠ B.addr → x ≠ B.addr + asize - 8 → x ≠ B.addr + asize →
        x ≠ B.addr + B.sz - 8 → m3 x = st.mem x := by
      intro x h1 h2 h3 h4
      rw [hm3, mem_write_other _ _ h4, mem_write_other _ _ h3, mem_write_other _ _ h2,
        mem_write_other _ _ h1, hm1, mem_write_other _ _ h4, mem_write_other _ _ h1]
    have hepi : m3 st.heap_end = pack 0 true := by
      rw [r0 _ (by clear * - has hasm i5 i6 i7 i8 hle1 hle2 ha16 hBm hB16 hsp; omega) (by clear * - has hasm i5 i6 i7 i8 hle1 hle2 ha16 hBm hB16 hsp; omega) (by clear * - has hasm i5 i6 i7 i8 hle1 hle2 ha16 hBm hB16 hsp; omega) (by clear * - has hasm i5 i6 i7 i8 hle1 hle2 ha16 hBm hB16 hsp; omega)]; exact i4
    have hpost : Chain s m3 (B.addr + B.sz) post st.heap_end :=
      chain_frame c4 (fun x h1 _ => r0 x (by clear * - has hasm i5 i6 i7 i8 hle1 hle2 ha16 hBm hB16 hsp h1; omega) (by clear * - has hasm i5 i6 i7 i8 hle1 hle2 ha16 hBm hB16 hsp h1; omega) (by clear * - has hasm i5 i6 i7 i8 hle1 hle2 ha16 hBm hB16 hsp h1; omega) (by clear * - has hasm i5 i6 i7 i8 hle1 hle2 ha16 hBm hB16 hsp h1; omega))
    by_cases h0 : asize = 0
    · subst h0
      have hs0 : s = false := by
        cases s
        · rfl
        · have := h32 rfl; clear * - i5 i6 i7 i8 hle1 hle2 ha16 hBm hB16 has hasm hsp this; omega
      subst hs0
      have r1 : m3 B.addr = pack B.sz false := by
        have := r3
        simpa using this
      have r2 : m3 (B.addr - 8) = pack 0 true := by
        rw [hm3, mem_write_other _ _ (by clear * - i5 i6 i7 i8 hle1 hle2 ha16 hBm hB16 has hasm hsp; omega), mem_write_other _ _ (by clear * - i5 i6 i7 i8 hle1 hle2 ha16 hBm hB16 has hasm hsp; omega)]
        exact mem_write_same _ _ _
      have hplace : placeInto pre B post 0 = pre ++ ⟨B.addr, B.sz, false⟩ :: post := by
        unfold placeInto min_block_size
        rw [if_pos (by clear * - i5 i6 i7 i8 hle1 hle2 ha16 hBm hB16 has hasm hsp; omega), if_pos rfl]
      have hprech : Chain false m3 st.heap_start pre B.addr ∧ m3 (st.heap_start - 8) = pack 0 true := by
        rcases List.eq_nil_or_concat pre with hp | ⟨pre2, P, hcc⟩
        · subst hp
          simp only [Chain] at c1
          exact ⟨c1, by rw [c1]; exact r2⟩
        · rw [List.concat_eq_append] at hcc
          subst hcc
          obtain ⟨d1, d2, d3⟩ := chain_snoc.1 c1
          have hle3 := chain_le d1
          have hPal : P.al = true := l1 P (by rw [List.getLast?_concat]; rfl)
          have hP16 := d2.2.2.1
          refine ⟨chain_snoc.2 ⟨chain_frame d1 (fun x _ hx =>
            r0 x (by clear * - i5 i6 i7 i8 hle1 hle2 ha16 hBm hB16 has hasm hsp d3 hle3 hP16 hx; omega) (by clear * - i5 i6 i7 i8 hle1 hle2 ha16 hBm hB16 has hasm hsp d3 hle3 hP16 hx; omega) (by clear * - i5 i6 i7 i8 hle1 hle2 ha16 hBm hB16 has hasm hsp d3 hle3 hP16 hx; omega) (by clear * - i5 i6 i7 i8 hle1 hle2 ha16 hBm hB16 has hasm hsp d3 hle3 hP16 hx; omega)), ?_, d3⟩, ?_⟩
          · obtain ⟨e1, e2, e3, e4, e5, e6⟩ := d2
            have hfa : P.addr + P.sz - 8 = B.addr - 8 := by clear * - i5 i6 i7 i8 hle1 hle2 ha16 hBm hB16 has hasm hsp d3 hle3 hP16 e2 e3; omega
            refine ⟨by rw [r0 _ (by clear * - i5 i6 i7 i8 hle1 hle2 ha16 hBm hB16 has hasm hsp d3 hle3 hP16 e2 e3 hfa; omega) (by clear * - i5 i6 i7 i8 hle1 hle2 ha16 hBm hB16 has hasm hsp d3 hle3 hP16 e2 e3 hfa; omega) (by clear * - i5 i6 i7 i8 hle1 hle2 ha16 hBm hB16 has hasm hsp d3 hle3 hP16 e2 e3 hfa; omega) (by clear * - i5 i6 i7 i8 hle1 hle2 ha16 hBm hB16 has hasm hsp d3 hle3 hP16 e2 e3 hfa; omega)]; exact e1, e2, e3,
              e4, ?_, ?_⟩
            · rw [hfa, r2, hPal]
              exact extract_alloc_pack _ (by simp)
            · intro hc
              rcases hc with hc | hc
              · exact absurd hc (by simp)
              · rw [hPal] at hc; exact absurd hc (by simp)
          · rw [r0 _ (by clear * - i5 i6 i7 i8 hle1 hle2 ha16 hBm hB16 has hasm hsp d3 hle3 hP16; omega) (by clear * - i5 i6 i7 i8 hle1 hle2 ha16 hBm hB16 has hasm hsp d3 hle3 hP16; omega) (by clear * - i5 i6 i7 i8 hle1 hle2 ha16 hBm hB16 has hasm hsp d3 hle3 hP16; omega) (by clear * - i5 i6 i7 i8 hle1 hle2 ha16 hBm hB16 has hasm hsp d3 hle3 hP16; omega)]; exact i3
      refine ⟨_, rfl, ⟨⟨?_, ?_, hprech.2, hepi, i5, i6, i7, i8⟩, rfl, Nat.le_refl _, rfl, ?_, ?_,
        fun b hb hbal x hx1 hx2 => ?_, fun hs => absurd hs (by simp)⟩, rfl, rfl⟩
      on_goal 5 =>
        have := hfr b hb hbal x hx1 hx2
        exact r0 x (by clear * - i5 i6 i7 i8 hle1 hle2 ha16 hBm hB16 has hasm hsp hx1 hx2 this; omega) (by clear * - i5 i6 i7 i8 hle1 hle2 ha16 hBm hB16 has hasm hsp hx1 hx2 this; omega) (by clear * - i5 i6 i7 i8 hle1 hle2 ha16 hBm hB16 has hasm hsp hx1 hx2 this; omega) (by clear * - i5 i6 i7 i8 hle1 hle2 ha16 hBm hB16 has hasm hsp hx1 hx2 this; omega)
      · rw [hplace, chain_append]
        refine ⟨B.addr, hprech.1, rfl, ?_, hpost⟩
        exact blockOK_mk r1 (by simpa using r4) hBm hB16 (fun h => absurd h (by simp))
      · exact placeInto_noAdj _ i2 hB
      · intro x hx1 hx2
        by_cases hxa : x = B.addr
        · right; left
          show extract_alloc (m3 x) = false
          rw [hxa, r1]
          exact extract_alloc_pack _ hBm
        · left
          exact r0 x hxa (by clear * - i5 i6 i7 i8 hle1 hle2 ha16 hBm hB16 has hasm hsp hx1 hx2 hxa; omega) (by simpa using hxa) (by clear * - i5 i6 i7 i8 hle1 hle2 ha16 hBm hB16 has hasm hsp hx1 hx2 hxa; omega)
      · rw [hplace]
        intro b hb hbal
        have := hpers [⟨B.addr, B.sz, false⟩] b hb hbal
        simpa using this
    · have hA16 : 16 ≤ asize := by clear * - has hasm i5 i6 i7 i8 hle1 hle2 ha16 hBm hB16 hsp h0; omega
      have r1 : m3 B.addr = pack asize true := by
        rw [hm3, mem_write_other _ _ (by clear * - has hasm i5 i6 i7 i8 hle1 hle2 ha16 hBm hB16 hsp h0 hA16; omega), mem_write_other _ _ (by clear * - has hasm i5 i6 i7 i8 hle1 hle2 ha16 hBm hB16 hsp h0 hA16; omega),
          mem_write_other _ _ (by clear * - has hasm i5 i6 i7 i8 hle1 hle2 ha16 hBm hB16 hsp h0 hA16; omega), mem_write_same]
      have r2 : m3 (B.addr + asize - 8) = pack asize true := by
        rw [hm3, mem_write_other _ _ (by clear * - has hasm i5 i6 i7 i8 hle1 hle2 ha16 hBm hB16 hsp h0 hA16; omega), mem_write_other _ _ (by clear * - has hasm i5 i6 i7 i8 hle1 hle2 ha16 hBm hB16 hsp h0 hA16; omega), mem_write_same]
      have hplace : placeInto pre B post asize =
          pre ++ ⟨B.addr, asize, true⟩ :: ⟨B.addr + asize, B.sz - asize, false⟩ :: post := by
        unfold placeInto min_block_size
        rw [if_pos (by clear * - has hasm i5 i6 i7 i8 hle1 hle2 ha16 hBm hB16 hsp h0 hA16; omega), if_neg h0]
      refine ⟨_, rfl, ⟨⟨?_, ?_, ?_, hepi, i5, i6, i7, i8⟩, rfl, Nat.le_refl _, rfl, ?_, ?_,
        fun b hb hbal x hx1 hx2 => ?_, fun _ => ⟨fun b hb hbal x hx1 hx2 => ?_, fun x hx => ?_⟩⟩,
        rfl, rfl⟩
      on_goal 7 =>
        have := hfr2 b hb hbal x hx1 hx2
        exact r0 x (by clear * - this hA16 hsp has; omega) (by clear * - this hA16 hsp has; omega)
          (by clear * - this hA16 hsp has; omega) (by clear * - this hA16 hsp has; omega)
      on_goal 7 =>
        exact r0 x (by clear * - hx hle1 hA16 hsp has; omega)
          (by clear * - hx hle1 hA16 hsp has; omega) (by clear * - hx hle1 hA16 hsp has; omega)
          (by clear * - hx hle1 hA16 hsp has; omega)
      on_goal 6 =>
        have := hfr b hb hbal x hx1 hx2
        exact r0 x (by clear * - has hasm i5 i6 i7 i8 hle1 hle2 ha16 hBm hB16 hsp h0 hA16 hx1 hx2 this; omega) (by clear * - has hasm i5 i6 i7 i8 hle1 hle2 ha16 hBm hB16 hsp h0 hA16 hx1 hx2 this; omega) (by clear * - has hasm i5 i6 i7 i8 hle1 hle2 ha16 hBm hB16 hsp h0 hA16 hx1 hx2 this; omega) (by clear * - has hasm i5 i6 i7 i8 hle1 hle2 ha16 hBm hB16 hsp h0 hA16 hx1 hx2 this; omega)
      · rw [hplace, chain_append]
        refine ⟨B.addr, chain_frame c1 (fun x _ hx =>
          r0 x (by clear * - has hasm i5 i6 i7 i8 hle1 hle2 ha16 hBm hB16 hsp h0 hA16 hx; omega) (by clear * - has hasm i5 i6 i7 i8 hle1 hle2 ha16 hBm hB16 hsp h0 hA16 hx; omega) (by clear * - has hasm i5 i6 i7 i8 hle1 hle2 ha16 hBm hB16 hsp h0 hA16 hx; omega) (by clear * - has hasm i5 i6 i7 i8 hle1 hle2 ha16 hBm hB16 hsp h0 hA16 hx; omega)), rfl, ?_, rfl, ?_, ?_⟩
        · exact blockOK_mk r1 r2 hasm hA16 h32
        · refine blockOK_mk r3 ?_ (by simp only; clear * - has hasm i5 i6 i7 i8 hle1 hle2 ha16 hBm hB16 hsp h0 hA16; omega) (by simp only; clear * - has hasm i5 i6 i7 i8 hle1 hle2 ha16 hBm hB16 hsp h0 hA16; omega)
            (fun _ => by simp only; clear * - has hasm i5 i6 i7 i8 hle1 hle2 ha16 hBm hB16 hsp h0 hA16; omega)
          simp only
          rw [show B.addr + asize + (B.sz - asize) - 8 = B.addr + B.sz - 8 by clear * - has hasm i5 i6 i7 i8 hle1 hle2 ha16 hBm hB16 hsp h0 hA16; omega]
          exact r4
        · simp only
          rw [show B.addr + asize + (B.sz - asize) = B.addr + B.sz by clear * - has hasm i5 i6 i7 i8 hle1 hle2 ha16 hBm hB16 hsp h0 hA16; omega]
          exact hpost
      · exact placeInto_noAdj _ i2 hB
      · show m3 (st.heap_start - 8) = _
        rw [r0 _ (by clear * - has hasm i5 i6 i7 i8 hle1 hle2 ha16 hBm hB16 hsp h0 hA16; omega) (by clear * - has hasm i5 i6 i7 i8 hle1 hle2 ha16 hBm hB16 hsp h0 hA16; omega) (by clear * - has hasm i5 i6 i7 i8 hle1 hle2 ha16 hBm hB16 hsp h0 hA16; omega) (by clear * - has hasm i5 i6 i7 i8 hle1 hle2 ha16 hBm hB16 hsp h0 hA16; omega)]; exact i3
      · intro x hx1 hx2
        by_cases hxa : x = B.addr
        · right; right
          exact ⟨asize, by rw [hplace, hxa]; simp⟩
        · by_cases hxb : x = B.addr + asize
          · right; left
            show extract_alloc (m3 x) = false
            rw [hxb, r3]
            exact extract_alloc_pack _ (by clear * - has hasm i5 i6 i7 i8 hle1 hle2 ha16 hBm hB16 hsp h0 hA16 hx1 hx2 hxa hxb; omega)
          · left
            exact r0 x hxa (by clear * - has hasm i5 i6 i7 i8 hle1 hle2 ha16 hBm hB16 hsp h0 hA16 hx1 hx2 hxa hxb; omega) hxb (by clear * - has hasm i5 i6 i7 i8 hle1 hle2 ha16 hBm hB16 hsp h0 hA16 hx1 hx2 hxa hxb; omega)
      · rw [hplace]
        intro b hb hbal
        have := hpers [⟨B.addr, asize, true⟩, ⟨B.addr + asize, B.sz - asize, false⟩] b
          hb hbal
        simpa using this
  · rw [split_block_nosplit g1 has (by clear * - has hasm i5 i6 i7 i8 hle1 hle2 ha16 hBm hB16 hsp; omega) hsp]
    have hplace : placeInto pre B post asize = pre ++ ⟨B.addr, B.sz, true⟩ :: post := by
      unfold placeInto
      rw [if_neg hsp]
    have hs32 : s = true → 32 ≤ B.sz := fun h => by have := h32 h; clear * - has hasm i5 i6 i7 i8 hle1 hle2 ha16 hBm hB16 hsp this; omega
    refine ⟨_, rfl, ⟨⟨?_, ?_, ?_, ?_, i5, i6, i7, i8⟩, rfl, Nat.le_refl _, rfl, ?_, ?_,
      fun b hb hbal x hx1 hx2 => ?_,
      fun _ => ⟨fun b hb hbal x hx1 hx2 => hm1lo x (hfr2 b hb hbal x hx1 hx2),
        fun x hx => hm1lo x (Or.inl (by clear * - hx hle1; omega))⟩⟩, rfl, rfl⟩
    on_goal 7 =>
      have := hfr b hb hbal x hx1 hx2
      exact hm1lo x (by clear * - has hasm i5 i6 i7 i8 hle1 hle2 ha16 hBm hB16 hsp hx1 hx2 this; omega)
    · rw [hplace, hm1]
      exact chain_put true c1 c4 hBm hB16 hs32
    · exact placeInto_noAdj _ i2 hB
    · show m1 (st.heap_start - 8) = _
      rw [hm1lo _ (by clear * - has hasm i5 i6 i7 i8 hle1 hle2 ha16 hBm hB16 hsp; omega)]; exact i3
    · show m1 st.heap_end = _
      rw [hm1lo _ (by clear * - has hasm i5 i6 i7 i8 hle1 hle2 ha16 hBm hB16 hsp; omega)]; exact i4
    · intro x hx1 hx2
      by_cases hxa : x = B.addr
      · right; right
        exact ⟨B.sz, by rw [hplace, hxa]; simp⟩
      · left
        show m1 x = st.mem x
        rw [hm1, mem_write_other _ _ (by clear * - has hasm i5 i6 i7 i8 hle1 hle2 ha16 hBm hB16 hsp hx1 hx2 hxa; omega), mem_write_other _ _ hxa]
    · rw [hplace]
      intro b hb hbal
      have := hpers [⟨B.addr, B.sz, true⟩] b hb hbal
      simpa using this

end Basic

namespace Basic

/-! ## mm_malloc and mm_free preserve the invariant -/

theorem asize_mod (size : Nat) : round_up (add64 size dsize) dsize % 16 = 0 :=
  round_up_mod _

theorem asize_strict {size : Nat} (h : size + 31 < 2 ^ 64) :
    round_up (add64 size dsize) dsize = (size + 31) / 16 * 16 := by
  have h1 : add64 size dsize = size + 16 := by
    unfold dsize
    exact add64_eq (by clear * - h; omega)
  rw [h1, round_up_eq (by clear * - h; omega)]

theorem out_step {s : Bool} {st st2 : State} {bs bs2 : List Blk} {out : List (Nat × Nat)}
    (hout : OutOK s st bs out) (hstep : Step s st bs st2 bs2) : OutOK s st2 bs2 out := by
  obtain ⟨a1, a2, a3, a4, a5, a6, _⟩ := hstep
  obtain ⟨o1, o2⟩ := hout
  refine ⟨fun pr hpr => ?_, fun hs => ?_⟩
  · obtain ⟨p1, p2, p3, p4⟩ := o1 pr hpr
    refine ⟨by rw [a2]; exact p1, by clear * - a2 a3 a4 p1 p2 p3; omega, by rw [a2]; exact p3, fun hal => ?_⟩
    rcases a5 (pr.1 - 8) p3 (by clear * - a2 a3 a4 p1 p2 p3; omega) with h | h | h
    · rw [h] at hal
      obtain ⟨sz, hsz⟩ := p4 hal
      exact ⟨sz, a6 _ hsz rfl⟩
    · rw [h] at hal; exact absurd hal (by simp)
    · exact h
  · obtain ⟨q1, q2⟩ := o2 hs
    refine ⟨fun pr hpr => ?_, q2⟩
    obtain ⟨sz, h1, h2⟩ := q1 pr hpr
    exact ⟨sz, a6 _ h1 rfl, h2⟩

theorem inv_heap_end_lt {s : Bool} {st : State} {bs : List Blk} (h : Inv s st bs) :
    st.heap_end + 8 ≤ 2 ^ 64 := by
  obtain ⟨_, _, _, _, _, i6, i7, i8⟩ := h
  unfold WORD at i8
  clear * - i6 i7 i8; omega

/-- The grow-and-retry loop of `mm_malloc`: when it returns, it returns the
first fit of a heap reached by growth steps only. -/
theorem malloc_loop_spec {s : Bool} {wf asize : Nat} : ∀ (fuel : Nat) (st : State)
    (bs : List Blk) (st1 : State) (block : Nat), Inv s st bs →
    mm_malloc_loop wf asize fuel st = some (st1, block) →
    ∃ bs1, Step s st bs st1 bs1 ∧ block ≠ 0 ∧ block = firstFit asize bs1 := by
  intro fuel
  induction fuel with
  | zero => intro st bs st1 block _ h; simp [mm_malloc_loop] at h
  | succ f ih =>
    intro st bs st1 block hinv h
    unfold mm_malloc_loop at h
    cases hff : find_fit wf st asize with
    | none => rw [hff] at h; simp at h
    | some r =>
      rw [hff] at h
      simp only at h
      have hr : r = firstFit asize bs :=
        (find_fit_loop_spec (by have := inv_heap_end_lt hinv; clear * - this; omega) hinv.1 wf).2 r hff
      by_cases hr0 : r = 0
      · rw [if_pos hr0] at h
        by_cases hroom : st.mem_brk + 4096 ≤ st.mem_max_addr
        · obtain ⟨st2, e1, e2, _, _⟩ := extend_heap_spec hinv hroom
          rw [e1] at h
          obtain ⟨bs1, g1, g2, g3⟩ := ih st2 _ st1 block e2.1 h
          exact ⟨bs1, step_trans e2 g1, g2, g3⟩
        · rw [extend_heap_fail hroom] at h
          exact ih st bs st1 block hinv h
      · rw [if_neg hr0] at h
        obtain ⟨h1, h2⟩ := Prod.mk.inj (Option.some.inj h)
        subst h1
        subst h2
        exact ⟨bs, step_refl hinv, hr0, hr⟩

theorem erase_fst_ne {out : List (Nat × Nat)} {p n : Nat} {pr : Nat × Nat}
    (hnd : (out.map Prod.fst).Nodup) (hmem : pr ∈ out.erase (p, n)) (hin : (p, n) ∈ out) :
    pr.1 ≠ p := by
  have hnd2 : out.Nodup := List.Nodup.of_map _ hnd
  obtain ⟨h1, h2⟩ := (List.Nodup.mem_erase_iff hnd2).1 hmem
  intro hc
  exact h1 (List.inj_on_of_nodup_map hnd h2 hin hc)

/-- Source `mm_malloc` with a non-zero size keeps the heap invariant and returns the
payload of a block of the new heap. -/
theorem mm_malloc_spec {s : Bool} {st st2 : State} {bs : List Blk} {out : List (Nat × Nat)}
    {fuel size p : Nat} (hinv : Inv s st bs) (hout : OutOK s st bs out) (h0 : size ≠ 0)
    (hstrict : s = true → size + 31 < 2 ^ 64)
    (h : mm_malloc fuel st size = some (st2, p)) :
    ∃ bs2, Inv s st2 bs2 ∧ OutOK s st2 bs2 ((p, size) :: out) ∧ p ≠ 0 ∧
      p % 16 = (st.heap_start + 8) % 16 ∧ Step s st bs st2 bs2 := by
  unfold mm_malloc at h
  rw [if_neg h0] at h
  simp only at h
  generalize hA : round_up (add64 size dsize) dsize = asize at h
  have hAm : asize % 16 = 0 := by rw [← hA]; exact asize_mod size
  have hA32 : s = true → 32 ≤ asize ∧ size + 16 ≤ asize := by
    intro hs
    have := hstrict hs
    rw [← hA, asize_strict this]
    clear * - h0 hAm this; omega
  cases hl : mm_malloc_loop fuel asize fuel st with
  | none => rw [hl] at h; simp at h
  | some r =>
    obtain ⟨st1, block⟩ := r
    rw [hl] at h
    simp only at h
    obtain ⟨bs1, g1, g2, g3⟩ := malloc_loop_spec fuel st bs st1 block hinv hl
    obtain ⟨pre, B, post, f1, f2, f3, f4⟩ := firstFit_pos (by rw [← g3]; exact g2)
    rw [← g3] at f4
    subst f1
    subst f4
    obtain ⟨st3, k1, k2, k3, k4⟩ := place_spec g1.1 f2 f3 hAm (fun hs => (hA32 hs).1)
    rw [k1] at h
    obtain ⟨h1, h2⟩ := Prod.mk.inj (Option.some.inj h)
    subst h1
    have hstep := step_trans g1 k2
    have hbB := chain_bounds g1.1.1 B (by simp)
    have hW1 := inv_heap_end_lt g1.1
    have hB16 := hbB.2.2.1.2.2.1
    have hp : p = B.addr + 8 := by
      rw [← h2]
      unfold header_to_payload wsize
      exact add64_eq (by omega)
    have h8 := g1.1.2.2.2.2.1
    have hhs : st1.heap_start = st.heap_start := g1.2.1
    have hhs3 : st3.heap_start = st.heap_start := hstep.2.1
    have hmemB : (∃ sz, (⟨B.addr, sz, true⟩ : Blk) ∈ placeInto pre B post asize ∧ asize ≤ sz) ∨
        (asize = 0 ∧ (⟨B.addr, B.sz, false⟩ : Blk) ∈ placeInto pre B post asize) := by
      unfold placeInto
      split_ifs with c1 c2
      · right; exact ⟨c2, by simp⟩
      · left; exact ⟨asize, by simp, Nat.le_refl _⟩
      · left; exact ⟨B.sz, by simp, f3⟩
    refine ⟨_, k2.1, ?_, by omega, by omega, hstep⟩
    have hold := out_step hout hstep
    obtain ⟨o1, o2⟩ := hold
    refine ⟨fun pr hpr => ?_, fun hs => ?_⟩
    · rcases List.mem_cons.1 hpr with hpr | hpr
      · subst hpr
        simp only
        have hpa : p - 8 = B.addr := by omega
        rw [hpa]
        refine ⟨by omega, by omega, by omega, fun hal => ?_⟩
        rcases hmemB with ⟨sz, m1, _⟩ | ⟨_, m2⟩
        · exact ⟨sz, m1⟩
        · have hb := (chain_bounds k2.1.1 _ m2).2.2.1.1
          simp only at hb
          rw [hb, extract_alloc_pack _ hbB.2.2.1.2.1] at hal
          exact absurd hal (by simp)
      · exact o1 pr hpr
    · obtain ⟨q1, q2⟩ := o2 hs
      obtain ⟨a32, a16⟩ := hA32 hs
      refine ⟨fun pr hpr => ?_, ?_⟩
      · rcases List.mem_cons.1 hpr with hpr | hpr
        · subst hpr
          simp only
          have hpa : p - 8 = B.addr := by clear * - h0 hAm f3 g2 k3 k4 h2 hW1 hB16 hp h8 hhs hhs3 a32 a16; omega
          rw [hpa]
          rcases hmemB with ⟨sz, m1, m2⟩ | ⟨m1, _⟩
          · exact ⟨sz, m1, by clear * - h0 hAm f3 g2 k3 k4 h2 hW1 hB16 hp h8 hhs hhs3 a32 a16 hpa m2; omega⟩
          · clear * - h0 hAm f3 g2 k3 k4 h2 hW1 hB16 hp h8 hhs hhs3 a32 a16 hpa m1; omega
        · exact q1 pr hpr
      · simp only [List.map_cons, List.nodup_cons]
        refine ⟨fun hc => ?_, q2⟩
        obtain ⟨pr, hpr1, hpr2⟩ := List.mem_map.1 hc
        obtain ⟨sz, m1, _⟩ := (hout.2 hs).1 pr hpr1
        have m2 := g1.2.2.2.2.2.1 _ m1 rfl
        have := chain_addr_inj g1.1.1 _ m2 B (by simp) (by simp only; clear * - h0 hAm f3 g2 k3 k4 h2 hW1 hB16 hp h8 hhs hhs3 a32 a16 hpr2; omega)
        rw [← this] at f2
        exact absurd f2 (by simp)

/-- Source `mm_free` on an outstanding pointer that does not end in the fatal exit
keeps the heap invariant. -/
theorem mm_free_spec {s : Bool} {st st2 : State} {bs : List Blk} {out : List (Nat × Nat)}
    {p n : Nat} (hinv : Inv s st bs) (hout : OutOK s st bs out) (hin : (p, n) ∈ out)
    (h : mm_free st p = some st2) :
    ∃ bs2, Inv s st2 bs2 ∧ OutOK s st2 bs2 (out.erase (p, n)) ∧
      st2.heap_start = st.heap_start ∧ st2.mem_max_addr = st.mem_max_addr := by
  obtain ⟨i1, i2, i3, i4, i5, i6, i7, i8⟩ := hinv
  have hW : st.heap_end + 8 ≤ 2 ^ 64 := by unfold WORD at i8; clear * - i5 i6 i7 i8; omega
  obtain ⟨o1, o2⟩ := hout
  obtain ⟨p1, p2, p3, p4⟩ := o1 _ hin
  simp only at p1 p2 p3 p4
  unfold mm_free at h
  rw [if_neg (by clear * - i5 i6 i7 i8 hW p1 p2 p3; omega)] at h
  have hph : payload_to_header p = p - 8 := by
    unfold payload_to_header wsize
    exact sub64_eq (by clear * - i5 i6 i7 i8 hW p1 p2 p3; omega) (by clear * - i5 i6 i7 i8 hW p1 p2 p3; omega)
  simp only [hph] at h
  cases hga : get_alloc st (p - 8) with
  | false => rw [hga] at h; simp at h
  | true =>
    rw [hga] at h
    simp only [Bool.not_true, Bool.false_eq_true, if_false] at h
    obtain ⟨sz, hB⟩ := p4 hga
    obtain ⟨pre, post, hbs⟩ := List.append_of_mem hB
    subst hbs
    obtain ⟨mid, c1, c2, c3, c4⟩ := chain_append.1 i1
    simp only at c2
    subst c2
    have hle1 := chain_le c1
    have hle2 := chain_le c4
    simp only at hle2 c4
    have hBm : sz % 16 = 0 := c3.2.1
    have hB16 : 16 ≤ sz := c3.2.2.1
    have hB32 : s = true → 32 ≤ sz := c3.2.2.2.1
    have hsz : get_size st (p - 8) = sz := blk_get_size c3 (by simp only; clear * - i5 i6 i7 i8 hW p1 p2 p3 hph hle1 hle2 hBm hB16; omega)
    rw [hsz, write_hf_eq st false hBm (by clear * - i5 i6 i7 i8 hW p1 p2 p3 hph hle1 hle2 hBm hB16; omega) (by clear * - i5 i6 i7 i8 hW p1 p2 p3 hph hle1 hle2 hBm hB16; omega) (by clear * - i5 i6 i7 i8 hW p1 p2 p3 hph hle1 hle2 hBm hB16; omega) (by clear * - i5 i6 i7 i8 hW p1 p2 p3 hph hle1 hle2 hBm hB16; omega)] at h
    obtain ⟨m1, hm1⟩ : ∃ m1 : Mem, m1 =
      (st.mem.write (p - 8) (pack sz false)).write (p - 8 + sz - 8) (pack sz false) := ⟨_, rfl⟩
    rw [← hm1] at h
    obtain ⟨st1, hst1⟩ : ∃ st1 : State, st1 = { st with mem := m1 } := ⟨_, rfl⟩
    rw [← hst1] at h
    have hst1m : st1.mem = m1 := by rw [hst1]
    have hm1lo : ∀ x, x < p - 8 ∨ p - 8 + sz ≤ x → st1.mem x = st.mem x := by
      intro x hx
      rw [hst1m, hm1, mem_write_other _ _ (by clear * - i5 i6 i7 i8 hW p1 p2 p3 hph hle1 hle2 hBm hB16 hx; omega), mem_write_other _ _ (by clear * - i5 i6 i7 i8 hW p1 p2 p3 hph hle1 hle2 hBm hB16 hx; omega)]
    have hh : st1.mem (p - 8) = pack sz false := by
      rw [hst1m, hm1, mem_write_other _ _ (by clear * - i5 i6 i7 i8 hW p1 p2 p3 hph hle1 hle2 hBm hB16; omega), mem_write_same]
    have hf : st1.mem (p - 8 + sz - 8) = pack sz false := by
      rw [hst1m, hm1, mem_write_same]
    obtain ⟨m2, d1, d2, d3, d4, d5, d6⟩ := @coalesce_spec s st1 pre post (p - 8) sz
      st.heap_start st.heap_end
      (chain_frame c1 (fun x _ hx => hm1lo x (Or.inl hx))) hh hf hBm hB16 hB32
      (chain_frame c4 (fun x hx _ => hm1lo x (Or.inr hx)))
      (by rw [hm1lo _ (Or.inl (by clear * - i5 i6 i7 i8 hW p1 p2 p3 hph hle1 hle2 hBm hB16; omega))]; exact i3)
      (by rw [hm1lo _ (Or.inr (by clear * - i5 i6 i7 i8 hW p1 p2 p3 hph hle1 hle2 hBm hB16; omega))]; exact i4) i5 hW
    rw [d1] at h
    have hst2 := Option.some.inj h
    subst hst2
    subst hst1
    obtain ⟨n1, n2, _⟩ := noAdj_split i2
    have hfree : extract_alloc (m2 (p - 8)) = false := by
      rcases d4 (p - 8) p3 with g | g
      · rw [g, hh]; exact extract_alloc_pack _ hBm
      · exact g
    have hkeep : ∀ b ∈ pre ++ (⟨p - 8, sz, true⟩ : Blk) :: post, b.al = true → b.addr ≠ p - 8 →
        b ∈ mergeInto pre ⟨p - 8, sz, false⟩ post := by
      intro b hb hbal hne
      apply d5 b _ hbal
      rcases List.mem_append.1 hb with g | g
      · exact List.mem_append_left _ g
      · rcases List.mem_cons.1 g with g | g
        · rw [g] at hne; exact absurd rfl hne
        · exact List.mem_append_right _ g
    refine ⟨mergeInto pre ⟨p - 8, sz, false⟩ post,
      ⟨d2, mergeInto_noAdj _ n1 n2 rfl, ?_, ?_, i5, i6, i7, i8⟩, ?_, rfl, rfl⟩
    · show m2 (st.heap_start - 8) = _
      rw [d3 _ (Or.inl (by clear * - i5 i6 i7 i8 hW p1 p2 p3 hph hle1 hle2 hBm hB16; omega)), hm1lo _ (Or.inl (by clear * - i5 i6 i7 i8 hW p1 p2 p3 hph hle1 hle2 hBm hB16; omega))]; exact i3
    · show m2 st.heap_end = _
      rw [d3 _ (Or.inr (by clear * - i5 i6 i7 i8 hW p1 p2 p3 hph hle1 hle2 hBm hB16; omega)), hm1lo _ (Or.inr (by clear * - i5 i6 i7 i8 hW p1 p2 p3 hph hle1 hle2 hBm hB16; omega))]; exact i4
    · refine ⟨fun pr hpr => ?_, fun hs => ?_⟩
      · have hpr2 := List.mem_of_mem_erase hpr
        obtain ⟨q1, q2, q3, q4⟩ := o1 pr hpr2
        refine ⟨q1, q2, q3, fun hal => ?_⟩
        simp only at hal
        by_cases hx : pr.1 - 8 = p - 8
        · rw [hx, hfree] at hal; exact absurd hal (by simp)
        · rcases d4 (pr.1 - 8) q3 with g | g
          · rw [g, hst1m, hm1, mem_write_other _ _ (by clear * - i5 i6 i7 i8 hW p1 p2 p3 hph hle1 hle2 hBm hB16 q1 q2 q3 hx; omega), mem_write_other _ _ hx] at hal
            obtain ⟨sz2, hsz2⟩ := q4 hal
            exact ⟨sz2, hkeep _ hsz2 rfl hx⟩
          · rw [g] at hal; exact absurd hal (by simp)
      · obtain ⟨q1, q2⟩ := o2 hs
        refine ⟨fun pr hpr => ?_, ?_⟩
        · have hpr2 := List.mem_of_mem_erase hpr
          have hne := erase_fst_ne q2 hpr hin
          obtain ⟨sz2, h1, h2⟩ := q1 pr hpr2
          have hge := (o1 pr hpr2).1
          exact ⟨sz2, hkeep _ h1 rfl (by simp only; clear * - i5 i6 i7 i8 hW p1 p2 p3 hph hle1 hle2 hBm hB16 hne h2 hge; omega), h2⟩
        · exact List.Nodup.sublist (List.Sublist.map _ (List.erase_sublist _ _)) q2

/-- Every reachable state satisfies the heap invariant: always in the lenient
mode, and in strict mode when every non-zero request size is such that the
rounding in `mm_malloc` does not wrap. -/
theorem reach_inv {ok : Nat → Prop} {s : Bool}
    (hok : s = true → ∀ n, ok n → n ≠ 0 → n + 31 < 2 ^ 64) {p0 st : State}
    {out : List (Nat × Nat)} (h : Reach ok p0 st out) :
    ∃ bs, Inv s st bs ∧ OutOK s st bs out ∧ st.heap_start = p0.mem_brk + 8 ∧
      st.mem_max_addr = p0.mem_max_addr := by
  induction h with
  | init st hmax hinit =>
    obtain ⟨a1, a2, _, a4, _⟩ := mm_init_ok s hmax hinit
    exact ⟨_, a1, by simp [OutOK], a2, a4⟩
  | malloc st st2 out fuel size p _ hsz _ hm ih =>
    obtain ⟨bs, i1, i2, i3, i4⟩ := ih
    by_cases h0 : size = 0
    · subst h0
      simp only [mm_malloc, if_true] at hm
      obtain ⟨h1, h2⟩ := Prod.mk.inj (Option.some.inj hm)
      subst h1
      subst h2
      exact ⟨bs, i1, by simpa using i2, i3, i4⟩
    · obtain ⟨bs2, j1, j2, j3, _, j5⟩ :=
        mm_malloc_spec i1 i2 h0 (fun hs => hok hs size hsz h0) hm
      rw [if_neg j3]
      exact ⟨bs2, j1, j2, by rw [j5.2.1]; exact i3, by rw [j5.2.2.2.1]; exact i4⟩
  | free st st2 out p n _ hin hf ih =>
    obtain ⟨bs, i1, i2, i3, i4⟩ := ih
    obtain ⟨bs2, j1, j2, j3, j4⟩ := mm_free_spec i1 i2 hin hf
    exact ⟨bs2, j1, j2, by rw [j3]; exact i3, by rw [j4]; exact i4⟩

end Basic

namespace Basic

/-! ## The heap walk of a well-formed heap -/

theorem heap_walk_chain {s : Bool} {st : State} {bs : List Blk}
    (hW : st.heap_end + 8 ≤ 2 ^ 64) : ∀ {a : Nat}, Chain s st.mem a bs st.heap_end →
    ∀ f, bs.length < f → heap_walk st f a = some bs := by
  induction bs with
  | nil =>
    intro a h f hf
    simp only [Chain] at h
    cases f with
    | zero => simp at hf
    | succ f => simp [heap_walk, h]
  | cons b r ih =>
    intro a h f hf
    obtain ⟨h1, h2, h3⟩ := h
    have hle := chain_le h3
    have h16 := h2.2.2.1
    cases f with
    | zero => simp at hf
    | succ f =>
      have hne : a ≠ st.heap_end := by omega
      subst h1
      simp only [heap_walk, hne, if_false, blk_get_alloc h2, blk_get_size h2 (by omega),
        blk_find_next h2 (by omega)]
      rw [ih h3 f (by simp only [List.length_cons] at hf; omega)]

theorem sizeOk_strict (s : Bool) : s = true → ∀ n, SizeOk n → n ≠ 0 → n + 31 < 2 ^ 64 :=
  fun _ _ h _ => h.2

theorem sizeAny_lenient : false = true → ∀ n, SizeAny n → n ≠ 0 → n + 31 < 2 ^ 64 :=
  fun h => absurd h (by simp)

/-! ## Termination of the grow-and-retry loop -/

theorem tailFree_merge (bs : List Blk) (a : Nat) :
    tailFree (mergeInto bs ⟨a, 4096, false⟩ []) = tailFree bs + 4096 ∧
    (mergeInto bs ⟨a, 4096, false⟩ []).length +
        (if tailFree (mergeInto bs ⟨a, 4096, false⟩ []) = 0 then 1 else 0) ≤
      bs.length + (if tailFree bs = 0 then 1 else 0) := by
  rcases List.eq_nil_or_concat bs with rfl | ⟨pre, P, hcc⟩
  · simp [mergeInto, mergePrev, mergeNext, tailFree]
  · rw [List.concat_eq_append] at hcc
    subst hcc
    cases hal : P.al
    · have hm : mergeInto (pre ++ [P]) ⟨a, 4096, false⟩ [] = pre ++ [⟨P.addr, P.sz + 4096, false⟩] := by
        simp [mergeInto, mergePrev, mergeNext, hal]
      rw [hm]
      simp only [tailFree, List.getLast?_concat, hal, List.length_append, List.length_singleton]
      simp
    · have hm : mergeInto (pre ++ [P]) ⟨a, 4096, false⟩ [] = (pre ++ [P]) ++ [⟨a, 4096, false⟩] := by
        simp [mergeInto, mergePrev, mergeNext, hal]
      rw [hm]
      simp only [tailFree, List.getLast?_concat, hal, List.length_append, List.length_singleton]
      simp

theorem tailFree_fit {asize : Nat} {bs : List Blk} (h0 : 0 < asize) (h : asize ≤ tailFree bs) :
    ∃ b ∈ bs, b.al = false ∧ asize ≤ b.sz := by
  unfold tailFree at h
  cases hl : bs.getLast? with
  | none => rw [hl] at h; simp at h; omega
  | some b =>
    rw [hl] at h
    simp only at h
    cases hal : b.al
    · rw [hal] at h
      simp only [Bool.false_eq_true, if_false] at h
      exact ⟨b, List.mem_of_mem_getLast? hl, hal, h⟩
    · rw [hal] at h
      simp only [if_true] at h
      omega

/-- With room for `k` more chunks at the provider and a tail that reaches the
requested block size after `k` growth steps, the loop returns. -/
theorem malloc_loop_terminates {s : Bool} {wf asize : Nat} (h0 : 0 < asize) :
    ∀ (k f : Nat) (st : State) (bs : List Blk), Inv s st bs →
      asize ≤ tailFree bs + 4096 * k → st.mem_brk + 4096 * k ≤ st.mem_max_addr →
      bs.length + (if tailFree bs = 0 then 1 else 0) < wf → k < f →
      ∃ st1 block, mm_malloc_loop wf asize f st = some (st1, block) := by
  intro k
  induction k with
  | zero =>
    intro f st bs hinv ht _ hwf hf
    cases f with
    | zero => omega
    | succ f =>
      have hff := (@find_fit_loop_spec s st asize bs (by have := inv_heap_end_lt hinv; omega)
        _ hinv.1 wf).1 (by omega)
      unfold mm_malloc_loop find_fit
      rw [hff]
      simp only
      have hne : firstFit asize bs ≠ 0 := by
        intro hc
        obtain ⟨b, hb, hb1, hb2⟩ := tailFree_fit h0 (by omega : asize ≤ tailFree bs)
        have := firstFit_zero hc (fun x hx => by
          have := (chain_bounds hinv.1 x hx).1
          have := hinv.2.2.2.2.1
          omega) b hb
        rcases this with h | h
        · rw [hb1] at h; exact absurd h (by simp)
        · omega
      rw [if_neg hne]
      exact ⟨_, _, rfl⟩
  | succ k ih =>
    intro f st bs hinv ht hroom hwf hf
    cases f with
    | zero => omega
    | succ f =>
      have hff := (@find_fit_loop_spec s st asize bs (by have := inv_heap_end_lt hinv; omega)
        _ hinv.1 wf).1 (by omega)
      unfold mm_malloc_loop find_fit
      rw [hff]
      simp only
      by_cases hne : firstFit asize bs = 0
      · rw [if_pos hne]
        obtain ⟨st2, e1, e2, e3, e4, _⟩ := extend_heap_spec hinv (by omega)
        rw [e1]
        obtain ⟨t1, t2⟩ := tailFree_merge bs st.heap_end
        exact ih f st2 _ e2.1 (by rw [t1]; omega) (by rw [e4, e2.2.2.2.1]; omega)
          (by omega) (by omega)
      · rw [if_neg hne]
        exact ⟨_, _, rfl⟩

end Basic

namespace Basic

/-! ## Concrete runs -/

theorem run_eq {o : Option (State × Nat)} {d : State × Nat} {p : Nat}
    (h1 : o.isSome = true) (h2 : (o.getD d).2 = p) : o = some ((o.getD d).1, p) := by
  cases o with
  | none => simp at h1
  | some r =>
    simp only [Option.getD_some] at h2 ⊢
    rw [← h2]

theorem demo_init : mm_init demo_p0 = (demo_s0, 0) :=
  Prod.ext rfl (by decide)

theorem demo_max : demo_p0.mem_max_addr ≤ WORD := by
  unfold WORD
  show 1048576 ≤ 2 ^ 64
  omega

theorem demo_reach0 (ok : Nat → Prop) : Reach ok demo_p0 demo_s0 [] :=
  Reach.init demo_s0 demo_max demo_init

theorem demo_malloc1 : mm_malloc 2 demo_s0 64 = some (demo_s1, 4112) :=
  run_eq (by decide) (by decide)

theorem demo_reach1 : Reach SizeOk demo_p0 demo_s1 [(4112, 64)] := by
  have h := Reach.malloc demo_s0 demo_s1 [] 2 64 4112 (demo_reach0 SizeOk)
    ⟨by omega, by unfold WORD; omega⟩ (by unfold WORD; omega) demo_malloc1
  simpa using h

theorem wrap_malloc1 : mm_malloc 2 demo_s0 18446744073709551596 = some (wrap_s1, 4112) :=
  run_eq (by decide) (by decide)

theorem wrap_malloc2 : mm_malloc 2 wrap_s1 1 = some (wrap_s2, 4112) :=
  run_eq (by decide) (by decide)

end Basic

namespace Basic

/-! ## Claims about the basic implicit variant -/

/-- C3 (heap tiling, basic implicit variant).  In every state reached from a
successful `mm_init` by `mm_malloc` calls with a non-zero size whose rounding
does not overflow (`size + 31 < 2^64`) and by `mm_free` calls on outstanding
pointers, the walk from `heap_start` by `find_next` ends exactly at `heap_end`,
every block visited has a size that is a multiple of 16 and at least 32 and a
footer word equal to its header word, and `heap_end` holds the epilogue header
(size 0, allocated). -/
theorem heap_tiled_of_reach {p0 st : State} {out : List (Nat × Nat)}
    (h : Reach SizeOk p0 st out) :
    ∃ fuel bs, heap_walk st fuel st.heap_start = some bs ∧
      (∀ b ∈ bs, get_size st b.addr % 16 = 0 ∧ 32 ≤ get_size st b.addr ∧
        st.mem (header_to_footer st b.addr) = st.mem b.addr) ∧
      get_size st st.heap_end = 0 ∧ get_alloc st st.heap_end = true := by
  obtain ⟨bs, hinv, _, _, _⟩ := reach_inv (sizeOk_strict true) h
  have hW := inv_heap_end_lt hinv
  refine ⟨bs.length + 1, bs, heap_walk_chain hW hinv.1 _ (by omega), fun b hb => ?_, ?_, ?_⟩
  · obtain ⟨b1, b2, b3, _⟩ := chain_bounds hinv.1 b hb
    have hle := chain_le hinv.1
    have h8 := hinv.2.2.2.2.1
    have hsz := blk_get_size b3 (by omega)
    rw [hsz]
    refine ⟨b3.2.1, b3.2.2.2.1 rfl, ?_⟩
    unfold header_to_footer
    rw [hsz, footer_addr (by omega) (by omega) (by omega) (by omega), b3.1]
    exact b3.2.2.2.2.2 (Or.inl rfl)
  · unfold get_size
    rw [hinv.2.2.2.1]
    exact extract_size_pack true (by simp) (by omega)
  · unfold get_alloc
    rw [hinv.2.2.2.1]
    exact extract_alloc_pack true (by simp)

/-- Witness for C3: the state after `mm_init(); mm_malloc(64)`. -/
theorem heap_tiled_of_reach_witness :
    Reach SizeOk demo_p0 demo_s1 [(4112, 64)] ∧
    ∃ fuel bs, heap_walk demo_s1 fuel demo_s1.heap_start = some bs ∧
      (∀ b ∈ bs, get_size demo_s1 b.addr % 16 = 0 ∧ 32 ≤ get_size demo_s1 b.addr ∧
        demo_s1.mem (header_to_footer demo_s1 b.addr) = demo_s1.mem b.addr) ∧
      get_size demo_s1 demo_s1.heap_end = 0 ∧ get_alloc demo_s1 demo_s1.heap_end = true :=
  ⟨demo_reach1, heap_tiled_of_reach demo_reach1⟩

/-- C1 as stated fails: `size + 16` not wrapping is not enough.  The request
`2^64 - 20` passes that test, but `round_up` wraps and yields block size 0;
`mm_malloc` returns the payload of a block it leaves free, and the next
`mm_malloc(1)` returns the same pointer. -/
theorem payloads_overlap_counterexample :
    Reach SizeNoWrap16 demo_p0 wrap_s2 [(4112, 1), (4112, 18446744073709551596)] ∧
    ¬ PayloadsDisjoint [(4112, 1), (4112, 18446744073709551596)] := by
  constructor
  · have h1 := Reach.malloc demo_s0 wrap_s1 [] 2 18446744073709551596 4112
      (demo_reach0 SizeNoWrap16) ⟨by omega, by unfold WORD; omega⟩ (by unfold WORD; omega)
      wrap_malloc1
    have h2 := Reach.malloc wrap_s1 wrap_s2 _ 2 1 4112 h1
      ⟨by omega, by unfold WORD; omega⟩ (by unfold WORD; omega) wrap_malloc2
    simpa using h2
  · unfold PayloadsDisjoint
    simp

/-- C1 amended (non-overlap, basic implicit variant).  In every state reached
from a successful `mm_init` by `mm_malloc` calls with a non-zero size such that
`size + 31 < 2^64` and by `mm_free` calls on outstanding pointers, the payload
ranges `[p, p + size)` of any two outstanding allocations are disjoint. -/
theorem payloads_disjoint_of_reach {p0 st : State} {out : List (Nat × Nat)}
    (h : Reach SizeOk p0 st out) : PayloadsDisjoint out := by
  obtain ⟨bs, hinv, hout, _, _⟩ := reach_inv (sizeOk_strict true) h
  obtain ⟨q1, q2⟩ := hout.2 rfl
  have hpw : out.Pairwise (fun x y => x.1 ≠ y.1) := (List.pairwise_map).1 q2
  unfold PayloadsDisjoint
  refine List.Pairwise.imp_of_mem ?_ hpw
  intro x y hx hy hne
  obtain ⟨sx, mx, cx⟩ := q1 x hx
  obtain ⟨sy, my, cy⟩ := q1 y hy
  have gx := (hout.1 x hx).1
  have gy := (hout.1 y hy).1
  have := chain_disjoint hinv.1 _ mx _ my (by simp only; omega)
  simp only at this
  omega

/-- When `find_fit` finds no fit and the provider refuses to grow the heap, the
loop of `mm_malloc` retries on the unchanged state and never returns. -/
theorem malloc_loop_stuck {wf asize : Nat} {st : State}
    (hfit : find_fit wf st asize = none ∨ find_fit wf st asize = some 0)
    (hprov : ¬ st.mem_brk + 4096 ≤ st.mem_max_addr) :
    ∀ fuel, mm_malloc_loop wf asize fuel st = none := by
  intro fuel
  induction fuel with
  | zero => rfl
  | succ f ih =>
    unfold mm_malloc_loop
    rcases hfit with h | h
    · rw [h]
    · rw [h]
      simp only [if_true]
      rw [extend_heap_fail hprov]
      exact ih

theorem tight_init : mm_init tight_p0 = (tight_s0, 0) :=
  Prod.ext rfl (by decide)

/-- C9 fails on the code (out of heap): after `mm_init` on a provider that has
room for the initial chunk only, `mm_malloc(5000)` finds no fit, `extend_heap`
returns `NULL` because the provider refuses, and the loop of `mm_malloc` ignores
that result and retries: with no amount of fuel does `mm_malloc` return, so it
never returns `NULL`. -/
theorem mm_malloc_never_returns_when_provider_refuses :
    (extend_heap tight_s0 chunksize).2 = 0 ∧ find_fit 3 tight_s0 5024 = some 0 ∧
    ∀ fuel, mm_malloc fuel tight_s0 5000 = none := by
  refine ⟨by decide, by decide, fun fuel => ?_⟩
  have hmax : tight_p0.mem_max_addr ≤ WORD := by
    unfold WORD
    show 8208 ≤ 2 ^ 64
    omega
  obtain ⟨hinv, _, _, _, _⟩ := mm_init_ok true hmax tight_init
  have hprov : ¬ tight_s0.mem_brk + 4096 ≤ tight_s0.mem_max_addr := by decide
  have hA : round_up (add64 5000 dsize) dsize = 5024 := by decide
  have hfit : find_fit fuel tight_s0 5024 = none ∨ find_fit fuel tight_s0 5024 = some 0 := by
    cases hf : find_fit fuel tight_s0 5024 with
    | none => exact Or.inl rfl
    | some r =>
      right
      have := (@find_fit_loop_spec true tight_s0 5024 _
        (by have := inv_heap_end_lt hinv; omega) _ hinv.1 fuel).2 r hf
      rw [this]
      simp [firstFit]
  unfold mm_malloc
  rw [if_neg (by omega)]
  simp only [hA, malloc_loop_stuck hfit hprov fuel]

end Basic

/-! ## Footer-elided variant: alignment of block pointers -/

namespace Adv

theorem add64_size_al {b : Nat} (w : Nat) (h : b % 16 = 8) :
    add64 b (extract_size w) % 16 = 8 := by
  rw [extract_size_eq]
  unfold add64 WORD
  omega

theorem find_next_al (st : State) {b : Nat} (h : b % 16 = 8) : find_next st b % 16 = 8 :=
  add64_size_al _ h

theorem sameGlobals_refl (st : State) : SameGlobals st st := ⟨rfl, rfl, rfl, rfl, rfl, rfl⟩

theorem sameGlobals_mem (st : State) (m : Mem) : SameGlobals st { st with mem := m } :=
  ⟨rfl, rfl, rfl, rfl, rfl, rfl⟩

theorem sameGlobals_trans {a b c : State} (h1 : SameGlobals a b) (h2 : SameGlobals b c) :
    SameGlobals a c := by
  obtain ⟨a1, a2, a3, a4, a5, a6⟩ := h1
  obtain ⟨b1, b2, b3, b4, b5, b6⟩ := h2
  exact ⟨by rw [b1, a1], by rw [b2, a2], by rw [b3, a3], by rw [b4, a4], by rw [b5, a5],
    by rw [b6, a6]⟩

theorem aligned_of_same {st st2 : State} (h : Aligned st) (hs : SameGlobals st st2) :
    Aligned st2 := by
  obtain ⟨a1, a2, a3, a4, a5⟩ := h
  obtain ⟨b1, b2, b3, b4, b5, _⟩ := hs
  exact ⟨by rw [b1]; exact a1, by rw [b2]; exact a2, by rw [b3]; exact a3, by rw [b5]; exact a4,
    by rw [b4]; exact a5⟩

theorem coalesce_same (st : State) (b : Nat) : SameGlobals st (coalesce_block st b) := by
  unfold coalesce_block
  simp only
  split_ifs <;> exact sameGlobals_refl _

theorem split_same (st : State) (b asize : Nat) : SameGlobals st (split_block st b asize) := by
  unfold split_block
  simp only
  split_ifs <;> exact sameGlobals_refl _

theorem next_fit_loop_al {st : State} {asize e : Nat} (hs : st.heap_start % 16 = 8) :
    ∀ (f ptr rover res : Nat), ptr % 16 = 8 →
      next_fit_loop st asize e f ptr = some (rover, res) →
      rover % 16 = 8 ∧ (res = 0 ∨ res % 16 = 8) := by
  intro f
  induction f with
  | zero => intro ptr rover res _ h; simp [next_fit_loop] at h
  | succ f ih =>
    intro ptr rover res hp h
    unfold next_fit_loop at h
    simp only at h
    have hq : (if ptr = st.heap_end then st.heap_start else find_next st ptr) % 16 = 8 := by
      split_ifs
      · exact hs
      · exact find_next_al st hp
    generalize (if ptr = st.heap_end then st.heap_start else find_next st ptr) = q at h hq
    split_ifs at h with c1 c2
    · obtain ⟨h1, h2⟩ := Prod.mk.inj (Option.some.inj h)
      rw [← h1, ← h2]
      exact ⟨hq, Or.inr hq⟩
    · exact ih q rover res hq h
    · obtain ⟨h1, h2⟩ := Prod.mk.inj (Option.some.inj h)
      rw [← h1, ← h2]
      exact ⟨hq, Or.inl rfl⟩

theorem next_fit_al {st st2 : State} {fuel asize res : Nat} (h : Aligned st)
    (hn : next_fit fuel st asize = some (st2, res)) :
    Aligned st2 ∧ (res = 0 ∨ res % 16 = 8) := by
  obtain ⟨a1, a2, a3, a4, a5⟩ := h
  unfold next_fit at hn
  simp only at hn
  have hst : (if st.next_fit_ptr = 0 then st.heap_end else st.next_fit_ptr) % 16 = 8 := by
    split_ifs with c
    · exact a2
    · rcases a3 with g | g
      · exact absurd g c
      · exact g
  generalize (if st.next_fit_ptr = 0 then st.heap_end else st.next_fit_ptr) = start at hn hst
  cases hl : next_fit_loop st asize start fuel start with
  | none => rw [hl] at hn; simp at hn
  | some r =>
    obtain ⟨rover, result⟩ := r
    rw [hl] at hn
    simp only at hn
    obtain ⟨h1, h2⟩ := Prod.mk.inj (Option.some.inj hn)
    obtain ⟨g1, g2⟩ := next_fit_loop_al a1 fuel start rover result hst hl
    rw [← h1, ← h2]
    exact ⟨⟨a1, a2, Or.inr g1, a4, a5⟩, g2⟩

theorem sub64_brk_al {b : Nat} (h : b % 16 = 0) : sub64 b wsize % 16 = 8 := by
  unfold sub64 wsize WORD
  omega

/-- What `extend_heap(chunksize)` does to the globals, whatever the heap holds. -/
theorem extend_heap_globals {st : State} (hb : st.mem_brk % 16 = 0) :
    (extend_heap st chunksize).1.heap_start = st.heap_start ∧
    (extend_heap st chunksize).1.next_fit_ptr = st.next_fit_ptr ∧
    (extend_heap st chunksize).1.find_fit = st.find_fit ∧
    (extend_heap st chunksize).1.mem_brk % 16 = 0 ∧
    (((extend_heap st chunksize).2 = 0 ∧ (extend_heap st chunksize).1 = st) ∨
      ((extend_heap st chunksize).2 % 16 = 8 ∧
        (extend_heap st chunksize).1.heap_end % 16 = 8)) := by
  unfold extend_heap
  rw [Basic.round_up_chunk]
  simp only
  by_cases hr : st.mem_brk + 4096 ≤ st.mem_max_addr
  · have hs1 : mem_sbrk st 4096 = some ({ st with mem_brk := st.mem_brk + 4096 }, st.mem_brk) := by
      unfold mem_sbrk
      rw [if_pos hr]
    simp only [hs1]
    have hbk : payload_to_header st.mem_brk % 16 = 8 := sub64_brk_al hb
    refine ⟨(coalesce_same _ _).1, (coalesce_same _ _).2.2.1, (coalesce_same _ _).2.2.2.1, ?_,
      Or.inr ⟨hbk, ?_⟩⟩
    · rw [(coalesce_same _ _).2.2.2.2.1]
      show (st.mem_brk + 4096) % 16 = 0
      omega
    · rw [(coalesce_same _ _).2.1]
      exact find_next_al _ hbk
  · have hs1 : mem_sbrk st 4096 = none := by
      unfold mem_sbrk
      rw [if_neg hr]
    simp only [hs1]
    simp [hb]

theorem extend_heap_al {st : State} (h : Aligned st) :
    Aligned (extend_heap st chunksize).1 := by
  obtain ⟨a1, a2, a3, a4, a5⟩ := h
  obtain ⟨e1, e2, e3, e4, e5⟩ := extend_heap_globals a4
  refine ⟨by rw [e1]; exact a1, ?_, by rw [e2]; exact a3, e4, by rw [e3]; exact a5⟩
  rcases e5 with ⟨_, g⟩ | ⟨_, g⟩
  · rw [g]; exact a2
  · exact g

theorem mm_malloc_loop_al {wf asize : Nat} : ∀ (fuel : Nat) (st st1 : State) (block : Nat),
    Aligned st → mm_malloc_loop wf asize fuel st = some (st1, block) →
    Aligned st1 ∧ block % 16 = 8 := by
  intro fuel
  induction fuel with
  | zero => intro st st1 block _ h; simp [mm_malloc_loop] at h
  | succ f ih =>
    intro st st1 block hal h
    unfold mm_malloc_loop at h
    have hcall : call_find_fit wf st asize = next_fit wf st asize := by
      unfold call_find_fit
      rw [hal.2.2.2.2]
    rw [hcall] at h
    cases hn : next_fit wf st asize with
    | none => rw [hn] at h; simp at h
    | some r =>
      obtain ⟨sA, b⟩ := r
      rw [hn] at h
      simp only at h
      obtain ⟨g1, g2⟩ := next_fit_al hal hn
      split_ifs at h with c
      · exact ih _ st1 block (extend_heap_al g1) h
      · obtain ⟨h1, h2⟩ := Prod.mk.inj (Option.some.inj h)
        rw [← h1, ← h2]
        rcases g2 with g | g
        · exact absurd g c
        · exact ⟨g1, g⟩

theorem mm_malloc_al {st st2 : State} {fuel size p : Nat} (hal : Aligned st)
    (h : mm_malloc fuel st size = some (st2, p)) : Aligned st2 ∧ p % 16 = 0 := by
  unfold mm_malloc at h
  split_ifs at h with c
  · obtain ⟨h1, h2⟩ := Prod.mk.inj (Option.some.inj h)
    rw [← h1, ← h2]
    exact ⟨hal, rfl⟩
  · simp only at h
    cases hl : mm_malloc_loop fuel (round_up (add64 size wsize) dsize) fuel st with
    | none => rw [hl] at h; simp at h
    | some r =>
      obtain ⟨s1, block⟩ := r
      rw [hl] at h
      simp only at h
      obtain ⟨g1, g2⟩ := mm_malloc_loop_al fuel st s1 block hal hl
      obtain ⟨h1, h2⟩ := Prod.mk.inj (Option.some.inj h)
      rw [← h1, ← h2]
      refine ⟨aligned_of_same g1 (sameGlobals_trans (sameGlobals_mem _ _) (split_same _ _ _)), ?_⟩
      unfold header_to_payload add64 wsize WORD
      omega

theorem mm_free_al {st st2 : State} {p : Nat} (hal : Aligned st)
    (h : mm_free st p = some st2) : Aligned st2 := by
  unfold mm_free at h
  by_cases c1 : p = 0
  · rw [if_pos c1] at h
    rw [← Option.some.inj h]; exact hal
  · rw [if_neg c1] at h
    simp only at h
    by_cases c2 : (!get_alloc st (payload_to_header p)) = true
    · rw [if_pos c2] at h
      simp at h
    · rw [if_neg c2] at h
      rw [← Option.some.inj h]
      exact aligned_of_same hal (sameGlobals_trans
        (sameGlobals_trans (sameGlobals_mem _ _) (sameGlobals_mem _ _)) (coalesce_same _ _))

theorem mm_init_al {p0 st : State} (hb : p0.mem_brk % 16 = 0) (h : mm_init p0 = (st, 0)) :
    Aligned st := by
  unfold mm_init at h
  have h16 : mul64 2 wsize = 16 := by decide
  rw [h16] at h
  by_cases hr1 : p0.mem_brk + 16 ≤ p0.mem_max_addr
  · have hs1 : mem_sbrk p0 16 = some ({ p0 with mem_brk := p0.mem_brk + 16 }, p0.mem_brk) := by
      unfold mem_sbrk
      rw [if_pos hr1]
    simp only [hs1] at h
    generalize hsA : ({ p0 with
      mem := (p0.mem.write p0.mem_brk (pack 0 true true)).write (add64 p0.mem_brk wsize)
        (pack 0 true true),
      mem_brk := p0.mem_brk + 16 } : State) = sA at h
    have hAb : sA.mem_brk % 16 = 0 := by
      rw [← hsA]
      show (p0.mem_brk + 16) % 16 = 0
      omega
    obtain ⟨_, _, _, e4, e5⟩ := extend_heap_globals hAb
    by_cases c : (extend_heap sA chunksize).2 = 0
    · rw [if_pos c] at h
      simp at h
    · rw [if_neg c] at h
      have hst := (Prod.mk.inj h).1
      rw [← hst, if_neg (by decide), if_pos (by decide)]
      rcases e5 with ⟨g, _⟩ | ⟨g1, g2⟩
      · exact absurd g c
      · exact ⟨g1, g2, Or.inl rfl, e4, rfl⟩
  · have hs1 : mem_sbrk p0 16 = none := by
      unfold mem_sbrk
      rw [if_neg hr1]
    simp [hs1] at h

theorem reach_al {p0 st : State} {out : List (Nat × Nat)} (hb : p0.mem_brk % 16 = 0)
    (h : Reach p0 st out) : Aligned st := by
  induction h with
  | init st _ hinit => exact mm_init_al hb hinit
  | malloc st st2 out fuel size p _ _ hm ih => exact (mm_malloc_al ih hm).1
  | free st st2 out p n _ _ hf ih => exact mm_free_al ih hf

end Adv

/-! ## Footer-elided variant: concrete runs -/

namespace Adv

theorem adv_run_eq {o : Option (State × Nat)} {d : State × Nat} {p : Nat}
    (h1 : o.isSome = true) (h2 : (o.getD d).2 = p) : o = some ((o.getD d).1, p) := by
  cases o with
  | none => simp at h1
  | some r =>
    simp only [Option.getD_some] at h2 ⊢
    rw [← h2]

theorem adv_demo_init : mm_init demo_p0 = (demo_s0, 0) :=
  Prod.ext rfl (by decide)

theorem adv_demo_max : demo_p0.mem_max_addr ≤ WORD := by
  unfold WORD
  show 1048576 ≤ 2 ^ 64
  omega

theorem adv_demo_malloc1 : mm_malloc 3 demo_s0 16 = some (demo_s1, 4112) :=
  adv_run_eq (by decide) (by decide)

theorem adv_demo_reach0 : Reach demo_p0 demo_s0 [] :=
  Reach.init demo_s0 adv_demo_max adv_demo_init

/-- C6 fails on the code (prev_alloc bit, footer-elided variant).  After
`mm_init(); a = mm_malloc(16); b = mm_malloc(16); mm_free(a)` the heap walk
reads a free block at 4104 followed by the block of `b` at 4136 whose
prev_alloc bit is still set: `mm_free` has not cleared it.  After
`mm_init(); mm_malloc(4088)`, which takes the only free block whole, the
epilogue header still has its prev_alloc bit clear although the block before it
is allocated: `mm_malloc` has not set it. -/
theorem prev_alloc_bit_not_maintained :
    (mm_init demo_p0).2 = 0 ∧
    (mm_malloc 3 demo_s0 16).map Prod.snd = some 4112 ∧
    (mm_malloc 3 demo_s1 16).map Prod.snd = some 4144 ∧
    (mm_free demo_s2 4112).isSome = true ∧
    heap_walk demo_s3 4 demo_s3.heap_start =
      some [⟨4104, 32, false, true⟩, ⟨4136, 32, true, true⟩, ⟨4168, 4032, false, true⟩] ∧
    (mm_malloc 3 demo_s0 4088).map Prod.snd = some 4112 ∧
    heap_walk full_s1 4 full_s1.heap_start = some [⟨4104, 4096, true, true⟩] ∧
    Is_prev_alloc full_s1 full_s1.heap_end = false := by
  refine ⟨by decide, by decide, by decide, by decide, by decide, by decide, by decide, by decide⟩

/-- In the state `stuck_s1` the rover 8200 is the old epilogue, now inside the
free block 4104..12296, and the loop of `next_fit` only ever visits 12296 and
4104: it never meets its stop address 8200 again. -/
theorem next_fit_loop_stuck : ∀ (fuel ptr : Nat), ptr = 8200 ∨ ptr = 4104 ∨ ptr = 12296 →
    next_fit_loop stuck_s1 9008 8200 fuel ptr = none := by
  intro fuel
  induction fuel with
  | zero => intro ptr _; rfl
  | succ f ih =>
    intro ptr hp
    have e1 : stuck_s1.heap_end = 12296 := by decide
    have e2 : stuck_s1.heap_start = 4104 := by decide
    have e3 : find_next stuck_s1 8200 = 12296 := by decide
    have e4 : find_next stuck_s1 4104 = 12296 := by decide
    have e5 : get_alloc stuck_s1 12296 = true := by decide
    have e6 : get_alloc stuck_s1 4104 = false := by decide
    have e7 : get_size stuck_s1 4104 = 8192 := by decide
    unfold next_fit_loop
    rcases hp with h | h | h
    · subst h
      simp only [e1, e3, e5]
      simp
      exact ih 12296 (Or.inr (Or.inr rfl))
    · subst h
      simp only [e1, e4, e5]
      simp
      exact ih 12296 (Or.inr (Or.inr rfl))
    · subst h
      simp only [e1, e2, e6, e7]
      simp
      exact ih 4104 (Or.inr (Or.inl rfl))

theorem next_fit_stuck (fuel : Nat) : next_fit fuel stuck_s1 9008 = none := by
  unfold next_fit
  have e : stuck_s1.next_fit_ptr = 8200 := by decide
  simp only [e]
  rw [if_neg (by decide), next_fit_loop_stuck fuel 8200 (Or.inl rfl)]

theorem next_fit_first (f : Nat) :
    next_fit (f + 2) demo_s0 9008 = some ({ demo_s0 with next_fit_ptr := 8200 }, 0) := by
  have e0 : demo_s0.next_fit_ptr = 0 := by decide
  have e1 : demo_s0.heap_end = 8200 := by decide
  have e2 : demo_s0.heap_start = 4104 := by decide
  have e4 : find_next demo_s0 4104 = 8200 := by decide
  have e5 : get_alloc demo_s0 8200 = true := by decide
  have e6 : get_alloc demo_s0 4104 = false := by decide
  have e7 : get_size demo_s0 4104 = 4096 := by decide
  simp [next_fit, next_fit_loop, e0, e1, e2, e4, e5, e6, e7]

theorem stuck_eq : (extend_heap { demo_s0 with next_fit_ptr := 8200 } chunksize).1 = stuck_s1 := by
  have h := next_fit_first 1
  unfold stuck_s1
  rw [h]
  rfl

/-- C8 fails on the code (termination, footer-elided variant with next fit).
After a successful `mm_init`, `mm_malloc(9000)` never returns: the first
`next_fit(9008)` finds no fit and leaves the rover on the epilogue at 8200,
`extend_heap` merges the new chunk into the free block before it, so that 8200
is no longer a block of the heap, and the second `next_fit(9008)` cycles between
`heap_start` and `heap_end` without ever meeting its stop address again. -/
theorem mm_malloc_9000_never_returns :
    (mm_init demo_p0).2 = 0 ∧
    (next_fit 3 demo_s0 9008).map (fun r => (r.1.next_fit_ptr, r.2)) = some (8200, 0) ∧
    heap_walk stuck_s1 3 stuck_s1.heap_start = some [⟨4104, 8192, false, true⟩] ∧
    (∀ fuel, next_fit fuel stuck_s1 9008 = none) ∧
    ∀ fuel, mm_malloc fuel demo_s0 9000 = none := by
  refine ⟨by decide, by decide, by decide, next_fit_stuck, fun fuel => ?_⟩
  have hA : round_up (add64 9000 wsize) dsize = 9008 := by decide
  have hff : demo_s0.find_fit = FitFn.next := by decide
  have hff2 : stuck_s1.find_fit = FitFn.next := by decide
  unfold mm_malloc
  rw [if_neg (by decide)]
  simp only [hA]
  have hloop : mm_malloc_loop fuel 9008 fuel demo_s0 = none := by
    cases fuel with
    | zero => rfl
    | succ f =>
      unfold mm_malloc_loop call_find_fit
      simp only [hff]
      cases f with
      | zero =>
        have : next_fit 1 demo_s0 9008 = none := by
          have e0 : demo_s0.next_fit_ptr = 0 := by decide
          have e1 : demo_s0.heap_end = 8200 := by decide
          have e2 : demo_s0.heap_start = 4104 := by decide
          have e6 : get_alloc demo_s0 4104 = false := by decide
          have e7 : get_size demo_s0 4104 = 4096 := by decide
          simp [next_fit, next_fit_loop, e0, e1, e2, e6, e7]
        rw [this]
      | succ g =>
        rw [next_fit_first g]
        simp only [if_true]
        rw [stuck_eq]
        cases g with
        | zero => rfl
        | succ k =>
          unfold mm_malloc_loop call_find_fit
          simp only [hff2]
          rw [next_fit_stuck]
  rw [hloop]

end Adv

/-! ## Claims that span the variants -/

/-- C2 (alignment, basic implicit and footer-elided variants).  When the first
address handed out by the provider is a multiple of 16 (the provider of the
model hands out contiguous regions), every pointer returned by `mm_malloc` in a
state reached from `mm_init` through `mm_malloc` and `mm_free` calls is a
multiple of 16; `NULL` is `0`. -/
theorem malloc_pointer_aligned {pb sb sb2 : Basic.State} {outb : List (Nat × Nat)}
    {pa sa sa2 : Adv.State} {outa : List (Nat × Nat)} {fb nb qb fa na qa : Nat}
    (hb0 : pb.mem_brk % 16 = 0) (hb : Basic.Reach Basic.SizeAny pb sb outb)
    (hbm : Basic.mm_malloc fb sb nb = some (sb2, qb))
    (ha0 : pa.mem_brk % 16 = 0) (ha : Adv.Reach pa sa outa)
    (ham : Adv.mm_malloc fa sa na = some (sa2, qa)) :
    qb % 16 = 0 ∧ qa % 16 = 0 := by
  constructor
  · obtain ⟨bs, i1, i2, i3, _⟩ := Basic.reach_inv Basic.sizeAny_lenient hb
    by_cases h0 : nb = 0
    · subst h0
      simp only [Basic.mm_malloc, if_true] at hbm
      rw [← (Prod.mk.inj (Option.some.inj hbm)).2]
    · obtain ⟨_, _, _, _, j4, _⟩ := Basic.mm_malloc_spec i1 i2 h0 (fun h => absurd h (by simp)) hbm
      rw [j4, i3]
      omega
  · exact (Adv.mm_malloc_al (Adv.reach_al ha0 ha) ham).2

/-- Witness for C2: `mm_malloc(64)` in the basic variant and `mm_malloc(16)` in
the footer-elided variant, each right after `mm_init()`. -/
theorem malloc_pointer_aligned_witness :
    Basic.mm_malloc 2 Basic.demo_s0 64 = some (Basic.demo_s1, 4112) ∧
    Adv.mm_malloc 3 Adv.demo_s0 16 = some (Adv.demo_s1, 4112) ∧
    4112 % 16 = 0 ∧ 4112 % 16 = 0 :=
  ⟨Basic.demo_malloc1, Adv.adv_demo_malloc1,
    @malloc_pointer_aligned Basic.demo_p0 _ _ _ Adv.demo_p0 _ _ _ _ _ _ _ _ _ (by decide)
      (Basic.demo_reach0 Basic.SizeAny) Basic.demo_malloc1 (by decide) Adv.adv_demo_reach0
      Adv.adv_demo_malloc1⟩

/-! ## Explicit free-list variant: concrete runs -/

namespace Expl

/-- C5 fails on the code (free-list soundness, explicit variant).  After
`mm_init()`, four calls `mm_malloc(16)` returning `a, b, c, d`, and
`mm_free(a); mm_free(c); mm_free(b)`, the last call is coalescing case 4: it
disconnects the previous block twice and never the next one.  The heap walk
then reads the free blocks 4104 (size 96) and 4232, while the traversal of the
free list from `free_list_root` visits 4232, 4168 and 4104: the node 4168 is the
old block of `c`, which is no block of the heap any more.  `free_list_len` is 2
and the list has three nodes. -/
theorem free_list_keeps_absorbed_node :
    ((mm_init demo_p0).map Prod.snd).toOption = some 0 ∧
    (heap_walk demo_s4 6 demo_s4.heap_start).toOption =
      some [⟨4104, 32, true⟩, ⟨4136, 32, true⟩, ⟨4168, 32, true⟩, ⟨4200, 32, true⟩,
        ⟨4232, 3968, false⟩] ∧
    (heap_walk demo_s6 6 demo_s6.heap_start).toOption =
      some [⟨4104, 32, false⟩, ⟨4136, 32, true⟩, ⟨4168, 32, false⟩, ⟨4200, 32, true⟩,
        ⟨4232, 3968, false⟩] ∧
    (free_list_walk demo_s6 4 demo_s6.free_list_root).toOption = some [4232, 4104, 4168] ∧
    demo_s6.free_list_len = 3 ∧
    (mm_free demo_s6 4144).toOption.isSome = true ∧
    (heap_walk demo_s7 4 demo_s7.heap_start).toOption =
      some [⟨4104, 96, false⟩, ⟨4200, 32, true⟩, ⟨4232, 3968, false⟩] ∧
    (free_list_walk demo_s7 4 demo_s7.free_list_root).toOption = some [4232, 4168, 4104] ∧
    demo_s7.free_list_len = 2 := by
  refine ⟨by decide, by decide, by decide, by decide, by decide, by decide, by decide, by decide,
    by decide⟩

end Expl

/-- C10 (zero-size request, every variant).  `mm_malloc(0)` returns `NULL` and
leaves the whole allocator state unchanged: heap words, `heap_start`,
`heap_end`, the rover and the free list where present, and the provider's break
(the provider is not called).  It needs no fuel. -/
theorem mm_malloc_zero (fuel : Nat) (sb : Basic.State) (sa : Adv.State) (se : Expl.State) :
    Basic.mm_malloc fuel sb 0 = some (sb, 0) ∧
    Adv.mm_malloc fuel sa 0 = some (sa, 0) ∧
    Expl.mm_malloc fuel se 0 = Except.ok (se, 0) := by
  refine ⟨?_, ?_, ?_⟩
  · simp [Basic.mm_malloc]
  · simp [Adv.mm_malloc]
  · simp [Expl.mm_malloc]
    rfl

/-! ## Header words: packing and unpacking -/

theorem lor_low (t : Nat) {c y : Nat} (hc : c < 2 ^ 4) (hy : y < 2 ^ 4) :
    (2 ^ 4 * t + c) ||| y = 2 ^ 4 * t + (c ||| y) := by
  apply Nat.eq_of_testBit_eq
  intro j
  rw [Nat.testBit_or, Nat.testBit_mul_pow_two_add t hc j,
    Nat.testBit_mul_pow_two_add t (Nat.or_lt_two_pow hc hy) j]
  by_cases h : j < 4
  · simp [h]
  · have hyj : y.testBit j = false :=
      Nat.testBit_lt_two_pow (Nat.lt_of_lt_of_le hy (Nat.pow_le_pow_right (by omega) (by omega)))
    simp [h, hyj]

theorem land_low (t : Nat) {c y : Nat} (hc : c < 2 ^ 4) (hy : y < 2 ^ 4) :
    (2 ^ 4 * t + c) &&& y = c &&& y := by
  apply Nat.eq_of_testBit_eq
  intro j
  rw [Nat.testBit_and, Nat.testBit_and, Nat.testBit_mul_pow_two_add t hc j]
  by_cases h : j < 4
  · simp [h]
  · have hyj : y.testBit j = false :=
      Nat.testBit_lt_two_pow (Nat.lt_of_lt_of_le hy (Nat.pow_le_pow_right (by omega) (by omega)))
    simp [h, hyj]

namespace Adv

theorem pack_eq {s : Nat} (a p : Bool) (hs : s % 16 = 0) :
    pack s a p = s + (if a then 1 else 0) + (if p then 2 else 0) := by
  obtain ⟨t, rfl⟩ : ∃ t, s = 2 ^ 4 * t := ⟨s / 16, by omega⟩
  unfold pack alloc_mask prev_alloc_mask
  cases a <;> cases p <;> simp only [Bool.false_eq_true, if_false, if_true]
  · rfl
  · exact lor_low t (c := 0) (by decide) (by decide)
  · exact lor_low t (c := 0) (by decide) (by decide)
  · have h1 : 2 ^ 4 * t ||| 1 = 2 ^ 4 * t + 1 := lor_low t (c := 0) (by decide) (by decide)
    rw [h1]
    exact lor_low t (c := 1) (by decide) (by decide)

theorem extract_prev_alloc_low (t : Nat) {c : Nat} (hc : c < 2 ^ 4) :
    extract_prev_alloc (2 ^ 4 * t + c) = ((c &&& 2) != 0) := by
  unfold extract_prev_alloc prev_alloc_mask
  rw [land_low t hc (by decide)]

theorem pack_unpack {s : Nat} (a p : Bool) (hs : s % 16 = 0) (hlt : s < 2 ^ 64) :
    extract_size (pack s a p) = s ∧ extract_alloc (pack s a p) = a ∧
      extract_prev_alloc (pack s a p) = p := by
  rw [pack_eq a p hs, extract_size_eq, extract_alloc_eq]
  obtain ⟨t, rfl⟩ : ∃ t, s = 2 ^ 4 * t := ⟨s / 16, by omega⟩
  cases a <;> cases p <;> simp only [Bool.false_eq_true, if_false, if_true]
  · refine ⟨by omega, by simp; omega, ?_⟩
    exact extract_prev_alloc_low t (c := 0) (by decide)
  · refine ⟨by omega, by simp; omega, ?_⟩
    exact extract_prev_alloc_low t (c := 2) (by decide)
  · refine ⟨by omega, by simp; omega, ?_⟩
    exact extract_prev_alloc_low t (c := 1) (by decide)
  · refine ⟨by omega, by simp; omega, ?_⟩
    rw [Nat.add_assoc]
    exact extract_prev_alloc_low t (c := 3) (by decide)

end Adv

/-- C17 (header word round trip).  For every size `s` that is a multiple of 16
below `2^64` and all booleans `a`, `p`: in the footer-elided variant
`extract_size`, `extract_alloc` and `extract_prev_alloc` give back `s`, `a` and
`p` from `pack(s, a, p)`; in the basic and explicit variants `extract_size` and
`extract_alloc` give back `s` and `a` from `pack(s, a)`. -/
theorem pack_round_trip (s : Nat) (a p : Bool) (hs : s % 16 = 0) (hlt : s < 2 ^ 64) :
    (extract_size (Adv.pack s a p) = s ∧ extract_alloc (Adv.pack s a p) = a ∧
      Adv.extract_prev_alloc (Adv.pack s a p) = p) ∧
    (extract_size (Basic.pack s a) = s ∧ extract_alloc (Basic.pack s a) = a) ∧
    (extract_size (Expl.pack s a) = s ∧ extract_alloc (Expl.pack s a) = a) :=
  ⟨Adv.pack_unpack a p hs hlt,
    ⟨Basic.extract_size_pack a hs hlt, Basic.extract_alloc_pack a hs⟩,
    ⟨Basic.extract_size_pack a hs hlt, Basic.extract_alloc_pack a hs⟩⟩

/-- Witness for C17: size 4096, allocated, previous block free. -/
theorem pack_round_trip_witness :
    4096 % 16 = 0 ∧ 4096 < 2 ^ 64 ∧
    (extract_size (Adv.pack 4096 true false) = 4096 ∧
      extract_alloc (Adv.pack 4096 true false) = true ∧
      Adv.extract_prev_alloc (Adv.pack 4096 true false) = false) ∧
    (extract_size (Basic.pack 4096 true) = 4096 ∧ extract_alloc (Basic.pack 4096 true) = true) ∧
    (extract_size (Expl.pack 4096 true) = 4096 ∧ extract_alloc (Expl.pack 4096 true) = true) :=
  ⟨by omega, by omega, pack_round_trip 4096 true false (by omega) (by omega)⟩

/-! ## Request size rounding -/

/-- C15 as stated fails: in 64-bit arithmetic the request size `2^64 - 20` is
positive, yet `round_up(size + dsize, dsize)` wraps and yields block size 0,
which is below 32 and leaves no payload capacity. -/
theorem asize_wrap_counterexample :
    0 < 18446744073709551596 ∧ 18446744073709551596 < WORD ∧
    round_up (add64 18446744073709551596 dsize) dsize = 0 ∧
    ¬ 32 ≤ round_up (add64 18446744073709551596 dsize) dsize := by
  refine ⟨by omega, by unfold WORD; omega, by decide, by decide⟩

/-- C15 amended (request size rounding, basic implicit and explicit variants).
For every request size with `0 < size` and `size + 31 < 2^64`, the block size
`asize = round_up(size + dsize, dsize)` that `mm_malloc` computes in 64-bit
arithmetic is the smallest multiple of 16 that is at least `size + 16`; hence
`asize >= 32` and the payload capacity `asize - 16` is at least `size`. -/
theorem asize_smallest_multiple (size : Nat) (h0 : 0 < size) (h : size + 31 < 2 ^ 64) :
    round_up (add64 size dsize) dsize % 16 = 0 ∧
    size + 16 ≤ round_up (add64 size dsize) dsize ∧
    (∀ m, m % 16 = 0 → size + 16 ≤ m → round_up (add64 size dsize) dsize ≤ m) ∧
    32 ≤ round_up (add64 size dsize) dsize ∧
    size ≤ sub64 (round_up (add64 size dsize) dsize) dsize := by
  rw [Basic.asize_strict h]
  refine ⟨by omega, by omega, fun m h1 h2 => by omega, by omega, ?_⟩
  unfold dsize
  rw [sub64_eq (by omega) (by omega)]
  omega

/-- Witness for the amended C15: request size 64 gives block size 80. -/
theorem asize_smallest_multiple_witness :
    0 < 64 ∧ 64 + 31 < 2 ^ 64 ∧ 32 ≤ round_up (add64 64 dsize) dsize ∧
    64 ≤ sub64 (round_up (add64 64 dsize) dsize) dsize :=
  ⟨by omega, by omega, (asize_smallest_multiple 64 (by omega) (by omega)).2.2.2.1,
    (asize_smallest_multiple 64 (by omega) (by omega)).2.2.2.2⟩

namespace Basic

/-! ## mm_free: the fatal exit; mm_init: the initial heap -/

theorem mm_free_full_eq (st : State) (bp : Nat) :
    mm_free st bp =
      match mm_free_full st bp with
      | FreeResult.returned st2 => some st2
      | FreeResult.exited _ => none := by
  unfold mm_free mm_free_full
  by_cases h0 : bp = 0
  · simp [h0]
  · cases h : get_alloc st (payload_to_header bp) <;> simp [h0, h]

/-- C11 (invalid free, basic implicit variant).  For every non-null pointer
`bp` whose header word at `bp - 8` has the alloc bit clear, `mm_free(bp)` ends
in the fatal exit, and the heap at the exit is the heap it was called on (no
word has been written); for every `bp` whose header has the alloc bit set,
`mm_free(bp)` returns and does not take the fatal exit. -/
theorem mm_free_exit_iff (st : State) (bp : Nat) :
    (bp ≠ 0 → get_alloc st (payload_to_header bp) = false →
      mm_free_full st bp = FreeResult.exited st ∧ mm_free st bp = none) ∧
    (get_alloc st (payload_to_header bp) = true →
      ∃ st2, mm_free_full st bp = FreeResult.returned st2 ∧ mm_free st bp = some st2) := by
  constructor
  · intro hbp h
    unfold mm_free mm_free_full
    simp [hbp, h]
  · intro h
    unfold mm_free mm_free_full
    by_cases hbp : bp = 0
    · simp [hbp]
    · simp [hbp, h]

/-- Witness for C11: in the state after `mm_init(); mm_malloc(64)`, freeing the
payload address 4192 of the free block takes the fatal exit, freeing the
allocated block 4112 returns. -/
theorem mm_free_exit_iff_witness :
    (4192 ≠ 0 ∧ get_alloc demo_s1 (payload_to_header 4192) = false ∧
      mm_free_full demo_s1 4192 = FreeResult.exited demo_s1 ∧ mm_free demo_s1 4192 = none) ∧
    (get_alloc demo_s1 (payload_to_header 4112) = true ∧
      ∃ st2, mm_free_full demo_s1 4112 = FreeResult.returned st2 ∧
        mm_free demo_s1 4112 = some st2) :=
  ⟨⟨by decide, by decide, (mm_free_exit_iff demo_s1 4192).1 (by decide) (by decide)⟩,
    ⟨by decide, (mm_free_exit_iff demo_s1 4112).2 (by decide)⟩⟩

theorem mm_init_succeeds {p : State} (hmax : p.mem_max_addr ≤ WORD)
    (hroom : p.mem_brk + 16 + 4096 ≤ p.mem_max_addr) : (mm_init p).2 = 0 := by
  have hW : p.mem_max_addr ≤ 2 ^ 64 := hmax
  unfold mm_init
  have h16 : mul64 2 wsize = 16 := by decide
  rw [h16]
  have hs1 : mem_sbrk p 16 = some ({ p with mem_brk := p.mem_brk + 16 }, p.mem_brk) := by
    unfold mem_sbrk
    rw [if_pos (by omega)]
  simp only [hs1]
  rw [add64_eq (a := p.mem_brk) (b := wsize) (by unfold wsize; omega)]
  obtain ⟨sA, hsA⟩ : ∃ sA : State, sA = { p with
      mem := (p.mem.write p.mem_brk (pack 0 true)).write (p.mem_brk + wsize) (pack 0 true),
      mem_brk := p.mem_brk + 16 } := ⟨_, rfl⟩
  rw [← hsA]
  have hA1 : sA.mem_brk = p.mem_brk + 16 := by rw [hsA]
  have hA2 : sA.mem_max_addr = p.mem_max_addr := by rw [hsA]
  have hpro : sA.mem (p.mem_brk + 8 - 8) = pack 0 true := by
    rw [hsA]
    show Mem.write _ _ _ _ = _
    unfold wsize
    rw [mem_write_other _ _ (by omega), show p.mem_brk + 8 - 8 = p.mem_brk by omega,
      mem_write_same]
  have hch : Chain true sA.mem (p.mem_brk + 8) [] (sA.mem_brk - 8) := by
    show p.mem_brk + 8 = sA.mem_brk - 8
    omega
  obtain ⟨m2, e1, _⟩ :=
    @extend_core true sA [] (p.mem_brk + 8) hch List.chain'_nil hpro
      (by omega) (by omega) (by rw [hA2]; exact hmax)
  rw [e1]
  simp only
  rw [if_neg (by omega)]

theorem mm_init_fails {p : State} (hroom : ¬ p.mem_brk + 16 + 4096 ≤ p.mem_max_addr) :
    (mm_init p).2 = -1 := by
  unfold mm_init
  have h16 : mul64 2 wsize = 16 := by decide
  rw [h16]
  by_cases hr1 : p.mem_brk + 16 ≤ p.mem_max_addr
  · have hs1 : mem_sbrk p 16 = some ({ p with mem_brk := p.mem_brk + 16 }, p.mem_brk) := by
      unfold mem_sbrk
      rw [if_pos hr1]
    simp only [hs1]
    rw [extend_heap_fail (by show ¬ p.mem_brk + 16 + 4096 ≤ p.mem_max_addr; exact hroom)]
    simp
  · have hs1 : mem_sbrk p 16 = none := by
      unfold mem_sbrk
      rw [if_neg hr1]
    simp only [hs1]

/-- C12 (initialisation, basic implicit variant).  With a provider that hands out
addresses of the 64-bit address space: `mm_init` returns `-1` when the provider
fails on the first request (`2 * wsize` bytes) or on the second (`chunksize`
bytes), and otherwise returns `0` and leaves the prologue footer
`pack(0, allocated)` below `heap_start`, one free block of size 4096 at
`heap_start` whose header and footer are `pack(4096, free)`, and the epilogue
header `pack(0, allocated)` at `heap_end = heap_start + 4096`; the heap walk
reads exactly that one block. -/
theorem mm_init_result (p : State) (hmax : p.mem_max_addr ≤ WORD) :
    (¬ p.mem_brk + 16 ≤ p.mem_max_addr → (mm_init p).2 = -1) ∧
    (p.mem_brk + 16 ≤ p.mem_max_addr → ¬ p.mem_brk + 16 + 4096 ≤ p.mem_max_addr →
      (mm_init p).2 = -1) ∧
    (p.mem_brk + 16 + 4096 ≤ p.mem_max_addr →
      (mm_init p).2 = 0 ∧
      (mm_init p).1.heap_start = p.mem_brk + 8 ∧
      (mm_init p).1.mem ((mm_init p).1.heap_start - 8) = pack 0 true ∧
      (mm_init p).1.mem (mm_init p).1.heap_start = pack 4096 false ∧
      (mm_init p).1.mem (header_to_footer (mm_init p).1 (mm_init p).1.heap_start) =
        pack 4096 false ∧
      (mm_init p).1.heap_end = (mm_init p).1.heap_start + 4096 ∧
      (mm_init p).1.mem (mm_init p).1.heap_end = pack 0 true ∧
      heap_walk (mm_init p).1 2 (mm_init p).1.heap_start =
        some [⟨(mm_init p).1.heap_start, 4096, false⟩]) := by
  refine ⟨fun h => mm_init_fails (by omega), fun _ h => mm_init_fails h, fun hroom => ?_⟩
  have h0 := mm_init_succeeds hmax hroom
  have heq : mm_init p = ((mm_init p).1, 0) := Prod.ext rfl h0
  obtain ⟨hinv, a2, a3, _, _⟩ := mm_init_ok true hmax heq
  have hW := inv_heap_end_lt hinv
  obtain ⟨b1, b2, b3⟩ := hinv.1
  simp only at b1
  have hwalk := heap_walk_chain hW hinv.1 2 (by simp)
  refine ⟨h0, a2, hinv.2.2.1, ?_, ?_, by rw [a3, a2], hinv.2.2.2.1, ?_⟩
  · rw [← b1]; exact b2.1
  · unfold header_to_footer
    have hsz : get_size (mm_init p).1 (mm_init p).1.heap_start = 4096 := by
      rw [← b1]
      exact blk_get_size b2 (by simp only; omega)
    rw [hsz, footer_addr (by omega) (by omega) (by omega) (by omega), ← b1]
    exact b2.2.2.2.2.2 (Or.inl rfl)
  · rw [hwalk, a2]

/-- Witness for C12: the provider `demo_p0`, which has room. -/
theorem mm_init_result_witness :
    demo_p0.mem_max_addr ≤ WORD ∧ (mm_init demo_p0).2 = 0 ∧
    heap_walk (mm_init demo_p0).1 2 (mm_init demo_p0).1.heap_start =
      some [⟨(mm_init demo_p0).1.heap_start, 4096, false⟩] :=
  ⟨demo_max, ((mm_init_result demo_p0 demo_max).2.2 (by decide)).1,
    ((mm_init_result demo_p0 demo_max).2.2 (by decide)).2.2.2.2.2.2.2⟩

end Basic

/-! ## Footer-elided variant: block sizes, reallocation, scenario S3 -/

namespace Adv

/-- C14 fails on the code (reallocation keeps the payload, footer-elided
variant), at the claim's own witness `s = 24`, `n = 64`.  `mm_malloc(24)`
returns `p = 4112` in a block of size 32, whose payload is the 24 bytes
4112..4135.  The client stores `0x0807060504030201` in bytes 16..23.
`get_payload_size` subtracts `dsize` from the block size, as if the block had a
footer, so `mm_realloc(p, 64)` copies 16 bytes only: byte 16 of the new payload
at `q = 4144` is 0, byte 16 of the old payload was 1, and `16 < min(24, 64)`. -/
theorem mm_realloc_drops_last_word :
    (mm_init demo_p0).2 = 0 ∧
    mm_malloc 3 demo_s0 24 = some (copy_s1, 4112) ∧
    get_size copy_s1 (payload_to_header 4112) = 32 ∧
    get_payload_size copy_s2 (payload_to_header 4112) = 16 ∧
    mm_realloc 3 copy_s2 4112 64 = some (copy_s3, 4144) ∧
    16 < min 24 64 ∧
    byte_at copy_s2.mem 4112 16 = 1 ∧
    byte_at copy_s3.mem 4144 16 = 0 := by
  refine ⟨by decide, adv_run_eq (by decide) (by decide), by decide, by decide,
    adv_run_eq (by decide) (by decide), by decide, by decide, by decide⟩

/-- C16 fails on the code (minimum block size, footer-elided variant).
`mm_malloc(1)` computes `asize = round_up(1 + wsize, dsize) = 16`, and
`split_block` cuts a block of 16 bytes off the free block: after
`mm_init(); mm_malloc(1)` the heap walk reads an allocated block of size 16,
below `min_block_size = 32`. -/
theorem mm_malloc_makes_block_of_16 :
    (mm_init demo_p0).2 = 0 ∧
    round_up (add64 1 wsize) dsize = 16 ∧
    mm_malloc 3 demo_s0 1 = some (tiny_s1, 4112) ∧
    heap_walk tiny_s1 3 tiny_s1.heap_start =
      some [⟨4104, 16, true, true⟩, ⟨4120, 4080, false, true⟩] ∧
    16 < min_block_size := by
  refine ⟨by decide, by decide, adv_run_eq (by decide) (by decide), by decide, by decide⟩

/-- C19 fails on the code (no adjacent free blocks, footer-elided variant).  In
scenario S3 the three calls `mm_malloc(128)` return 4112, 4256 and 4400.  After
`mm_free(a); mm_free(c); mm_free(b)` the heap walk reads two free blocks next to
each other, 4104 (size 144) and 4248 (size 3952): when `b` is freed its header
still has the prev_alloc bit set, because `mm_free(a)` has not cleared it, and
`coalesce_block` does not merge `b` with the free block before it. -/
theorem s3_leaves_two_free_blocks :
    (mm_init demo_p0).2 = 0 ∧
    (mm_malloc 3 demo_s0 128).map Prod.snd = some 4112 ∧
    heap_walk s3_scenario 3 s3_scenario.heap_start =
      some [⟨4104, 144, false, true⟩, ⟨4248, 3952, false, true⟩] := by
  refine ⟨by decide, by decide, by decide⟩

end Adv

/-! ## Scenario S1, step 2 -/

/-- C18 as stated fails: in the footer-elided variant the block allocated by
`mm_malloc(64)` has size `round_up(64 + 8, 16) = 80`, not 72; no block of the
heap has size 72. -/
theorem s1_elided_block_not_72 :
    (Adv.mm_init Adv.demo_p0).2 = 0 ∧
    (Adv.mm_malloc 3 Adv.demo_s0 64).map Prod.snd = some 4112 ∧
    Adv.heap_walk Adv.s1_scenario 3 Adv.s1_scenario.heap_start =
      some [⟨4104, 80, true, true⟩, ⟨4184, 4016, false, true⟩] ∧
    ¬ ∃ l, Adv.heap_walk Adv.s1_scenario 3 Adv.s1_scenario.heap_start = some l ∧
      ∃ b ∈ l, b.sz = 72 := by
  refine ⟨by decide, by decide, by decide, ?_⟩
  have h : Adv.heap_walk Adv.s1_scenario 3 Adv.s1_scenario.heap_start =
      some [⟨4104, 80, true, true⟩, ⟨4184, 4016, false, true⟩] := by decide
  rintro ⟨l, hl, b, hb, h72⟩
  rw [h] at hl
  cases hl
  simp at hb
  rcases hb with rfl | rfl <;> simp at h72

/-- C18 amended (scenario S1, step 2).  On a provider whose region starts at
address 4096: after `mm_init()` and `p = mm_malloc(64)`, `p = 4112` is 16-byte
aligned and the heap walk reads exactly one allocated block, of size 80 in the
basic, the explicit and the footer-elided variant, followed by exactly one free
block (of size 4016). -/
theorem s1_step2_heap :
    ((Basic.mm_init Basic.demo_p0).2 = 0 ∧
      (Basic.mm_malloc 2 Basic.demo_s0 64).map Prod.snd = some 4112 ∧
      Basic.heap_walk Basic.demo_s1 3 Basic.demo_s1.heap_start =
        some [⟨4104, 80, true⟩, ⟨4184, 4016, false⟩]) ∧
    (((Expl.mm_init Expl.demo_p0).map Prod.snd).toOption = some 0 ∧
      ((Expl.mm_malloc 3 Expl.demo_s0 64).map Prod.snd).toOption = some 4112 ∧
      (Expl.heap_walk Expl.s1_scenario 3 Expl.s1_scenario.heap_start).toOption =
        some [⟨4104, 80, true⟩, ⟨4184, 4016, false⟩]) ∧
    ((Adv.mm_init Adv.demo_p0).2 = 0 ∧
      (Adv.mm_malloc 3 Adv.demo_s0 64).map Prod.snd = some 4112 ∧
      Adv.heap_walk Adv.s1_scenario 3 Adv.s1_scenario.heap_start =
        some [⟨4104, 80, true, true⟩, ⟨4184, 4016, false, true⟩]) ∧
    4112 % 16 = 0 := by
  refine ⟨⟨by decide, by decide, by decide⟩, ⟨by decide, by decide, by decide⟩,
    ⟨by decide, by decide, by decide⟩, by decide⟩

namespace Basic

/-! ## mm_free on a known block; placing and freeing again -/

/-- Source `mm_free` on the payload of the allocated block `⟨a, sz⟩` of a
well-formed heap: it returns, the block list is the old one with the block freed
and merged, and no word of another allocated block changes. -/
theorem mm_free_at {s : Bool} {st : State} {pre post : List Blk} {a sz : Nat}
    (hinv : Inv s st (pre ++ ⟨a, sz, true⟩ :: post)) :
    ∃ st2, mm_free st (a + 8) = some st2 ∧
      Inv s st2 (mergeInto pre ⟨a, sz, false⟩ post) ∧
      st2.heap_start = st.heap_start ∧ st2.heap_end = st.heap_end ∧
      st2.mem_brk = st.mem_brk ∧ st2.mem_max_addr = st.mem_max_addr ∧
      (∀ b ∈ pre ++ post, b.al = true → b ∈ mergeInto pre ⟨a, sz, false⟩ post) ∧
      (∃ M ∈ mergeInto pre ⟨a, sz, false⟩ post, M.al = false ∧ M.addr ≤ a ∧
        a + sz ≤ M.addr + M.sz ∧
        ∀ x, st2.mem x ≠ st.mem x →
          x = a ∨ x = a + sz - 8 ∨ x = M.addr ∨ x = M.addr + M.sz - 8) ∧
      (∀ b ∈ pre ++ post, b.al = true → ∀ x, b.addr ≤ x → x < b.addr + b.sz →
        st2.mem x = st.mem x) := by
  obtain ⟨i1, i2, i3, i4, i5, i6, i7, i8⟩ := hinv
  have hW : st.heap_end + 8 ≤ 2 ^ 64 := by unfold WORD at i8; omega
  obtain ⟨mid, c1, c2, c3, c4⟩ := chain_append.1 i1
  simp only at c2
  subst c2
  have hle1 := chain_le c1
  have hle2 := chain_le c4
  simp only at hle2 c4
  have hBm : sz % 16 = 0 := c3.2.1
  have hB16 : 16 ≤ sz := c3.2.2.1
  have hB32 : s = true → 32 ≤ sz := c3.2.2.2.1
  have hsz : get_size st a = sz := blk_get_size c3 (by simp only; omega)
  have hga : get_alloc st a = true := blk_get_alloc c3
  have hph : payload_to_header (a + 8) = a := by
    unfold payload_to_header wsize
    rw [sub64_eq (by omega) (by omega)]
    omega
  obtain ⟨m1, hm1⟩ : ∃ m1 : Mem, m1 =
    (st.mem.write a (pack sz false)).write (a + sz - 8) (pack sz false) := ⟨_, rfl⟩
  obtain ⟨st1, hst1⟩ : ∃ st1 : State, st1 = { st with mem := m1 } := ⟨_, rfl⟩
  have hfree : mm_free st (a + 8) = some (coalesce_block st1 a) := by
    unfold mm_free
    rw [if_neg (by omega)]
    simp only [hph, hga, hsz, Bool.not_true, Bool.false_eq_true, if_false]
    rw [write_hf_eq st false hBm (by omega) (by omega) (by omega) (by omega), hst1, hm1]
  have hst1m : st1.mem = m1 := by rw [hst1]
  have hm1lo : ∀ x, x < a ∨ a + sz ≤ x → st1.mem x = st.mem x := by
    intro x hx
    rw [hst1m, hm1, mem_write_other _ _ (by omega), mem_write_other _ _ (by omega)]
  have hh : st1.mem a = pack sz false := by
    rw [hst1m, hm1, mem_write_other _ _ (by omega), mem_write_same]
  have hf : st1.mem (a + sz - 8) = pack sz false := by
    rw [hst1m, hm1, mem_write_same]
  obtain ⟨m2, d1, d2, d3, d4, d5, d6, M, hM, hMal, hMa, hMe, hMf⟩ :=
    @coalesce_spec s st1 pre post a sz st.heap_start st.heap_end
      (chain_frame c1 (fun x _ hx => hm1lo x (Or.inl hx))) hh hf hBm hB16 hB32
      (chain_frame c4 (fun x hx _ => hm1lo x (Or.inr hx)))
      (by rw [hm1lo _ (Or.inl (by omega))]; exact i3)
      (by rw [hm1lo _ (Or.inr (by omega))]; exact i4) i5 hW
  obtain ⟨n1, n2, _⟩ := noAdj_split i2
  refine ⟨_, hfree, ?_, ?_, ?_, ?_, ?_, d5, ⟨M, hM, hMal, hMa, hMe, fun x hx => ?_⟩, ?_⟩
  on_goal 6 =>
    by_contra hc
    apply hx
    rw [d1]
    show m2 x = st.mem x
    rw [hMf x (by clear * - hc; omega) (by clear * - hc; omega), hst1m, hm1,
      mem_write_other _ _ (by clear * - hc; omega), mem_write_other _ _ (by clear * - hc; omega)]
  · rw [d1, hst1]
    refine ⟨d2, mergeInto_noAdj _ n1 n2 rfl, ?_, ?_, i5, i6, i7, i8⟩
    · show m2 (st.heap_start - 8) = _
      rw [d3 _ (Or.inl (by omega)), hm1lo _ (Or.inl (by omega))]; exact i3
    · show m2 st.heap_end = _
      rw [d3 _ (Or.inr (by omega)), hm1lo _ (Or.inr (by omega))]; exact i4
  · rw [d1, hst1]
  · rw [d1, hst1]
  · rw [d1, hst1]
  · rw [d1, hst1]
  · intro b hb hbal x hx1 hx2
    have hb2 := d5 b hb hbal
    have hd := chain_al_disjoint d2 hb2 hM hbal hMal
    have hM16 := (chain_bounds d2 M hM).2.2.1.2.2.1
    have hout : x < a ∨ a + sz ≤ x := by
      rcases List.mem_append.1 hb with g | g
      · have := (chain_bounds c1 b g).2.1
        left; omega
      · have := (chain_bounds c4 b g).1
        right; omega
    rw [d1]
    show m2 x = st.mem x
    rw [hMf x (by omega) (by omega)]
    exact hm1lo x hout

theorem mergePrev_alloc {pre : List Blk} {B : Blk}
    (h : ∀ x, pre.getLast? = some x → x.al = true) : mergePrev pre B = (pre, B) := by
  unfold mergePrev
  cases hl : pre.getLast? with
  | none => rfl
  | some P => simp [h P hl]

/-- Freeing the block that `placeInto` has just allocated from the free block
`B` gives back the block list before the placement. -/
theorem mergeInto_placeInto {pre post : List Blk} {B : Blk} {asize : Nat}
    (hna : NoAdjFree (pre ++ B :: post)) (hB : B.al = false) (has : asize ≤ B.sz) :
    (min_block_size ≤ B.sz - asize →
      mergeInto pre ⟨B.addr, asize, false⟩ (⟨B.addr + asize, B.sz - asize, false⟩ :: post) =
        pre ++ B :: post) ∧
    (mergeInto pre ⟨B.addr, B.sz, false⟩ post = pre ++ B :: post) := by
  obtain ⟨n1, n2, n3⟩ := noAdj_split hna
  obtain ⟨l1, l2⟩ := n3 hB
  have hBeq : (⟨B.addr, B.sz, false⟩ : Blk) = B := by
    cases B
    simp only at hB
    subst hB
    rfl
  constructor
  · intro _
    unfold mergeInto
    rw [mergePrev_alloc l1]
    simp only [mergeNext, Bool.false_eq_true, if_false]
    rw [show asize + (B.sz - asize) = B.sz by omega, hBeq]
  · unfold mergeInto
    rw [mergePrev_alloc l1]
    cases post with
    | nil => simp [mergeNext, hBeq]
    | cons N r =>
      have hN : N.al = true := l2 N (by simp)
      simp [mergeNext, hN, hBeq]

end Basic

namespace Basic

theorem demo_inv0 : Inv true demo_s0 [⟨4104, 4096, false⟩] :=
  (mm_init_ok true demo_max demo_init).1

/-- C20 as stated fails: "every size > 0" includes sizes whose rounding wraps.
On the well-formed heap after `mm_init()`, for the request size `2^64 - 20` the
block size wraps to 0, `find_fit(0)` succeeds on the first free block without
growing the heap, and `mm_malloc` returns `4112`, the payload of a block it has
left free; `mm_free(4112)` then takes the fatal exit instead of returning. -/
theorem malloc_free_wrap_counterexample :
    Inv true demo_s0 [⟨4104, 4096, false⟩] ∧
    0 < 18446744073709551596 ∧ 18446744073709551596 < WORD ∧
    find_fit 2 demo_s0 (round_up (add64 18446744073709551596 dsize) dsize) = some 4104 ∧
    mm_malloc 2 demo_s0 18446744073709551596 = some (wrap_s1, 4112) ∧
    mm_free wrap_s1 4112 = none ∧
    mm_free_full wrap_s1 4112 = FreeResult.exited wrap_s1 := by
  refine ⟨demo_inv0, by omega, by unfold WORD; omega, by decide, wrap_malloc1,
    Option.isNone_iff_eq_none.1 (by decide), ?_⟩
  have h : get_alloc wrap_s1 (payload_to_header 4112) = false := by decide
  unfold mm_free_full
  simp [h]

/-- C20 amended (allocate then free, basic implicit variant).  For every
well-formed heap (tiled, header equals footer, no two adjacent free blocks) and
every request size with `0 < size` and `size + 31 < 2^64` for which `find_fit`
succeeds without growing the heap, `p = mm_malloc(size)` returns the payload of
the block `find_fit` found and leaves `heap_end` and the provider's break as
they were, `mm_free(p)` returns, and afterwards the heap is well-formed with the
same block sequence: the walk from `heap_start` to `heap_end` reads the same
list of blocks (address, size, alloc bit) as before the two calls. -/
theorem malloc_free_restores {st : State} {bs : List Blk} {fuel size blk : Nat}
    (hinv : Inv true st bs) (h0 : 0 < size) (hsz : size + 31 < 2 ^ 64)
    (hfit : find_fit fuel st (round_up (add64 size dsize) dsize) = some blk)
    (hblk : blk ≠ 0) :
    ∃ st1 st2, mm_malloc fuel st size = some (st1, blk + 8) ∧
      st1.heap_end = st.heap_end ∧ st1.mem_brk = st.mem_brk ∧
      mm_free st1 (blk + 8) = some st2 ∧
      st2.heap_start = st.heap_start ∧ st2.heap_end = st.heap_end ∧ Inv true st2 bs ∧
      ∀ f, bs.length < f →
        heap_walk st f st.heap_start = some bs ∧ heap_walk st2 f st2.heap_start = some bs := by
  have hW := inv_heap_end_lt hinv
  have hA := asize_strict hsz
  rw [hA] at hfit
  have hr : blk = firstFit ((size + 31) / 16 * 16) bs :=
    (find_fit_loop_spec (by omega) hinv.1 fuel).2 blk hfit
  obtain ⟨pre, B, post, f1, f2, f3, f4⟩ := firstFit_pos (by rw [← hr]; exact hblk)
  rw [← hr] at f4
  subst f1
  subst f4
  have hbB := chain_bounds hinv.1 B (by simp)
  obtain ⟨st3, k1, k2, k3, k4⟩ :=
    place_spec hinv f2 f3 (by omega : (size + 31) / 16 * 16 % 16 = 0) (fun _ => by omega)
  have hmal : mm_malloc fuel st size = some (st3, B.addr + 8) := by
    cases fuel with
    | zero => simp [find_fit, find_fit_loop] at hfit
    | succ f =>
      unfold mm_malloc
      rw [if_neg (by omega)]
      simp only [hA]
      unfold mm_malloc_loop
      rw [hfit]
      simp only [if_neg hblk, k1]
      have : header_to_payload B.addr = B.addr + 8 := by
        unfold header_to_payload wsize
        exact add64_eq (by omega)
      rw [this]
  have hfree : ∃ st2, mm_free st3 (B.addr + 8) = some st2 ∧
      Inv true st2 (pre ++ B :: post) ∧ st2.heap_start = st3.heap_start ∧
      st2.heap_end = st3.heap_end := by
    by_cases hsp : min_block_size ≤ B.sz - (size + 31) / 16 * 16
    · have hpl : placeInto pre B post ((size + 31) / 16 * 16) =
          pre ++ ⟨B.addr, (size + 31) / 16 * 16, true⟩ ::
            ⟨B.addr + (size + 31) / 16 * 16, B.sz - (size + 31) / 16 * 16, false⟩ :: post := by
        unfold placeInto
        rw [if_pos hsp, if_neg (by omega)]
      have hi := k2.1
      rw [hpl] at hi
      obtain ⟨st2, m1, m2, m3, m4, _⟩ := mm_free_at hi
      rw [(mergeInto_placeInto hinv.2.1 f2 f3).1 hsp] at m2
      exact ⟨st2, m1, m2, m3, m4⟩
    · have hpl : placeInto pre B post ((size + 31) / 16 * 16) =
          pre ++ ⟨B.addr, B.sz, true⟩ :: post := by
        unfold placeInto
        rw [if_neg hsp]
      have hi := k2.1
      rw [hpl] at hi
      obtain ⟨st2, m1, m2, m3, m4, _⟩ := mm_free_at hi
      rw [(mergeInto_placeInto hinv.2.1 f2 f3).2] at m2
      exact ⟨st2, m1, m2, m3, m4⟩
  obtain ⟨st2, m1, m2, m3, m4⟩ := hfree
  refine ⟨st3, st2, hmal, k3, k4, m1, by rw [m3, k2.2.1], by rw [m4, k3], m2, fun f hf => ?_⟩
  exact ⟨heap_walk_chain hW hinv.1 f hf,
    heap_walk_chain (inv_heap_end_lt m2) m2.1 f hf⟩

/-- Witness for the amended C20: scenario S1, `mm_malloc(64)` then `mm_free` on
the heap whose block list is the single free block of size 4096. -/
theorem malloc_free_restores_witness :
    Inv true demo_s0 [⟨4104, 4096, false⟩] ∧ 0 < 64 ∧ 64 + 31 < 2 ^ 64 ∧
    find_fit 2 demo_s0 (round_up (add64 64 dsize) dsize) = some 4104 ∧ 4104 ≠ 0 ∧
    ∃ st1 st2, mm_malloc 2 demo_s0 64 = some (st1, 4104 + 8) ∧
      st1.heap_end = demo_s0.heap_end ∧ st1.mem_brk = demo_s0.mem_brk ∧
      mm_free st1 (4104 + 8) = some st2 ∧
      st2.heap_start = demo_s0.heap_start ∧ st2.heap_end = demo_s0.heap_end ∧
      Inv true st2 [⟨4104, 4096, false⟩] ∧
      ∀ f, [(⟨4104, 4096, false⟩ : Blk)].length < f →
        heap_walk demo_s0 f demo_s0.heap_start = some [⟨4104, 4096, false⟩] ∧
        heap_walk st2 f st2.heap_start = some [⟨4104, 4096, false⟩] :=
  ⟨demo_inv0, by omega, by omega, by decide, by omega,
    malloc_free_restores demo_inv0 (by omega) (by omega) (by decide) (by omega)⟩

end Basic

/-! ## Bytes and memcpy -/

theorem byte_at_congr {m m2 : Mem} {p k : Nat} (h : m2 (p + k / 8 * 8) = m (p + k / 8 * 8)) :
    byte_at m2 p k = byte_at m p k := by
  unfold byte_at
  rw [h]

namespace Basic

/-! ## Reallocation -/

theorem chain_frame_hf {s : Bool} {m m2 : Mem} {bs : List Blk} : ∀ {a e : Nat},
    Chain s m a bs e →
    (∀ b ∈ bs, m2 b.addr = m b.addr ∧ m2 (b.addr + b.sz - 8) = m (b.addr + b.sz - 8)) →
    Chain s m2 a bs e := by
  induction bs with
  | nil => intro a e h _; exact h
  | cons b r ih =>
    intro a e h hm
    obtain ⟨h1, h2, h3⟩ := h
    exact ⟨h1, blockOK_frame h2 (hm b (by simp)).1 (hm b (by simp)).2,
      ih h3 (fun c hc => hm c (List.mem_cons_of_mem _ hc))⟩

/-- Changing words strictly inside one block, above its header and below its
footer, keeps the heap well-formed. -/
theorem inv_frame_interior {s : Bool} {st : State} {bs : List Blk} {Q : Blk} {m2 : Mem}
    (hinv : Inv s st bs) (hQ : Q ∈ bs)
    (hm : ∀ x, x ≤ Q.addr ∨ Q.addr + Q.sz - 8 ≤ x → m2 x = st.mem x) :
    Inv s { st with mem := m2 } bs := by
  obtain ⟨i1, i2, i3, i4, i5, i6, i7, i8⟩ := hinv
  have hQb := chain_bounds i1 Q hQ
  refine ⟨chain_frame_hf i1 (fun b hb => ?_), i2, ?_, ?_, i5, i6, i7, i8⟩
  · have hb16 := (chain_bounds i1 b hb).2.2.1.2.2.1
    by_cases hne : b.addr = Q.addr
    · have := chain_addr_inj i1 b hb Q hQ hne
      subst this
      exact ⟨hm _ (Or.inl (Nat.le_refl _)), hm _ (Or.inr (Nat.le_refl _))⟩
    · have := chain_disjoint i1 b hb Q hQ hne
      exact ⟨hm _ (by omega), hm _ (by omega)⟩
  · show m2 (st.heap_start - 8) = _
    rw [hm _ (by omega)]; exact i3
  · show m2 st.heap_end = _
    rw [hm _ (by omega)]; exact i4

/-- With room at the provider for the block size plus one chunk, `mm_malloc`
returns with every sufficiently large fuel. -/
theorem mm_malloc_returns {s : Bool} {st : State} {bs : List Blk} {size : Nat}
    (hinv : Inv s st bs) (h0 : 0 < size) (hsz : size + 31 < 2 ^ 64)
    (hroom : st.mem_brk + round_up (add64 size dsize) dsize + chunksize ≤ st.mem_max_addr) :
    ∀ fuel, bs.length + (size + 31) / 16 * 16 / 4096 + 3 ≤ fuel →
      ∃ r, mm_malloc fuel st size = some r := by
  intro fuel hfuel
  have hA := asize_strict hsz
  unfold chunksize at hroom
  rw [hA] at hroom
  obtain ⟨st1, block, hl⟩ := @malloc_loop_terminates s fuel
    ((size + 31) / 16 * 16) (by omega) ((size + 31) / 16 * 16 / 4096 + 1) fuel st bs hinv
    (by omega) (by omega) (by split_ifs <;> omega) (by omega)
  unfold mm_malloc
  rw [if_neg (by omega)]
  simp only [hA, hl]
  exact ⟨_, rfl⟩

end Basic

namespace Basic

end Basic

/-! ## Explicit variant: empty free list, coalescing case 4 -/

namespace Expl

/-- C25 fails on the code (fit functions on an empty free list, explicit
variant).  `mm_init(); mm_malloc(4080)` takes the only free block whole:
`free_list_root` is `NULL` and `free_list_len` is 0.  In that state each of
`first_fit`, `next_fit` and `best_fit` reads the header of the block
`free_list_root` points to, a null pointer dereference, and so does the next
`mm_malloc` (through `best_fit`): it neither returns `NULL` from the fit
function nor grows the heap. -/
theorem fit_on_empty_list_derefs_null :
    ((mm_init demo_p0).map Prod.snd).toOption = some 0 ∧
    ((mm_malloc 3 demo_s0 4080).map Prod.snd).toOption = some 4112 ∧
    (heap_walk empty_s1 3 empty_s1.heap_start).toOption = some [⟨4104, 4096, true⟩] ∧
    empty_s1.free_list_root = 0 ∧ empty_s1.free_list_len = 0 ∧
    (∀ fuel, first_fit (fuel + 1) empty_s1 32 = Except.error Err.null_deref) ∧
    (∀ fuel, (next_fit (fuel + 1) empty_s1 32).map Prod.snd = Except.error Err.null_deref) ∧
    (∀ fuel, best_fit (fuel + 1) empty_s1 32 = Except.error Err.null_deref) ∧
    (∀ fuel, (mm_malloc (fuel + 1) empty_s1 16).map Prod.snd = Except.error Err.null_deref) := by
  have hr : empty_s1.free_list_root = 0 := by decide
  have hn : empty_s1.next_fit_ptr = 0 := by decide
  have hf : empty_s1.find_fit = FitFn.best := by decide
  have hb : ∀ fuel asize, best_fit (fuel + 1) empty_s1 asize = Except.error Err.null_deref := by
    intro fuel asize
    simp [best_fit, best_fit_loop, hr, get_alloc, load]
    rfl
  refine ⟨by decide, by decide, by decide, hr, by decide, fun fuel => ?_, fun fuel => ?_,
    fun fuel => hb fuel 32, fun fuel => ?_⟩
  · simp [first_fit, first_fit_loop, hr, get_size, load]
    rfl
  · simp [next_fit, next_fit_loop, hr, hn, get_size, load]
    rfl
  · have ha : round_up (add64 16 dsize) dsize = 32 := by decide
    simp [mm_malloc, ha, mm_malloc_loop, call_find_fit, hf, hb]
    rfl

/-- C27 fails on the code (coalescing case 4, explicit variant).  In the state
`marked_s6` the block 4136 has just been marked free, its neighbours 4104 and
4168 are free nodes of the free list `[4232, 4104, 4168]`, and `free_list_len`
is 3.  `coalesce_block(4136)` disconnects the previous block twice and never
the next one: afterwards the heap walk reads the merged block 4104 of size 96,
`free_list_len` is 2, and the free list is `[4232, 4168, 4104]`: the node 4168
of the old next block is still reachable as a node of its own. -/
theorem case4_keeps_next_node :
    (heap_walk marked_s6 6 marked_s6.heap_start).toOption =
      some [⟨4104, 32, false⟩, ⟨4136, 32, false⟩, ⟨4168, 32, false⟩, ⟨4200, 32, true⟩,
        ⟨4232, 3968, false⟩] ∧
    (free_list_walk marked_s6 4 marked_s6.free_list_root).toOption = some [4232, 4104, 4168] ∧
    marked_s6.free_list_len = 3 ∧
    (coalesce_block marked_s6 4136).toOption.isSome = true ∧
    (heap_walk merged_s7 4 merged_s7.heap_start).toOption =
      some [⟨4104, 96, false⟩, ⟨4200, 32, true⟩, ⟨4232, 3968, false⟩] ∧
    (free_list_walk merged_s7 4 merged_s7.free_list_root).toOption = some [4232, 4168, 4104] ∧
    merged_s7.free_list_len = 2 := by
  refine ⟨by decide, by decide, by decide, by decide, by decide, by decide, by decide⟩

end Expl

/-! ## Footer-elided variant: the prev_alloc bit of a new tail block -/

namespace Adv

/-- C29 fails on the code (heap growth, footer-elided variant).  After
`mm_init(); mm_malloc(4088)` the heap is one allocated block 4104..8200 and the
epilogue header at 8200 has its prev_alloc bit clear.  The client stores the
word 1 in the last word of its payload, at 8192.  `extend_heap(chunksize)` takes
the bit from the alloc bit of that word (`find_prev_footer`), not from the old
epilogue header: the free block it writes at 8200 has the prev_alloc bit set in
its header and in its footer. -/
theorem extend_heap_reads_payload_word :
    (mm_init demo_p0).2 = 0 ∧
    (mm_malloc 3 demo_s0 4088).map Prod.snd = some 4112 ∧
    heap_walk grow_s1 3 grow_s1.heap_start = some [⟨4104, 4096, true, true⟩] ∧
    grow_s1.heap_end = 8200 ∧ Is_prev_alloc grow_s1 8200 = false ∧
    (extend_heap grow_s1 chunksize).2 = 8200 ∧
    Is_prev_alloc grow_s2 8200 = true ∧
    extract_prev_alloc (grow_s2.mem (header_to_footer grow_s2 8200)) = true ∧
    heap_walk grow_s2 3 grow_s2.heap_start =
      some [⟨4104, 4096, true, true⟩, ⟨8200, 4096, false, true⟩] := by
  refine ⟨by decide, by decide, by decide, by decide, by decide, by decide, by decide, by decide,
    by decide⟩

end Adv

namespace Basic

/-! ## First fit -/

theorem firstFit_first {asize : Nat} {bs : List Blk} (h : firstFit asize bs ≠ 0) :
    ∃ pre B post, bs = pre ++ B :: post ∧ B.al = false ∧ asize ≤ B.sz ∧
      B.addr = firstFit asize bs ∧ ∀ b ∈ pre, b.al = true ∨ b.sz < asize := by
  induction bs with
  | nil => simp [firstFit] at h
  | cons b r ih =>
    by_cases hc : (!b.al && decide (asize ≤ b.sz)) = true
    · refine ⟨[], b, r, rfl, ?_, ?_, ?_, by simp⟩
      · simpa using (Bool.and_eq_true_iff.1 hc).1
      · simpa using (Bool.and_eq_true_iff.1 hc).2
      · simp [firstFit, hc]
    · have hr : firstFit asize (b :: r) = firstFit asize r := by simp [firstFit, hc]
      rw [hr] at h
      obtain ⟨pre, B, post, e1, e2, e3, e4, e5⟩ := ih h
      refine ⟨b :: pre, B, post, by rw [e1]; rfl, e2, e3, by rw [hr]; exact e4, ?_⟩
      intro x hx
      rcases List.mem_cons.1 hx with rfl | hx
      · cases hal : x.al
        · right
          simp [hal] at hc
          exact hc
        · left; rfl
      · exact e5 x hx

/-- C22 (first fit, basic implicit variant).  For every well-formed heap with
block sequence `bs` (the blocks the walk from `heap_start` to `heap_end` reads)
and every `asize`, `find_fit(asize)` returns, with any fuel above the number of
blocks; it returns `NULL` exactly when no free block of the walk has size at
least `asize`, and otherwise it returns the address of a free block of size at
least `asize` such that no block before it in the walk is free with size at
least `asize`, which is the lowest-addressed such block. -/
theorem find_fit_first_fit {s : Bool} {st : State} {bs : List Blk} {asize fuel : Nat}
    (hinv : Inv s st bs) (hfuel : bs.length < fuel) :
    heap_walk st fuel st.heap_start = some bs ∧
    ∃ r, find_fit fuel st asize = some r ∧
      (r = 0 ↔ ∀ b ∈ bs, ¬ (b.al = false ∧ asize ≤ b.sz)) ∧
      (r ≠ 0 → ∃ pre B post, bs = pre ++ B :: post ∧ B.addr = r ∧ B.al = false ∧
        get_alloc st r = false ∧ asize ≤ B.sz ∧ get_size st r = B.sz ∧
        (∀ b ∈ pre, ¬ (b.al = false ∧ asize ≤ b.sz)) ∧
        ∀ b ∈ bs, b.al = false → asize ≤ b.sz → r ≤ b.addr) := by
  have hW := inv_heap_end_lt hinv
  have h8 : 8 ≤ st.heap_start := hinv.2.2.2.2.1
  have hff : find_fit fuel st asize = some (firstFit asize bs) :=
    (find_fit_loop_spec (by clear * - hW; omega) hinv.1 fuel).1 hfuel
  refine ⟨heap_walk_chain hW hinv.1 fuel hfuel, _, hff, ⟨fun h0 b hb hc => ?_, fun hno => ?_⟩,
    fun hne => ?_⟩
  · have hpos : ∀ x ∈ bs, x.addr ≠ 0 := by
      intro x hx
      have := (chain_bounds hinv.1 x hx).1
      clear * - this h8
      omega
    rcases firstFit_zero h0 hpos b hb with g | g
    · rw [hc.1] at g
      exact absurd g (by simp)
    · have := hc.2
      clear * - this g
      omega
  · by_contra hne
    obtain ⟨pre, B, post, e1, e2, e3, _⟩ := firstFit_first hne
    exact hno B (by rw [e1]; simp) ⟨e2, e3⟩
  · obtain ⟨pre, B, post, e1, e2, e3, e4, e5⟩ := firstFit_first hne
    have hBin : B ∈ bs := by rw [e1]; simp
    have hBok := (chain_bounds hinv.1 B hBin).2.2.1
    have hBe := (chain_bounds hinv.1 B hBin).2.1
    refine ⟨pre, B, post, e1, e4, e2, ?_, e3, ?_, fun b hb hc => ?_, fun b hb hal hfit => ?_⟩
    · rw [← e4, blk_get_alloc hBok, e2]
    · rw [← e4]
      exact blk_get_size hBok (by clear * - hBe hW; omega)
    · rcases e5 b hb with g | g
      · rw [hc.1] at g
        exact absurd g (by simp)
      · have := hc.2
        clear * - this g
        omega
    · rw [← e4]
      subst e1
      rcases List.mem_append.1 hb with g | g
      · rcases e5 b g with g2 | g2
        · rw [hal] at g2
          exact absurd g2 (by simp)
        · clear * - g2 hfit
          omega
      · rcases List.mem_cons.1 g with g | g
        · rw [g]
        · obtain ⟨mid, c1, c2, c3, c4⟩ := chain_append.1 hinv.1
          have := (chain_bounds c4 b g).1
          have hc2 : B.addr = mid := c2
          clear * - this hc2
          omega

/-- Witness for C22: the heap after `mm_init()`, one free block of 4096
bytes; `find_fit(32)` returns it. -/
theorem find_fit_first_fit_witness :
    Inv true demo_s0 [⟨4104, 4096, false⟩] ∧ [(⟨4104, 4096, false⟩ : Blk)].length < 2 ∧
    heap_walk demo_s0 2 demo_s0.heap_start = some [⟨4104, 4096, false⟩] ∧
    ∃ r, find_fit 2 demo_s0 32 = some r ∧
      (r = 0 ↔ ∀ b ∈ [(⟨4104, 4096, false⟩ : Blk)], ¬ (b.al = false ∧ 32 ≤ b.sz)) ∧
      (r ≠ 0 → ∃ pre B post, [(⟨4104, 4096, false⟩ : Blk)] = pre ++ B :: post ∧ B.addr = r ∧
        B.al = false ∧ get_alloc demo_s0 r = false ∧ 32 ≤ B.sz ∧ get_size demo_s0 r = B.sz ∧
        (∀ b ∈ pre, ¬ (b.al = false ∧ 32 ≤ b.sz)) ∧
        ∀ b ∈ [(⟨4104, 4096, false⟩ : Blk)], b.al = false → 32 ≤ b.sz → r ≤ b.addr) :=
  ⟨demo_inv0, by decide, find_fit_first_fit demo_inv0 (by decide)⟩

end Basic

namespace Basic

/-! ## Splitting -/

theorem split_block_cases {st : State} {B b a : Nat} (hsz : get_size st B = b) (hab : a ≤ b)
    (ha : a % 16 = 0) (hb : b % 16 = 0) (h0 : 0 < a) (h8 : 8 ≤ B) (hlt : B + b + 8 ≤ 2 ^ 64) :
    (min_block_size ≤ b - a →
      (split_block st B a).mem B = pack a true ∧
      (split_block st B a).mem (B + a - 8) = pack a true ∧
      (split_block st B a).mem (B + a) = pack (b - a) false ∧
      (split_block st B a).mem (B + a + (b - a) - 8) = pack (b - a) false ∧
      get_size (split_block st B a) B = a ∧ get_alloc (split_block st B a) B = true ∧
      (split_block st B a).mem (header_to_footer (split_block st B a) B) =
        (split_block st B a).mem B ∧
      get_size (split_block st B a) (B + a) = b - a ∧
      get_alloc (split_block st B a) (B + a) = false ∧
      (split_block st B a).mem (header_to_footer (split_block st B a) (B + a)) =
        (split_block st B a).mem (B + a) ∧
      (∀ x, x ≠ B → x ≠ B + a - 8 → x ≠ B + a → x ≠ B + b - 8 →
        (split_block st B a).mem x = st.mem x)) ∧
    (b - a < min_block_size → split_block st B a = st) := by
  constructor
  · intro hsp
    have hsp2 : 32 ≤ b - a := hsp
    have ha16 : 16 ≤ a := by clear * - ha h0; omega
    rw [split_block_split hsz hab ha hb h8 hlt hsp]
    obtain ⟨m3, hm3⟩ : ∃ m3 : Mem, m3 = (((st.mem.write B (pack a true)).write
      (B + a - 8) (pack a true)).write (B + a)
      (pack (b - a) false)).write (B + b - 8) (pack (b - a) false) := ⟨_, rfl⟩
    rw [← hm3]
    have r1 : m3 B = pack a true := by
      rw [hm3, mem_write_other _ _ (by clear * - hsp2 ha16; omega),
        mem_write_other _ _ (by clear * - ha16; omega),
        mem_write_other _ _ (by clear * - ha16; omega), mem_write_same]
    have r2 : m3 (B + a - 8) = pack a true := by
      rw [hm3, mem_write_other _ _ (by clear * - hsp2 ha16; omega),
        mem_write_other _ _ (by clear * - ha16; omega), mem_write_same]
    have r3 : m3 (B + a) = pack (b - a) false := by
      rw [hm3, mem_write_other _ _ (by clear * - hsp2 ha16; omega), mem_write_same]
    have r4 : m3 (B + b - 8) = pack (b - a) false := by
      rw [hm3, mem_write_same]
    have e4 : B + a + (b - a) - 8 = B + b - 8 := by clear * - hab; omega
    have hba : (b - a) % 16 = 0 := by clear * - ha hb hab; omega
    have g1 : get_size { st with mem := m3 } B = a := by
      unfold get_size
      show extract_size (m3 B) = a
      rw [r1]
      exact extract_size_pack true ha (by clear * - hab hlt; omega)
    have g3 : get_size { st with mem := m3 } (B + a) = b - a := by
      unfold get_size
      show extract_size (m3 (B + a)) = b - a
      rw [r3]
      exact extract_size_pack false hba (by clear * - hab hlt; omega)
    refine ⟨r1, r2, r3, by rw [e4]; exact r4, g1, ?_, ?_, g3, ?_, ?_, ?_⟩
    · unfold get_alloc
      show extract_alloc (m3 B) = true
      rw [r1]
      exact extract_alloc_pack true ha
    · unfold header_to_footer
      rw [g1, footer_addr (by clear * - ha16; omega) (by clear * - hlt; omega)
        (by clear * - hab hlt; omega) (by clear * - hab hlt; omega)]
      show m3 (B + a - 8) = m3 B
      rw [r1, r2]
    · unfold get_alloc
      show extract_alloc (m3 (B + a)) = false
      rw [r3]
      exact extract_alloc_pack false hba
    · unfold header_to_footer
      rw [g3, footer_addr (by clear * - hsp2; omega) (by clear * - hab hlt; omega)
        (by clear * - hab hlt; omega) (by clear * - hab hlt; omega)]
      show m3 (B + a + (b - a) - 8) = m3 (B + a)
      rw [e4, r3, r4]
    · intro x h1 h2 h3 h4
      show m3 x = st.mem x
      rw [hm3, mem_write_other _ _ h4, mem_write_other _ _ h3, mem_write_other _ _ h2,
        mem_write_other _ _ h1]
  · intro hsp
    exact split_block_nosplit hsz hab (by clear * - hlt; omega) (by clear * - hsp; omega)

/-- C28 as stated fails: `asize = 0` is a multiple of 16 and at most the block
size.  On the block 4104 of size 4096 after `mm_init()`, `split_block(B, 0)`
takes the split branch (`4096 - 0 >= 32`), but the header it writes for the
"allocated block of size 0" is overwritten by the header of the remainder, which
starts at the same address: the word at `B` is `pack(4096, free)`, not
`pack(0, allocated)`.  `mm_malloc(2^64 - 20)` makes this call. -/
theorem split_block_zero_counterexample :
    get_size marked_s0 4104 = 4096 ∧ 0 ≤ 4096 ∧ 0 % 16 = 0 ∧ 4096 % 16 = 0 ∧
    min_block_size ≤ 4096 - 0 ∧
    round_up (add64 18446744073709551596 dsize) dsize = 0 ∧
    (split_block marked_s0 4104 0).mem 4104 = pack 4096 false ∧
    (split_block marked_s0 4104 0).mem 4104 ≠ pack 0 true ∧
    get_alloc (split_block marked_s0 4104 0) 4104 = false := by
  refine ⟨by decide, by omega, by omega, by omega, by decide, by decide, by decide, by decide,
    by decide⟩

/-- C28 amended (splitting, basic implicit variant).  For a block `B` of size
`b` that lies in the address space (`8 <= B`, `B + b + 8 <= 2^64`) and an
`asize` `a` with `0 < a <= b`, both multiples of 16:
`split_block(B, a)` with `b - a >= 32` leaves an allocated block of size `a` at
`B` and a free block of size `b - a` at `B + a`, each with its footer equal to
its header, and changes no other word; with `b - a < 32` it changes nothing.
After `mm_init()`, `a = mm_malloc(32)` and `b = mm_malloc(32)` return
`4112 < 4160`, and the block of `b` starts at 4152, where the block of `a`
ends. -/
theorem split_block_spec {st : State} {B b a : Nat} (hsz : get_size st B = b) (hab : a ≤ b)
    (ha : a % 16 = 0) (hb : b % 16 = 0) (h0 : 0 < a) (h8 : 8 ≤ B) (hlt : B + b + 8 ≤ 2 ^ 64) :
    (min_block_size ≤ b - a →
      get_size (split_block st B a) B = a ∧ get_alloc (split_block st B a) B = true ∧
      (split_block st B a).mem B = pack a true ∧
      (split_block st B a).mem (header_to_footer (split_block st B a) B) = pack a true ∧
      get_size (split_block st B a) (B + a) = b - a ∧
      get_alloc (split_block st B a) (B + a) = false ∧
      (split_block st B a).mem (B + a) = pack (b - a) false ∧
      (split_block st B a).mem (header_to_footer (split_block st B a) (B + a)) =
        pack (b - a) false ∧
      (∀ x, x ≠ B → x ≠ B + a - 8 → x ≠ B + a → x ≠ B + b - 8 →
        (split_block st B a).mem x = st.mem x)) ∧
    (b - a < min_block_size → split_block st B a = st) ∧
    ((mm_init demo_p0).2 = 0 ∧
      mm_malloc 2 demo_s0 32 = some (two_s1, 4112) ∧
      mm_malloc 2 two_s1 32 = some (two_s2, 4160) ∧ 4112 < 4160 ∧
      heap_walk two_s2 4 two_s2.heap_start =
        some [⟨4104, 48, true⟩, ⟨4152, 48, true⟩, ⟨4200, 4000, false⟩] ∧
      payload_to_header 4112 = 4104 ∧ payload_to_header 4160 = 4152 ∧
      find_next two_s2 4104 = 4152) := by
  obtain ⟨h1, h2⟩ := split_block_cases hsz hab ha hb h0 h8 hlt
  refine ⟨fun hsp => ?_, h2, by decide, run_eq (by decide) (by decide),
    run_eq (by decide) (by decide), by omega, by decide, by decide, by decide, by decide⟩
  obtain ⟨r1, r2, r3, r4, g1, g2, g3, g4, g5, g6, g7⟩ := h1 hsp
  exact ⟨g1, g2, r1, by rw [g3]; exact r1, g4, g5, r3, by rw [g6]; exact r3, g7⟩

/-- Witness for the amended C28: the split of the first `mm_malloc(32)` after
`mm_init()`: block 4104 of size 4096, `asize = 48`. -/
theorem split_block_spec_witness :
    get_size marked_s0 4104 = 4096 ∧ 48 ≤ 4096 ∧ 48 % 16 = 0 ∧ 4096 % 16 = 0 ∧ 0 < 48 ∧
    8 ≤ 4104 ∧ 4104 + 4096 + 8 ≤ 2 ^ 64 ∧ min_block_size ≤ 4096 - 48 ∧
    get_size (split_block marked_s0 4104 48) 4104 = 48 ∧
    get_alloc (split_block marked_s0 4104 48) 4104 = true ∧
    get_size (split_block marked_s0 4104 48) (4104 + 48) = 4096 - 48 ∧
    get_alloc (split_block marked_s0 4104 48) (4104 + 48) = false :=
  have h := (split_block_spec (by decide : get_size marked_s0 4104 = 4096)
    (by omega : 48 ≤ 4096) (by omega) (by omega) (by omega) (by omega) (by omega)).1
    (by decide)
  ⟨by decide, by omega, by omega, by omega, by omega, by omega, by omega, by decide,
    h.1, h.2.1, h.2.2.2.2.1, h.2.2.2.2.2.1⟩

end Basic

namespace Basic

/-! ## Coalescing, stated on the neighbours -/

theorem mergeInto_explicit {pre post : List Blk} {a sz : Nat}
    (hlast : ∀ P, pre.getLast? = some P → P.addr + P.sz = a ∧ 0 < P.sz)
    (hhead : ∀ N, post.head? = some N → 0 < N.sz) :
    mergeInto pre ⟨a, sz, false⟩ post =
      (if tailFree pre = 0 then pre else pre.dropLast) ++
        ⟨a - tailFree pre, tailFree pre + sz + headFree post, false⟩ ::
        (if headFree post = 0 then post else post.tail) := by
  have hprev : mergePrev pre ⟨a, sz, false⟩ =
      (if tailFree pre = 0 then pre else pre.dropLast,
        ⟨a - tailFree pre, tailFree pre + sz, false⟩) := by
    unfold mergePrev tailFree
    cases hl : pre.getLast? with
    | none => simp
    | some P =>
      obtain ⟨h1, h2⟩ := hlast P hl
      cases hal : P.al
      · have hne : P.sz ≠ 0 := by omega
        have ha : a - P.sz = P.addr := by omega
        simp [hal, hne, ha]
      · simp [hal]
  unfold mergeInto
  rw [hprev]
  unfold mergeNext headFree
  cases post with
  | nil => simp
  | cons N r =>
    have h2 := hhead N rfl
    cases hal : N.al
    · have hne : N.sz ≠ 0 := by omega
      simp [hal, hne]
    · simp [hal]

end Basic

namespace Basic

/-- C26 (coalescing, basic implicit variant).  For a heap that is well-formed
before and after a block `B` at `a` of size `sz` that has just been marked free
(header and footer `pack(sz, free)`), `coalesce_block(B)` changes only heap words
and leaves one free block that starts at the previous block when that one was
free and at `B` otherwise (`a - tailFree pre`), whose size is `sz` plus the sizes
of exactly those of the two neighbours that were free, and whose header and
footer are `pack(size, free)`; no other word changes, and the block sequence is
the old one with the free neighbours replaced by the merged block: allocated
neighbours and all blocks further away are unchanged. -/
theorem coalesce_block_merges {s : Bool} {st : State} {pre post : List Blk}
    {a sz hs he : Nat} (hpre : Chain s st.mem hs pre a)
    (hh : st.mem a = pack sz false) (hf : st.mem (a + sz - 8) = pack sz false)
    (hm : sz % 16 = 0) (h16 : 16 ≤ sz) (h32 : s = true → 32 ≤ sz)
    (hpost : Chain s st.mem (a + sz) post he)
    (hpro : st.mem (hs - 8) = pack 0 true) (hepi : st.mem he = pack 0 true)
    (h8 : 8 ≤ hs) (hW : he + 8 ≤ 2 ^ 64) :
    ∃ m2, coalesce_block st a = { st with mem := m2 } ∧
      (∀ P, pre.getLast? = some P → P.al = false → a - tailFree pre = P.addr) ∧
      ((∀ P, pre.getLast? = some P → P.al = true) → a - tailFree pre = a) ∧
      m2 (a - tailFree pre) = pack (tailFree pre + sz + headFree post) false ∧
      m2 (a - tailFree pre + (tailFree pre + sz + headFree post) - 8) =
        pack (tailFree pre + sz + headFree post) false ∧
      (∀ x, x ≠ a - tailFree pre →
        x ≠ a - tailFree pre + (tailFree pre + sz + headFree post) - 8 → m2 x = st.mem x) ∧
      Chain s m2 hs
        ((if tailFree pre = 0 then pre else pre.dropLast) ++
          ⟨a - tailFree pre, tailFree pre + sz + headFree post, false⟩ ::
          (if headFree post = 0 then post else post.tail)) he := by
  obtain ⟨m2, d1, d2, _, _, _, _, M, hM, hMal, hMa, hMe, hMf⟩ :=
    coalesce_spec hpre hh hf hm h16 h32 hpost hpro hepi h8 hW
  have hlast : ∀ P, pre.getLast? = some P → P.addr + P.sz = a ∧ 0 < P.sz := by
    intro P hP
    obtain ⟨l, rfl⟩ : ∃ l, pre = l ++ [P] := by
      rcases List.eq_nil_or_concat pre with h | ⟨l, x, h⟩
      · rw [h] at hP; simp at hP
      · rw [List.concat_eq_append] at h
        rw [h, List.getLast?_concat] at hP
        exact ⟨l, by rw [h, Option.some.inj hP]⟩
    obtain ⟨_, c2, c3⟩ := chain_snoc.1 hpre
    have := c2.2.2.1
    exact ⟨c3, by clear * - this; omega⟩
  have hhead : ∀ N, post.head? = some N → 0 < N.sz := by
    intro N hN
    cases post with
    | nil => simp at hN
    | cons x r =>
      simp only [List.head?_cons, Option.some.injEq] at hN
      subst hN
      have := hpost.2.1.2.2.1
      clear * - this
      omega
  rw [mergeInto_explicit hlast hhead] at d2 hM
  obtain ⟨X, hX⟩ : ∃ X : Blk, X =
    ⟨a - tailFree pre, tailFree pre + sz + headFree post, false⟩ := ⟨_, rfl⟩
  rw [← hX] at d2 hM
  have hXin : X ∈ (if tailFree pre = 0 then pre else pre.dropLast) ++ X ::
      (if headFree post = 0 then post else post.tail) := by simp
  have htl : tailFree pre ≤ a := by
    unfold tailFree
    cases hl : pre.getLast? with
    | none => simp
    | some P =>
      have := (hlast P hl).1
      simp only
      split_ifs <;> omega
  have hXa : X.addr = a - tailFree pre := by rw [hX]
  have hXs : X.sz = tailFree pre + sz + headFree post := by rw [hX]
  have hXal : X.al = false := by rw [hX]
  have hMX : M = X := by
    apply chain_addr_inj d2 M hM X hXin
    by_contra hne
    have := chain_disjoint d2 M hM X hXin hne
    clear * - this hXa hXs hMa hMe htl h16
    omega
  subst hMX
  have hok := (chain_bounds d2 M hM).2.2.1
  refine ⟨m2, d1, fun P hP hal => ?_, fun hP => ?_, ?_, ?_, ?_, by rw [← hX]; exact d2⟩
  · have := (hlast P hP).1
    have ht : tailFree pre = P.sz := by
      unfold tailFree
      rw [hP]
      simp [hal]
    rw [ht]
    clear * - this
    omega
  · have ht : tailFree pre = 0 := by
      unfold tailFree
      cases hl : pre.getLast? with
      | none => rfl
      | some P => simp [hP P hl]
    rw [ht]
    rfl
  · rw [← hXa, ← hXs]
    have := hok.1
    rw [hXal] at this
    exact this
  · rw [← hXa, ← hXs]
    have := hok.2.2.2.2.2 (Or.inr hXal)
    rw [hXal] at this
    exact this
  · intro x h1 h2
    rw [← hXa] at h1 h2
    rw [← hXs] at h2
    exact hMf x h1 h2

end Basic

namespace Basic

/-- Witness for C26: `mm_free` of the block 4104 (size 80) after
`mm_init(); mm_malloc(64)`; the next block 4184 (size 4016) is free, there is no
previous block: the merged free block starts at 4104 and has size 4096. -/
theorem coalesce_block_merges_witness :
    Chain true freed_s1.mem 4104 [] 4104 ∧ freed_s1.mem 4104 = pack 80 false ∧
    freed_s1.mem (4104 + 80 - 8) = pack 80 false ∧
    Chain true freed_s1.mem (4104 + 80) [⟨4184, 4016, false⟩] 8200 ∧
    freed_s1.mem (4104 - 8) = pack 0 true ∧ freed_s1.mem 8200 = pack 0 true ∧
    ∃ m2, coalesce_block freed_s1 4104 = { freed_s1 with mem := m2 } ∧
      m2 4104 = pack 4096 false ∧ m2 (4104 + 4096 - 8) = pack 4096 false ∧
      Chain true m2 4104 [⟨4104, 4096, false⟩] 8200 := by
  have hpost : Chain true freed_s1.mem (4104 + 80) [⟨4184, 4016, false⟩] 8200 := by
    simp only [Chain, BlockOK]
    decide
  obtain ⟨m2, h1, _, _, h4, h5, _, h7⟩ :=
    @coalesce_block_merges true freed_s1 [] [⟨4184, 4016, false⟩] 4104 80 4104 8200 rfl
      (by decide) (by decide) (by omega) (by omega) (fun _ => by omega) hpost (by decide)
      (by decide) (by omega) (by omega)
  refine ⟨rfl, by decide, by decide, hpost, by decide, by decide, m2, h1, ?_, ?_, ?_⟩
  · simpa [tailFree, headFree] using h4
  · simpa [tailFree, headFree] using h5
  · simpa [tailFree, headFree] using h7

end Basic

namespace Basic

/-! ## What mm_malloc and mm_free write -/

theorem free_run_eq {o : Option State} {d : State} (h : o.isSome = true) :
    o = some (o.getD d) := by
  cases o with
  | none => simp at h
  | some r => rfl

/-- In a well-formed heap every word that differs after a step lies at or above
the old `heap_end` or inside a block that was free. -/
theorem step_footprint {st st2 : State} {bs bs2 : List Blk} (hinv : Inv true st bs)
    (hstep : Step true st bs st2 bs2) :
    ∀ x, st2.mem x ≠ st.mem x →
      st.heap_end ≤ x ∨ ∃ b ∈ bs, b.al = false ∧ b.addr ≤ x ∧ x < b.addr + b.sz := by
  intro x hx
  obtain ⟨f1, f2⟩ := hstep.2.2.2.2.2.2.2 rfl
  by_cases h1 : st.heap_end ≤ x
  · exact Or.inl h1
  · right
    by_cases h2 : x < st.heap_start
    · exact absurd (f2 x h2) hx
    · obtain ⟨b, hb, g1, g2⟩ := chain_cover hinv.1 x (by clear * - h2; omega)
        (by clear * - h1; omega)
      cases hal : b.al
      · exact ⟨b, hb, hal, g1, g2⟩
      · exact absurd (f1 b hb hal x g1 g2) hx

/-- C21 as stated fails: "every state reachable from `mm_init`" includes states
reached through a request whose size wraps.  After `mm_init()`,
`a = mm_malloc(64)` (`a = 4112`) and `r = mm_malloc(2^64 - 20)` (`r = 4192`,
the payload of a block left free), `mm_free(a)` merges the block of `a` with
that free block and writes the merged footer at 8192: byte 4000 of the requested
payload range of the other outstanding allocation `r` changes from 176 to 0. -/
theorem frame_wrap_counterexample :
    Reach SizeAny demo_p0 frame_s2 [(4192, 18446744073709551596), (4112, 64)] ∧
    mm_free frame_s2 4112 = some frame_s3 ∧ 4192 ≠ 4112 ∧ 4000 < 18446744073709551596 ∧
    byte_at frame_s2.mem 4192 4000 = 176 ∧ byte_at frame_s3.mem 4192 4000 = 0 := by
  refine ⟨?_, free_run_eq (by decide), by omega, by omega, by decide, by decide⟩
  have h1 := Reach.malloc demo_s0 demo_s1 [] 2 64 4112 (demo_reach0 SizeAny) trivial
    (by unfold WORD; omega) demo_malloc1
  have h2 := Reach.malloc demo_s1 frame_s2 _ 2 18446744073709551596 4192 h1 trivial
    (by unfold WORD; omega) (run_eq (by decide) (by decide))
  simpa using h2

end Basic

/-! ## The explicit free list: segments and traversal -/

namespace Expl

theorem ok_bind {α β : Type} (v : α) (f : α → M β) : (Except.ok v >>= f) = f v := rfl

theorem load_ok {st : State} {p off : Nat} (hp : p ≠ 0) :
    load st p off = Except.ok (st.mem (add64 p off)) := by
  unfold load
  rw [if_neg hp]
  rfl

theorem store_ok {st : State} {p off v : Nat} (hp : p ≠ 0) :
    store st p off v = Except.ok { st with mem := st.mem.write (add64 p off) v } := by
  unfold store
  rw [if_neg hp]
  rfl

theorem node_next {c p : Nat} (h : NodeOK c p) : add64 p off_next = p + 16 := by
  unfold off_next
  exact add64_eq (by have := h.2.2; omega)

theorem node_prev {c p : Nat} (h : NodeOK c p) : add64 p off_previous = p + 8 := by
  unfold off_previous
  exact add64_eq (by have := h.2.2; omega)

theorem node_header {c p : Nat} (h : NodeOK c p) : add64 p off_header = p := by
  unfold off_header
  exact add64_eq (by have := h.2.2; omega)

theorem seg_append {m : Mem} {l1 l2 : List Nat} : ∀ {a e : Nat},
    Seg m a (l1 ++ l2) e ↔ ∃ mid, Seg m a l1 mid ∧ Seg m mid l2 e := by
  induction l1 with
  | nil =>
    intro a e
    constructor
    · intro h; exact ⟨a, rfl, h⟩
    · rintro ⟨mid, h1, h2⟩
      simp only [Seg] at h1
      subst h1
      exact h2
  | cons n r ih =>
    intro a e
    simp only [List.cons_append, Seg]
    constructor
    · rintro ⟨h1, h2, h3⟩
      obtain ⟨mid, g1, g2⟩ := ih.1 h2
      exact ⟨mid, ⟨h1, g1, h3⟩, g2⟩
    · rintro ⟨mid, ⟨h1, g1, h3⟩, g2⟩
      exact ⟨h1, ih.2 ⟨mid, g1, g2⟩, h3⟩

theorem seg_head {m : Mem} {l : List Nat} {a e n : Nat} (h : Seg m a (n :: l) e) : n = a :=
  h.1

/-- The last node of a segment points to the end, and the end points back. -/
theorem seg_last {m : Mem} {l : List Nat} {t : Nat} : ∀ {a e : Nat},
    Seg m a (l ++ [t]) e → nxt m t = e ∧ prv m e = t := by
  intro a e h
  obtain ⟨mid, _, h2⟩ := seg_append.1 h
  obtain ⟨h3, h4, h5⟩ := h2
  simp only [Seg] at h4
  subst h3
  rw [h4] at h5
  exact ⟨h4, h5⟩

/-- A segment only depends on the `next` fields of its nodes and on the
`previous` fields of their successors. -/
theorem seg_frame {m m2 : Mem} {l : List Nat} : ∀ {a e : Nat}, Seg m a l e →
    (∀ n ∈ l, nxt m2 n = nxt m n) → (∀ n ∈ l.tail, prv m2 n = prv m n) →
    (l ≠ [] → prv m2 e = prv m e) → Seg m2 a l e := by
  induction l with
  | nil => intro a e h _ _ _; exact h
  | cons n r ih =>
    intro a e h h1 h2 h3
    obtain ⟨g1, g2, g3⟩ := h
    subst g1
    have hn : nxt m2 n = nxt m n := h1 n (List.mem_cons_self _ _)
    refine ⟨rfl, ?_, ?_⟩
    · rw [hn]
      refine ih g2 (fun x hx => h1 x (List.mem_cons_of_mem _ hx)) (fun x hx => ?_) (fun _ => h3 (by simp))
      exact h2 x (by simp only [List.tail_cons]; exact List.mem_of_mem_tail hx)
    · rw [hn]
      cases r with
      | nil =>
        simp only [Seg] at g2
        rw [g2, h3 (by simp), ← g2]
        exact g3
      | cons n2 r2 =>
        have := g2.1
        rw [← this, h2 n2 (by simp), this]
        exact g3

/-- Nodes of a segment other than a first one are successors of nodes of it. -/
theorem seg_mem_succ {m : Mem} {l : List Nat} : ∀ {a e : Nat}, Seg m a l e →
    ∀ n ∈ l, n = a ∨ ∃ n2 ∈ l, nxt m n2 = n := by
  induction l with
  | nil => intro a e _ n hn; simp at hn
  | cons x r ih =>
    intro a e h n hn
    obtain ⟨g1, g2, _⟩ := h
    rcases List.mem_cons.1 hn with rfl | hn
    · exact Or.inl g1
    · right
      rcases ih g2 n hn with h1 | ⟨n2, h2, h3⟩
      · exact ⟨x, List.mem_cons_self _ _, by rw [g1, h1]⟩
      · exact ⟨n2, List.mem_cons_of_mem _ h2, h3⟩

theorem seg_prv_nxt {m : Mem} {l : List Nat} : ∀ {a e : Nat}, Seg m a l e →
    ∀ n ∈ l, prv m (nxt m n) = n := by
  induction l with
  | nil => intro a e _ n hn; simp at hn
  | cons x r ih =>
    intro a e h n hn
    obtain ⟨g1, g2, g3⟩ := h
    rcases List.mem_cons.1 hn with rfl | hn
    · rw [g1]; exact g3
    · exact ih g2 n hn

/-- In a circular list `next` and `previous` are mutually inverse on the nodes. -/
theorem ring_inverse {m : Mem} {l : List Nat} {a : Nat} (h : Seg m a l a) :
    ∀ n ∈ l, prv m (nxt m n) = n ∧ nxt m (prv m n) = n := by
  intro n hn
  refine ⟨seg_prv_nxt h n hn, ?_⟩
  have hsucc : ∃ n2 ∈ l, nxt m n2 = n := by
    rcases seg_mem_succ h n hn with h1 | h1
    · rcases List.eq_nil_or_concat l with h2 | ⟨l2, t, h2⟩
      · rw [h2] at hn; simp at hn
      · rw [List.concat_eq_append] at h2
        subst h2
        exact ⟨t, by simp, by rw [h1]; exact (seg_last h).1⟩
    · exact h1
  obtain ⟨n2, h2, h3⟩ := hsucc
  rw [← h3, seg_prv_nxt h n2 h2]

theorem ok_bind_walk {st : State} {f x n : Nat} {l : List Nat}
    (h : free_list_walk st f n = Except.ok l) :
    (do let l ← free_list_walk st f n; pure (x :: l) : M (List Nat)) = Except.ok (x :: l) := by
  rw [h]
  rfl

/-- The traversal of `free_list_status` along a segment that ends at the root. -/
theorem walk_seg {st : State} {c : Nat} {l : List Nat} : ∀ {a : Nat} (fuel : Nat),
    Seg st.mem a l st.free_list_root → l ≠ [] → (∀ n ∈ l, NodeOK c n) →
    st.free_list_root ∉ l.tail → l.length ≤ fuel →
    free_list_walk st fuel a = Except.ok l := by
  induction l with
  | nil => intro a fuel _ h; exact absurd rfl h
  | cons x r ih =>
    intro a fuel h _ hok hroot hfuel
    obtain ⟨g1, g2, _⟩ := h
    subst g1
    have hx := hok x (List.mem_cons_self _ _)
    cases fuel with
    | zero => simp at hfuel
    | succ f =>
      unfold free_list_walk
      rw [if_neg hx.1, load_ok hx.1, node_next hx]
      cases r with
      | nil =>
        simp only [Seg] at g2
        have : st.mem (x + 16) = st.free_list_root := g2
        rw [ok_bind, this]
        simp only [ne_eq, not_true_eq_false, if_false]
        rfl
      | cons y r2 =>
        have hy : y = nxt st.mem x := g2.1
        have hne : st.mem (x + 16) ≠ st.free_list_root := by
          intro hc
          apply hroot
          simp only [List.tail_cons]
          rw [← hc]
          exact List.mem_cons.2 (Or.inl (by rw [hy]; rfl))
        have hrec := ih f g2 (by simp) (fun n hn => hok n (List.mem_cons_of_mem _ hn))
          (fun hc => hroot (by simp only [List.tail_cons] at hc ⊢; exact List.mem_cons_of_mem _ hc))
          (by simp only [List.length_cons] at hfuel ⊢; omega)
        have hrec2 : free_list_walk st f (st.mem (x + 16)) = Except.ok (y :: r2) := hrec
        rw [ok_bind, if_pos hne, ok_bind_walk hrec2]

theorem ring_root_not_in_tail {L : List Nat} (hnd : L.Nodup) {m : Mem} {a : Nat}
    (h : Seg m a L a) : a ∉ L.tail := by
  cases L with
  | nil => simp
  | cons x r =>
    have := h.1
    subst this
    simp only [List.tail_cons]
    exact (List.nodup_cons.1 hnd).1

/-- C30 and C23 rest on this: the traversal from `free_list_root` of a
well-formed free list reads its node list. -/
theorem free_list_walk_spec {st : State} {c : Nat} {L : List Nat} (h : FreeList st c L)
    {fuel : Nat} (hfuel : L.length < fuel) :
    free_list_walk st fuel st.free_list_root = Except.ok L := by
  obtain ⟨_, h2, h3, h4, h5⟩ := h
  by_cases hL : L = []
  · subst hL
    cases fuel with
    | zero => simp at hfuel
    | succ f =>
      unfold free_list_walk
      rw [if_pos (h4 rfl)]
      rfl
  · exact walk_seg fuel (h5 hL) hL h3 (ring_root_not_in_tail h2 (h5 hL)) (by omega)

end Expl

namespace Expl

/-! ## Insertion into the free list -/

/-- Source `connect_block` on a node `x` that is not the root: the four stores. -/
theorem connect_block_mem {st : State} {c x : Nat} (hx : NodeOK c x)
    (hR : NodeOK c st.free_list_root) (hne : x ≠ st.free_list_root)
    (ht : NodeOK c (prv st.mem st.free_list_root)) :
    connect_block st x =
      Except.ok { st with mem := link_before st.mem x st.free_list_root } := by
  have a1 : x + 16 ≠ st.free_list_root + 8 := by
    have := hx.2.1; have := hR.2.1; omega
  have a2 : x + 8 ≠ st.free_list_root + 8 := by omega
  unfold connect_block
  rw [if_neg hne, store_ok hx.1, ok_bind]
  dsimp only
  rw [load_ok hR.1, ok_bind]
  dsimp only
  rw [node_next hx, node_prev hR, mem_write_other _ _ (Ne.symm a1), store_ok hx.1, ok_bind]
  dsimp only
  rw [load_ok hR.1, ok_bind]
  dsimp only
  rw [node_prev hx, node_prev hR, mem_write_other _ _ (Ne.symm a2),
    mem_write_other _ _ (Ne.symm a1)]
  have e : st.mem (st.free_list_root + 8) = prv st.mem st.free_list_root := rfl
  rw [e, store_ok ht.1, ok_bind]
  dsimp only
  rw [store_ok hR.1, node_next ht, node_prev hR]
  rfl

end Expl

namespace Expl

/-- The circular list after `connect_block(x)`: `x` sits between the old last
node and the root. -/
theorem ring_link_before {m : Mem} {c x R : Nat} {L : List Nat} (hring : Seg m R L R)
    (hL : L ≠ []) (hnd : L.Nodup) (hok : ∀ n ∈ L, NodeOK c n) (hx : NodeOK c x)
    (hxL : x ∉ L) :
    Seg (link_before m x R) R (L ++ [x]) R ∧ Seg (link_before m x R) x (x :: L) x := by
  obtain ⟨init, t, hLt⟩ : ∃ init t, L = init ++ [t] := by
    rcases List.eq_nil_or_concat L with h | ⟨l2, t, h⟩
    · exact absurd h hL
    · exact ⟨l2, t, by rw [h, List.concat_eq_append]⟩
  subst hLt
  obtain ⟨ht1, ht2⟩ := seg_last hring
  obtain ⟨mid, hs1, hs2⟩ := seg_append.1 hring
  have hmid : t = mid := hs2.1
  subst hmid
  have htok : NodeOK c t := hok t (by simp)
  have hxt : x ≠ t := fun h => hxL (by rw [h]; simp)
  have hRin : R ∈ init ++ [t] := by
    cases init with
    | nil => simp only [List.nil_append] at hring; rw [← hring.1]; simp
    | cons h i2 => rw [← hring.1]; simp
  have hRok : NodeOK c R := hok R hRin
  have hxR : x ≠ R := fun h => hxL (by rw [h]; exact hRin)
  have hnd2 := List.nodup_append.1 hnd
  have hinit_t : ∀ n ∈ init, n ≠ t := fun n hn h =>
    hnd2.2.2 hn (by rw [h]; simp)
  obtain ⟨m4, hm4⟩ : ∃ m4 : Mem, m4 = link_before m x R := ⟨_, rfl⟩
  rw [← hm4]
  have hdef : m4 = (((m.write (x + 16) R).write (x + 8) t).write (t + 16) x).write (R + 8) x := by
    rw [hm4]
    unfold link_before
    rw [ht2]
  have al : ∀ {a b : Nat}, NodeOK c a → NodeOK c b → a + 16 ≠ b + 8 := by
    intro a b ha hb
    have := ha.2.1
    have := hb.2.1
    omega
  have F1 : nxt m4 x = R := by
    unfold nxt
    rw [hdef, mem_write_other _ _ (al hx hRok), mem_write_other _ _ (by omega),
      mem_write_other _ _ (by omega), mem_write_same]
  have F2 : prv m4 x = t := by
    unfold prv
    rw [hdef, mem_write_other _ _ (by omega), mem_write_other _ _ (Ne.symm (al htok hx)),
      mem_write_same]
  have F3 : nxt m4 t = x := by
    unfold nxt
    rw [hdef, mem_write_other _ _ (al htok hRok), mem_write_same]
  have F4 : prv m4 R = x := by
    unfold prv
    rw [hdef, mem_write_same]
  have F5 : ∀ n, NodeOK c n → n ≠ t → n ≠ x → nxt m4 n = nxt m n := by
    intro n hn h1 h2
    unfold nxt
    rw [hdef, mem_write_other _ _ (al hn hRok), mem_write_other _ _ (by omega),
      mem_write_other _ _ (al hn hx), mem_write_other _ _ (by omega)]
  have F6 : ∀ n, NodeOK c n → n ≠ R → n ≠ x → prv m4 n = prv m n := by
    intro n hn h1 h2
    unfold prv
    rw [hdef, mem_write_other _ _ (by omega), mem_write_other _ _ (Ne.symm (al htok hn)),
      mem_write_other _ _ (by omega), mem_write_other _ _ (Ne.symm (al hx hn))]
  have hmem : ∀ n ∈ init, n ∈ init ++ [t] := fun n hn => List.mem_append_left _ hn
  have hhead : ∀ n ∈ init.tail, n ≠ R := by
    cases init with
    | nil => intro n hn; simp at hn
    | cons h i2 =>
      intro n hn hc
      have hh : h = R := hs1.1
      have := (List.nodup_cons.1 hnd2.1).1
      rw [hh] at this
      simp only [List.tail_cons] at hn
      rw [hc] at hn
      exact this hn
  have hseg1 : Seg m4 R init t := by
    refine seg_frame hs1 (fun n hn => F5 n (hok n (hmem n hn)) (hinit_t n hn)
      (fun h => hxL (by rw [← h]; exact hmem n hn))) (fun n hn => ?_) (fun hne => ?_)
    · have hn2 := List.mem_of_mem_tail hn
      exact F6 n (hok n (hmem n hn2)) (hhead n hn) (fun h => hxL (by rw [← h]; exact hmem n hn2))
    · refine F6 t htok (fun htR => ?_) (Ne.symm hxt)
      cases init with
      | nil => exact hne rfl
      | cons h0 i2 =>
        have hh : h0 = R := hs1.1
        exact hinit_t h0 (by simp) (by rw [hh, htR])
  have hseg2 : Seg m4 t [t] x := ⟨rfl, F3, by rw [F3]; exact F2⟩
  have hseg3 : Seg m4 x [x] R := ⟨rfl, F1, by rw [F1]; exact F4⟩
  constructor
  · rw [List.append_assoc]
    exact seg_append.2 ⟨t, hseg1, seg_append.2 ⟨x, hseg2, hseg3⟩⟩
  · have : x :: (init ++ [t]) = [x] ++ (init ++ [t]) := rfl
    rw [this]
    exact seg_append.2 ⟨R, hseg3, seg_append.2 ⟨t, hseg1, hseg2⟩⟩

end Expl

namespace Expl

theorem get_alloc_node {st : State} {c x : Nat} (hx : NodeOK c x) :
    get_alloc st x = Except.ok (extract_alloc (st.mem x)) := by
  unfold get_alloc
  rw [load_ok hx.1, ok_bind, node_header hx]
  rfl

theorem get_size_node {st : State} {c x : Nat} (hx : NodeOK c x) :
    get_size st x = Except.ok (extract_size (st.mem x)) := by
  unfold get_size
  rw [load_ok hx.1, ok_bind, node_header hx]
  rfl

/-- Source `append_free_list` on the empty list: `x` becomes the root and the only
node, whatever the insertion type. -/
theorem append_free_list_empty {st : State} {c x : Nat} (ty : Nat)
    (hroot : st.free_list_root = 0) (hx : NodeOK c x)
    (hfree : extract_alloc (st.mem x) = false) :
    ∃ st2, append_free_list st x ty = Except.ok st2 ∧ st2.mem = link_self st.mem x ∧
      st2.free_list_root = x ∧ st2.free_list_len = st.free_list_len + 1 := by
  unfold append_free_list
  rw [get_alloc_node hx, ok_bind, hfree]
  simp only [Bool.false_eq_true, if_false]
  rw [if_pos (Or.inl hroot)]
  rw [store_ok hx.1, ok_bind]
  dsimp only
  rw [store_ok hx.1, node_prev hx, node_next hx]
  exact ⟨_, rfl, rfl, rfl, rfl⟩

/-- Source `append_free_list` on a non-empty list: `connect_block`, and the root
moves to `x` for type 1 (LIFO) only. -/
theorem append_free_list_nonempty {st : State} {c x : Nat} {L : List Nat}
    (hfl : FreeList st c L) (hL : L ≠ []) (hx : NodeOK c x) (hxL : x ∉ L)
    (hfree : extract_alloc (st.mem x) = false) :
    (∃ st2, append_free_list st x 1 = Except.ok st2 ∧
      st2.mem = link_before st.mem x st.free_list_root ∧ st2.free_list_root = x ∧
      st2.free_list_len = st.free_list_len + 1) ∧
    (∃ st2, append_free_list st x 2 = Except.ok st2 ∧
      st2.mem = link_before st.mem x st.free_list_root ∧
      st2.free_list_root = st.free_list_root ∧
      st2.free_list_len = st.free_list_len + 1) := by
  obtain ⟨h1, h2, h3, h4, h5⟩ := hfl
  have hring := h5 hL
  have hRin : st.free_list_root ∈ L := by
    cases L with
    | nil => exact absurd rfl hL
    | cons a r => rw [← hring.1]; simp
  have hRok := h3 _ hRin
  have hxR : x ≠ st.free_list_root := fun h => hxL (by rw [h]; exact hRin)
  obtain ⟨init, t, hLt⟩ : ∃ init t, L = init ++ [t] := by
    rcases List.eq_nil_or_concat L with h | ⟨l2, t, h⟩
    · exact absurd h hL
    · exact ⟨l2, t, by rw [h, List.concat_eq_append]⟩
  have htok : NodeOK c (prv st.mem st.free_list_root) := by
    subst hLt
    rw [(seg_last hring).2]
    exact h3 t (by simp)
  have hlen : ¬ (st.free_list_root = 0 ∨ st.free_list_len + 1 = 0) := by
    rintro (h | h)
    · exact hRok.1 h
    · rw [h1] at h
      have : (0 : Int) ≤ (L.length : Int) := Int.ofNat_nonneg _
      omega
  have hcb := @connect_block_mem { st with free_list_len := st.free_list_len + 1 } c x hx
    hRok hxR htok
  constructor
  · unfold append_free_list
    rw [get_alloc_node hx, ok_bind, hfree]
    simp only [Bool.false_eq_true, if_false]
    rw [if_neg hlen, if_pos trivial]
    unfold append_free_list_LIFO
    rw [hcb, ok_bind]
    exact ⟨_, rfl, rfl, rfl, rfl⟩
  · unfold append_free_list
    rw [get_alloc_node hx, ok_bind, hfree]
    simp only [Bool.false_eq_true, if_false]
    rw [if_neg hlen, if_pos trivial]
    unfold append_free_list_FIFO
    rw [hcb]
    exact ⟨_, rfl, rfl, rfl, rfl⟩

end Expl

namespace Expl

theorem ring_link_self (m : Mem) (x : Nat) : Seg (link_self m x) x [x] x := by
  have h1 : nxt (link_self m x) x = x := by
    unfold nxt link_self
    rw [mem_write_same]
  have h2 : prv (link_self m x) x = x := by
    unfold prv link_self
    rw [mem_write_other _ _ (by omega), mem_write_same]
  exact ⟨rfl, h1, by rw [h1]; exact h2⟩

theorem freeList_mk {st : State} {c : Nat} {L : List Nat} (h1 : st.free_list_len = L.length)
    (h2 : L.Nodup) (h3 : ∀ n ∈ L, NodeOK c n) (hL : L ≠ [])
    (h5 : Seg st.mem st.free_list_root L st.free_list_root) : FreeList st c L :=
  ⟨h1, h2, h3, fun h => absurd h hL, fun _ => h5⟩

theorem freeList_links {st : State} {c : Nat} {L : List Nat} (h : FreeList st c L) :
    (∀ n ∈ L, prv st.mem (nxt st.mem n) = n ∧ nxt st.mem (prv st.mem n) = n) ∧
    ∀ fuel, L.length < fuel → free_list_walk st fuel st.free_list_root = Except.ok L := by
  refine ⟨fun n hn => ?_, fun fuel hf => free_list_walk_spec h hf⟩
  have hL : L ≠ [] := fun hc => by rw [hc] at hn; simp at hn
  exact ring_inverse (h.2.2.2.2 hL) n hn

/-- C30 (LIFO and FIFO insertion, explicit variant).  For a well-formed circular
free list with traversal `L = [n1, ..., nk]` from `free_list_root` (possibly
empty) and a free block `x` that is not in it: `append_free_list(x, 1)` returns
and leaves a well-formed list with traversal `x :: L` and root `x`;
`append_free_list(x, 2)` returns and leaves a well-formed list with traversal
`L ++ [x]`, with the root unchanged when `L` is not empty and equal to `x` when
it is (the self-loop `[x]`).  In each case `free_list_len` has increased by one,
`next` and `previous` are mutually inverse on the nodes, and the traversal of
`free_list_status` reads the new node list. -/
theorem append_free_list_order {st : State} {c x : Nat} {L : List Nat}
    (hfl : FreeList st c L) (hx : NodeOK c x) (hxL : x ∉ L)
    (hfree : extract_alloc (st.mem x) = false) :
    (∃ st2, append_free_list st x 1 = Except.ok st2 ∧ FreeList st2 c (x :: L) ∧
      st2.free_list_root = x ∧ st2.free_list_len = st.free_list_len + 1 ∧
      (∀ n ∈ x :: L, prv st2.mem (nxt st2.mem n) = n ∧ nxt st2.mem (prv st2.mem n) = n) ∧
      ∀ fuel, (x :: L).length < fuel →
        free_list_walk st2 fuel st2.free_list_root = Except.ok (x :: L)) ∧
    (∃ st2, append_free_list st x 2 = Except.ok st2 ∧ FreeList st2 c (L ++ [x]) ∧
      (L ≠ [] → st2.free_list_root = st.free_list_root) ∧
      (L = [] → st2.free_list_root = x) ∧ st2.free_list_len = st.free_list_len + 1 ∧
      (∀ n ∈ L ++ [x], prv st2.mem (nxt st2.mem n) = n ∧ nxt st2.mem (prv st2.mem n) = n) ∧
      ∀ fuel, (L ++ [x]).length < fuel →
        free_list_walk st2 fuel st2.free_list_root = Except.ok (L ++ [x])) := by
  have hlen1 : st.free_list_len + 1 = ((x :: L).length : Int) := by
    rw [hfl.1]
    simp
  have hlen2 : st.free_list_len + 1 = ((L ++ [x]).length : Int) := by
    rw [hfl.1]
    simp
  have hnd1 : (x :: L).Nodup := List.nodup_cons.2 ⟨hxL, hfl.2.1⟩
  have hnd2 : (L ++ [x]).Nodup := by
    rw [List.nodup_append]
    refine ⟨hfl.2.1, by simp, ?_⟩
    intro a ha hb
    simp only [List.mem_singleton] at hb
    rw [hb] at ha
    exact hxL ha
  have hok1 : ∀ n ∈ x :: L, NodeOK c n := by
    intro n hn
    rcases List.mem_cons.1 hn with h | h
    · rw [h]; exact hx
    · exact hfl.2.2.1 n h
  have hok2 : ∀ n ∈ L ++ [x], NodeOK c n := by
    intro n hn
    rcases List.mem_append.1 hn with h | h
    · exact hfl.2.2.1 n h
    · simp only [List.mem_singleton] at h
      rw [h]; exact hx
  by_cases hL : L = []
  · subst hL
    have hroot := hfl.2.2.2.1 rfl
    obtain ⟨s1, a1, a2, a3, a4⟩ := append_free_list_empty 1 hroot hx hfree
    obtain ⟨s2, b1, b2, b3, b4⟩ := append_free_list_empty 2 hroot hx hfree
    have hA : FreeList s1 c [x] :=
      freeList_mk (by rw [a4]; exact hlen1) hnd1 hok1 (by simp)
        (by rw [a2, a3]; exact ring_link_self _ _)
    have hB : FreeList s2 c [x] :=
      freeList_mk (by rw [b4]; exact hlen1) hnd1 hok1 (by simp)
        (by rw [b2, b3]; exact ring_link_self _ _)
    exact ⟨⟨s1, a1, hA, a3, a4, (freeList_links hA).1, (freeList_links hA).2⟩,
      ⟨s2, b1, hB, fun h => absurd rfl h, fun _ => b3, b4, (freeList_links hB).1,
        (freeList_links hB).2⟩⟩
  · obtain ⟨⟨s1, a1, a2, a3, a4⟩, ⟨s2, b1, b2, b3, b4⟩⟩ :=
      append_free_list_nonempty hfl hL hx hxL hfree
    obtain ⟨r1, r2⟩ := ring_link_before (hfl.2.2.2.2 hL) hL hfl.2.1 hfl.2.2.1 hx hxL
    have hA : FreeList s1 c (x :: L) :=
      freeList_mk (by rw [a4]; exact hlen1) hnd1 hok1 (by simp) (by rw [a2, a3]; exact r2)
    have hB : FreeList s2 c (L ++ [x]) :=
      freeList_mk (by rw [b4]; exact hlen2) hnd2 hok2 (by simp) (by rw [b2, b3]; exact r1)
    exact ⟨⟨s1, a1, hA, a3, a4, (freeList_links hA).1, (freeList_links hA).2⟩,
      ⟨s2, b1, hB, fun _ => b3, fun h => absurd h hL, b4, (freeList_links hB).1,
        (freeList_links hB).2⟩⟩

end Expl

namespace Expl

/-! ## Best fit over the free list -/

theorem bestOf_step {m : Mem} {asize n b : Nat} {P : List Nat} (hn : n ≠ 0)
    (h : BestAt m asize P b) :
    BestAt m asize (P ++ [n])
      (if fits m asize n then
        if b = 0 then n else if extract_size (m n) < extract_size (m b) then n else b
      else b) := by
  cases hf : fits m asize n
  · simp only [Bool.false_eq_true, if_false]
    rcases h with ⟨h1, h2⟩ | ⟨h1, p1, p2, h3, h4, h5, h6⟩
    · left
      refine ⟨h1, fun x hx => ?_⟩
      rcases List.mem_append.1 hx with g | g
      · exact h2 x g
      · simp only [List.mem_singleton] at g
        rw [g]; exact hf
    · right
      refine ⟨h1, p1, p2 ++ [n], by rw [h3]; simp, h4, h5, fun x hx hfx => ?_⟩
      rcases List.mem_append.1 hx with g | g
      · exact h6 x g hfx
      · simp only [List.mem_singleton] at g
        rw [g, hf] at hfx
        exact absurd hfx (by simp)
  · simp only [if_true]
    rcases h with ⟨h1, h2⟩ | ⟨h1, p1, p2, h3, h4, h5, h6⟩
    · rw [if_pos h1]
      right
      refine ⟨hn, P, [], rfl, hf, fun x hx hfx => ?_, by simp⟩
      rw [h2 x hx] at hfx
      exact absurd hfx (by simp)
    · rw [if_neg h1]
      by_cases hlt : extract_size (m n) < extract_size (m b)
      · rw [if_pos hlt]
        right
        refine ⟨hn, P, [], rfl, hf, fun x hx hfx => ?_, by simp⟩
        rw [h3] at hx
        rcases List.mem_append.1 hx with g | g
        · have := h5 x g hfx
          omega
        · rcases List.mem_cons.1 g with g | g
          · rw [g]; exact hlt
          · have := h6 x g hfx
            omega
      · rw [if_neg hlt]
        right
        refine ⟨h1, p1, p2 ++ [n], by rw [h3]; simp, h4, h5, fun x hx hfx => ?_⟩
        rcases List.mem_append.1 hx with g | g
        · exact h6 x g hfx
        · simp only [List.mem_singleton] at g
          rw [g]
          omega

theorem bestOf_inv {m : Mem} {asize : Nat} : ∀ (l P : List Nat) (b : Nat),
    (∀ n ∈ l, n ≠ 0) → BestAt m asize P b → BestAt m asize (P ++ l) (bestOf m asize l b) := by
  intro l
  induction l with
  | nil => intro P b _ h; simpa [bestOf] using h
  | cons n r ih =>
    intro P b hnz h
    have h1 := bestOf_step (hnz n (List.mem_cons_self _ _)) h
    have h2 := ih (P ++ [n]) _ (fun x hx => hnz x (List.mem_cons_of_mem _ hx)) h1
    rw [List.append_assoc] at h2
    exact h2

/-- The loop of `best_fit` along a segment that ends at the root. -/
theorem best_fit_loop_spec {st : State} {c asize : Nat} {l : List Nat} :
    ∀ {a : Nat} (fuel best : Nat), Seg st.mem a l st.free_list_root → l ≠ [] →
    (∀ n ∈ l, NodeOK c n) → st.free_list_root ∉ l.tail → (best = 0 ∨ NodeOK c best) →
    l.length ≤ fuel →
    best_fit_loop st asize fuel a best = Except.ok (bestOf st.mem asize l best) := by
  induction l with
  | nil => intro a fuel best _ h; exact absurd rfl h
  | cons x r ih =>
    intro a fuel best h _ hok hroot hbest hfuel
    obtain ⟨g1, g2, _⟩ := h
    subst g1
    have hx := hok x (List.mem_cons_self _ _)
    cases fuel with
    | zero => simp at hfuel
    | succ f =>
      obtain ⟨nb, hnb⟩ : ∃ nb, nb = (if fits st.mem asize x then
          if best = 0 then x
          else if extract_size (st.mem x) < extract_size (st.mem best) then x else best
        else best) := ⟨_, rfl⟩
      have hnbok : nb = 0 ∨ NodeOK c nb := by
        rw [hnb]
        split_ifs
        · exact Or.inr hx
        · exact Or.inr hx
        · exact hbest
        · exact hbest
      have K : (load st x off_next >>= fun block =>
          if block ≠ st.free_list_root then best_fit_loop st asize f block nb
          else pure nb) = Except.ok (bestOf st.mem asize (x :: r) best) := by
        rw [load_ok hx.1, ok_bind, node_next hx, bestOf, ← hnb]
        cases r with
        | nil =>
          simp only [Seg] at g2
          have : st.mem (x + 16) = st.free_list_root := g2
          rw [this]
          simp only [ne_eq, not_true_eq_false, if_false, bestOf]
          rfl
        | cons y r2 =>
          have hy : y = nxt st.mem x := g2.1
          have hne : st.mem (x + 16) ≠ st.free_list_root := by
            intro hc
            apply hroot
            simp only [List.tail_cons]
            rw [← hc]
            exact List.mem_cons.2 (Or.inl (by rw [hy]; rfl))
          rw [if_pos hne]
          exact ih f nb g2 (by simp) (fun n hn => hok n (List.mem_cons_of_mem _ hn))
            (fun hc => hroot (by
              simp only [List.tail_cons] at hc ⊢; exact List.mem_cons_of_mem _ hc))
            hnbok (by simp only [List.length_cons] at hfuel ⊢; omega)
      unfold best_fit_loop
      rw [get_alloc_node hx, ok_bind, get_size_node hx, ok_bind]
      dsimp only
      unfold fits at hnb
      by_cases hc : (!extract_alloc (st.mem x) && decide (asize ≤ extract_size (st.mem x))) = true
      · rw [if_pos hc]
        rw [if_pos hc] at hnb
        by_cases hb0 : best = 0
        · rw [if_pos hb0]
          rw [if_pos hb0] at hnb
          rw [hnb] at K
          exact K
        · rw [if_neg hb0]
          rw [if_neg hb0] at hnb
          have hbo : NodeOK c best := hbest.resolve_left hb0
          rw [get_size_node hbo, ok_bind, ok_bind]
          by_cases hlt : extract_size (st.mem x) < extract_size (st.mem best)
          · rw [if_pos hlt]
            rw [if_pos hlt] at hnb
            rw [hnb] at K
            exact K
          · rw [if_neg hlt]
            rw [if_neg hlt] at hnb
            rw [hnb] at K
            exact K
      · rw [if_neg hc]
        rw [if_neg hc] at hnb
        rw [hnb] at K
        exact K

end Expl

namespace Expl

/-- C23 (best fit, explicit variant). On a well-formed, non-empty circular free
list with traversal `L` from `free_list_root`, all of whose nodes are free
blocks, `best_fit(asize)` returns (with fuel for one pass over the list); the
result is `NULL` exactly when no node of `L` has size at least `asize`;
otherwise it is a node `r` of `L` with `asize ≤ size r` whose size is minimal
among the nodes of size at least `asize`, and it is the first such node: every
node before it in the traversal that is large enough is strictly larger. In
the scenario with free blocks of sizes 32, 64 and 128 the request `asize = 64`
returns the 64-byte block. -/
theorem best_fit_minimum {st : State} {c asize fuel : Nat} {L : List Nat}
    (hfl : FreeList st c L) (hne : L ≠ [])
    (hfree : ∀ n ∈ L, extract_alloc (st.mem n) = false) (hfuel : L.length ≤ fuel) :
    free_list_walk st (fuel + 1) st.free_list_root = Except.ok L ∧
    (∃ r, best_fit fuel st asize = Except.ok r ∧
      (r = 0 ↔ ∀ n ∈ L, extract_size (st.mem n) < asize) ∧
      (r ≠ 0 → ∃ p1 p2, L = p1 ++ r :: p2 ∧ asize ≤ extract_size (st.mem r) ∧
        (∀ n ∈ L, asize ≤ extract_size (st.mem n) →
          extract_size (st.mem r) ≤ extract_size (st.mem n)) ∧
        (∀ n ∈ p1, asize ≤ extract_size (st.mem n) →
          extract_size (st.mem r) < extract_size (st.mem n)))) ∧
    (extract_size (three_s.mem 4104) = 32 ∧ extract_size (three_s.mem 4168) = 64 ∧
      extract_size (three_s.mem 4264) = 128 ∧
      (free_list_walk three_s 4 three_s.free_list_root).toOption = some [4104, 4168, 4264] ∧
      (best_fit 3 three_s 64).toOption = some 4168) := by
  have hwalk := free_list_walk_spec hfl (Nat.lt_succ_of_le hfuel)
  obtain ⟨_, h2, h3, _, h5⟩ := hfl
  have hseg := h5 hne
  have hfits : ∀ n ∈ L, (fits st.mem asize n = true ↔ asize ≤ extract_size (st.mem n)) := by
    intro n hn
    unfold fits
    rw [hfree n hn]
    simp
  have hloop := @best_fit_loop_spec st c asize L _ fuel 0 hseg hne h3
    (ring_root_not_in_tail h2 hseg) (Or.inl rfl) hfuel
  have hinv := @bestOf_inv st.mem asize L [] 0 (fun n hn => (h3 n hn).1)
    (Or.inl ⟨rfl, fun n hn => absurd hn (List.not_mem_nil n)⟩)
  rw [List.nil_append] at hinv
  obtain ⟨b, hb⟩ : ∃ b, b = bestOf st.mem asize L 0 := ⟨_, rfl⟩
  rw [← hb] at hinv hloop
  refine ⟨hwalk, ⟨b, hloop, ?_, ?_⟩, by decide⟩
  · rcases hinv with ⟨g1, g2⟩ | ⟨g1, p1, p2, g3, g4, _, _⟩
    · refine ⟨fun _ n hn => ?_, fun _ => g1⟩
      have e1 := g2 n hn
      by_contra hc
      have e2 := (hfits n hn).2 (by omega)
      rw [e1] at e2
      exact Bool.false_ne_true e2
    · refine ⟨fun h => absurd h g1, fun h => ?_⟩
      have hb : b ∈ L := by rw [g3]; simp
      have := h _ hb
      have := (hfits _ hb).1 g4
      omega
  · intro hr
    rcases hinv with ⟨g1, _⟩ | ⟨_, p1, p2, g3, g4, g5, g6⟩
    · exact absurd g1 hr
    · have hb : b ∈ L := by rw [g3]; simp
      refine ⟨p1, p2, g3, (hfits _ hb).1 g4, fun n hn hsz => ?_, fun n hn hsz => ?_⟩
      · have hf := (hfits n hn).2 hsz
        have hn2 := hn
        rw [g3] at hn2
        rcases List.mem_append.1 hn2 with g | g
        · exact Nat.le_of_lt (g5 n g hf)
        · rcases List.mem_cons.1 g with g | g
          · rw [g]
          · exact g6 n g hf
      · exact g5 n hn ((hfits n (by rw [g3]; exact List.mem_append_left _ hn)).2 hsz)

theorem freeList_three : FreeList three_s 4104 [4104, 4168, 4264] := by
  refine ⟨by decide, by decide, ?_, fun h => absurd h (by simp), fun _ => ?_⟩
  · intro n hn
    simp only [List.mem_cons, List.mem_singleton, List.not_mem_nil, or_false] at hn
    unfold NodeOK
    rcases hn with rfl | rfl | rfl <;> omega
  · simp only [Seg, nxt, prv]
    decide

theorem best_fit_minimum_witness :
    FreeList three_s 4104 [4104, 4168, 4264] ∧
    (∃ r, best_fit 3 three_s 64 = Except.ok r ∧
      (r ≠ 0 → ∃ p1 p2, [4104, 4168, 4264] = p1 ++ r :: p2 ∧
        64 ≤ extract_size (three_s.mem r) ∧
        (∀ n ∈ [4104, 4168, 4264], 64 ≤ extract_size (three_s.mem n) →
          extract_size (three_s.mem r) ≤ extract_size (three_s.mem n)) ∧
        (∀ n ∈ p1, 64 ≤ extract_size (three_s.mem n) →
          extract_size (three_s.mem r) < extract_size (three_s.mem n)))) :=
  have h := @best_fit_minimum three_s 4104 64 3 [4104, 4168, 4264] freeList_three (by simp)
    (by decide) (by decide)
  ⟨freeList_three, h.2.1.imp fun _ hr => ⟨hr.1, hr.2.2⟩⟩

theorem freeList_marked : FreeList marked_s6 4104 [4232, 4104, 4168] := by
  refine ⟨by decide, by decide, ?_, fun h => absurd h (by simp), fun _ => ?_⟩
  · intro n hn
    simp only [List.mem_cons, List.mem_singleton, List.not_mem_nil, or_false] at hn
    unfold NodeOK
    rcases hn with rfl | rfl | rfl <;> omega
  · simp only [Seg, nxt, prv]
    decide

theorem append_free_list_order_witness :
    FreeList marked_s6 4104 [4232, 4104, 4168] ∧ NodeOK 4104 4136 ∧
    extract_alloc (marked_s6.mem 4136) = false ∧
    (∃ st2, append_free_list marked_s6 4136 1 = Except.ok st2 ∧
      st2.free_list_root = 4136 ∧ st2.free_list_len = 4 ∧
      free_list_walk st2 5 st2.free_list_root = Except.ok [4136, 4232, 4104, 4168]) ∧
    (∃ st2, append_free_list marked_s6 4136 2 = Except.ok st2 ∧
      st2.free_list_root = 4232 ∧ st2.free_list_len = 4 ∧
      free_list_walk st2 5 st2.free_list_root = Except.ok [4232, 4104, 4168, 4136]) :=
  have hx : NodeOK 4104 4136 := by unfold NodeOK; omega
  have h := @append_free_list_order marked_s6 4104 4136 [4232, 4104, 4168] freeList_marked hx
    (by decide) (by decide)
  have hlen : marked_s6.free_list_len = 3 := by decide
  ⟨freeList_marked, hx, by decide,
    h.1.imp fun _ g => ⟨g.1, g.2.2.1, by rw [g.2.2.2.1, hlen]; rfl,
      g.2.2.2.2.2 5 (by decide)⟩,
    h.2.imp fun _ g => ⟨g.1, by rw [g.2.2.1 (by simp)]; decide, by rw [g.2.2.2.2.1, hlen]; rfl,
      g.2.2.2.2.2.2 5 (by decide)⟩⟩

end Expl

namespace Adv

/-! ## Next fit over a well-formed heap -/

theorem tiles_le {m : Mem} : ∀ {bs : List Nat} {a e : Nat}, Tiles m a bs e → a ≤ e := by
  intro bs
  induction bs with
  | nil => intro a e h; exact Nat.le_of_eq h
  | cons b r ih =>
    intro a e h
    have := ih h.2.2
    omega

theorem tiles_lt {m : Mem} : ∀ {bs : List Nat} {a e : Nat}, Tiles m a bs e →
    ∀ x ∈ bs, a ≤ x ∧ x < e := by
  intro bs
  induction bs with
  | nil => intro a e _ x hx; exact absurd hx (List.not_mem_nil x)
  | cons b r ih =>
    intro a e h x hx
    have h1 := tiles_le h.2.2
    have h0 := h.2.1
    rcases List.mem_cons.1 hx with g | g
    · have := h.1
      omega
    · have := ih h.2.2 x g
      omega

theorem tiles_append {m : Mem} : ∀ {pre : List Nat} {a e x : Nat} {post : List Nat},
    Tiles m a (pre ++ x :: post) e → Tiles m a pre x ∧ Tiles m x (x :: post) e := by
  intro pre
  induction pre with
  | nil =>
    intro a e x post h
    have h1 : x = a := h.1
    subst h1
    exact ⟨rfl, h⟩
  | cons b r ih =>
    intro a e x post h
    have h2 := ih h.2.2
    exact ⟨⟨h.1, h.2.1, h2.1⟩, h2.2⟩

theorem visits_append {st : State} : ∀ {l1 : List Nat} {p x : Nat} {l2 : List Nat},
    Visits st p (l1 ++ [x]) → Visits st x l2 → Visits st p (l1 ++ x :: l2) := by
  intro l1
  induction l1 with
  | nil => intro p x l2 h1 h2; exact ⟨h1.1, h2⟩
  | cons y r ih => intro p x l2 h1 h2; exact ⟨h1.1, ih h1.2 h2⟩

theorem visits_prefix {st : State} : ∀ {l1 : List Nat} {p : Nat} {l2 : List Nat},
    Visits st p (l1 ++ l2) → Visits st p l1 := by
  intro l1
  induction l1 with
  | nil => intro p l2 _; trivial
  | cons y r ih => intro p l2 h; exact ⟨h.1, ih h.2⟩

/-- From a block of a tiling the roving pointer walks over the following
blocks up to the end of the tiling. -/
theorem tiles_visits {st : State} {E : Nat} (hE : E ≤ st.heap_end)
    (hW : st.heap_end < 2 ^ 64) : ∀ {t : List Nat} {b : Nat},
    Tiles st.mem b (b :: t) E → Visits st b (t ++ [E]) := by
  intro t
  induction t with
  | nil =>
    intro b h
    have h1 : b + extract_size (st.mem b) = E := h.2.2
    have h2 := h.2.1
    refine ⟨?_, trivial⟩
    unfold rover_step find_next get_size add64
    rw [if_neg (by omega), h1]
    exact Nat.mod_eq_of_lt (by unfold WORD; omega)
  | cons y r ih =>
    intro b h
    have h1 : y = b + extract_size (st.mem b) := h.2.2.1
    have h2 := h.2.1
    have h3 := tiles_le h.2.2
    have h4 : Tiles st.mem y (y :: r) E := by
      have := h.2.2
      rw [← h1] at this
      exact this
    have h5 := (tiles_lt h4 y (List.mem_cons_self _ _)).2
    refine ⟨?_, ih h4⟩
    unfold rover_step find_next get_size add64
    rw [if_neg (by omega), ← h1]
    exact Nat.mod_eq_of_lt (by unfold WORD; omega)

/-- From `heap_end` the roving pointer walks over a tiling that starts at
`heap_start`. -/
theorem tiles_visits_end {st : State} {E : Nat} (hE : E ≤ st.heap_end)
    (hW : st.heap_end < 2 ^ 64) {bs : List Nat} (h : Tiles st.mem st.heap_start bs E) :
    Visits st st.heap_end (bs ++ [E]) := by
  cases bs with
  | nil =>
    have h1 : st.heap_start = E := h
    exact ⟨by unfold rover_step; rw [if_pos rfl, h1], trivial⟩
  | cons b t =>
    have h1 : b = st.heap_start := h.1
    subst h1
    exact ⟨by unfold rover_step; rw [if_pos rfl], tiles_visits hE hW h⟩

theorem next_fit_loop_succ (st : State) (asize end_ f p : Nat) :
    next_fit_loop st asize end_ (f + 1) p =
      if fits st.mem asize (rover_step st p) = true then
        some (rover_step st p, rover_step st p)
      else if rover_step st p ≠ end_ then next_fit_loop st asize end_ f (rover_step st p)
      else some (rover_step st p, 0) := rfl

/-- The loop of `next_fit` passes over positions that do not fit and are not
the end position, and then examines the next one. -/
theorem next_fit_loop_reach {st : State} {asize end_ x : Nat} : ∀ (l : List Nat) (p fuel : Nat),
    l.length < fuel → Visits st p (l ++ [x]) →
    (∀ y ∈ l, fits st.mem asize y = false ∧ y ≠ end_) →
    next_fit_loop st asize end_ fuel p =
      if fits st.mem asize x = true then some (x, x)
      else if x ≠ end_ then next_fit_loop st asize end_ (fuel - l.length - 1) x
      else some (x, 0) := by
  intro l
  induction l with
  | nil =>
    intro p fuel hf hv _
    cases fuel with
    | zero => simp at hf
    | succ f =>
      have h1 : rover_step st p = x := hv.1
      rw [next_fit_loop_succ, h1]
      simp only [List.length_nil, Nat.sub_zero, Nat.add_sub_cancel]
  | cons y r ih =>
    intro p fuel hf hv hno
    cases fuel with
    | zero => simp at hf
    | succ f =>
      have h1 : rover_step st p = y := hv.1
      have h2 := hno y (List.mem_cons_self _ _)
      have h3 := ih y f (by simp only [List.length_cons] at hf; omega) hv.2
        (fun z hz => hno z (List.mem_cons_of_mem _ hz))
      have e : f + 1 - (y :: r).length - 1 = f - r.length - 1 := by
        simp only [List.length_cons]; omega
      rw [next_fit_loop_succ, h1, h2.1, if_neg Bool.false_ne_true, if_pos h2.2, h3, e]

/-- A list either has no element that passes a test or splits at the first one
that does. -/
theorem first_split (f : Nat → Bool) : ∀ (l : List Nat),
    (∀ y ∈ l, f y = false) ∨
    ∃ q1 x q2, l = q1 ++ x :: q2 ∧ f x = true ∧ ∀ y ∈ q1, f y = false := by
  intro l
  induction l with
  | nil => exact Or.inl (fun y hy => absurd hy (List.not_mem_nil y))
  | cons a r ih =>
    cases ha : f a
    · rcases ih with h | ⟨q1, x, q2, h1, h2, h3⟩
      · left
        intro y hy
        rcases List.mem_cons.1 hy with g | g
        · rw [g]; exact ha
        · exact h y g
      · right
        refine ⟨a :: q1, x, q2, by rw [h1]; rfl, h2, fun y hy => ?_⟩
        rcases List.mem_cons.1 hy with g | g
        · rw [g]; exact ha
        · exact h3 y g
    · exact Or.inr ⟨[], a, r, rfl, ha, fun y hy => absurd hy (List.not_mem_nil y)⟩

end Adv

namespace Adv

theorem firstFitting_hit {m : Mem} {asize x : Nat} {O q1 q2 : List Nat} (hx : x ≠ 0)
    (hO : O = q1 ++ x :: q2) (hf : fits m asize x = true)
    (hq : ∀ y ∈ q1, fits m asize y = false) : FirstFitting m asize O x := by
  refine ⟨⟨fun h => absurd h hx, fun h => ?_⟩, fun _ => ⟨q1, q2, hO, hf, hq⟩⟩
  have := h x (by rw [hO]; simp)
  rw [hf] at this
  exact absurd this (by simp)

theorem firstFitting_miss {m : Mem} {asize : Nat} {O : List Nat}
    (h : ∀ b ∈ O, fits m asize b = false) : FirstFitting m asize O 0 :=
  ⟨⟨fun _ => h, fun _ => rfl⟩, fun h0 => absurd rfl h0⟩

/-- The loop of `next_fit` started at `heap_end` with `heap_end` as its end
position. -/
theorem next_fit_loop_from_end {st : State} {bs : List Nat} {asize fuel : Nat}
    (hwf : WellFormed st bs) (hfuel : bs.length < fuel) :
    ∃ rv res, next_fit_loop st asize st.heap_end fuel st.heap_end = some (rv, res) ∧
      FirstFitting st.mem asize bs res := by
  obtain ⟨h0, hW, hT, hE⟩ := hwf
  have hv := tiles_visits_end (Nat.le_refl _) hW hT
  have hb := tiles_lt hT
  have hef : fits st.mem asize st.heap_end = false := by unfold fits; rw [hE]; rfl
  rcases first_split (fits st.mem asize) bs with hno | ⟨q1, x, q2, e1, e2, e3⟩
  · refine ⟨st.heap_end, 0, ?_, firstFitting_miss hno⟩
    rw [next_fit_loop_reach bs st.heap_end fuel hfuel hv
      (fun y hy => ⟨hno y hy, Nat.ne_of_lt (hb y hy).2⟩), hef, if_neg Bool.false_ne_true,
      if_neg (fun h => h rfl)]
  · have hx := hb x (by rw [e1]; simp)
    have hv2 : Visits st st.heap_end (q1 ++ [x]) := by
      have e : bs ++ [st.heap_end] = (q1 ++ [x]) ++ (q2 ++ [st.heap_end]) := by
        rw [e1]; simp
      rw [e] at hv
      exact visits_prefix hv
    have hl : q1.length < fuel := by
      have : bs.length = q1.length + (q2.length + 1) := by rw [e1]; simp
      omega
    refine ⟨x, x, ?_, firstFitting_hit (by omega) e1 e2 e3⟩
    rw [next_fit_loop_reach q1 st.heap_end fuel hl hv2
      (fun y hy => ⟨e3 y hy, Nat.ne_of_lt (hb y (by rw [e1]; simp [hy])).2⟩), if_pos e2]

/-- The loop of `next_fit` started at a block `r` of the heap with `r` as its
end position. -/
theorem next_fit_loop_from_block {st : State} {pre post : List Nat} {r asize fuel : Nat}
    (hwf : WellFormed st (pre ++ r :: post)) (hfuel : (pre ++ r :: post).length < fuel) :
    ∃ rv res, next_fit_loop st asize r fuel r = some (rv, res) ∧
      FirstFitting st.mem asize (post ++ pre ++ [r]) res := by
  obtain ⟨h0, hW, hT, hE⟩ := hwf
  obtain ⟨T1, T2⟩ := tiles_append hT
  have hr := tiles_lt hT r (by simp)
  have v1 := tiles_visits (Nat.le_refl _) hW T2
  have v2 := tiles_visits_end (Nat.le_of_lt hr.2) hW T1
  have hpre := tiles_lt T1
  have hpost := tiles_lt T2.2.2
  have hsz := T2.2.1
  have hef : fits st.mem asize st.heap_end = false := by unfold fits; rw [hE]; rfl
  have hlen : (pre ++ r :: post).length = pre.length + (post.length + 1) := by simp
  rw [hlen] at hfuel
  rcases first_split (fits st.mem asize) post with hno | ⟨q1, x, q2, e1, e2, e3⟩
  · have s1 := @next_fit_loop_reach st asize r st.heap_end post r fuel (by omega) v1
      (fun y hy => ⟨hno y hy, by have := hpost y hy; omega⟩)
    rw [hef, if_neg Bool.false_ne_true, if_pos (by omega)] at s1
    rw [s1]
    rcases first_split (fits st.mem asize) pre with hno2 | ⟨q1, x, q2, e1, e2, e3⟩
    · have s2 := @next_fit_loop_reach st asize r r pre st.heap_end (fuel - post.length - 1)
        (by omega) v2 (fun y hy => ⟨hno2 y hy, Nat.ne_of_lt (hpre y hy).2⟩)
      rw [s2]
      cases hf : fits st.mem asize r
      · refine ⟨r, 0, ?_, firstFitting_miss (fun b hb => ?_)⟩
        · rw [if_neg Bool.false_ne_true, if_neg (fun h => h rfl)]
        · simp only [List.mem_append, List.mem_singleton] at hb
          rcases hb with (g | g) | g
          · exact hno b g
          · exact hno2 b g
          · rw [g]; exact hf
      · refine ⟨r, r, by rw [if_pos rfl], firstFitting_hit (by omega) rfl hf (fun y hy => ?_)⟩
        rcases List.mem_append.1 hy with g | g
        · exact hno y g
        · exact hno2 y g
    · have hx := hpre x (by rw [e1]; simp)
      have hv2 : Visits st st.heap_end (q1 ++ [x]) := by
        have e : pre ++ [r] = (q1 ++ [x]) ++ (q2 ++ [r]) := by rw [e1]; simp
        rw [e] at v2
        exact visits_prefix v2
      have hl : pre.length = q1.length + (q2.length + 1) := by rw [e1]; simp
      have s2 := @next_fit_loop_reach st asize r x q1 st.heap_end (fuel - post.length - 1)
        (by omega) hv2
        (fun y hy => ⟨e3 y hy, Nat.ne_of_lt (hpre y (by rw [e1]; simp [hy])).2⟩)
      rw [s2, if_pos e2]
      refine ⟨x, x, rfl, @firstFitting_hit _ _ _ _ (post ++ q1) (q2 ++ [r]) (by omega)
        (by rw [e1]; simp) e2 (fun y hy => ?_)⟩
      rcases List.mem_append.1 hy with g | g
      · exact hno y g
      · exact e3 y g
  · have hx := hpost x (by rw [e1]; simp)
    have hv2 : Visits st r (q1 ++ [x]) := by
      have e : post ++ [st.heap_end] = (q1 ++ [x]) ++ (q2 ++ [st.heap_end]) := by
        rw [e1]; simp
      rw [e] at v1
      exact visits_prefix v1
    have hl : post.length = q1.length + (q2.length + 1) := by rw [e1]; simp
    have s1 := @next_fit_loop_reach st asize r x q1 r fuel (by omega) hv2
      (fun y hy => ⟨e3 y hy, by have := hpost y (by rw [e1]; simp [hy]); omega⟩)
    rw [s1, if_pos e2]
    exact ⟨x, x, rfl, @firstFitting_hit _ _ _ _ q1 (q2 ++ pre ++ [r]) (by omega)
      (by rw [e1]; simp) e2 e3⟩

/-- The heap walk of `mm_status` over a tiling returns its blocks. -/
theorem heap_walk_tiles {st : State} (hW : st.heap_end < 2 ^ 64) : ∀ {bs : List Nat}
    {a fuel : Nat}, Tiles st.mem a bs st.heap_end → bs.length < fuel →
    ∃ l, heap_walk st fuel a = some l ∧ l.map HBlk.addr = bs := by
  intro bs
  induction bs with
  | nil =>
    intro a fuel h hf
    cases fuel with
    | zero => simp at hf
    | succ f =>
      have h1 : a = st.heap_end := h
      exact ⟨[], by unfold heap_walk; rw [if_pos h1], rfl⟩
  | cons b r ih =>
    intro a fuel h hf
    cases fuel with
    | zero => simp at hf
    | succ f =>
      have h1 : b = a := h.1
      have h2 := h.2.1
      have h3 := tiles_le h.2.2
      obtain ⟨l, g1, g2⟩ := @ih (a + extract_size (st.mem a)) f h.2.2
        (by simp only [List.length_cons] at hf; omega)
      have e : find_next st a = a + extract_size (st.mem a) := by
        unfold find_next get_size add64
        exact Nat.mod_eq_of_lt (by unfold WORD; omega)
      refine ⟨⟨a, get_size st a, get_alloc st a, Is_prev_alloc st a⟩ :: l, ?_, ?_⟩
      · unfold heap_walk
        rw [if_neg (by omega), e, g1]
      · simp only [List.map_cons, g2, h1]

/-- C24 (next fit, footer-elided variant). On a well-formed heap with block
addresses `bs` (the addresses of the heap walk), `next_fit(asize)` returns
with fuel for one pass over the heap. When `next_fit_ptr` is `NULL` or
`heap_end` the result is the first block of the heap that is free and of size
at least `asize`; when `next_fit_ptr` is a block of the heap, with the blocks
`pre` before it and `post` after it, the result is the first such block in the
cyclic order `post`, `pre`, rover. In both cases the result is `NULL` exactly
when no block of the heap fits. -/
theorem next_fit_cyclic {st : State} {bs : List Nat} {asize fuel : Nat}
    (hwf : WellFormed st bs) (hfuel : bs.length < fuel) :
    (∃ l, heap_walk st fuel st.heap_start = some l ∧ l.map HBlk.addr = bs) ∧
    ((st.next_fit_ptr = 0 ∨ st.next_fit_ptr = st.heap_end) →
      ∃ st2 res, next_fit fuel st asize = some (st2, res) ∧ st2.mem = st.mem ∧
        FirstFitting st.mem asize bs res) ∧
    (∀ pre post, bs = pre ++ st.next_fit_ptr :: post →
      ∃ st2 res, next_fit fuel st asize = some (st2, res) ∧ st2.mem = st.mem ∧
        FirstFitting st.mem asize (post ++ pre ++ [st.next_fit_ptr]) res ∧
        (res = 0 ↔ ∀ b ∈ bs, fits st.mem asize b = false)) := by
  refine ⟨heap_walk_tiles hwf.2.1 hwf.2.2.1 hfuel, fun h => ?_, fun pre post hbs => ?_⟩
  · obtain ⟨rv, res, h1, h2⟩ := @next_fit_loop_from_end st bs asize fuel hwf hfuel
    have hs : (if st.next_fit_ptr = 0 then st.heap_end else st.next_fit_ptr) = st.heap_end := by
      rcases h with g | g
      · rw [if_pos g]
      · rw [g]; simp
    refine ⟨{ st with next_fit_ptr := rv }, res, ?_, rfl, h2⟩
    unfold next_fit
    simp only [hs, h1]
  · rw [hbs] at hwf hfuel
    obtain ⟨rv, res, h1, h2⟩ := @next_fit_loop_from_block st pre post st.next_fit_ptr asize fuel
      hwf hfuel
    have hr := tiles_lt hwf.2.2.1 st.next_fit_ptr (by simp)
    have h0 := hwf.1
    have hs : (if st.next_fit_ptr = 0 then st.heap_end else st.next_fit_ptr) =
        st.next_fit_ptr := by rw [if_neg (by omega)]
    refine ⟨{ st with next_fit_ptr := rv }, res, ?_, rfl, h2, ?_⟩
    · unfold next_fit
      simp only [hs, h1]
    · rw [h2.1, hbs]
      constructor
      · intro h b hb
        apply h
        simp only [List.mem_append, List.mem_cons, List.mem_singleton, List.not_mem_nil] at hb ⊢
        tauto
      · intro h b hb
        apply h
        simp only [List.mem_append, List.mem_cons, List.mem_singleton, List.not_mem_nil] at hb ⊢
        tauto

theorem wellFormed_demo_s3 : WellFormed demo_s3 [4104, 4136, 4168] := by
  refine ⟨by decide, by decide, ?_, by decide⟩
  simp only [Tiles]
  decide

theorem next_fit_cyclic_witness :
    WellFormed demo_s3 [4104, 4136, 4168] ∧ demo_s3.next_fit_ptr = 4136 ∧
    ∃ st2 res, next_fit 4 demo_s3 32 = some (st2, res) ∧
      FirstFitting demo_s3.mem 32 [4168, 4104, 4136] res :=
  have hp : demo_s3.next_fit_ptr = 4136 := by decide
  have h := (@next_fit_cyclic demo_s3 [4104, 4136, 4168] 32 4 wellFormed_demo_s3
    (by decide)).2.2 [4104] [4168] (by rw [hp]; rfl)
  ⟨wellFormed_demo_s3, hp, by
    obtain ⟨st2, res, h1, _, h3, _⟩ := h
    rw [hp] at h3
    exact ⟨st2, res, h1, h3⟩⟩

end Adv

/-! ## Explicit variant: ordered insertion and the invariant checker -/

namespace Expl

/-- C31 fails on the code (address-ordered insertion, explicit variant).  In
the state `sorted_marked` the free list is `[4104, 4168, 4296]`, sorted by
address, with `free_list_len` 3, and the block 4232 is a free block that is not
in the list; it belongs between the nodes 4168 and 4296, neither of which is the
root.  `append_free_list(4232, 3)` returns, but the `do ... while` loop of
`append_free_list_by_sequence` never advances `temp` and tests only the root
and its successor: afterwards the list is still `[4104, 4168, 4296]`, the block
4232 is not in it, and `free_list_len` is 4. -/
theorem ordered_insert_drops_block :
    (heap_walk sorted_marked 9 sorted_marked.heap_start).toOption =
      some [⟨4104, 32, false⟩, ⟨4136, 32, true⟩, ⟨4168, 32, false⟩, ⟨4200, 32, true⟩,
        ⟨4232, 32, false⟩, ⟨4264, 32, true⟩, ⟨4296, 32, false⟩, ⟨4328, 3872, true⟩] ∧
    (free_list_walk sorted_marked 4 sorted_marked.free_list_root).toOption =
      some [4104, 4168, 4296] ∧
    sorted_marked.free_list_root = 4104 ∧ sorted_marked.free_list_len = 3 ∧
    (4168 < 4232 ∧ 4232 < 4296) ∧
    (append_free_list sorted_marked 4232 3).toOption = some sorted_after ∧
    (free_list_walk sorted_after 5 sorted_after.free_list_root).toOption =
      some [4104, 4168, 4296] ∧
    (4232 ∉ [4104, 4168, 4296]) ∧
    sorted_after.free_list_root = 4104 ∧ sorted_after.free_list_len = 4 := by
  refine ⟨by decide, by decide, by decide, by decide, by omega, ?_, by decide, by decide,
    by decide, by decide⟩
  unfold sorted_after stateOf
  cases h : append_free_list sorted_marked 4232 3 with
  | ok v => rfl
  | error e =>
    have : (append_free_list sorted_marked 4232 3).toOption.isSome = true := by decide
    rw [h] at this
    exact absurd this Bool.false_ne_true

/-- C33 as stated fails (invariant checker, explicit variant), in both
directions.  (1) After `mm_init(); mm_malloc(20480)` the state is consistent:
the heap walk reads the allocated block 4104 of 20496 bytes and the free block
24600, the free list is `[24600]` with consistent links and `free_list_len` is
1; `debug_free_list()` returns false, because it rejects every allocated block
of size `5 * chunksize` or more.  (2) In the state `demo_s7` the free list is
`[4232, 4168, 4104]`, where 4168 is no block of the heap walk, and
`free_list_len` is 2, the number of free blocks of the walk;
`debug_free_list()` returns true, because it only looks up each free block of
the walk in the list and compares the count. -/
theorem debug_free_list_wrong_both_ways :
    (((mm_malloc 9 demo_s0 20480).map Prod.snd).toOption = some 4112 ∧
      (heap_walk big_s1 3 big_s1.heap_start).toOption =
        some [⟨4104, 20496, true⟩, ⟨24600, 4080, false⟩] ∧
      (free_list_walk big_s1 2 big_s1.free_list_root).toOption = some [24600] ∧
      nxt big_s1.mem 24600 = 24600 ∧ prv big_s1.mem 24600 = 24600 ∧
      big_s1.free_list_len = 1 ∧
      ∀ fuel ff, debug_free_list (fuel + 1) ff big_s1 = Except.ok false) ∧
    ((heap_walk demo_s7 4 demo_s7.heap_start).toOption =
        some [⟨4104, 96, false⟩, ⟨4200, 32, true⟩, ⟨4232, 3968, false⟩] ∧
      (free_list_walk demo_s7 4 demo_s7.free_list_root).toOption =
        some [4232, 4168, 4104] ∧
      demo_s7.free_list_len = 2 ∧
      (debug_free_list 4 3 demo_s7).toOption = some true) := by
  refine ⟨⟨by decide, by decide, by decide, by decide, by decide, by decide, ?_⟩,
    by decide, by decide, by decide, by decide⟩
  intro fuel ff
  have h1 : big_s1.heap_start = 4104 := by decide
  have h2 : big_s1.heap_end = 28680 := by decide
  have h3 : big_s1.mem 4104 = 20497 := by decide
  simp [debug_free_list, debug_free_list_loop, h1, h2, get_alloc, get_size, load, h3, add64,
    off_header, WORD, extract_alloc, extract_size, chunksize]
  rfl

end Expl

/-! ## Footer-elided variant: client data and heap growth -/

namespace Adv

/-- C34 fails on the code (independence from client data, footer-elided
variant).  The states `full_s1` (after `mm_init(); mm_malloc(4088)`) and
`grow_s1` have the same globals and the same heap words except the word at
8192, which lies in the payload 4112..8200 of the allocated block 4104.
`extend_heap(chunksize)` returns 8200 on both, but it reads the alloc bit of
that word: on `grow_s1` the heap walk then reads the allocated block 4104 and
a free block 8200, on `full_s1` it reads one free block 4104 of 8192 bytes,
the allocated block merged away.  A following `mm_malloc(16)` returns 8208 on
the first and 4112, the pointer still outstanding, on the second. -/
theorem extend_heap_depends_on_payload :
    SameGlobals full_s1 grow_s1 ∧
    (∀ x, x ≠ 8192 → grow_s1.mem x = full_s1.mem x) ∧
    heap_walk full_s1 3 full_s1.heap_start = some [⟨4104, 4096, true, true⟩] ∧
    (4104 + 8 ≤ 8192 ∧ 8192 + 8 ≤ 4104 + 4096) ∧
    (extend_heap full_s1 chunksize).2 = 8200 ∧ (extend_heap grow_s1 chunksize).2 = 8200 ∧
    heap_walk grow_s2 3 grow_s2.heap_start =
      some [⟨4104, 4096, true, true⟩, ⟨8200, 4096, false, true⟩] ∧
    heap_walk full_s2 3 full_s2.heap_start = some [⟨4104, 8192, false, true⟩] ∧
    (mm_malloc 3 grow_s1 16).map Prod.snd = some 8208 ∧
    (mm_malloc 3 full_s1 16).map Prod.snd = some 4112 := by
  refine ⟨⟨rfl, rfl, rfl, rfl, rfl, rfl⟩, fun x hx => ?_, by decide, by omega, by decide,
    by decide, by decide, by decide, by decide, by decide⟩
  show (client_write full_s1 8192 1).mem x = full_s1.mem x
  unfold client_write
  exact mem_write_other _ _ hx

end Adv

namespace Expl

/-! ## Removal from the free list -/

/-- A segment whose last node `t` is relinked to a new end `e2`. -/
theorem seg_retarget {m : Mem} {c t e2 : Nat} (ht : NodeOK c t) (he2 : NodeOK c e2) :
    ∀ (l : List Nat) {a e : Nat}, Seg m a (l ++ [t]) e → (∀ n ∈ l, NodeOK c n) →
    (l ++ [t]).Nodup → e2 ∉ (l ++ [t]).tail →
    Seg ((m.write (t + 16) e2).write (e2 + 8) t) a (l ++ [t]) e2 := by
  have hal : t + 16 ≠ e2 + 8 := by
    have := ht.2.1; have := he2.2.1; omega
  intro l
  induction l with
  | nil =>
    intro a e h _ _ _
    have h1 : t = a := h.1
    subst h1
    have e1 : nxt ((m.write (t + 16) e2).write (e2 + 8) t) t = e2 := by
      unfold nxt
      rw [mem_write_other _ _ hal, mem_write_same]
    refine ⟨rfl, ?_, ?_⟩
    · rw [e1]; rfl
    · rw [e1]
      unfold prv
      rw [mem_write_same]
  | cons n r ih =>
    intro a e h hok hnd hne
    obtain ⟨g1, g2, g3⟩ := h
    subst g1
    replace g2 : Seg m (nxt m n) (r ++ [t]) e := g2
    have hn := hok n (List.mem_cons_self _ _)
    have hnt : n ≠ t := by
      intro hc
      have := (List.nodup_cons.1 hnd).1
      exact this (by rw [hc]; simp)
    have e1 : nxt ((m.write (t + 16) e2).write (e2 + 8) t) n = nxt m n := by
      unfold nxt
      rw [mem_write_other _ _ (by have := hn.2.1; have := he2.2.1; omega),
        mem_write_other _ _ (by omega)]
    have hk : nxt m n ∈ r ++ [t] := by
      cases hr : r ++ [t] with
      | nil => simp at hr
      | cons k r2 =>
        rw [hr] at g2
        have := g2.1
        rw [← this]
        exact List.mem_cons_self _ _
    have hkok : NodeOK c (nxt m n) := by
      rcases List.mem_append.1 hk with g | g
      · exact hok _ (List.mem_cons_of_mem _ g)
      · rw [List.mem_singleton.1 g]; exact ht
    have hke : nxt m n ≠ e2 := fun hc => hne (by
      simp only [List.cons_append, List.tail_cons]
      rw [← hc]; exact hk)
    refine ⟨rfl, ?_, ?_⟩
    · rw [e1]
      exact ih g2 (fun x hx => hok x (List.mem_cons_of_mem _ hx)) (List.nodup_cons.1 hnd).2
        (fun hc => hne (by
          simp only [List.cons_append, List.tail_cons]
          exact List.mem_of_mem_tail hc))
    · rw [e1]
      unfold prv
      rw [mem_write_other _ _ (by omega),
        mem_write_other _ _ (by have := hkok.2.1; have := ht.2.1; omega)]
      exact g3

/-- A ring can be read from any of its nodes. -/
theorem ring_rotate {m : Mem} {l1 l2 : List Nat} {a b : Nat} (h : Seg m a (l1 ++ b :: l2) a) :
    Seg m b (b :: l2 ++ l1) b := by
  obtain ⟨mid, h1, h2⟩ := seg_append.1 h
  have : b = mid := h2.1
  subst this
  exact seg_append.2 ⟨a, h2, h1⟩

/-- Removing the first node of a ring of at least two nodes. -/
theorem ring_unlink_head {m : Mem} {c x y : Nat} {r : List Nat}
    (h : Seg m x (x :: y :: r) x) (hnd : (x :: y :: r).Nodup)
    (hok : ∀ n ∈ x :: y :: r, NodeOK c n) :
    nxt m x = y ∧ prv m x ∈ y :: r ∧ Seg (unlink m x) y (y :: r) y := by
  obtain ⟨_, g2, _⟩ := h
  have hy : y = nxt m x := g2.1
  obtain ⟨l, t, hlt⟩ : ∃ l t, y :: r = l ++ [t] := by
    rcases List.eq_nil_or_concat (y :: r) with h0 | ⟨l2, t, h0⟩
    · exact absurd h0 (List.cons_ne_nil _ _)
    · exact ⟨l2, t, by rw [h0, List.concat_eq_append]⟩
  rw [← hy] at g2
  rw [hlt] at g2
  obtain ⟨_, ht⟩ := seg_last g2
  have htin : t ∈ y :: r := by rw [hlt]; simp
  have hnd2 : (l ++ [t]).Nodup := by rw [← hlt]; exact (List.nodup_cons.1 hnd).2
  have hyt : y ∉ (l ++ [t]).tail := by
    rw [← hlt]
    simp only [List.tail_cons]
    exact (List.nodup_cons.1 (List.nodup_cons.1 hnd).2).1
  have hs := seg_retarget (hok t (List.mem_cons_of_mem _ htin))
    (hok y (List.mem_cons_of_mem _ (List.mem_cons_self _ _))) l g2
    (fun n hn => hok n (List.mem_cons_of_mem _ (by rw [hlt]; simp [hn]))) hnd2 hyt
  refine ⟨hy.symm, by rw [ht]; exact htin, ?_⟩
  unfold unlink
  rw [ht, ← hy, hlt]
  exact hs

/-- Removing any node of a ring of at least two nodes. -/
theorem ring_unlink {m : Mem} {c x R : Nat} {pre post : List Nat}
    (h : Seg m R (pre ++ x :: post) R) (hnd : (pre ++ x :: post).Nodup)
    (hok : ∀ n ∈ pre ++ x :: post, NodeOK c n) (h2 : pre ++ post ≠ []) :
    NodeOK c (nxt m x) ∧ NodeOK c (prv m x) ∧ prv m x ≠ x ∧
    (pre = [] → Seg (unlink m x) (nxt m x) post (nxt m x)) ∧
    (pre ≠ [] → Seg (unlink m x) R (pre ++ post) R) := by
  have hrot := ring_rotate h
  have hnd2 : (x :: post ++ pre).Nodup := by
    have hp : (x :: post ++ pre).Perm (pre ++ x :: post) := by
      have := @List.perm_append_comm _ (x :: post) pre
      simpa using this
    exact hp.nodup_iff.2 hnd
  have hok2 : ∀ n ∈ x :: post ++ pre, NodeOK c n := by
    intro n hn
    apply hok
    simp only [List.cons_append, List.mem_cons, List.mem_append] at hn ⊢
    tauto
  cases hrest : post ++ pre with
  | nil =>
    exfalso
    have := List.append_eq_nil.1 hrest
    exact h2 (by rw [this.1, this.2]; rfl)
  | cons y r =>
    have hrot2 : Seg m x (x :: y :: r) x := by
      have : x :: post ++ pre = x :: y :: r := by rw [List.cons_append, hrest]
      rw [this] at hrot
      exact hrot
    have hnd3 : (x :: y :: r).Nodup := by
      have : x :: post ++ pre = x :: y :: r := by rw [List.cons_append, hrest]
      rw [this] at hnd2
      exact hnd2
    have hok3 : ∀ n ∈ x :: y :: r, NodeOK c n := by
      have : x :: post ++ pre = x :: y :: r := by rw [List.cons_append, hrest]
      rw [this] at hok2
      exact hok2
    obtain ⟨e1, e2, e3⟩ := ring_unlink_head hrot2 hnd3 hok3
    have hpx : prv m x ≠ x := fun hc => (List.nodup_cons.1 hnd3).1 (by rw [hc] at e2; exact e2)
    refine ⟨by rw [e1]; exact hok3 y (by simp), hok3 _ (List.mem_cons_of_mem _ e2), hpx,
      fun hp => ?_, fun hp => ?_⟩
    · subst hp
      rw [List.append_nil] at hrest
      rw [e1, hrest]
      exact e3
    · cases pre with
      | nil => exact absurd rfl hp
      | cons p ps =>
        have hR : p = R := h.1
        subst hR
        rw [← hrest] at e3
        cases post with
        | nil =>
          simp only [List.nil_append] at hrest e3 ⊢
          have : y = p := by
            have := congrArg List.head? hrest
            simpa using this.symm
          rw [this] at e3
          rw [List.append_nil]
          exact e3
        | cons q qs =>
          have hq : q = y := by
            have := congrArg List.head? hrest
            simpa using this
          subst hq
          obtain ⟨mid, s1, s2⟩ := seg_append.1 e3
          have hmid : p = mid := s2.1
          subst hmid
          exact seg_append.2 ⟨q, s2, s1⟩

end Expl

namespace Expl

/-- Source `disconnect_block` on the only node of the list. -/
theorem disconnect_block_single {st : State} {x : Nat} (hlen : st.free_list_len = 1) :
    ∃ st2, disconnect_block st x = Except.ok st2 ∧ st2.mem = st.mem ∧
      st2.free_list_root = 0 ∧ st2.free_list_len = 0 := by
  refine ⟨{ st with free_list_len := st.free_list_len - 1, free_list_root := 0 }, ?_, rfl, rfl,
    ?_⟩
  · unfold disconnect_block
    have : st.free_list_len - 1 = 0 := by omega
    simp only [this, if_true]
    rfl
  · show st.free_list_len - 1 = 0
    omega

/-- Source `disconnect_block` on a node of a list of at least two nodes: the
two stores, then the root moves on when the node was the root. -/
theorem disconnect_block_many {st : State} {c x : Nat} (hlen : st.free_list_len - 1 ≠ 0)
    (hx : NodeOK c x) (hp : NodeOK c (prv st.mem x)) (hn : NodeOK c (nxt st.mem x))
    (hpx : prv st.mem x ≠ x) :
    ∃ st2, disconnect_block st x = Except.ok st2 ∧ st2.mem = unlink st.mem x ∧
      st2.free_list_len = st.free_list_len - 1 ∧
      st2.free_list_root =
        (if x = st.free_list_root then nxt st.mem x else st.free_list_root) := by
  have a1 : x + 16 ≠ nxt st.mem x + 8 := by
    have := hx.2.1; have := hn.2.1; omega
  have a2 : x + 16 ≠ prv st.mem x + 16 := by omega
  have e1 : st.mem (x + 8) = prv st.mem x := rfl
  have e2 : st.mem (x + 16) = nxt st.mem x := rfl
  have e3 : unlink st.mem x (x + 16) = nxt st.mem x := by
    unfold unlink
    rw [mem_write_other _ _ a1, mem_write_other _ _ a2]
    rfl
  unfold disconnect_block
  simp only [hlen, if_false]
  rw [load_ok hx.1, ok_bind, load_ok hx.1, ok_bind]
  dsimp only
  rw [node_prev hx, node_next hx, e1, e2, store_ok hp.1, ok_bind, store_ok hn.1, ok_bind]
  dsimp only
  rw [node_next hp, node_prev hn]
  have e4 : (st.mem.write (prv st.mem x + 16) (nxt st.mem x)).write (nxt st.mem x + 8)
      (prv st.mem x) = unlink st.mem x := rfl
  rw [e4]
  by_cases hr : x = st.free_list_root
  · rw [if_pos hr, if_pos hr, load_ok hx.1, ok_bind]
    dsimp only
    rw [node_next hx, e3, pure_bind]
    dsimp only
    by_cases hf : st.next_fit_ptr = x
    · rw [if_pos hf]
      exact ⟨_, rfl, rfl, rfl, rfl⟩
    · rw [if_neg hf]
      exact ⟨_, rfl, rfl, rfl, rfl⟩
  · rw [if_neg hr, if_neg hr, pure_bind]
    dsimp only
    by_cases hf : st.next_fit_ptr = x
    · rw [if_pos hf]
      exact ⟨_, rfl, rfl, rfl, rfl⟩
    · rw [if_neg hf]
      exact ⟨_, rfl, rfl, rfl, rfl⟩

/-- C32 (removal from the free list, explicit variant).  For a well-formed
circular free list whose traversal from `free_list_root` is `pre ++ x :: post`
(so `free_list_len` is its length, at least 1, and `x` is a node of it),
`disconnect_block(x)` returns and leaves a well-formed list whose traversal is
`pre ++ post`: the list without `x`, the other nodes in their old order.
`free_list_len` has decreased by one; `free_list_root` is the old successor of
`x` when `x` was the root and other nodes remain, and is unchanged when `x` was
not the root; when `x` was the only node the state is the empty one,
`free_list_root == NULL` and `free_list_len == 0`. -/
theorem disconnect_block_removes {st : State} {c x : Nat} {pre post : List Nat}
    (hfl : FreeList st c (pre ++ x :: post)) :
    ∃ st2, disconnect_block st x = Except.ok st2 ∧ FreeList st2 c (pre ++ post) ∧
      (pre ++ x :: post).erase x = pre ++ post ∧
      st2.free_list_len = st.free_list_len - 1 ∧
      (x = st.free_list_root ↔ pre = []) ∧
      (x = st.free_list_root → pre ++ post ≠ [] → st2.free_list_root = nxt st.mem x ∧
        (pre ++ post).head? = some (nxt st.mem x)) ∧
      (x ≠ st.free_list_root → st2.free_list_root = st.free_list_root) ∧
      (pre ++ post = [] → st2.free_list_root = 0 ∧ st2.free_list_len = 0) ∧
      ∀ fuel, (pre ++ post).length < fuel →
        free_list_walk st2 fuel st2.free_list_root = Except.ok (pre ++ post) := by
  obtain ⟨h1, h2, h3, _, h5⟩ := hfl
  have hring := h5 (by simp)
  have hxok := h3 x (by simp)
  have hxpre : x ∉ pre := by
    intro hc
    have := (List.nodup_append.1 h2).2.2
    exact this hc (List.mem_cons_self _ _) 
  have herase : (pre ++ x :: post).erase x = pre ++ post := by
    rw [List.erase_append_right _ hxpre, List.erase_cons_head]
  have hroot : x = st.free_list_root ↔ pre = [] := by
    cases pre with
    | nil => exact ⟨fun _ => rfl, fun _ => hring.1⟩
    | cons p ps =>
      have hp : p = st.free_list_root := hring.1
      refine ⟨fun hc => ?_, fun hc => absurd hc (List.cons_ne_nil _ _)⟩
      exact absurd (by rw [hc, ← hp]; exact List.mem_cons_self _ _) hxpre
  have hnd2 : (pre ++ post).Nodup := by
    have hs : (pre ++ post).Sublist (pre ++ x :: post) :=
      List.Sublist.append_left (List.sublist_cons_self x post) pre
    exact hs.nodup h2
  have hok2 : ∀ n ∈ pre ++ post, NodeOK c n := by
    intro n hn
    apply h3
    simp only [List.mem_append, List.mem_cons] at hn ⊢
    tauto
  have hlen : (st.free_list_len : Int) = ((pre ++ post).length : Int) + 1 := by
    rw [h1]
    simp only [List.length_append, List.length_cons]
    push_cast
    omega
  by_cases hemp : pre ++ post = []
  · obtain ⟨st2, g1, g2, g3, g4⟩ := @disconnect_block_single st x (by
      rw [hlen, hemp]; rfl)
    have hpre : pre = [] := (List.append_eq_nil.1 hemp).1
    have hfl0 : FreeList st2 c [] :=
      ⟨g4, List.nodup_nil, fun n hn => absurd hn (List.not_mem_nil n), fun _ => g3,
        fun hc => absurd rfl hc⟩
    refine ⟨st2, g1, by rw [hemp]; exact hfl0, herase, by rw [g4, hlen, hemp]; rfl, hroot,
      fun _ hc => absurd hemp hc, fun hc => absurd (hroot.2 hpre) hc, fun _ => ⟨g3, g4⟩, ?_⟩
    intro fuel hf
    rw [hemp] at hf ⊢
    exact free_list_walk_spec hfl0 hf
  · obtain ⟨u1, u2, u3, u4, u5⟩ := ring_unlink hring h2 h3 hemp
    have hpos : 0 < (pre ++ post).length := List.length_pos.2 hemp
    obtain ⟨st2, g1, g2, g3, g4⟩ := @disconnect_block_many st c x (by omega) hxok u2 u1 u3
    have hfl2 : FreeList st2 c (pre ++ post) := by
      refine freeList_mk (by rw [g3, hlen]; omega) hnd2 hok2 hemp ?_
      rw [g2, g4]
      by_cases hp : pre = []
      · rw [if_pos (hroot.2 hp)]
        have := u4 hp
        rw [hp, List.nil_append]
        exact this
      · rw [if_neg (fun hc => hp (hroot.1 hc))]
        exact u5 hp
    refine ⟨st2, g1, hfl2, herase, g3, hroot, fun hr _ => ?_, fun hr => ?_,
      fun hc => absurd hc hemp, fun fuel hf => free_list_walk_spec hfl2 hf⟩
    · rw [g4, if_pos hr]
      refine ⟨rfl, ?_⟩
      have hseg := hfl2.2.2.2.2 hemp
      rw [g4, if_pos hr] at hseg
      cases hpp : pre ++ post with
      | nil => exact absurd hpp hemp
      | cons y r =>
        rw [hpp] at hseg
        rw [List.head?_cons, hseg.1]
    · rw [g4, if_neg hr]

theorem disconnect_block_removes_witness :
    FreeList marked_s6 4104 ([4232] ++ 4104 :: [4168]) ∧
    ∃ st2, disconnect_block marked_s6 4104 = Except.ok st2 ∧
      st2.free_list_root = 4232 ∧ st2.free_list_len = 2 ∧
      free_list_walk st2 3 st2.free_list_root = Except.ok [4232, 4168] :=
  have h := @disconnect_block_removes marked_s6 4104 4104 [4232] [4168] freeList_marked
  have hr : marked_s6.free_list_root = 4232 := by decide
  have hl : marked_s6.free_list_len = 3 := by decide
  ⟨freeList_marked, h.imp fun _ g =>
    ⟨g.1, by rw [g.2.2.2.2.2.2.1 (by rw [hr]; omega), hr], by rw [g.2.2.2.1, hl]; rfl,
      g.2.2.2.2.2.2.2.2 3 (by decide)⟩⟩

end Expl

namespace Basic

/-! ## Runs with client stores: the heap invariant -/

/-- A run without client stores is a run. -/
theorem run_of_reach {ok : Nat → Prop} {p0 st : State} {out : List (Nat × Nat)}
    (h : Reach ok p0 st out) : Run ok p0 st out := by
  induction h with
  | init st hmax hinit => exact Run.init st hmax hinit
  | malloc st st2 out fuel size p _ hok hsz hm ih => exact Run.malloc st st2 out fuel size p ih hok hsz hm
  | free st st2 out p n _ hin hf ih => exact Run.free st st2 out p n ih hin hf

/-- A client store inside the requested payload range of an outstanding
allocation keeps the strict heap invariant. -/
theorem client_write_inv {st : State} {bs : List Blk} {out : List (Nat × Nat)} {p n x v : Nat}
    (hinv : Inv true st bs) (hout : OutOK true st bs out) (hin : (p, n) ∈ out)
    (h1 : p ≤ x) (h2 : x < p + n) :
    Inv true (client_write st x v) bs ∧ OutOK true (client_write st x v) bs out := by
  obtain ⟨o1, o2⟩ := hout
  obtain ⟨q1, q2⟩ := o2 rfl
  obtain ⟨sz, hb, hsz⟩ := q1 _ hin
  have hp := (o1 _ hin).1
  dsimp only at hb hsz hp
  have hm : ∀ y, y ≤ p - 8 ∨ p - 8 + sz - 8 ≤ y → (st.mem.write x v) y = st.mem y := by
    intro y hy
    exact mem_write_other _ _ (by clear * - hy h1 h2 hsz hp; omega)
  refine ⟨inv_frame_interior hinv hb hm, fun pr hpr => ?_, fun _ => ⟨q1, q2⟩⟩
  obtain ⟨a1, a2, a3, _⟩ := o1 pr hpr
  exact ⟨a1, a2, a3, fun _ => (q1 pr hpr).imp fun _ h => h.1⟩

/-- Every state of a run whose request sizes do not wrap satisfies the strict
heap invariant, client stores included. -/
theorem run_inv {ok : Nat → Prop} (hok : ∀ n, ok n → n ≠ 0 → n + 31 < 2 ^ 64) {p0 st : State}
    {out : List (Nat × Nat)} (h : Run ok p0 st out) :
    ∃ bs, Inv true st bs ∧ OutOK true st bs out ∧ st.heap_start = p0.mem_brk + 8 ∧
      st.mem_max_addr = p0.mem_max_addr := by
  induction h with
  | init st hmax hinit =>
    obtain ⟨a1, a2, _, a4, _⟩ := mm_init_ok true hmax hinit
    exact ⟨_, a1, by simp [OutOK], a2, a4⟩
  | malloc st st2 out fuel size p _ hsz _ hm ih =>
    obtain ⟨bs, i1, i2, i3, i4⟩ := ih
    by_cases h0 : size = 0
    · subst h0
      simp only [mm_malloc, if_true] at hm
      obtain ⟨h1, h2⟩ := Prod.mk.inj (Option.some.inj hm)
      subst h1
      subst h2
      exact ⟨bs, i1, by simpa using i2, i3, i4⟩
    · obtain ⟨bs2, j1, j2, j3, _, j5⟩ :=
        mm_malloc_spec i1 i2 h0 (fun _ => hok size hsz h0) hm
      rw [if_neg j3]
      exact ⟨bs2, j1, j2, by rw [j5.2.1]; exact i3, by rw [j5.2.2.2.1]; exact i4⟩
  | free st st2 out p n _ hin hf ih =>
    obtain ⟨bs, i1, i2, i3, i4⟩ := ih
    obtain ⟨bs2, j1, j2, j3, j4⟩ := mm_free_spec i1 i2 hin hf
    exact ⟨bs2, j1, j2, by rw [j3]; exact i3, by rw [j4]; exact i4⟩
  | store st out p n x v _ hin h1 h2 ih =>
    obtain ⟨bs, i1, i2, i3, i4⟩ := ih
    obtain ⟨j1, j2⟩ := @client_write_inv st bs out p n x v i1 i2 hin h1 h2
    exact ⟨bs, j1, j2, i3, i4⟩

theorem sizeFits_ok : ∀ n, SizeFits n → n ≠ 0 → n + 31 < 2 ^ 64 := by
  intro n h _
  unfold SizeFits WORD at h
  exact h

/-! ## Concrete runs -/

theorem two_malloc1 : mm_malloc 2 demo_s0 32 = some (two_s1, 4112) :=
  run_eq (by decide) (by decide)

theorem two_malloc2 : mm_malloc 2 two_s1 32 = some (two_s2, 4160) :=
  run_eq (by decide) (by decide)

theorem trio_malloc3 : mm_malloc 6 two_s2 16 = some (trio_s3, 4208) :=
  run_eq (by decide) (by decide)

theorem trio_reach3 :
    Reach SizeOk demo_p0 trio_s3 [(4208, 16), (4160, 32), (4112, 32)] := by
  have h1 := Reach.malloc demo_s0 two_s1 [] 2 32 4112 (demo_reach0 SizeOk)
    ⟨by omega, by unfold WORD; omega⟩ (by unfold WORD; omega) two_malloc1
  have h2 := Reach.malloc two_s1 two_s2 _ 2 32 4160 h1
    ⟨by omega, by unfold WORD; omega⟩ (by unfold WORD; omega) two_malloc2
  have h3 := Reach.malloc two_s2 trio_s3 _ 6 16 4208 h2
    ⟨by omega, by unfold WORD; omega⟩ (by unfold WORD; omega) trio_malloc3
  simpa using h3

theorem trio_reach4 : Reach SizeOk demo_p0 trio_s4 [(4208, 16), (4160, 32)] := by
  have h := Reach.free trio_s3 trio_s4 _ 4112 32 trio_reach3 (by simp)
    (free_run_eq (by decide))
  have e : ([(4208, 16), (4160, 32), (4112, 32)] : List (Nat × Nat)).erase (4112, 32) =
      [(4208, 16), (4160, 32)] := by decide
  rw [e] at h
  exact h

theorem trio_run3 :
    Run SizeFits demo_p0 trio_s3 [(4208, 16), (4160, 32), (4112, 32)] := by
  have h0 : Run SizeFits demo_p0 demo_s0 [] := Run.init demo_s0 demo_max demo_init
  have h1 := Run.malloc demo_s0 two_s1 [] 2 32 4112 h0
    (by unfold SizeFits WORD; omega) (by unfold WORD; omega) two_malloc1
  have h2 := Run.malloc two_s1 two_s2 _ 2 32 4160 h1
    (by unfold SizeFits WORD; omega) (by unfold WORD; omega) two_malloc2
  have h3 := Run.malloc two_s2 trio_s3 _ 6 16 4208 h2
    (by unfold SizeFits WORD; omega) (by unfold WORD; omega) trio_malloc3
  simpa using h3

/-- The run `a = mm_malloc(32); b = mm_malloc(32); c = mm_malloc(16)`, a client
store into `b`, `mm_free(a)`. -/
theorem trio_run5 : Run SizeFits demo_p0 trio_w5 [(4208, 16), (4160, 32)] := by
  have h4 : Run SizeFits demo_p0 trio_w4 _ :=
    Run.store trio_s3 _ 4160 32 4160 7 trio_run3 (by simp) (by omega) (by omega)
  have h := Run.free trio_w4 trio_w5 _ 4112 32 h4 (by simp) (free_run_eq (by decide))
  have e : ([(4208, 16), (4160, 32), (4112, 32)] : List (Nat × Nat)).erase (4112, 32) =
      [(4208, 16), (4160, 32)] := by decide
  rw [e] at h
  exact h

end Basic

namespace Basic

/-! ## Claims over runs with client stores -/

/-- Witness for the amended C1: the state after `a = mm_malloc(32)`,
`b = mm_malloc(32)`, `c = mm_malloc(16)` and `mm_free(a)`, with the two
outstanding allocations `c = 4208` and `b = 4160`. -/
theorem payloads_disjoint_of_reach_witness :
    Reach SizeOk demo_p0 trio_s4 [(4208, 16), (4160, 32)] ∧
    PayloadsDisjoint [(4208, 16), (4160, 32)] ∧
    (4160 + 32 ≤ 4208 ∧ trio_s4.heap_start + 8 ≤ 4160 ∧ 4208 + 16 ≤ trio_s4.heap_end) :=
  ⟨trio_reach4, payloads_disjoint_of_reach trio_reach4, by omega, by decide, by decide⟩

/-- C4 as stated fails: a request whose rounding wraps leaves a block whose
footer is the first word of its payload, and a store of the client there makes
a later `mm_free` skip a merge.  After `mm_init()`, `a = mm_malloc(16)`,
`c = mm_malloc(2^64 - 1)` (block 4136 of 16 bytes, `c = 4144`),
`d = mm_malloc(16)`, `e = mm_malloc(16)`, `mm_free(a)`, the store of the word 16
at `c`, and `mm_free(d)`, the heap walk reads the free block 4104 of 32 bytes
followed by the free block 4136 of 48 bytes. -/
theorem adjacent_free_counterexample :
    Run SizeAny demo_p0 adj_s7 [(4192, 16), (4144, 18446744073709551615)] ∧
    heap_walk adj_s7 5 adj_s7.heap_start =
      some [⟨4104, 32, false⟩, ⟨4136, 48, false⟩, ⟨4184, 32, true⟩, ⟨4216, 3984, false⟩] ∧
    ¬ NoAdjFree [⟨4104, 32, false⟩, ⟨4136, 48, false⟩, ⟨4184, 32, true⟩,
      ⟨4216, 3984, false⟩] := by
  refine ⟨?_, by decide, by simp [NoAdjFree]⟩
  have hW : ∀ n : Nat, n = 16 ∨ n = 18446744073709551615 → n < WORD := by
    intro n hn
    unfold WORD
    omega
  have h0 : Run SizeAny demo_p0 demo_s0 [] := Run.init demo_s0 demo_max demo_init
  have h1 := Run.malloc demo_s0 adj_s1 [] 2 16 4112 h0 trivial (hW _ (Or.inl rfl))
    (run_eq (by decide) (by decide))
  have h2 := Run.malloc adj_s1 adj_s2 _ 6 18446744073709551615 4144 h1 trivial
    (hW _ (Or.inr rfl)) (run_eq (by decide) (by decide))
  have h3 := Run.malloc adj_s2 adj_s3 _ 6 16 4160 h2 trivial (hW _ (Or.inl rfl))
    (run_eq (by decide) (by decide))
  have h4 := Run.malloc adj_s3 adj_s4 _ 6 16 4192 h3 trivial (hW _ (Or.inl rfl))
    (run_eq (by decide) (by decide))
  simp only [if_neg (by omega : ¬ (4112 = 0)), if_neg (by omega : ¬ (4144 = 0)),
    if_neg (by omega : ¬ (4160 = 0)), if_neg (by omega : ¬ (4192 = 0))] at h4
  have h5 := Run.free adj_s4 adj_s5 _ 4112 16 h4 (by simp) (free_run_eq (by decide))
  have e5 : ([(4192, 16), (4160, 16), (4144, 18446744073709551615), (4112, 16)] :
      List (Nat × Nat)).erase (4112, 16) =
      [(4192, 16), (4160, 16), (4144, 18446744073709551615)] := by decide
  rw [e5] at h5
  have h6 : Run SizeAny demo_p0 adj_s6 _ :=
    Run.store adj_s5 _ 4144 18446744073709551615 4144 16 h5 (by simp) (by omega) (by omega)
  have h7 := Run.free adj_s6 adj_s7 _ 4160 16 h6 (by simp) (free_run_eq (by decide))
  have e7 : ([(4192, 16), (4160, 16), (4144, 18446744073709551615)] :
      List (Nat × Nat)).erase (4160, 16) = [(4192, 16), (4144, 18446744073709551615)] := by
    decide
  rw [e7] at h7
  exact h7

/-- C4 amended (no adjacent free blocks, basic implicit variant).  In every
state reached from a successful `mm_init` by `mm_malloc` calls whose size does
not wrap in the rounding (`size + 31 < 2^64`), by `mm_free` calls on
outstanding pointers and by stores of the client inside the requested payload
ranges of its outstanding allocations, the heap walk ends at `heap_end` and no
two consecutive blocks of it are both free. -/
theorem no_adjacent_free_of_run {p0 st : State} {out : List (Nat × Nat)}
    (h : Run SizeFits p0 st out) :
    ∃ fuel bs, heap_walk st fuel st.heap_start = some bs ∧ NoAdjFree bs := by
  obtain ⟨bs, hinv, _, _, _⟩ := run_inv sizeFits_ok h
  exact ⟨bs.length + 1, bs, heap_walk_chain (inv_heap_end_lt hinv) hinv.1 _ (by omega), hinv.2.1⟩

/-- Witness for the amended C4: the run `a = mm_malloc(32)`, `b = mm_malloc(32)`,
`c = mm_malloc(16)`, a store into `b`, `mm_free(a)`. -/
theorem no_adjacent_free_of_run_witness :
    Run SizeFits demo_p0 trio_w5 [(4208, 16), (4160, 32)] ∧
    heap_walk trio_w5 5 trio_w5.heap_start =
      some [⟨4104, 48, false⟩, ⟨4152, 48, true⟩, ⟨4200, 32, true⟩, ⟨4232, 3968, false⟩] ∧
    ∃ fuel bs, heap_walk trio_w5 fuel trio_w5.heap_start = some bs ∧ NoAdjFree bs :=
  ⟨trio_run5, by decide, no_adjacent_free_of_run trio_run5⟩

theorem find_fit_loop_zero_block {st : State} {asize a : Nat} (h0 : 0 < asize)
    (ha : a ≠ st.heap_end) (hm : st.mem a = 0) (hlt : a < WORD) :
    ∀ fuel, find_fit_loop st asize fuel a = none := by
  have hsz : get_size st a = 0 := by
    unfold get_size
    rw [hm]
    decide
  have hnx : find_next st a = a := by
    unfold find_next
    rw [hsz]
    unfold add64
    exact Nat.mod_eq_of_lt hlt
  intro fuel
  induction fuel with
  | zero => rfl
  | succ f ih =>
    unfold find_fit_loop
    rw [if_neg ha, hsz, hnx]
    have : (!get_alloc st a && decide (asize ≤ 0)) = false := by
      have : ¬ asize ≤ 0 := by omega
      simp [this]
    rw [this]
    exact ih

/-- C7 as stated fails: the states reachable from `mm_init` include those
reached through a request whose rounding wraps and a store of the client into
the block it got.  After `mm_init()`, `c = mm_malloc(2^64 - 1)` (block 4104 of
16 bytes, `c = 4112` is its footer), `d = mm_malloc(16)`, the store of the word
0 at `c` and `mm_free(d)`, the header at 4120 holds the size 4112 and the walk
from `heap_start` steps over `heap_end` to the address 8232, where it reads a
block of size 0: `find_fit(5024)` never returns, so `mm_malloc(5000)` does not
return with any fuel although the provider has room for the block and a
chunk. -/
theorem mm_malloc_loops_counterexample :
    Run SizeAny demo_p0 loop_s4 [(4112, 18446744073709551615)] ∧
    (0 < 5000 ∧ 5000 + 31 < 2 ^ 64) ∧
    loop_s4.mem_brk + round_up (add64 5000 dsize) dsize + chunksize ≤ loop_s4.mem_max_addr ∧
    get_size loop_s4 4120 = 4112 ∧ find_next loop_s4 4120 = 8232 ∧ loop_s4.heap_end = 8200 ∧
    get_size loop_s4 8232 = 0 ∧
    ∀ fuel, mm_malloc fuel loop_s4 5000 = none := by
  refine ⟨?_, by omega, by decide, by decide, by decide, by decide, by decide, fun fuel => ?_⟩
  · have h0 : Run SizeAny demo_p0 demo_s0 [] := Run.init demo_s0 demo_max demo_init
    have h1 := Run.malloc demo_s0 loop_s1 [] 2 18446744073709551615 4112 h0 trivial
      (by unfold WORD; omega) (run_eq (by decide) (by decide))
    have h2 := Run.malloc loop_s1 loop_s2 _ 6 16 4128 h1 trivial
      (by unfold WORD; omega) (run_eq (by decide) (by decide))
    simp only [if_neg (by omega : ¬ (4112 = 0)), if_neg (by omega : ¬ (4128 = 0))] at h2
    have h3 : Run SizeAny demo_p0 loop_s3 _ :=
      Run.store loop_s2 _ 4112 18446744073709551615 4112 0 h2 (by simp) (by omega) (by omega)
    have h4 := Run.free loop_s3 loop_s4 _ 4128 16 h3 (by simp) (free_run_eq (by decide))
    have e4 : ([(4128, 16), (4112, 18446744073709551615)] : List (Nat × Nat)).erase
        (4128, 16) = [(4112, 18446744073709551615)] := by decide
    rw [e4] at h4
    exact h4
  · have hA : round_up (add64 5000 dsize) dsize = 5024 := by decide
    have hstuck := @find_fit_loop_zero_block loop_s4 5024 8232 (by omega) (by decide) (by decide)
      (by unfold WORD; omega)
    have hfit : ∀ wf, find_fit wf loop_s4 5024 = none := by
      intro wf
      have e1 : loop_s4.heap_start = 4104 := by decide
      have e2 : (4104 : Nat) ≠ loop_s4.heap_end := by decide
      have e3 : (!get_alloc loop_s4 4104 && decide (5024 ≤ get_size loop_s4 4104)) = false := by
        decide
      have e4 : find_next loop_s4 4104 = 4120 := by decide
      have e5 : (4120 : Nat) ≠ loop_s4.heap_end := by decide
      have e6 : (!get_alloc loop_s4 4120 && decide (5024 ≤ get_size loop_s4 4120)) = false := by
        decide
      have e7 : find_next loop_s4 4120 = 8232 := by decide
      unfold find_fit
      rw [e1]
      cases wf with
      | zero => rfl
      | succ w1 =>
        unfold find_fit_loop
        rw [if_neg e2, e3, e4]
        cases w1 with
        | zero => rfl
        | succ w2 =>
          unfold find_fit_loop
          rw [if_neg e5, e6, e7]
          exact hstuck w2
    unfold mm_malloc
    rw [if_neg (by omega)]
    simp only [hA]
    cases fuel with
    | zero => rfl
    | succ f =>
      unfold mm_malloc_loop
      rw [hfit]

/-- C7 amended (termination of the grow-and-retry loop, basic implicit variant).
From every state reached from a successful `mm_init` by `mm_malloc` calls whose
size does not wrap in the rounding (`size + 31 < 2^64`), by `mm_free` calls on
outstanding pointers and by stores of the client inside the requested payload
ranges of its outstanding allocations, for every request size with `0 < size`
and `size + 31 < 2^64`, when the provider has room for the requested block
size plus one chunk (so that every `extend_heap(chunksize)` of the call
succeeds), `mm_malloc` returns with every sufficiently large fuel, and the
pointer it returns is not `NULL`. -/
theorem mm_malloc_terminates_of_run {p0 st : State} {out : List (Nat × Nat)} {size : Nat}
    (h : Run SizeFits p0 st out) (h0 : 0 < size) (hsz : size + 31 < 2 ^ 64)
    (hroom : st.mem_brk + round_up (add64 size dsize) dsize + chunksize ≤ st.mem_max_addr) :
    ∃ fuel0, ∀ fuel, fuel0 ≤ fuel → ∃ st2 p, mm_malloc fuel st size = some (st2, p) ∧ p ≠ 0 := by
  obtain ⟨bs, hinv, hout, _, _⟩ := run_inv sizeFits_ok h
  refine ⟨bs.length + (size + 31) / 16 * 16 / 4096 + 3, fun fuel hfuel => ?_⟩
  obtain ⟨⟨st2, p⟩, hr⟩ := mm_malloc_returns hinv h0 hsz hroom fuel hfuel
  obtain ⟨_, _, _, hp, _⟩ := mm_malloc_spec hinv hout (by omega) (fun _ => hsz) hr
  exact ⟨st2, p, hr, hp⟩

/-- Witness for the amended C7: `mm_malloc(9000)`, a request larger than two
chunks, after the run `a = mm_malloc(32)`, `b = mm_malloc(32)`,
`c = mm_malloc(16)`, a store into `b`, `mm_free(a)`. -/
theorem mm_malloc_terminates_of_run_witness :
    Run SizeFits demo_p0 trio_w5 [(4208, 16), (4160, 32)] ∧
    ∃ fuel0, ∀ fuel, fuel0 ≤ fuel →
      ∃ st2 p, mm_malloc fuel trio_w5 9000 = some (st2, p) ∧ p ≠ 0 :=
  ⟨trio_run5, mm_malloc_terminates_of_run trio_run5 (by omega) (by omega) (by decide)⟩

end Basic

namespace Basic

/-! ## The words written by mm_malloc -/

/-- The last block of a chain ends where the chain ends. -/
theorem chain_getLast {s : Bool} {m : Mem} {bs : List Blk} {a e : Nat}
    (h : Chain s m a bs e) : ∀ P, bs.getLast? = some P → P.addr + P.sz = e ∧ 0 < P.sz := by
  intro P hP
  obtain ⟨l, rfl⟩ : ∃ l, bs = l ++ [P] := by
    rcases List.eq_nil_or_concat bs with h0 | ⟨l, x, h0⟩
    · rw [h0] at hP; simp at hP
    · rw [List.concat_eq_append] at h0
      rw [h0, List.getLast?_concat] at hP
      exact ⟨l, by rw [h0, Option.some.inj hP]⟩
  obtain ⟨_, c2, c3⟩ := chain_snoc.1 h
  have := c2.2.2.1
  exact ⟨c3, by clear * - this; omega⟩

/-- The block list after one growth step, written out: the old blocks, with a
free last block replaced by the merged tail block. -/
theorem grow_explicit {s : Bool} {m : Mem} {bs : List Blk} {a e : Nat}
    (h : Chain s m a bs e) :
    mergeInto bs ⟨e, 4096, false⟩ [] =
      (if tailFree bs = 0 then bs else bs.dropLast) ++
        [⟨e - tailFree bs, tailFree bs + 4096, false⟩] := by
  rw [mergeInto_explicit (chain_getLast h) (fun N hN => by simp at hN)]
  simp [headFree]

theorem keep_sub (bs : List Blk) :
    ∀ b ∈ (if tailFree bs = 0 then bs else bs.dropLast), b ∈ bs := by
  intro b hb
  split_ifs at hb
  · exact hb
  · exact List.mem_of_mem_dropLast hb

theorem firstFit_append {asize : Nat} {l1 l2 : List Blk}
    (h : ∀ b ∈ l1, b.al = true ∨ b.sz < asize) :
    firstFit asize (l1 ++ l2) = firstFit asize l2 := by
  induction l1 with
  | nil => rfl
  | cons c r ih =>
    have hc : (!c.al && decide (asize ≤ c.sz)) = false := by
      rcases h c (List.mem_cons_self _ _) with g | g
      · simp [g]
      · have : ¬ asize ≤ c.sz := by omega
        simp [this]
    simp only [List.cons_append, firstFit, hc, Bool.false_eq_true, if_false]
    exact ih (fun b hb => h b (List.mem_cons_of_mem _ hb))

/-- A successful `extend_heap(chunksize)` writes the header of the tail block
(at the old epilogue, or at the start of the free block it merges with), the
footer of the tail block and the new epilogue. -/
theorem extend_footprint {s : Bool} {st : State} {bs : List Blk} (hinv : Inv s st bs)
    (hroom : st.mem_brk + 4096 ≤ st.mem_max_addr) :
    ∃ st2, extend_heap st chunksize = (st2, st.heap_end) ∧
      Inv s st2 (mergeInto bs ⟨st.heap_end, 4096, false⟩ []) ∧
      st2.heap_end = st.heap_end + 4096 ∧
      ∀ x, st2.mem x ≠ st.mem x →
        x = st.heap_end - tailFree bs ∨ x = st.heap_end ∨ x = st.heap_end + 4096 - 8 ∨
          x = st.heap_end + 4096 := by
  obtain ⟨st2, e1, e2, e3, _, M, hM, hMal, hMa, hMe, hMf⟩ := extend_heap_spec hinv hroom
  refine ⟨st2, e1, e2.1, e3, fun x hx => ?_⟩
  have hMaddr : M.addr = st.heap_end - tailFree bs := by
    rw [grow_explicit hinv.1] at hM
    rcases List.mem_append.1 hM with g | g
    · have := (chain_bounds hinv.1 M (keep_sub bs M g)).2.1
      omega
    · rw [List.mem_singleton.1 g]
  by_contra hc
  apply hx
  rw [← hMaddr] at hc
  exact hMf x (fun h => hc (Or.inl h)) (fun h => hc (Or.inr (Or.inl h)))
    (fun h => hc (Or.inr (Or.inr (Or.inl h)))) (fun h => hc (Or.inr (Or.inr (Or.inr h))))

/-- The grow-and-retry loop of `mm_malloc`: it returns the first fit; when it
has grown the heap, that fit is the tail block, and the words it has written
are the header of the tail block and the headers, footers and epilogues at the
chunk boundaries above the old `heap_end`. -/
theorem malloc_loop_footprint {s : Bool} {wf asize : Nat} : ∀ (fuel : Nat) (st : State)
    (bs : List Blk) (st1 : State) (block : Nat), Inv s st bs →
    mm_malloc_loop wf asize fuel st = some (st1, block) →
    ∃ bs1, Inv s st1 bs1 ∧ block ≠ 0 ∧ block = firstFit asize bs1 ∧
      st.heap_end ≤ st1.heap_end ∧
      ((st1 = st ∧ bs1 = bs) ∨ block = st.heap_end - tailFree bs) ∧
      ∀ x, st1.mem x ≠ st.mem x →
        x = st.heap_end - tailFree bs ∨
        (∃ j, x = st.heap_end + 4096 * j ∧ x ≤ st1.heap_end) ∨
        (∃ j, 0 < j ∧ x = st.heap_end + 4096 * j - 8 ∧ x < st1.heap_end) := by
  intro fuel
  induction fuel with
  | zero => intro st bs st1 block _ h; simp [mm_malloc_loop] at h
  | succ f ih =>
    intro st bs st1 block hinv h
    unfold mm_malloc_loop at h
    cases hff : find_fit wf st asize with
    | none => rw [hff] at h; simp at h
    | some r =>
      rw [hff] at h
      simp only at h
      have hr : r = firstFit asize bs :=
        (find_fit_loop_spec (by have := inv_heap_end_lt hinv; clear * - this; omega) hinv.1
          wf).2 r hff
      by_cases hr0 : r = 0
      · rw [if_pos hr0] at h
        by_cases hroom : st.mem_brk + 4096 ≤ st.mem_max_addr
        · obtain ⟨st2, e1, e2, e3, e4⟩ := extend_footprint hinv hroom
          rw [e1] at h
          obtain ⟨bs1, g1, g2, g3, g4, g5, g6⟩ := ih st2 _ st1 block e2 h
          obtain ⟨t1, _⟩ := tailFree_merge bs st.heap_end
          have hT : st2.heap_end - tailFree (mergeInto bs ⟨st.heap_end, 4096, false⟩ []) =
              st.heap_end - tailFree bs := by
            rw [t1, e3]
            clear * -
            omega
          have hblock : block = st.heap_end - tailFree bs := by
            rcases g5 with ⟨_, g⟩ | g
            · rw [g3, g, grow_explicit hinv.1] at g2 ⊢
              have h8 := hinv.2.2.2.2.1
              have hpos : ∀ b ∈ bs, b.addr ≠ 0 := by
                intro b hb
                have := (chain_bounds hinv.1 b hb).1
                clear * - this h8
                omega
              have hno := firstFit_zero (by rw [← hr]; exact hr0) hpos
              rw [firstFit_append (fun b hb => hno b (keep_sub bs b hb))] at g2 ⊢
              simp only [firstFit] at g2 ⊢
              split_ifs at g2 ⊢ with hc
              · rfl
              · exact absurd rfl g2
            · rw [g, hT]
          refine ⟨bs1, g1, g2, g3, by rw [e3] at g4; clear * - g4; omega, Or.inr hblock,
            fun x hx => ?_⟩
          rw [e3] at g4
          by_cases hx2 : st1.mem x = st2.mem x
          · rw [hx2] at hx
            rcases e4 x hx with h1 | h1 | h1 | h1
            · exact Or.inl h1
            · exact Or.inr (Or.inl ⟨0, by rw [h1]; rfl, by rw [h1]; clear * - g4; omega⟩)
            · exact Or.inr (Or.inr ⟨1, by omega, by rw [h1], by rw [h1]; clear * - g4; omega⟩)
            · exact Or.inr (Or.inl ⟨1, by rw [h1], by rw [h1]; exact g4⟩)
          · rcases g6 x hx2 with h1 | ⟨j, h1, h2⟩ | ⟨j, h0, h1, h2⟩
            · left; rw [h1, hT]
            · exact Or.inr (Or.inl ⟨j + 1, by rw [h1, e3]; clear * -; omega, h2⟩)
            · exact Or.inr (Or.inr ⟨j + 1, by omega, by rw [h1, e3]; clear * -; omega, h2⟩)
        · rw [extend_heap_fail hroom] at h
          exact ih st bs st1 block hinv h
      · rw [if_neg hr0] at h
        obtain ⟨h1, h2⟩ := Prod.mk.inj (Option.some.inj h)
        subst h1
        subst h2
        exact ⟨bs, hinv, hr0, hr, Nat.le_refl _, Or.inl ⟨rfl, rfl⟩, fun x hx => absurd rfl hx⟩

/-- Marking the block `B` allocated and splitting it writes the header and the
footer of `B` and, when it splits, the footer of the allocated part and the
header of the remainder. -/
theorem place_footprint {st : State} {pre post : List Blk} {B : Blk} {asize : Nat}
    (hinv : Inv true st (pre ++ B :: post)) (has : asize ≤ B.sz) (hasm : asize % 16 = 0)
    (h32 : 32 ≤ asize) :
    ∀ x, (split_block (write_footer (write_header st B.addr (get_size st B.addr) true) B.addr
        (get_size st B.addr) true) B.addr asize).mem x ≠ st.mem x →
      x = B.addr ∨ x = B.addr + B.sz - 8 ∨
        (min_block_size ≤ B.sz - asize ∧ (x = B.addr + asize - 8 ∨ x = B.addr + asize)) := by
  obtain ⟨i1, _, _, _, i5, i6, i7, i8⟩ := hinv
  unfold WORD at i8
  have hb := chain_bounds i1 B (by simp)
  have hle := hb.2.1
  have hge := hb.1
  have hBm := hb.2.2.1.2.1
  have hsz := blk_get_size hb.2.2.1 (by clear * - hle i6 i7 i8; omega)
  rw [hsz, write_hf_eq st true hBm (by clear * - has h32; omega)
    (by clear * - hle i6 i7 i8; omega) (by clear * - hle i6 i7 i8; omega)
    (by clear * - hle i6 i7 i8; omega)]
  obtain ⟨m1, hm1⟩ : ∃ m1 : Mem, m1 =
    (st.mem.write B.addr (pack B.sz true)).write (B.addr + B.sz - 8) (pack B.sz true) := ⟨_, rfl⟩
  rw [← hm1]
  have g1 : get_size { st with mem := m1 } B.addr = B.sz := by
    unfold get_size
    simp only
    rw [hm1, mem_write_other _ _ (by clear * - has h32; omega), mem_write_same]
    exact extract_size_pack true hBm (by clear * - hle i6 i7 i8; omega)
  have hm1o : ∀ x, x ≠ B.addr → x ≠ B.addr + B.sz - 8 → m1 x = st.mem x := by
    intro x h1 h2
    rw [hm1, mem_write_other _ _ h2, mem_write_other _ _ h1]
  obtain ⟨c1, c2⟩ := split_block_cases g1 has hasm hBm (by clear * - h32; omega)
    (by clear * - hge i5; omega) (by clear * - hle i6 i7 i8; omega)
  intro x hx
  by_contra hc
  apply hx
  have n1 : x ≠ B.addr := fun h => hc (Or.inl h)
  have n2 : x ≠ B.addr + B.sz - 8 := fun h => hc (Or.inr (Or.inl h))
  by_cases hsp : min_block_size ≤ B.sz - asize
  · have n3 : x ≠ B.addr + asize - 8 := fun h => hc (Or.inr (Or.inr ⟨hsp, Or.inl h⟩))
    have n4 : x ≠ B.addr + asize := fun h => hc (Or.inr (Or.inr ⟨hsp, Or.inr h⟩))
    rw [(c1 hsp).2.2.2.2.2.2.2.2.2.2 x n1 n3 n4 n2]
    exact hm1o x n1 n2
  · rw [c2 (by omega)]
    exact hm1o x n1 n2

end Basic

namespace Basic

/-- The words written by `mm_malloc` with a non-zero size that does not wrap:
the header and the footer of the block it allocates, the header and the footer
of the split remainder (the free block that follows), and, when the heap has
grown, the headers, footers and epilogues at the chunk boundaries above the old
`heap_end`. -/
theorem mm_malloc_footprint {st st2 : State} {bs : List Blk} {fuel size p : Nat}
    (hinv : Inv true st bs) (h0 : size ≠ 0) (hsz : size + 31 < 2 ^ 64)
    (h : mm_malloc fuel st size = some (st2, p)) :
    ∃ bs2 A, Inv true st2 bs2 ∧ A ∈ bs2 ∧ A.al = true ∧ A.addr + 8 = p ∧
      ∀ x, st2.mem x ≠ st.mem x →
        x = A.addr ∨ x = A.addr + A.sz - 8 ∨
        (∃ R ∈ bs2, R.al = false ∧ R.addr = A.addr + A.sz ∧
          (x = R.addr ∨ x = R.addr + R.sz - 8)) ∨
        (∃ j, x = st.heap_end + 4096 * j ∧ x ≤ st2.heap_end) ∨
        (∃ j, 0 < j ∧ x = st.heap_end + 4096 * j - 8 ∧ x < st2.heap_end) := by
  unfold mm_malloc at h
  rw [if_neg h0] at h
  simp only at h
  generalize hA : round_up (add64 size dsize) dsize = asize at h
  have hAm : asize % 16 = 0 := by rw [← hA]; exact asize_mod size
  have hA32 : 32 ≤ asize := by
    rw [← hA, asize_strict hsz]
    clear * - h0 hsz; omega
  cases hl : mm_malloc_loop fuel asize fuel st with
  | none => rw [hl] at h; simp at h
  | some r =>
    obtain ⟨st1, block⟩ := r
    rw [hl] at h
    simp only at h
    obtain ⟨bs1, g1, g2, g3, g4, g5, g6⟩ := malloc_loop_footprint fuel st bs st1 block hinv hl
    obtain ⟨pre, B, post, f1, f2, f3, f4⟩ := firstFit_pos (by rw [← g3]; exact g2)
    rw [← g3] at f4
    subst f1
    subst f4
    have hpf := place_footprint g1 f3 hAm hA32
    obtain ⟨st3, k1, k2, k3, _⟩ := place_spec g1 f2 f3 hAm (fun _ => hA32)
    rw [k1] at h hpf
    obtain ⟨h1, h2⟩ := Prod.mk.inj (Option.some.inj h)
    subst h1
    have hbB := chain_bounds g1.1 B (by simp)
    have hW1 := inv_heap_end_lt g1
    have hp : p = B.addr + 8 := by
      rw [← h2]
      unfold header_to_payload wsize
      exact add64_eq (by have := hbB.2.1; have := hbB.2.2.1.2.2.1; clear * - this hW1 hbB; omega)
    have hfoot : ∀ x, st3.mem x ≠ st.mem x →
        x = B.addr ∨ x = B.addr + B.sz - 8 ∨
        (min_block_size ≤ B.sz - asize ∧ (x = B.addr + asize - 8 ∨ x = B.addr + asize)) ∨
        (∃ j, x = st.heap_end + 4096 * j ∧ x ≤ st3.heap_end) ∨
        (∃ j, 0 < j ∧ x = st.heap_end + 4096 * j - 8 ∧ x < st3.heap_end) := by
      intro x hx
      by_cases hx1 : st3.mem x = st1.mem x
      · rw [hx1] at hx
        have hne : ¬ (st1 = st ∧ pre ++ B :: post = bs) := fun hc => hx (by rw [hc.1])
        have hblock := g5.resolve_left hne
        rcases g6 x hx with a1 | a1 | a1
        · left; rw [a1, hblock]
        · right; right; right; left
          rw [k3]; exact a1
        · right; right; right; right
          rw [k3]; exact a1
      · rcases hpf x hx1 with a1 | a1 | a1
        · exact Or.inl a1
        · exact Or.inr (Or.inl a1)
        · exact Or.inr (Or.inr (Or.inl a1))
    by_cases hsp : min_block_size ≤ B.sz - asize
    · have hbs2 : placeInto pre B post asize =
          pre ++ ⟨B.addr, asize, true⟩ :: ⟨B.addr + asize, B.sz - asize, false⟩ :: post := by
        unfold placeInto
        rw [if_pos hsp, if_neg (by clear * - hA32; omega)]
      refine ⟨_, ⟨B.addr, asize, true⟩, k2.1, by rw [hbs2]; simp, rfl, hp.symm, fun x hx => ?_⟩
      have hR : (⟨B.addr + asize, B.sz - asize, false⟩ : Blk) ∈ placeInto pre B post asize := by
        rw [hbs2]; simp
      have hsp2 : 32 ≤ B.sz - asize := hsp
      rcases hfoot x hx with a1 | a1 | ⟨_, a1 | a1⟩ | a1 | a1
      · exact Or.inl a1
      · exact Or.inr (Or.inr (Or.inl ⟨_, hR, rfl, rfl, Or.inr (by
          dsimp only; rw [a1]; clear * - f3 hsp2; omega)⟩))
      · exact Or.inr (Or.inl a1)
      · exact Or.inr (Or.inr (Or.inl ⟨_, hR, rfl, rfl, Or.inl a1⟩))
      · exact Or.inr (Or.inr (Or.inr (Or.inl a1)))
      · exact Or.inr (Or.inr (Or.inr (Or.inr a1)))
    · have hbs2 : placeInto pre B post asize = pre ++ ⟨B.addr, B.sz, true⟩ :: post := by
        unfold placeInto
        rw [if_neg hsp]
      refine ⟨_, ⟨B.addr, B.sz, true⟩, k2.1, by rw [hbs2]; simp, rfl, hp.symm, fun x hx => ?_⟩
      rcases hfoot x hx with a1 | a1 | ⟨a0, _⟩ | a1 | a1
      · exact Or.inl a1
      · exact Or.inr (Or.inl a1)
      · exact absurd a0 hsp
      · exact Or.inr (Or.inr (Or.inr (Or.inl a1)))
      · exact Or.inr (Or.inr (Or.inr (Or.inr a1)))

/-- C21 amended (frame of `mm_malloc` and `mm_free`, basic implicit variant).  In
every state reached from a successful `mm_init` by `mm_malloc` calls whose size
does not wrap in the rounding (`size + 31 < 2^64`), by `mm_free` calls on
outstanding pointers and by stores of the client inside the requested payload
ranges of its outstanding allocations:
a call of `mm_malloc` with such a size changes no byte of the requested payload
range `[r, r + size_r)` of any outstanding allocation; with size 0 it changes
nothing, and otherwise every word it changes is the header or the footer of the
block it allocates (the block `A` of the new heap walk with payload `p`), the
header or the footer of the split remainder (the free block `R` that follows
`A`), or the header, footer or epilogue of a new tail block, at a chunk boundary
`heap_end + 4096 * j` or eight bytes below one;
a call of `mm_free(p)` on an outstanding pointer returns, changes no byte of the
requested payload range of any other outstanding allocation, and every word it
changes is the header or the footer of the freed block or of the merged free
block `M` that contains it. -/
theorem frame_of_run {p0 st : State} {out : List (Nat × Nat)}
    (hr : Run SizeFits p0 st out) :
    (∀ fuel size st2 p, size + 31 < 2 ^ 64 → mm_malloc fuel st size = some (st2, p) →
      (∀ r n, (r, n) ∈ out → ∀ k, k < n → byte_at st2.mem r k = byte_at st.mem r k) ∧
      (size = 0 → st2 = st) ∧
      (size ≠ 0 → ∃ bs2 A, heap_walk st2 (bs2.length + 1) st2.heap_start = some bs2 ∧
        A ∈ bs2 ∧ A.al = true ∧ A.addr + 8 = p ∧
        ∀ x, st2.mem x ≠ st.mem x →
          x = A.addr ∨ x = A.addr + A.sz - 8 ∨
          (∃ R ∈ bs2, R.al = false ∧ R.addr = A.addr + A.sz ∧
            (x = R.addr ∨ x = R.addr + R.sz - 8)) ∨
          (∃ j, x = st.heap_end + 4096 * j ∧ x ≤ st2.heap_end) ∨
          (∃ j, 0 < j ∧ x = st.heap_end + 4096 * j - 8 ∧ x < st2.heap_end))) ∧
    (∀ p n0, (p, n0) ∈ out → ∃ st2, mm_free st p = some st2 ∧
      (∀ r n, (r, n) ∈ out → r ≠ p → ∀ k, k < n →
        byte_at st2.mem r k = byte_at st.mem r k) ∧
      ∃ bs2 M, heap_walk st2 (bs2.length + 1) st2.heap_start = some bs2 ∧ M ∈ bs2 ∧
        M.al = false ∧ M.addr ≤ p - 8 ∧ p - 8 + get_size st (p - 8) ≤ M.addr + M.sz ∧
        ∀ x, st2.mem x ≠ st.mem x →
          x = p - 8 ∨ x = p - 8 + get_size st (p - 8) - 8 ∨ x = M.addr ∨
            x = M.addr + M.sz - 8) := by
  obtain ⟨bs, hinv, hout, _, _⟩ := run_inv sizeFits_ok hr
  have hW := inv_heap_end_lt hinv
  have hblk : ∀ r n, (r, n) ∈ out → ∃ sz, (⟨r - 8, sz, true⟩ : Blk) ∈ bs ∧ n + 16 ≤ sz ∧
      8 ≤ r := by
    intro r n hrn
    obtain ⟨sz, h1, h2⟩ := (hout.2 rfl).1 _ hrn
    have h3 : st.heap_start + 8 ≤ r := (hout.1 _ hrn).1
    exact ⟨sz, h1, h2, by clear * - h3; omega⟩
  constructor
  · intro fuel size st2 p hsz hm
    by_cases h0 : size = 0
    · have hst : st2 = st := by
        rw [h0] at hm
        simp only [mm_malloc, if_true] at hm
        exact (Prod.mk.inj (Option.some.inj hm)).1.symm
      exact ⟨fun _ _ _ _ _ => by rw [hst], fun _ => hst, fun hc => absurd h0 hc⟩
    · obtain ⟨bs2, _, _, _, _, hstep⟩ := mm_malloc_spec hinv hout h0 (fun _ => hsz) hm
      refine ⟨fun r n hrn k hk => ?_, fun hc => absurd hc h0, fun _ => ?_⟩
      · obtain ⟨sz, h1, h2, h3⟩ := hblk r n hrn
        exact byte_at_congr (hstep.2.2.2.2.2.2.1 _ h1 rfl _ (by dsimp only; clear * - h3; omega)
          (by dsimp only; clear * - h2 h3 hk; omega))
      · obtain ⟨bs3, A, j1, j2, j3, j4, j5⟩ := mm_malloc_footprint hinv h0 hsz hm
        exact ⟨bs3, A, heap_walk_chain (inv_heap_end_lt j1) j1.1 _ (Nat.lt_succ_self _), j2, j3,
          j4, j5⟩
  · intro p n0 hin
    obtain ⟨b, hPb, _, hp8⟩ := hblk p n0 hin
    obtain ⟨pre, post, hbs⟩ := List.append_of_mem hPb
    subst hbs
    obtain ⟨st2, f1, f2, _, _, _, _, _, ⟨M, hM, hMal, hMa, hMe, hMf⟩, f9⟩ := mm_free_at hinv
    have hp88 : p - 8 + 8 = p := by clear * - hp8; omega
    rw [hp88] at f1
    have hPbd := chain_bounds hinv.1 _ hPb
    have hgs : get_size st (p - 8) = b :=
      blk_get_size hPbd.2.2.1 (by have := hPbd.2.1; dsimp only at this ⊢; clear * - this hW; omega)
    refine ⟨st2, f1, fun r n hrn hne k hk => ?_, _, M,
      heap_walk_chain (inv_heap_end_lt f2) f2.1 _ (Nat.lt_succ_self _), hM, hMal, hMa, ?_, ?_⟩
    · obtain ⟨sz, h1, h2, h3⟩ := hblk r n hrn
      have hmem : (⟨r - 8, sz, true⟩ : Blk) ∈ pre ++ post := by
        rcases List.mem_append.1 h1 with g | g
        · exact List.mem_append_left _ g
        · rcases List.mem_cons.1 g with g | g
          · have := congrArg Blk.addr g
            dsimp only at this
            exact absurd (by clear * - this h3 hp8; omega) hne
          · exact List.mem_append_right _ g
      exact byte_at_congr (f9 _ hmem rfl _ (by dsimp only; clear * - h3; omega)
        (by dsimp only; clear * - h2 h3 hk; omega))
    · rw [hgs]; exact hMe
    · rw [hgs]; exact hMf

/-- Witness for the amended C21: the run `a = mm_malloc(32)`, `b = mm_malloc(32)`,
`c = mm_malloc(16)`, a store of the word 7 into `b`, `mm_free(a)`, with the two
outstanding allocations `c = 4208` and `b = 4160`: no `mm_malloc` and not
`mm_free(c)` changes a byte of `b`. -/
theorem frame_of_run_witness :
    Run SizeFits demo_p0 trio_w5 [(4208, 16), (4160, 32)] ∧
    byte_at trio_w5.mem 4160 0 = 7 ∧
    (∀ fuel size st2 p, size + 31 < 2 ^ 64 → mm_malloc fuel trio_w5 size = some (st2, p) →
      ∀ k, k < 32 → byte_at st2.mem 4160 k = byte_at trio_w5.mem 4160 k) ∧
    ∃ st2, mm_free trio_w5 4208 = some st2 ∧
      ∀ k, k < 32 → byte_at st2.mem 4160 k = byte_at trio_w5.mem 4160 k :=
  ⟨trio_run5, by decide,
    fun fuel size st2 p h1 h2 =>
      ((frame_of_run trio_run5).1 fuel size st2 p h1 h2).1 4160 32 (by simp),
    ((frame_of_run trio_run5).2 4208 16 (by simp)).imp
      fun _ h => ⟨h.1, h.2.1 4160 32 (by simp) (by omega)⟩⟩

end Basic

namespace Expl

/-! ## What the invariant checker checks -/

theorem tiled_le {m : Mem} : ∀ {bs : List Blk} {a e : Nat}, Tiled m a bs e → a ≤ e := by
  intro bs
  induction bs with
  | nil => intro a e h; exact Nat.le_of_eq h
  | cons b r ih =>
    intro a e h
    have := ih h.2.2.2.2.2
    omega

theorem get_alloc_at {st : State} {a : Nat} (h0 : a ≠ 0) (hlt : a < 2 ^ 64) :
    get_alloc st a = Except.ok (extract_alloc (st.mem a)) := by
  unfold get_alloc
  rw [load_ok h0, ok_bind]
  unfold off_header
  rw [add64_eq (by omega)]
  rfl

theorem get_size_at {st : State} {a : Nat} (h0 : a ≠ 0) (hlt : a < 2 ^ 64) :
    get_size st a = Except.ok (extract_size (st.mem a)) := by
  unfold get_size
  rw [load_ok h0, ok_bind]
  unfold off_header
  rw [add64_eq (by omega)]
  rfl

theorem find_next_at {st : State} {a : Nat} (h0 : a ≠ 0)
    (hlt : a + extract_size (st.mem a) < 2 ^ 64) :
    find_next st a = Except.ok (a + extract_size (st.mem a)) := by
  unfold find_next
  rw [get_size_at h0 (by omega), ok_bind]
  show Except.ok (add64 a (extract_size (st.mem a))) = _
  rw [add64_eq hlt]

/-- The loop of `find_block_in_free_list` along a chain of `next` links that
ends at the root: it says whether the target is one of the nodes. -/
theorem find_block_loop_spec {st : State} {target : Nat} {l : List Nat} :
    ∀ {a : Nat} (fuel : Nat), NextSeg st.mem a l st.free_list_root → l ≠ [] →
    (∀ n ∈ l, n ≠ 0 ∧ n + 16 < 2 ^ 64) → st.free_list_root ∉ l.tail → l.length ≤ fuel →
    find_block_loop st target fuel a = Except.ok (decide (target ∈ l)) := by
  induction l with
  | nil => intro a fuel _ h; exact absurd rfl h
  | cons x r ih =>
    intro a fuel h _ hok hroot hfuel
    obtain ⟨g1, g2⟩ := h
    subst g1
    have hx := hok x (List.mem_cons_self _ _)
    cases fuel with
    | zero => simp at hfuel
    | succ f =>
      unfold find_block_loop
      by_cases ht : target = x
      · rw [if_pos ht]
        have : decide (target ∈ x :: r) = true := by simp [ht]
        rw [this]
        rfl
      · rw [if_neg ht, load_ok hx.1, ok_bind]
        have e1 : st.mem (add64 x off_next) = nxt st.mem x := by
          unfold off_next
          rw [add64_eq hx.2]
          rfl
        rw [e1]
        cases r with
        | nil =>
          have e2 : nxt st.mem x = st.free_list_root := g2
          rw [e2, if_neg (fun hc => hc rfl)]
          have : decide (target ∈ [x]) = false := by simp [ht]
          rw [this]
          rfl
        | cons y r2 =>
          have hy : y = nxt st.mem x := g2.1
          have hne : nxt st.mem x ≠ st.free_list_root := by
            intro hc
            apply hroot
            simp only [List.tail_cons]
            rw [← hc, ← hy]
            exact List.mem_cons_self _ _
          rw [if_pos hne]
          rw [ih f g2 (by simp) (fun n hn => hok n (List.mem_cons_of_mem _ hn))
            (fun hc => hroot (by
              simp only [List.tail_cons] at hc ⊢; exact List.mem_cons_of_mem _ hc))
            (by simp only [List.length_cons] at hfuel ⊢; omega)]
          have : decide (target ∈ x :: y :: r2) = decide (target ∈ y :: r2) := by
            simp [ht]
          rw [this]

/-- The traversal of `free_list_status` along a chain of `next` links that ends
at the root. -/
theorem walk_nextSeg {st : State} {l : List Nat} : ∀ {a : Nat} (fuel : Nat),
    NextSeg st.mem a l st.free_list_root → l ≠ [] → (∀ n ∈ l, n ≠ 0 ∧ n + 16 < 2 ^ 64) →
    st.free_list_root ∉ l.tail → l.length ≤ fuel →
    free_list_walk st fuel a = Except.ok l := by
  induction l with
  | nil => intro a fuel _ h; exact absurd rfl h
  | cons x r ih =>
    intro a fuel h _ hok hroot hfuel
    obtain ⟨g1, g2⟩ := h
    subst g1
    have hx := hok x (List.mem_cons_self _ _)
    cases fuel with
    | zero => simp at hfuel
    | succ f =>
      unfold free_list_walk
      rw [if_neg hx.1, load_ok hx.1, ok_bind]
      have e1 : st.mem (add64 x off_next) = nxt st.mem x := by
        unfold off_next
        rw [add64_eq hx.2]
        rfl
      rw [e1]
      cases r with
      | nil =>
        have e2 : nxt st.mem x = st.free_list_root := g2
        rw [e2, if_neg (fun hc => hc rfl)]
        rfl
      | cons y r2 =>
        have hy : y = nxt st.mem x := g2.1
        have hne : nxt st.mem x ≠ st.free_list_root := by
          intro hc
          apply hroot
          simp only [List.tail_cons]
          rw [← hc, ← hy]
          exact List.mem_cons_self _ _
        rw [if_pos hne]
        exact ok_bind_walk (ih f g2 (by simp) (fun n hn => hok n (List.mem_cons_of_mem _ hn))
          (fun hc => hroot (by
            simp only [List.tail_cons] at hc ⊢; exact List.mem_cons_of_mem _ hc))
          (by simp only [List.length_cons] at hfuel ⊢; omega))

theorem ok_bind_heap_walk {st : State} {f n : Nat} {B : Blk} {l : List Blk}
    (h : heap_walk st f n = Except.ok l) :
    (do let l ← heap_walk st f n; pure (B :: l) : M (List Blk)) = Except.ok (B :: l) := by
  rw [h]
  rfl

/-- The heap walk of `mm_status` over a tiled heap returns its blocks. -/
theorem heap_walk_tiled {st : State} (hW : st.heap_end < 2 ^ 64) : ∀ {bs : List Blk}
    {a : Nat} (fuel : Nat), Tiled st.mem a bs st.heap_end → bs.length < fuel →
    heap_walk st fuel a = Except.ok bs := by
  intro bs
  induction bs with
  | nil =>
    intro a fuel h hf
    cases fuel with
    | zero => simp at hf
    | succ f =>
      have h1 : a = st.heap_end := h
      unfold heap_walk
      rw [if_pos h1]
      rfl
  | cons b r ih =>
    intro a fuel h hf
    cases fuel with
    | zero => simp at hf
    | succ f =>
      obtain ⟨h1, h2, h3, h4, h5, h6⟩ := h
      subst h1
      have hle := tiled_le h6
      unfold heap_walk
      rw [if_neg (by omega), get_size_at h2 (by omega), ok_bind, get_alloc_at h2 (by omega),
        ok_bind, find_next_at h2 (by rw [h3]; omega), ok_bind, h3, h4]
      exact ok_bind_heap_walk (ih f h6 (by simp only [List.length_cons] at hf; omega))

end Expl

namespace Expl

theorem countFree_cons_free {B : Blk} {r : List Blk} (h : B.al = false) :
    countFree (B :: r) = countFree r + 1 := by
  simp [countFree, h]

theorem countFree_cons_alloc {B : Blk} {r : List Blk} (h : B.al = true) :
    countFree (B :: r) = countFree r := by
  simp [countFree, h]

/-- The loop of `debug_free_list` over a tiled heap, given what
`find_block_in_free_list` answers. -/
theorem debug_loop_spec {st : State} {L : List Nat} {ff : Nat} (hW : st.heap_end < 2 ^ 64)
    (hfind : ∀ target, find_block_in_free_list ff st target = Except.ok (decide (target ∈ L))) :
    ∀ (bs : List Blk) (a fuel : Nat) (count : Int), Tiled st.mem a bs st.heap_end →
    bs.length < fuel →
    ∃ b, debug_free_list_loop st ff fuel a count = Except.ok b ∧
      (b = true ↔ (∀ B ∈ bs, B.al = false → B.addr ∈ L) ∧
        (∀ B ∈ bs, B.al = true → B.sz < 5 * chunksize) ∧
        count + (countFree bs : Int) = st.free_list_len) := by
  intro bs
  induction bs with
  | nil =>
    intro a fuel count h hf
    cases fuel with
    | zero => simp at hf
    | succ f =>
      have h1 : a = st.heap_end := h
      refine ⟨decide (count = st.free_list_len), ?_, ?_⟩
      · unfold debug_free_list_loop
        rw [if_pos h1]
        rfl
      · simp [countFree]
  | cons B r ih =>
    intro a fuel count h hf
    cases fuel with
    | zero => simp at hf
    | succ f =>
      obtain ⟨h1, h2, h3, h4, h5, h6⟩ := h
      subst h1
      have hle := tiled_le h6
      have hf2 : r.length < f := by simp only [List.length_cons] at hf; omega
      unfold debug_free_list_loop
      rw [if_neg (by omega), get_alloc_at h2 (by omega), ok_bind, h4]
      cases hal : B.al
      · simp only [Bool.not_false, if_true]
        rw [hfind, ok_bind]
        by_cases hin : B.addr ∈ L
        · have e : decide (B.addr ∈ L) = true := by simp [hin]
          rw [e]
          simp only [Bool.not_true, Bool.false_eq_true, if_false]
          rw [find_next_at h2 (by rw [h3]; omega), ok_bind, h3]
          obtain ⟨b, g1, g2⟩ := ih (B.addr + B.sz) f (count + 1) h6 hf2
          refine ⟨b, g1, ?_⟩
          rw [g2, countFree_cons_free hal]
          constructor
          · rintro ⟨q1, q2, q3⟩
            refine ⟨fun X hX hXal => ?_, fun X hX hXal => ?_, by push_cast; omega⟩
            · rcases List.mem_cons.1 hX with g | g
              · rw [g]; exact hin
              · exact q1 X g hXal
            · rcases List.mem_cons.1 hX with g | g
              · rw [g, hal] at hXal; exact absurd hXal (by simp)
              · exact q2 X g hXal
          · rintro ⟨q1, q2, q3⟩
            exact ⟨fun X hX => q1 X (List.mem_cons_of_mem _ hX),
              fun X hX => q2 X (List.mem_cons_of_mem _ hX), by push_cast at q3; omega⟩
        · have e : decide (B.addr ∈ L) = false := by simp [hin]
          rw [e]
          simp only [Bool.not_false, if_true]
          refine ⟨false, rfl, ?_⟩
          constructor
          · intro hc; exact absurd hc (by simp)
          · rintro ⟨q1, _, _⟩
            exact absurd (q1 B (List.mem_cons_self _ _) hal) hin
      · simp only [Bool.not_true, Bool.false_eq_true, if_false]
        rw [get_size_at h2 (by omega), ok_bind, h3]
        by_cases hbig : 5 * chunksize ≤ B.sz
        · rw [if_pos hbig]
          refine ⟨false, rfl, ?_⟩
          constructor
          · intro hc; exact absurd hc (by simp)
          · rintro ⟨_, q2, _⟩
            have := q2 B (List.mem_cons_self _ _) hal
            omega
        · rw [if_neg hbig]
          rw [find_next_at h2 (by rw [h3]; omega), ok_bind, h3]
          obtain ⟨b, g1, g2⟩ := ih (B.addr + B.sz) f count h6 hf2
          refine ⟨b, g1, ?_⟩
          rw [g2, countFree_cons_alloc hal]
          constructor
          · rintro ⟨q1, q2, q3⟩
            refine ⟨fun X hX hXal => ?_, fun X hX hXal => ?_, q3⟩
            · rcases List.mem_cons.1 hX with g | g
              · rw [g, hal] at hXal; exact absurd hXal (by simp)
              · exact q1 X g hXal
            · rcases List.mem_cons.1 hX with g | g
              · rw [g]; omega
              · exact q2 X g hXal
          · rintro ⟨q1, q2, q3⟩
            exact ⟨fun X hX => q1 X (List.mem_cons_of_mem _ hX),
              fun X hX => q2 X (List.mem_cons_of_mem _ hX), q3⟩

/-- C33 amended (invariant checker, explicit variant).  For every state whose
heap is tiled by the blocks `bs` (the heap walk) and whose free list is a
non-empty circle of `next` links with traversal `L` from `free_list_root`,
`debug_free_list()` returns, and it returns true exactly when every free block
of the heap walk is a node of `L`, no allocated block of the heap walk has size
`5 * chunksize = 20480` or more, and `free_list_len` equals the number of free
blocks of the heap walk.  It does not look at the `previous` links and does not
ask that every node of the list is a free block. -/
theorem debug_free_list_spec {st : State} {L : List Nat} {bs : List Blk} {fuel ff : Nat}
    (hheap : Tiled st.mem st.heap_start bs st.heap_end) (hend : st.heap_end < 2 ^ 64)
    (hring : NextSeg st.mem st.free_list_root L st.free_list_root) (hL : L ≠ [])
    (hnd : L.Nodup) (hok : ∀ n ∈ L, n ≠ 0 ∧ n + 16 < 2 ^ 64)
    (hfuel : bs.length < fuel) (hff : L.length ≤ ff) :
    heap_walk st fuel st.heap_start = Except.ok bs ∧
    free_list_walk st ff st.free_list_root = Except.ok L ∧
    ∃ b, debug_free_list fuel ff st = Except.ok b ∧
      (b = true ↔ (∀ B ∈ bs, B.al = false → B.addr ∈ L) ∧
        (∀ B ∈ bs, B.al = true → B.sz < 20480) ∧
        (countFree bs : Int) = st.free_list_len) := by
  have hroot : st.free_list_root ∉ L.tail := by
    cases L with
    | nil => exact absurd rfl hL
    | cons x r =>
      have hx : x = st.free_list_root := hring.1
      rw [← hx]
      exact (List.nodup_cons.1 hnd).1
  have hfind : ∀ target,
      find_block_in_free_list ff st target = Except.ok (decide (target ∈ L)) :=
    fun target => find_block_loop_spec ff hring hL hok hroot hff
  obtain ⟨b, g1, g2⟩ := debug_loop_spec hend hfind bs st.heap_start fuel 0 hheap hfuel
  refine ⟨heap_walk_tiled hend fuel hheap hfuel, walk_nextSeg ff hring hL hok hroot hff, b, g1, ?_⟩
  rw [g2]
  have e : (5 : Nat) * chunksize = 20480 := by decide
  rw [e, Int.zero_add]

/-- Witness for the amended C33: the state `demo_s7`, where the list holds the
node 4168 that is no block of the heap and `debug_free_list()` returns true. -/
theorem debug_free_list_spec_witness :
    Tiled demo_s7.mem demo_s7.heap_start
      [⟨4104, 96, false⟩, ⟨4200, 32, true⟩, ⟨4232, 3968, false⟩] demo_s7.heap_end ∧
    NextSeg demo_s7.mem demo_s7.free_list_root [4232, 4168, 4104] demo_s7.free_list_root ∧
    demo_s7.free_list_len = 2 ∧
    debug_free_list 4 3 demo_s7 = Except.ok true := by
  have h1 : Tiled demo_s7.mem demo_s7.heap_start
      [⟨4104, 96, false⟩, ⟨4200, 32, true⟩, ⟨4232, 3968, false⟩] demo_s7.heap_end := by
    simp only [Tiled]
    decide
  have h2 : NextSeg demo_s7.mem demo_s7.free_list_root [4232, 4168, 4104]
      demo_s7.free_list_root := by
    simp only [NextSeg, nxt]
    decide
  have hlen : demo_s7.free_list_len = 2 := by decide
  have h := @debug_free_list_spec demo_s7 [4232, 4168, 4104]
    [⟨4104, 96, false⟩, ⟨4200, 32, true⟩, ⟨4232, 3968, false⟩] 4 3 h1 (by decide) h2 (by simp)
    (by decide) (fun n hn => by
      simp only [List.mem_cons, List.mem_singleton, List.not_mem_nil, or_false] at hn
      rcases hn with rfl | rfl | rfl <;> omega) (by decide) (by decide)
  obtain ⟨b, g1, g2⟩ := h.2.2
  have hb : b = true := by
    rw [g2, hlen]
    refine ⟨fun B hB hal => ?_, fun B hB hal => ?_, by decide⟩
    · simp only [List.mem_cons, List.mem_singleton, List.not_mem_nil, or_false] at hB
      rcases hB with rfl | rfl | rfl
      · simp
      · exact absurd hal (by simp)
      · simp
    · simp only [List.mem_cons, List.mem_singleton, List.not_mem_nil, or_false] at hB
      rcases hB with rfl | rfl | rfl <;> simp
  rw [hb] at g1
  exact ⟨h1, h2, hlen, g1⟩

end Expl
